import Mathlib

/-!
# GraphLib: a verification development

A shallow embedding of `src/graph/data.h` (graph storage) and
`src/graph/algorithm.h` (graph algorithms).

Modelling conventions.

* `int` is modelled by `Int` (no claim below depends on overflow).  The constant
  `INF = 1e9` of the matching algorithm is kept as a number; the maximality theorem
  assumes that the vertices are few enough for the search layers to stay below it.
* `std::unordered_map<int, T>` is modelled by an association list
  `List (Int × T)`; the order of the list is the order in which the container
  enumerates its entries.  `std::unordered_set<int>` is a `List Int`.  A value
  quantified over all lists therefore ranges over all enumeration orders.
* A C++ exception or out-of-range access is the `Except.error` result.
-/

namespace GraphLib

/-! ## Containers -/

/-- Failures that the C++ code signals with an exception or undefined behaviour. -/
inductive Fault where
  | edgeIdsNotFound   -- `throw std::runtime_error("Failed to get edge ids of vertex")`
  | outOfRange        -- `.at(key)` on an absent key, or a vector index out of range
  | outOfFuel         -- the step budget of a loop of the model ran out
  deriving DecidableEq, Repr

/-- Lookup `m.find(k)`: the value stored under key `k`, if any. -/
def find {α : Type} (k : Int) : List (Int × α) → Option α
  | [] => none
  | (k', v) :: m => if k' = k then some v else find k m

/-- Membership of a key, `m.count(k)`. -/
def hasKey {α : Type} (k : Int) (m : List (Int × α)) : Bool :=
  (find k m).isSome

/-- Removal `m.erase(k)`. -/
def eraseKey {α : Type} (k : Int) (m : List (Int × α)) : List (Int × α) :=
  m.filter (fun p => decide (p.1 ≠ k))

/-- Insertion `m.emplace(k, v)`: nothing happens when the key is present. -/
def emplace {α : Type} (k : Int) (v : α) (m : List (Int × α)) : List (Int × α) :=
  if hasKey k m then m else m ++ [(k, v)]

/-- Assignment `m[k] = v`: overwrites the value of a present key, inserts otherwise. -/
def assign {α : Type} (k : Int) (v : α) (m : List (Int × α)) : List (Int × α) :=
  if hasKey k m then m.map (fun p => if p.1 = k then (p.1, v) else p) else m ++ [(k, v)]

/-- Set insertion `s.insert(x)`. -/
def setInsert (x : Int) (s : List Int) : List Int :=
  if x ∈ s then s else s ++ [x]

/-- Set removal `s.erase(x)`. -/
def setErase (x : Int) (s : List Int) : List Int :=
  s.filter (fun y => decide (y ≠ x))

/-- The access `adjMap[k]`, which creates an empty set for an absent key. -/
def touch (k : Int) (m : List (Int × List Int)) : List (Int × List Int) :=
  emplace k [] m

/-- The statement `adjMap[k].insert(x)`. -/
def adjInsert (k x : Int) (m : List (Int × List Int)) : List (Int × List Int) :=
  (touch k m).map (fun p => if p.1 = k then (p.1, setInsert x p.2) else p)

/-- The statement `adjMap[k].erase(x)` (the access creates the entry when absent). -/
def adjErase (k x : Int) (m : List (Int × List Int)) : List (Int × List Int) :=
  (touch k m).map (fun p => if p.1 = k then (p.1, setErase x p.2) else p)

/-! ## Data model (`data.h`) -/

/-- The class `UndirectedEdgeIdCounter`, static member `getPairedId`. -/
def getPairedId (id : Int) : Int :=
  if id % 2 = 0 then id - 1 else id + 1

/-- The struct `Vertex<DataTy>`; `Vertex<void>` is `Vertex Unit`. -/
structure Vertex (D : Type) where
  id : Int
  data : D
  deriving DecidableEq, Repr

/-- The struct `Edge`. -/
structure Edge where
  id : Int
  src : Int       -- field `from`
  dst : Int       -- field `to`
  weight : Int
  deriving DecidableEq, Repr

/-- The struct `GraphData<V>`. -/
structure GraphData (D : Type) where
  adjMap : List (Int × List Int)        -- vertex id -> {edge ids}
  idToVertex : List (Int × Vertex D)
  idToEdge : List (Int × Edge)
  deriving DecidableEq, Repr

/-- The graph made by the default constructor `Graph()`. -/
def GraphData.empty (D : Type) : GraphData D :=
  { adjMap := [], idToVertex := [], idToEdge := [] }

namespace Graph

variable {D : Type}

/-- Method `Graph::addVertex`. -/
def addVertex (g : GraphData D) (v : Vertex D) : GraphData D :=
  { g with adjMap := touch v.id g.adjMap, idToVertex := emplace v.id v g.idToVertex }

/-- Method `Graph::addEdge`; the result is always `true`. -/
def addEdge (g : GraphData D) (e : Edge) : Bool × GraphData D :=
  (true, { g with adjMap := adjInsert e.src e.id g.adjMap, idToEdge := emplace e.id e g.idToEdge })

/-- Method `Graph::delEdge`. -/
def delEdge (g : GraphData D) (id : Int) : Bool × GraphData D :=
  match find id g.idToEdge with
  | none => (false, g)
  | some edge =>
    let adj := if hasKey edge.src g.adjMap then adjErase edge.src id g.adjMap else g.adjMap
    (true, { g with adjMap := adj, idToEdge := eraseKey id g.idToEdge })

/-- First loop of `Graph::delVertex`: `for (edgeId : it->second) idToEdge.erase(edgeId)`. -/
def eraseAll (ids : List Int) (edges : List (Int × Edge)) : List (Int × Edge) :=
  ids.foldl (fun acc eid => eraseKey eid acc) edges

/-- Inner scan of `Graph::delVertex`: builds `removeList` for one adjacency set;
`idToEdge.at(edgeId)` fails on an absent id. -/
def removeList (id : Int) (table : List (Int × Edge)) : List Int → Except Fault (List Int)
  | [] => .ok []
  | eid :: rest =>
    match find eid table with
    | none => .error Fault.outOfRange
    | some e =>
      match removeList id table rest with
      | .error f => .error f
      | .ok l => .ok (if e.dst = id then eid :: l else l)

/-- Second loop of `Graph::delVertex` over the entries of `adjMap`, threading the
edge table and the flag `erased`. -/
def scanAdj (id : Int) :
    List (Int × List Int) → List (Int × Edge) → Bool →
      Except Fault (List (Int × List Int) × List (Int × Edge) × Bool)
  | [], table, erased => .ok ([], table, erased)
  | (v, edges) :: rest, table, erased =>
    match removeList id table edges with
    | .error f => .error f
    | .ok rm =>
      let edges' := rm.foldl (fun acc eid => setErase eid acc) edges
      let table' := eraseAll rm table
      let erased' := erased || !rm.isEmpty
      match scanAdj id rest table' erased' with
      | .error f => .error f
      | .ok (adj', table'', b) => .ok ((v, edges') :: adj', table'', b)

/-- Method `Graph::delVertex`. -/
def delVertex (g : GraphData D) (id : Int) : Except Fault (Bool × GraphData D) :=
  let g1 : Bool × GraphData D :=
    match find id g.adjMap with
    | some out =>
      (true, { adjMap := eraseKey id g.adjMap,
               idToVertex := eraseKey id g.idToVertex,
               idToEdge := eraseAll out g.idToEdge })
    | none => (false, g)
  match scanAdj id g1.2.adjMap g1.2.idToEdge g1.1 with
  | .error f => .error f
  | .ok (adj, table, erased) =>
    .ok (erased, { adjMap := adj, idToVertex := g1.2.idToVertex, idToEdge := table })

/-- Method `Graph::numVertices`. -/
def numVertices (g : GraphData D) : Nat := g.adjMap.length

/-- Method `Graph::numEdges`. -/
def numEdges (g : GraphData D) : Nat := g.idToEdge.length

/-- Method `Graph::getEdgeIdsOfVertex`; `none` is the `std::unexpected(-1)` result. -/
def getEdgeIdsOfVertex (g : GraphData D) (id : Int) : Option (List Int) :=
  find id g.adjMap

/-- Method `Graph::getAllVertices`. -/
def getAllVertices (g : GraphData D) : List (Vertex D) :=
  g.idToVertex.map Prod.snd

/-- Method `Graph::getEdge`; `none` stands for the exception of `.at`. -/
def getEdge (g : GraphData D) (id : Int) : Option Edge :=
  find id g.idToEdge

end Graph

namespace UndirectedGraph

variable {D : Type}

/-- Method `UndirectedGraph::addEdge`. -/
def addEdge (g : GraphData D) (e : Edge) : Bool × GraphData D :=
  let adj1 := adjInsert e.src e.id g.adjMap
  let tab1 := emplace e.id e g.idToEdge
  let revEdge : Edge := { id := getPairedId e.id, src := e.dst, dst := e.src, weight := e.weight }
  let tab2 := emplace revEdge.id revEdge tab1
  let adj2 := adjInsert e.dst revEdge.id adj1
  (true, { g with adjMap := adj2, idToEdge := tab2 })

/-- Method `UndirectedGraph::delEdge`. -/
def delEdge (g : GraphData D) (id : Int) : Bool × GraphData D :=
  match find id g.idToEdge with
  | none => (false, g)
  | some e =>
    let adj1 := adjErase e.src id g.adjMap
    let tab1 := eraseKey id g.idToEdge
    let pairedId := getPairedId id
    match find pairedId tab1 with
    | some e2 => (true, { g with adjMap := adjErase e2.src pairedId adj1, idToEdge := tab1 })
    | none => (true, { g with adjMap := adj1, idToEdge := tab1 })

end UndirectedGraph

/-- Edge id `eid` names a stored edge whose source or destination is `id`. -/
def incident (table : List (Int × Edge)) (id eid : Int) : Bool :=
  match find eid table with
  | some e => decide (e.src = id) || decide (e.dst = id)
  | none => false

/-- Edge id `eid` names a stored edge whose destination is `id`. -/
def pointsTo (table : List (Int × Edge)) (id eid : Int) : Bool :=
  match find eid table with
  | some e => decide (e.dst = id)
  | none => false

/-! ## Unweighted distance (`algorithm.h`, `distanceWithoutWeight`) -/

namespace algorithm

variable {D : Type}

/-- The read `m[k]` of a `std::unordered_map<int, int>`: 0 for an absent key. -/
def readD (k : Int) (m : List (Int × Int)) : Int := (find k m).getD 0

/-- The `for (int edgeId : edgeIds)` loop of `distanceWithoutWeight` for the vertex
`curr`; `Sum.inl d` is the early `return d`, `Sum.inr` the maps after the loop. -/
def bfsEdges (g : GraphData D) (target curr : Int) (visited : List Int) :
    List Int → List (Int × Int) → List Int →
      Except Fault (Int ⊕ (List (Int × Int) × List Int))
  | [], dist, q => .ok (.inr (dist, q))
  | edgeId :: rest, dist, q =>
    match Graph.getEdge g edgeId with
    | none => .error Fault.outOfRange
    | some edge =>
      if edge.dst ∈ visited then bfsEdges g target curr visited rest dist q
      else
        let dist' := assign edge.dst (readD curr dist + 1) dist
        if edge.dst = target then .ok (.inl (readD edge.dst dist'))
        else bfsEdges g target curr visited rest dist' (q ++ [edge.dst])

/-- The `while (!q.empty())` loop of `distanceWithoutWeight`, run for at most `fuel`
iterations. -/
def bfsLoop (g : GraphData D) (target : Int) :
    Nat → List (Int × Int) → List Int → List Int → Except Fault Int
  | 0, _, _, _ => .error Fault.outOfFuel
  | fuel + 1, dist, visited, q =>
    match q with
    | [] => .ok (-1)
    | curr :: q' =>
      if curr ∈ visited then bfsLoop g target fuel dist visited q'
      else
        match Graph.getEdgeIdsOfVertex g curr with
        | none => .error Fault.edgeIdsNotFound
        | some edgeIds =>
          match bfsEdges g target curr (setInsert curr visited) edgeIds dist q' with
          | .error f => .error f
          | .ok (.inl d) => .ok d
          | .ok (.inr (dist', q'')) => bfsLoop g target fuel dist' (setInsert curr visited) q''

/-- A bound on the number of iterations of the `while` loop: every iteration pops one
queue element, and the elements pushed are `from` and at most one per listed edge id of
each vertex at its single expansion. -/
def bfsFuel (g : GraphData D) : Nat :=
  (g.adjMap.map (fun p => p.2.length)).sum + 2

/-- The function `distanceWithoutWeight(graph, from, to)`. -/
def distanceWithoutWeight (g : GraphData D) (source target : Int) : Except Fault Int :=
  if source = target then .ok 0
  else bfsLoop g target (bfsFuel g) [(source, 0)] [] [source]

/-! ### Bipartiteness (`isBipartite`)

A `std::vector` of fixed size is modelled by a function on its indices.  Every index
used by `isBipartite` is a loop index or a value of `idToIndex`, hence in range. -/

/-- The assignment `v[i] = x` to an element of a vector. -/
def upd {α : Type} (v : Nat → α) (i : Nat) (x : α) : Nat → α :=
  fun j => if j = i then x else v j

/-- The loop `for (i = 0; i < n; i++) idToIndex[vertices[i].id] = i + off`, from index `i`. -/
def buildIndexFrom (off : Nat) : Nat → List (Vertex D) → List (Int × Nat) → List (Int × Nat)
  | _, [], m => m
  | i, v :: vs, m => buildIndexFrom off (i + 1) vs (assign v.id (i + off) m)

/-- The map `idToIndex` of `isBipartite` and of `getMaxMatchByHopcraftKarp`. -/
def buildIndex (vertices : List (Vertex D)) : List (Int × Nat) :=
  buildIndexFrom 0 0 vertices []

/-- The read `idToIndex[id]`, which yields 0 for an id that is not a key. -/
def indexOf (idToIndex : List (Int × Nat)) (id : Int) : Nat :=
  (find id idToIndex).getD 0

/-- The `for (int edgeId : edgeIds)` loop of the lambda `dfs` of `isBipartite`; `self`
is the recursive call. -/
def colorEdges (g : GraphData D) (idToIndex : List (Int × Nat))
    (self : Nat → Int → (Nat → Int) → Except Fault (Bool × (Nat → Int))) (c : Int) :
    List Int → (Nat → Int) → Except Fault (Bool × (Nat → Int))
  | [], color => .ok (true, color)
  | edgeId :: rest, color =>
    match Graph.getEdge g edgeId with
    | none => .error Fault.outOfRange
    | some edge =>
      let toIndex := indexOf idToIndex edge.dst
      if color toIndex = -1 then
        match self toIndex (1 - c) color with
        | .error f => .error f
        | .ok (false, color') => .ok (false, color')
        | .ok (true, color') => colorEdges g idToIndex self c rest color'
      else if color toIndex = c then .ok (false, color)
      else colorEdges g idToIndex self c rest color

/-- The lambda `dfs` of `isBipartite`, with recursion depth at most `fuel`. -/
def colorDfs (g : GraphData D) (vertices : List (Vertex D)) (idToIndex : List (Int × Nat)) :
    Nat → Nat → Int → (Nat → Int) → Except Fault (Bool × (Nat → Int))
  | 0, _, _, _ => .error Fault.outOfFuel
  | fuel + 1, index, c, color =>
    match vertices[index]? with
    | none => .error Fault.outOfRange
    | some v =>
      match Graph.getEdgeIdsOfVertex g v.id with
      | none => .error Fault.edgeIdsNotFound
      | some edgeIds =>
        colorEdges g idToIndex (fun i c' col => colorDfs g vertices idToIndex fuel i c' col)
          c edgeIds (upd color index c)

/-- The loop over the roots `for (i = 0; i < vertices.size(); i++)` of `isBipartite`;
`none` is the early `return std::unexpected(...)`. -/
def colorRoots (g : GraphData D) (vertices : List (Vertex D)) (idToIndex : List (Int × Nat)) :
    List Nat → (Nat → Int) → Except Fault (Option (Nat → Int))
  | [], color => .ok (some color)
  | i :: rest, color =>
    if color i = -1 then
      match colorDfs g vertices idToIndex (vertices.length + 1) i 0 color with
      | .error f => .error f
      | .ok (false, _) => .ok none
      | .ok (true, color') => colorRoots g vertices idToIndex rest color'
    else colorRoots g vertices idToIndex rest color

/-- The final loop of `isBipartite`: the ids of the vertices coloured 0, from index `i`. -/
def partOf (color : Nat → Int) : Nat → List (Vertex D) → List Int
  | _, [] => []
  | i, v :: vs => if color i = 0 then v.id :: partOf color (i + 1) vs else partOf color (i + 1) vs

/-- The function `isBipartite(graph)`: the inner `Except` is the `std::expected` result,
the outer one an exception. -/
def isBipartite (g : GraphData D) : Except Fault (Except String (List Int)) :=
  let vertices := Graph.getAllVertices g
  let idToIndex := buildIndex vertices
  match colorRoots g vertices idToIndex (List.range vertices.length) (fun _ => -1) with
  | .error f => .error f
  | .ok none => .ok (.error "The graph is not bipartite")
  | .ok (some color) => .ok (.ok (partOf color 0 vertices))

/-! ### Maximum bipartite matching (`getMaxMatchByHopcraftKarp`)

The vectors `xMatch`, `yMatch`, `dx`, `dy`, `vis` are functions on indices.  Their
indices are values of `idToIndex` or stored matches, which are in range as soon as the
graph has a vertex; the one access that can leave the range is guarded in
`getMaxMatchByHopcraftKarp` below. -/

/-- The variables that the lambdas of `getMaxMatchByHopcraftKarp` capture by reference. -/
structure HK where
  xMatch : Nat → Int
  yMatch : Nat → Int
  dx : Nat → Int
  dy : Nat → Int
  vis : Nat → Bool
  dis : Int

/-- The constant `INF = 1e9`. -/
def INF : Int := 1000000000

/-- First loop of `hkBFS`: the unmatched vertices of `part1` enter the queue at layer 0. -/
def hkBfsInit (idToIndex : List (Int × Nat)) : List Int → HK → List Nat → HK × List Nat
  | [], s, q => (s, q)
  | id :: rest, s, q =>
    let u := indexOf idToIndex id
    if s.xMatch u = -1 then hkBfsInit idToIndex rest { s with dx := upd s.dx u 0 } (q ++ [u])
    else hkBfsInit idToIndex rest s q

/-- The `for (int edgeId : edgeIds)` loop of `hkBFS` for the dequeued vertex `u`. -/
def hkBfsEdges (g : GraphData D) (idToIndex : List (Int × Nat)) (u : Nat) :
    List Int → HK → List Nat → Except Fault (HK × List Nat)
  | [], s, q => .ok (s, q)
  | edgeId :: rest, s, q =>
    match Graph.getEdge g edgeId with
    | none => .error Fault.outOfRange
    | some edge =>
      let v := indexOf idToIndex edge.dst
      if s.dy v = -1 then
        let s1 := { s with dy := upd s.dy v (s.dx u + 1) }
        if s1.yMatch v = -1 then
          hkBfsEdges g idToIndex u rest { s1 with dis := s1.dy v } q
        else
          hkBfsEdges g idToIndex u rest
            { s1 with dx := upd s1.dx (s1.yMatch v).toNat (s1.dy v + 1) }
            (q ++ [(s1.yMatch v).toNat])
      else hkBfsEdges g idToIndex u rest s q

/-- The `while (!q.empty())` loop of `hkBFS`, for at most `fuel` iterations. -/
def hkBfsLoop (g : GraphData D) (vertices : List (Vertex D)) (idToIndex : List (Int × Nat)) :
    Nat → HK → List Nat → Except Fault HK
  | 0, _, _ => .error Fault.outOfFuel
  | _ + 1, s, [] => .ok s
  | fuel + 1, s, u :: q =>
    if s.dx u > s.dis then .ok s
    else
      match vertices[u]? with
      | none => .error Fault.outOfRange
      | some vert =>
        match Graph.getEdgeIdsOfVertex g vert.id with
        | none => .error Fault.edgeIdsNotFound
        | some edgeIds =>
          match hkBfsEdges g idToIndex u edgeIds s q with
          | .error f => .error f
          | .ok (s', q') => hkBfsLoop g vertices idToIndex fuel s' q'

/-- The lambda `hkBFS`. Every vertex enters the queue at most once, which bounds the
iterations of the loop. -/
def hkBFS (g : GraphData D) (vertices : List (Vertex D)) (idToIndex : List (Int × Nat))
    (part1 : List Int) (s : HK) : Except Fault (Bool × HK) :=
  let s0 : HK := { s with dis := INF, dx := fun _ => -1, dy := fun _ => -1 }
  let init := hkBfsInit idToIndex part1 s0 []
  match hkBfsLoop g vertices idToIndex (part1.length + vertices.length + 1) init.1 init.2 with
  | .error f => .error f
  | .ok s2 => .ok (decide (s2.dis ≠ INF), s2)

/-- The `for (int edgeId : edgeIds)` loop of the lambda `hkDFS` for the vertex `u`;
`self` is the recursive call. -/
def hkDfsEdges (g : GraphData D) (idToIndex : List (Int × Nat))
    (self : Nat → HK → Except Fault (Bool × HK)) (u : Nat) :
    List Int → HK → Except Fault (Bool × HK)
  | [], s => .ok (false, s)
  | edgeId :: rest, s =>
    match Graph.getEdge g edgeId with
    | none => .error Fault.outOfRange
    | some edge =>
      let v := indexOf idToIndex edge.dst
      if s.vis v = false ∧ s.dy v = s.dx u + 1 then
        let s1 := { s with vis := upd s.vis v true }
        if s1.yMatch v ≠ -1 ∧ s1.dy v = s1.dis then hkDfsEdges g idToIndex self u rest s1
        else if s1.yMatch v = -1 then
          .ok (true, { s1 with xMatch := upd s1.xMatch u v, yMatch := upd s1.yMatch v u })
        else
          match self (s1.yMatch v).toNat s1 with
          | .error f => .error f
          | .ok (true, s2) =>
            .ok (true, { s2 with xMatch := upd s2.xMatch u v, yMatch := upd s2.yMatch v u })
          | .ok (false, s2) => hkDfsEdges g idToIndex self u rest s2
      else hkDfsEdges g idToIndex self u rest s

/-- The lambda `hkDFS`, with recursion depth at most `fuel`. -/
def hkDFS (g : GraphData D) (vertices : List (Vertex D)) (idToIndex : List (Int × Nat)) :
    Nat → Nat → HK → Except Fault (Bool × HK)
  | 0, _, _ => .error Fault.outOfFuel
  | fuel + 1, u, s =>
    match vertices[u]? with
    | none => .error Fault.outOfRange
    | some vert =>
      match Graph.getEdgeIdsOfVertex g vert.id with
      | none => .error Fault.edgeIdsNotFound
      | some edgeIds =>
        hkDfsEdges g idToIndex (fun u' s' => hkDFS g vertices idToIndex fuel u' s') u edgeIds s

/-- The `for (int id : part1)` loop of `hkMain`: one augmentation attempt per unmatched
vertex of `part1`. -/
def hkPhase (g : GraphData D) (vertices : List (Vertex D)) (idToIndex : List (Int × Nat)) :
    List Int → HK → Nat → Except Fault (HK × Nat)
  | [], s, res => .ok (s, res)
  | id :: rest, s, res =>
    let u := indexOf idToIndex id
    if s.xMatch u = -1 then
      match hkDFS g vertices idToIndex (vertices.length + 1) u s with
      | .error f => .error f
      | .ok (true, s') => hkPhase g vertices idToIndex rest s' (res + 1)
      | .ok (false, s') => hkPhase g vertices idToIndex rest s' res
    else hkPhase g vertices idToIndex rest s res

/-- The lambda `hkMain`: the loop `while (hkBFS())`, for at most `fuel` rounds. -/
def hkMain (g : GraphData D) (vertices : List (Vertex D)) (idToIndex : List (Int × Nat))
    (part1 : List Int) : Nat → HK → Nat → Except Fault (HK × Nat)
  | 0, _, _ => .error Fault.outOfFuel
  | fuel + 1, s, res =>
    match hkBFS g vertices idToIndex part1 s with
    | .error f => .error f
    | .ok (false, s') => .ok (s', res)
    | .ok (true, s') =>
      match hkPhase g vertices idToIndex part1 { s' with vis := fun _ => false } res with
      | .error f => .error f
      | .ok (s'', res') => hkMain g vertices idToIndex part1 fuel s'' res'

/-- One of the two loops that build `matchMap` from `xMatch` (for `part1`) or `yMatch`
(for `part2`). -/
def matchLoop (vertices : List (Vertex D)) (idToIndex : List (Int × Nat)) (arr : Nat → Int) :
    List Int → List (Int × Int) → Except Fault (List (Int × Int))
  | [], m => .ok m
  | i :: rest, m =>
    let u := indexOf idToIndex i
    if arr u ≠ -1 then
      match vertices[(arr u).toNat]? with
      | none => .error Fault.outOfRange
      | some w => matchLoop vertices idToIndex arr rest (assign i w.id m)
    else matchLoop vertices idToIndex arr rest m

/-- The function `getMaxMatchByHopcraftKarp(graph, onePartIds)`.  Every successful round
of `hkMain` matches one more vertex, so `vertices.size() + 2` rounds are enough. -/
def getMaxMatchByHopcraftKarp (g : GraphData D) (onePartIds : List Int) :
    Except Fault (List (Int × Int)) :=
  let part1 := onePartIds
  let vertices := Graph.getAllVertices g
  let idToIndex := buildIndex vertices
  let part2 := (vertices.filter (fun v => decide (v.id ∉ part1))).map (fun v => v.id)
  if vertices.length = 0 ∧ part1 ≠ [] then .error Fault.outOfRange
  else
    let s0 : HK :=
      { xMatch := fun _ => -1, yMatch := fun _ => -1, dx := fun _ => 0, dy := fun _ => 0,
        vis := fun _ => false, dis := INF }
    match hkMain g vertices idToIndex part1 (vertices.length + 2) s0 0 with
    | .error f => .error f
    | .ok (s, _) =>
      match matchLoop vertices idToIndex s.xMatch part1 [] with
      | .error f => .error f
      | .ok m1 => matchLoop vertices idToIndex s.yMatch part2 m1

/-! ### Articulation points (`tarjan`)

The vectors `d`, `low`, `parent`, `childrenNum`, `vis` have size `n + 1` and are indexed
by values of `idToIndex`, which lie in `0 .. n`. -/

/-- The variables that the lambda `dfscv` of `tarjan` captures by reference. -/
structure Tarjan where
  d : Nat → Int
  low : Nat → Int
  parent : Nat → Int
  childrenNum : Nat → Int
  vis : Nat → Bool
  time : Int
  cuts : List Int

/-- The checks after the recursive call in `dfscv`, which push a cut vertex. -/
def pushCuts (vid : Int) (index toIndex : Nat) (s : Tarjan) : Tarjan :=
  let s1 := if s.parent index = -1 ∧ s.childrenNum index > 1 then
      { s with cuts := s.cuts ++ [vid] } else s
  if s1.parent index ≠ -1 ∧ s1.low toIndex ≥ s1.d index then
    { s1 with cuts := s1.cuts ++ [vid] } else s1

/-- The `for (int edgeId : edgeIds)` loop of the lambda `dfscv` for the vertex at `index`
with id `vid`; `self` is the recursive call. -/
def cutEdges (g : GraphData D) (idToIndex : List (Int × Nat))
    (self : Nat → Tarjan → Except Fault Tarjan) (vid : Int) (index : Nat) :
    List Int → Tarjan → Except Fault Tarjan
  | [], s => .ok s
  | edgeId :: rest, s =>
    match Graph.getEdge g edgeId with
    | none => .error Fault.outOfRange
    | some edge =>
      let toIndex := indexOf idToIndex edge.dst
      if s.vis toIndex = false then
        let s1 := { s with parent := upd s.parent toIndex index,
                           childrenNum := upd s.childrenNum index (s.childrenNum index + 1) }
        match self toIndex s1 with
        | .error f => .error f
        | .ok s2 =>
          let s3 := { s2 with low := upd s2.low index (min (s2.low index) (s2.low toIndex)) }
          cutEdges g idToIndex self vid index rest (pushCuts vid index toIndex s3)
      else if (toIndex : Int) ≠ s.parent index then
        cutEdges g idToIndex self vid index rest
          { s with low := upd s.low index (min (s.low index) (s.d toIndex)) }
      else cutEdges g idToIndex self vid index rest s

/-- The lambda `dfscv` of `tarjan`, with recursion depth at most `fuel`.  The access
`vertices[index - 1]` is out of range for `index = 0`. -/
def dfscv (g : GraphData D) (vertices : List (Vertex D)) (idToIndex : List (Int × Nat)) :
    Nat → Nat → Tarjan → Except Fault Tarjan
  | 0, _, _ => .error Fault.outOfFuel
  | fuel + 1, index, s =>
    let s1 := { s with time := s.time + 1,
                       d := upd s.d index (s.time + 1),
                       low := upd s.low index (s.time + 1),
                       vis := upd s.vis index true }
    if index = 0 then .error Fault.outOfRange
    else
      match vertices[index - 1]? with
      | none => .error Fault.outOfRange
      | some vert =>
        match Graph.getEdgeIdsOfVertex g vert.id with
        | none => .error Fault.edgeIdsNotFound
        | some edgeIds =>
          cutEdges g idToIndex (fun i s' => dfscv g vertices idToIndex fuel i s')
            vert.id index edgeIds s1

/-- The loop `for (int i = 1; i <= n; i++)` of `tarjan` over the roots. -/
def cutRoots (g : GraphData D) (vertices : List (Vertex D)) (idToIndex : List (Int × Nat)) :
    List Nat → Tarjan → Except Fault Tarjan
  | [], s => .ok s
  | i :: rest, s =>
    if s.vis i = false then
      match dfscv g vertices idToIndex (vertices.length + 1) i s with
      | .error f => .error f
      | .ok s' => cutRoots g vertices idToIndex rest s'
    else cutRoots g vertices idToIndex rest s

/-- Insertion into a sorted list. -/
def insertSorted (x : Int) : List Int → List Int
  | [] => [x]
  | y :: ys => if x ≤ y then x :: y :: ys else y :: insertSorted x ys

/-- The call `std::sort(cuts.begin(), cuts.end())`: the sorted rearrangement. -/
def sortInts (l : List Int) : List Int := l.foldr insertSorted []

/-- The idiom `cuts.erase(std::unique(...), cuts.end())`: equal neighbours are merged. -/
def unique : List Int → List Int
  | [] => []
  | [x] => [x]
  | x :: y :: rest => if x = y then unique (y :: rest) else x :: unique (y :: rest)

/-- The function `tarjan(graph)`. -/
def tarjan (g : GraphData D) : Except Fault (List Int) :=
  let vertices := Graph.getAllVertices g
  let n := vertices.length
  let idToIndex := buildIndexFrom 1 0 vertices []
  let s0 : Tarjan :=
    { d := fun _ => -1, low := fun _ => 0, parent := fun _ => -1, childrenNum := fun _ => 0,
      vis := fun _ => false, time := 0, cuts := [] }
  match cutRoots g vertices idToIndex ((List.range n).map (fun i => i + 1)) s0 with
  | .error f => .error f
  | .ok s => .ok (unique (sortInts s.cuts))

end algorithm

/-- Some edge id listed in the adjacency set of `u` names a stored edge with
destination `w`. -/
def arc {D : Type} (g : GraphData D) (u w : Int) : Bool :=
  match find u g.adjMap with
  | none => false
  | some es => es.any (fun eid => pointsTo g.idToEdge w eid)

/-- The list of vertex ids is a path along adjacency edges. -/
def isPath {D : Type} (g : GraphData D) : List Int → Bool
  | [] => true
  | [_] => true
  | u :: w :: rest => arc g u w && isPath g (w :: rest)

/-- An undirected graph with vertices `1 .. n` and the given edges `(id, from, to)`, built
with `addVertex` and `UndirectedGraph::addEdge` as the tests do. -/
def buildUndirected (n : Nat) (edges : List (Int × Int × Int)) : GraphData Unit :=
  edges.foldl (fun g e => (UndirectedGraph.addEdge g ⟨e.1, e.2.1, e.2.2, 1⟩).2)
    ((List.range n).foldl (fun g i => Graph.addVertex g ⟨(i : Int) + 1, ()⟩) (GraphData.empty Unit))

/-- The graph of the test `BFS`: edges 1-2, 1-3, 2-4, 3-5, 4-6. -/
def bfsTestGraph : GraphData Unit :=
  buildUndirected 6 [(0, 1, 2), (2, 1, 3), (4, 2, 4), (6, 3, 5), (8, 4, 6)]

/-- Five vertices with edges 1-2, 1-3, 2-3, 2-4, 3-4, 4-5. -/
def triangleLadder : GraphData Unit :=
  buildUndirected 5 [(0, 1, 2), (2, 1, 3), (4, 2, 3), (6, 2, 4), (8, 3, 4), (10, 4, 5)]

/-- All ways to insert `x` into a list. -/
def insertEverywhere (x : Int) : List Int → List (List Int)
  | [] => [[x]]
  | y :: ys => (x :: y :: ys) :: (insertEverywhere x ys).map (fun l => y :: l)

/-- All orders of a list. -/
def orders : List Int → List (List Int)
  | [] => [[]]
  | x :: xs => (orders xs).flatMap (insertEverywhere x)

/-- All graphs that differ from `g` only in the order in which the adjacency sets
enumerate their edge ids. -/
def adjacencyOrders {D : Type} (g : GraphData D) : List (GraphData D) :=
  (g.adjMap.foldr
    (fun p acc => ((orders p.2).map (fun es => fun rest => (p.1, es) :: rest)).flatMap
      (fun f => acc.map f))
    [[]]).map (fun adj => { g with adjMap := adj })

/-- There is an adjacency edge from `u` to `w`. -/
def Arc {D : Type} (g : GraphData D) (u w : Int) : Prop := arc g u w = true

/-- There is a path of adjacency edges from `u` to `w`. -/
def Reach {D : Type} (g : GraphData D) (u w : Int) : Prop :=
  Relation.ReflTransGen (Arc g) u w

/-- The number of queue pushes that the vertices not yet expanded can still cause. -/
def pending {D : Type} (g : GraphData D) (visited : List Int) : Nat :=
  ((g.adjMap.filter (fun p => decide (p.1 ∉ visited))).map (fun p => p.2.length)).sum

/-- The ids of the stored vertices, in the order of `getAllVertices`. -/
def vertexIds {D : Type} (g : GraphData D) : List Int :=
  (Graph.getAllVertices g).map (fun v => v.id)

/-- The graph as `isBipartite` sees it on vertex indices: the vertex at index `i` has an
adjacency edge whose destination is looked up at index `j`. -/
def nbr {D : Type} (g : GraphData D) (vs : List (Vertex D)) (idx : List (Int × Nat))
    (i j : Nat) : Prop :=
  ∃ v es eid e, vs[i]? = some v ∧ find v.id g.adjMap = some es ∧ eid ∈ es ∧
    find eid g.idToEdge = some e ∧ algorithm.indexOf idx e.dst = j

/-- The colouring `c'` extends `c`: coloured indices keep their colour. -/
def Ext (c c' : Nat → Int) : Prop := ∀ i, c i ≠ -1 → c' i = c i

/-- Every index coloured between `c` and `c'` has colour 0 or 1 and all its neighbours
are coloured, with a different colour. -/
def GoodNew {D : Type} (g : GraphData D) (vs : List (Vertex D)) (idx : List (Int × Nat))
    (c c' : Nat → Int) : Prop :=
  ∀ i, c i = -1 → c' i ≠ -1 →
    (c' i = 0 ∨ c' i = 1) ∧ ∀ j, nbr g vs idx i j → c' j ≠ -1 ∧ c' j ≠ c' i

/-- The setting in which a conflict cannot arise: `χ` is a proper 2-colouring of the
index graph, the index graph is symmetric, and the indices coloured in `c0` (before the
current root started) are closed under adjacency. -/
structure Sound {D : Type} (g : GraphData D) (vs : List (Vertex D)) (idx : List (Int × Nat))
    (χ : Nat → Bool) (c0 : Nat → Int) : Prop where
  proper : ∀ i j, nbr g vs idx i j → χ i ≠ χ j
  symm : ∀ i j, nbr g vs idx i j → nbr g vs idx j i
  closed : ∀ i, c0 i ≠ -1 → ∀ j, nbr g vs idx i j → c0 j ≠ -1

/-- The colours given since `c0` are the ones `χ` forces relative to the root `r`. -/
structure Forced (χ : Nat → Bool) (r : Nat) (c0 c : Nat → Int) : Prop where
  ext : Ext c0 c
  forced : ∀ i, c0 i = -1 → c i ≠ -1 → (c i = 0 ↔ χ i = χ r)

/-- What a call `dfs(index, c)` that returns `b` with colouring `c'` guarantees. -/
def DfsPost {D : Type} (g : GraphData D) (vs : List (Vertex D)) (idx : List (Int × Nat))
    (index : Nat) (c : Int) (color : Nat → Int) (b : Bool) (color' : Nat → Int) : Prop :=
  (b = true → Ext color color' ∧ GoodNew g vs idx color color' ∧ color' index = c) ∧
  (∀ χ r c0, Sound g vs idx χ c0 → Forced χ r c0 color → (c = 0 ↔ χ index = χ r) →
    b = true ∧ Forced χ r c0 color')

/-- The number of indices below `n` that are not coloured yet. -/
def uncolored (n : Nat) (color : Nat → Int) : Nat :=
  ((Finset.range n).filter (fun i => color i = -1)).card

/-- No lookup of the traversal can fail: every stored vertex has an adjacency entry, and
every edge id listed there names a stored edge whose destination has an index in range. -/
def NoFault {D : Type} (g : GraphData D) (vs : List (Vertex D)) (idx : List (Int × Nat)) :
    Prop :=
  ∀ (i : Nat) (v : Vertex D), vs[i]? = some v → ∃ es, find v.id g.adjMap = some es ∧
    ∀ eid ∈ es, ∃ e, find eid g.idToEdge = some e ∧ algorithm.indexOf idx e.dst < vs.length

/-- Every coloured index has colour 0 or 1 and all its neighbours are coloured, with a
different colour. -/
def ProperClosed {D : Type} (g : GraphData D) (vs : List (Vertex D)) (idx : List (Int × Nat))
    (c : Nat → Int) : Prop :=
  ∀ i, c i ≠ -1 → (c i = 0 ∨ c i = 1) ∧ ∀ j, nbr g vs idx i j → c j ≠ -1 ∧ c j ≠ c i

/-- The vertices admit a 2-colouring in which every adjacency edge joins differently
coloured vertices. -/
def TwoColourable {D : Type} (g : GraphData D) : Prop :=
  ∃ χ : Int → Bool, ∀ u w, Arc g u w → χ u ≠ χ w

/-- All pairs (key, destination) of the edges that the adjacency index lists. -/
def arcList {D : Type} (g : GraphData D) : List (Int × Int) :=
  g.adjMap.flatMap (fun p =>
    p.2.filterMap (fun eid => (find eid g.idToEdge).map (fun e => (p.1, e.dst))))

/-- Every edge id listed in an adjacency set is in the edge table (the data-model
invariant of the adjacency index). -/
def ListedStored {D : Type} (g : GraphData D) : Prop :=
  ∀ v es, find v g.adjMap = some es → ∀ eid ∈ es, (find eid g.idToEdge).isSome = true

/-- The graph of the test `IsBipartite`: the path 1-2-3-4-5. -/
def pathGraph : GraphData Unit :=
  buildUndirected 5 [(0, 1, 2), (2, 2, 3), (4, 3, 4), (6, 4, 5)]

/-- The path 1-2-3-4-5 with the edge 1-3 added, as in the test `IsBipartite`. -/
def pathWithChord : GraphData Unit :=
  (UndirectedGraph.addEdge pathGraph ⟨8, 1, 3, 1⟩).2

/-- A directed graph with vertices 1 and 2 and the edges 1 -> 2 and 5 -> 2; vertex 5 was
never added. -/
def danglingSource : GraphData Unit :=
  (Graph.addEdge
    (Graph.addEdge
      (Graph.addVertex (Graph.addVertex (GraphData.empty Unit) ⟨1, ()⟩) ⟨2, ()⟩)
      ⟨1, 1, 2, 1⟩).2
    ⟨2, 5, 2, 1⟩).2

/-- States of a directed `Graph` that the public mutators produce from the empty graph. -/
inductive Graph.Reachable {D : Type} : GraphData D → Prop
  | empty : Graph.Reachable (GraphData.empty D)
  | addVertex {g : GraphData D} (v : Vertex D) :
      Graph.Reachable g → Graph.Reachable (Graph.addVertex g v)
  | addEdge {g : GraphData D} (e : Edge) :
      Graph.Reachable g → Graph.Reachable (Graph.addEdge g e).2
  | delEdge {g : GraphData D} (id : Int) :
      Graph.Reachable g → Graph.Reachable (Graph.delEdge g id).2
  | delVertex {g g' : GraphData D} (id : Int) (b : Bool) :
      Graph.Reachable g → Graph.delVertex g id = .ok (b, g') → Graph.Reachable g'

/-- The keys of an association list are pairwise distinct, as in every `std::unordered_map`. -/
abbrev IsMap {α : Type} (m : List (Int × α)) : Prop := (m.map Prod.fst).Nodup

/-- Edge id `eid` is listed in the adjacency set of vertex `v`. -/
def Listed {D : Type} (g : GraphData D) (v eid : Int) : Prop :=
  ∃ es, find v g.adjMap = some es ∧ eid ∈ es

/-- The adjacency index and the edge table are consistent: an edge id is in
`adjacency[v]` exactly when the edge table holds it with source `v`. -/
def AdjConsistent {D : Type} (g : GraphData D) : Prop :=
  ∀ v eid, Listed g v eid ↔ ∃ e, find eid g.idToEdge = some e ∧ e.src = v

/-- The graph of the test `AddAndRemoveEdge` after `delEdge(1)`: vertices 1 and 2 and
the edge `Edge(2, 2, 1)`. -/
def sampleOneEdge : GraphData Int :=
  (Graph.delEdge
    (Graph.addEdge
      (Graph.addEdge
        (Graph.addVertex (Graph.addVertex (GraphData.empty Int) ⟨1, 10⟩) ⟨2, 20⟩)
        ⟨1, 1, 2, 1⟩).2
      ⟨2, 2, 1, 1⟩).2
    1).2

/-- The graph of the test `AddAndRemoveVertex` (vertices 1 and 2) after
`addEdge(Edge(1, 1, 3))`: the edge points to vertex 3, which was never added. -/
def danglingGraph : GraphData Int :=
  (Graph.addEdge
    (Graph.addVertex (Graph.addVertex (GraphData.empty Int) ⟨1, 10⟩) ⟨2, 20⟩)
    ⟨1, 1, 3, 1⟩).2

/-- A graph as `subgraphOfEdges({3})` returns it for the graph of the test `Subgraph`:
the edge 3 -> 4, an adjacency entry for its source 3 only, and both endpoints in the
vertex table. -/
def storedWithoutAdjacency : GraphData Int :=
  { adjMap := [(3, [3])],
    idToVertex := [(3, ⟨3, 30⟩), (4, ⟨4, 40⟩)],
    idToEdge := [(3, ⟨3, 3, 4, 1⟩)] }

/-- The distance returned for one graph equals `d`. -/
def distanceIs {D : Type} (g : GraphData D) (source target d : Int) : Bool :=
  match algorithm.distanceWithoutWeight g source target with
  | .ok r => decide (r = d)
  | .error _ => false

/-- The id of the vertex at an index (0 outside the range). -/
def idAt {D : Type} (vs : List (Vertex D)) (i : Nat) : Int :=
  match vs[i]? with
  | some v => v.id
  | none => 0

/-! ## Predicates for the matching algorithm -/

open algorithm

/-- The indices of the vertices of `part1`. -/
def LIdx (idx : List (Int × Nat)) (part1 : List Int) (u : Nat) : Prop :=
  ∃ id ∈ part1, indexOf idx id = u

/-- Every matched left index is matched along an edge, and its partner points back. -/
def Matching {D : Type} (g : GraphData D) (vs : List (Vertex D)) (idx : List (Int × Nat))
    (part1 : List Int) (s : HK) : Prop :=
  ∀ u, s.xMatch u ≠ -1 → LIdx idx part1 u ∧
    ∃ v : Nat, s.xMatch u = (v : Int) ∧ nbr g vs idx u v ∧ s.yMatch v = (u : Int)

/-- The arrays `xMatch` and `yMatch` describe one matching. -/
def Valid {D : Type} (g : GraphData D) (vs : List (Vertex D)) (idx : List (Int × Nat))
    (part1 : List Int) (s : HK) : Prop :=
  Matching g vs idx part1 s ∧
  ∀ v, s.yMatch v ≠ -1 → ∃ u : Nat, s.yMatch v = (u : Int) ∧ s.xMatch u = (v : Int)

/-- An edge that respects the layering of the last search. -/
def Admissible {D : Type} (g : GraphData D) (vs : List (Vertex D)) (idx : List (Int × Nat))
    (s : HK) (u v : Nat) : Prop :=
  nbr g vs idx u v ∧ s.dy v = s.dx u + 1

def SameArrays (s s' : HK) : Prop := s'.xMatch = s.xMatch ∧ s'.yMatch = s.yMatch

def SameLayers (s s' : HK) : Prop := s'.dx = s.dx ∧ s'.dy = s.dy ∧ s'.dis = s.dis

def VisMono (s s' : HK) : Prop := ∀ v, s.vis v = true → s'.vis v = true

/-- Every right index visited between `s` and `s'` is matched, and unless it lies on the
last layer all admissible edges of its partner lead to visited indices. -/
def Explored {D : Type} (g : GraphData D) (vs : List (Vertex D)) (idx : List (Int × Nat))
    (s s' : HK) : Prop :=
  ∀ v, s.vis v = false → s'.vis v = true → s.yMatch v ≠ -1 ∧
    (s.dy v ≠ s.dis → ∀ v', Admissible g vs idx s (s.yMatch v).toNat v' → s'.vis v' = true)

structure DfsFalse {D : Type} (g : GraphData D) (vs : List (Vertex D))
    (idx : List (Int × Nat)) (s s' : HK) : Prop where
  same : SameArrays s s'
  layers : SameLayers s s'
  mono : VisMono s s'
  expl : Explored g vs idx s s'

structure DfsTrue {D : Type} (g : GraphData D) (vs : List (Vertex D))
    (idx : List (Int × Nat)) (part1 : List Int) (u : Nat) (s s' : HK) : Prop where
  layers : SameLayers s s'
  mono : VisMono s s'
  matching : Matching g vs idx part1 s'
  stale : ∀ y, s'.yMatch y ≠ -1 → ∃ x : Nat, s'.yMatch y = (x : Int) ∧
    (s'.xMatch x = (y : Int) ∨ (x = u ∧ s.xMatch u = (y : Int)))
  fresh : ∃ v : Nat, s'.xMatch u = (v : Int) ∧ s.vis v = false ∧ s'.vis v = true
  frameY : ∀ y, s.vis y = true → s'.yMatch y = s.yMatch y
  frameX : ∀ x, x ≠ u → (s.xMatch x = -1 ∨ ∃ v : Nat, s.xMatch x = (v : Int) ∧ s.vis v = true) →
    s'.xMatch x = s.xMatch x
  grow : ∀ x, s.xMatch x ≠ -1 → s'.xMatch x ≠ -1

def DfsPre {D : Type} (g : GraphData D) (vs : List (Vertex D)) (idx : List (Int × Nat))
    (part1 : List Int) (s : HK) (u : Nat) : Prop :=
  Valid g vs idx part1 s ∧ LIdx idx part1 u ∧
    (s.xMatch u = -1 ∨ ∃ v : Nat, s.xMatch u = (v : Int) ∧ s.vis v = true)

def unvisited (n : Nat) (s : HK) : Nat :=
  ((Finset.range n).filter (fun v => s.vis v = false)).card

/-- What a call `hkDFS(u)` guarantees. -/
def HkPost {D : Type} (g : GraphData D) (vs : List (Vertex D)) (idx : List (Int × Nat))
    (part1 : List Int) (u : Nat) (s : HK) (b : Bool) (s' : HK) : Prop :=
  (b = false → DfsFalse g vs idx s s' ∧ ∀ v, Admissible g vs idx s u v → s'.vis v = true) ∧
  (b = true → DfsTrue g vs idx part1 u s s')

structure HKGraph {D : Type} (g : GraphData D) (vs : List (Vertex D)) (idx : List (Int × Nat))
    (part1 : List Int) : Prop where
  nofault : NoFault g vs idx
  lrange : ∀ u, LIdx idx part1 u → u < vs.length

/-- What the loop of one phase guarantees: the matching stays valid and grows, and either
a vertex became matched, or nothing changed and every admissible edge of an unmatched
vertex of the list leads to a visited index. -/
def PhasePost {D : Type} (g : GraphData D) (vs : List (Vertex D)) (idx : List (Int × Nat))
    (part1 : List Int) (ids : List Int) (s s' : HK) : Prop :=
  Valid g vs idx part1 s' ∧ SameLayers s s' ∧
  (∀ x, s.xMatch x ≠ -1 → s'.xMatch x ≠ -1) ∧
  ((∃ x, s.xMatch x = -1 ∧ s'.xMatch x ≠ -1) ∨
    (DfsFalse g vs idx s s' ∧ ∀ id ∈ ids, s.xMatch (indexOf idx id) = -1 →
      ∀ v, Admissible g vs idx s (indexOf idx id) v → s'.vis v = true))

/-- An alternating path of admissible edges from an unmatched vertex of `part1` to the
index `y`, along the layers of the last search. -/
inductive Chain {D : Type} (g : GraphData D) (vs : List (Vertex D)) (idx : List (Int × Nat))
    (part1 : List Int) (s : HK) : Nat → Prop
  | base (u y : Nat) : LIdx idx part1 u → s.xMatch u = -1 → 0 ≤ s.dx u →
      Admissible g vs idx s u y → Chain g vs idx part1 s y
  | step (y' u y : Nat) : Chain g vs idx part1 s y' → s.yMatch y' = (u : Int) →
      s.dx u = s.dy y' + 1 → Admissible g vs idx s u y → Chain g vs idx part1 s y

/-- The index `u` of `part1` has a layer, reached along a chain. -/
def Labelled {D : Type} (g : GraphData D) (vs : List (Vertex D)) (idx : List (Int × Nat))
    (part1 : List Int) (s : HK) (u : Nat) : Prop :=
  LIdx idx part1 u ∧ 0 ≤ s.dx u ∧
    (s.xMatch u = -1 ∨
      ∃ y, Chain g vs idx part1 s y ∧ s.yMatch y = (u : Int) ∧ s.dx u = s.dy y + 1)

/-- The search only adds layers: the matching is untouched and set layers stay. -/
structure LayerExt (s s' : HK) : Prop where
  xm : s'.xMatch = s.xMatch
  ym : s'.yMatch = s.yMatch
  dx : Ext s.dx s'.dx
  dy : Ext s.dy s'.dy

/-- The invariant of the loops of `hkBFS`; `P` holds for the indices still to expand. -/
structure BInv {D : Type} (g : GraphData D) (vs : List (Vertex D)) (idx : List (Int × Nat))
    (part1 : List Int) (P : Nat → Prop) (s : HK) : Prop where
  valid : Valid g vs idx part1 s
  pend : ∀ u, P u → Labelled g vs idx part1 s u
  lab : ∀ u, s.dx u ≠ -1 → s.xMatch u = -1 ∨ ∃ y : Nat, s.xMatch u = (y : Int) ∧ s.dy y ≠ -1
  found : s.dis ≠ INF → ∃ y, s.yMatch y = -1 ∧ s.dy y = s.dis ∧ Chain g vs idx part1 s y
  free : ∀ u, LIdx idx part1 u → s.xMatch u = -1 → s.dx u ≠ -1
  closed : ∀ u, s.dx u ≠ -1 → P u ∨ ∀ v, nbr g vs idx u v → s.dy v ≠ -1
  matched : 2 * (vs.length : Int) + 1 < INF → s.dis = INF → ∀ v, s.dy v ≠ -1 →
    s.yMatch v ≠ -1 ∧ s.dx (s.yMatch v).toNat ≠ -1
  bound : ∀ u, s.dx u ≠ -1 →
    s.dx u + 2 * (uncolored vs.length s.dy : Int) ≤ 2 * (vs.length : Int)

/-- The certificate that the last search leaves when it finds no augmenting path: every
unmatched index of `part1` has a layer, the neighbours of an index with a layer have a
layer, and an index of the other side with a layer is matched to an index with a layer. -/
def Cert {D : Type} (g : GraphData D) (vs : List (Vertex D)) (idx : List (Int × Nat))
    (part1 : List Int) (s : HK) : Prop :=
  (∀ u, LIdx idx part1 u → s.xMatch u = -1 → s.dx u ≠ -1) ∧
  (∀ u, s.dx u ≠ -1 → ∀ v, nbr g vs idx u v → s.dy v ≠ -1) ∧
  (∀ v, s.dy v ≠ -1 → s.yMatch v ≠ -1 ∧ s.dx (s.yMatch v).toNat ≠ -1)

/-- The shape of the returned map, as `hk_result` describes it. -/
def ResultOf {D : Type} (g : GraphData D) (part1 : List Int) (s : HK)
    (m : List (Int × Int)) : Prop :=
  ∀ k, find k m =
    if (k ∈ vertexIds g ∧ k ∉ part1) ∧
        s.yMatch (indexOf (buildIndex (Graph.getAllVertices g)) k) ≠ -1 then
      some (idAt (Graph.getAllVertices g)
        (s.yMatch (indexOf (buildIndex (Graph.getAllVertices g)) k)).toNat)
    else if k ∈ part1 ∧ s.xMatch (indexOf (buildIndex (Graph.getAllVertices g)) k) ≠ -1 then
      some (idAt (Graph.getAllVertices g)
        (s.xMatch (indexOf (buildIndex (Graph.getAllVertices g)) k)).toNat)
    else none

/-- The graph of the test `HopcraftKarp`: left side 1, 2, 3 and the edges 1-4, 1-5, 2-5,
3-6, 2-6. -/
def matchingTestGraph : GraphData Unit :=
  buildUndirected 6 [(0, 1, 4), (2, 1, 5), (4, 2, 5), (6, 3, 6), (8, 2, 6)]

/-! ## Predicates for the articulation points -/

/-- Paths of `E` that avoid the vertex `p`. -/
def RA (E : Nat → Nat → Prop) (p : Nat) : Nat → Nat → Prop :=
  Relation.ReflTransGen (fun a b => E a b ∧ a ≠ p ∧ b ≠ p)

/-- The index `p` is an articulation point of `E`: two other indices are joined by a path,
but by no path that avoids `p`. -/
def IsArtI (E : Nat → Nat → Prop) (p : Nat) : Prop :=
  ∃ a b, a ≠ p ∧ b ≠ p ∧ Relation.ReflTransGen E a b ∧ ¬ RA E p a b

/-- All neighbours of `p` are joined to one anchor by paths that avoid `p`. -/
def NbrConn (E : Nat → Nat → Prop) (p : Nat) : Prop :=
  ∃ anchor, ∀ w, E p w → w ≠ p → RA E p anchor w

/-- Paths of `E` whose vertices after the first lie outside `P`. -/
def ReachOut (E : Nat → Nat → Prop) (P : Nat → Prop) : Nat → Nat → Prop :=
  Relation.ReflTransGen (fun a b => E a b ∧ ¬ P b)

/-- Paths of `E` whose vertices after the first lie in `P`. -/
def ReachIn (E : Nat → Nat → Prop) (P : Nat → Prop) : Nat → Nat → Prop :=
  Relation.ReflTransGen (fun a b => E a b ∧ P b)

/-- The index graph that `tarjan` traverses: symmetric, with endpoints in `1 .. n`, and
distinct vertex ids at distinct indices. -/
structure TGraph (E : Nat → Nat → Prop) (idOf : Nat → Int) (n : Nat) : Prop where
  symm : ∀ a b, E a b → E b a
  range : ∀ a b, E a b → 1 ≤ b ∧ b ≤ n
  inj : ∀ a b, 1 ≤ a → a ≤ n → 1 ≤ b → b ≤ n → idOf a = idOf b → a = b

/-- The index `x` was visited between the states `s0` and `s`. -/
def NewIn (s0 s : Tarjan) (x : Nat) : Prop := s.vis x = true ∧ s0.vis x = false

/-- What holds when `dfscv` is called for the index `c`; `Grey` are the indices whose
calls are still running. -/
structure TPre (E : Nat → Nat → Prop) (idOf : Nat → Int) (n : Nat) (Grey : Nat → Prop)
    (s : Tarjan) (c : Nat) : Prop where
  range : 1 ≤ c ∧ c ≤ n
  unvis : s.vis c = false
  cleanP : ∀ x, s.vis x = false → x ≠ c → s.parent x = -1
  cleanC : ∀ x, s.vis x = false → s.childrenNum x = 0
  cleanCuts : ∀ x, 1 ≤ x → x ≤ n → s.vis x = false → idOf x ∉ s.cuts
  stamps : ∀ x, s.vis x = true → s.d x ≤ s.time
  greyVis : ∀ w, Grey w → s.vis w = true
  closed : ∀ x, s.vis x = true → ¬ Grey x → ∀ w, E x w → s.vis w = true
  link : (s.parent c = -1 ∧ ∀ w, ¬ Grey w) ∨
    ∃ u : Nat, s.parent c = (u : Int) ∧ Grey u ∧ E u c ∧
      ∀ w, Grey w → ReachIn E (fun x => s.vis x = true) u w

/-- What a call of `dfscv` for the index `c` guarantees when it takes `s` to `s'`. -/
structure TPost (E : Nat → Nat → Prop) (idOf : Nat → Int) (n : Nat)
    (s : Tarjan) (c : Nat) (s' : Tarjan) : Prop where
  frame : ∀ x, s.vis x = true → s'.vis x = true ∧ s'.d x = s.d x ∧ s'.low x = s.low x ∧
    s'.parent x = s.parent x ∧ s'.childrenNum x = s.childrenNum x
  parentC : s'.parent c = s.parent c
  visC : s'.vis c = true
  dC : s'.d c = s.time + 1
  lowLe : s'.low c ≤ s'.d c
  time : s.time < s'.time
  newRange : ∀ x, NewIn s s' x → 1 ≤ x ∧ x ≤ n
  stampsNew : ∀ x, NewIn s s' x → s.time < s'.d x ∧ s'.d x ≤ s'.time
  cleanP : ∀ x, s'.vis x = false → s'.parent x = -1
  cleanC : ∀ x, s'.vis x = false → s'.childrenNum x = 0
  closedNew : ∀ x, NewIn s s' x → ∀ w, E x w → s'.vis w = true
  conn : ∀ x, NewIn s s' x → ReachOut E (fun y => s.vis y = true) c x
  low1 : ∀ x, NewIn s s' x → ∀ w, s.vis w = true → E x w →
    (x = c ∧ (w : Int) = s.parent c) ∨ s'.low c ≤ s'.d w
  low2 : s'.low c = s'.d c ∨
    ∃ z w, NewIn s s' z ∧ E z w ∧ s'.vis w = true ∧ s'.low c = s'.d w
  fin : ∀ y, NewIn s s' y →
    (idOf y ∈ s'.cuts → IsArtI E y) ∧ (idOf y ∉ s'.cuts → NbrConn E y)
  cutsOld : ∀ i, i ∈ s.cuts → i ∈ s'.cuts
  cutsNew : ∀ i, i ∈ s'.cuts → i ∈ s.cuts ∨ ∃ y, NewIn s s' y ∧ i = idOf y

/-- The invariant of the edge loop of `dfscv` for the index `p`, whose call started in the
state `s0`. -/
structure LInv (E : Nat → Nat → Prop) (idOf : Nat → Int) (n : Nat)
    (s0 : Tarjan) (p : Nat) (s : Tarjan) : Prop where
  unvisP : s0.vis p = false
  frame : ∀ x, s0.vis x = true → s.vis x = true ∧ s.d x = s0.d x ∧ s.low x = s0.low x ∧
    s.parent x = s0.parent x ∧ s.childrenNum x = s0.childrenNum x
  visP : s.vis p = true
  dP : s.d p = s0.time + 1
  lowLe : s.low p ≤ s.d p
  parentP : s.parent p = s0.parent p
  time : s0.time < s.time
  newRange : ∀ x, NewIn s0 s x → 1 ≤ x ∧ x ≤ n
  stampsNew : ∀ x, NewIn s0 s x → s0.time < s.d x ∧ s.d x ≤ s.time
  cleanP : ∀ x, s.vis x = false → s.parent x = -1
  cleanC : ∀ x, s.vis x = false → s.childrenNum x = 0
  closedNew : ∀ x, NewIn s0 s x → x ≠ p → ∀ w, E x w → s.vis w = true
  conn : ∀ x, NewIn s0 s x → ReachOut E (fun y => s0.vis y = true) p x
  low1 : ∀ x, NewIn s0 s x → x ≠ p → ∀ w, s0.vis w = true → E x w → s.low p ≤ s.d w
  low2 : s.low p = s.d p ∨
    ∃ z w, NewIn s0 s z ∧ E z w ∧ s.vis w = true ∧ s.low p = s.d w
  fin : ∀ y, NewIn s0 s y → y ≠ p →
    (idOf y ∈ s.cuts → IsArtI E y) ∧ (idOf y ∉ s.cuts → NbrConn E y)
  cutsOld : ∀ i, i ∈ s0.cuts → i ∈ s.cuts
  cutsNew : ∀ i, i ∈ s.cuts → i ∈ s0.cuts ∨ ∃ y, NewIn s0 s y ∧ i = idOf y
  ownCut : idOf p ∈ s.cuts → IsArtI E p
  ownRoot : s.parent p = -1 →
    (s.childrenNum p = 0 ∧ ∀ x, NewIn s0 s x → x = p) ∨
    (s.childrenNum p = 1 ∧ ∃ c1, E p c1 ∧ c1 ≠ p ∧ NewIn s0 s c1 ∧
      ∀ x, NewIn s0 s x → x ≠ p → RA E p c1 x) ∨
    (2 ≤ s.childrenNum p ∧ idOf p ∈ s.cuts)
  ownNon : ∀ u : Nat, s.parent p = (u : Int) → idOf p ∉ s.cuts →
    ∀ x, NewIn s0 s x → x ≠ p → RA E p u x

/-- The number of indices in `1 .. n` that are not visited yet. -/
def unvisitedT (n : Nat) (s : Tarjan) : Nat :=
  ((Finset.range n).filter (fun i => s.vis (i + 1) = false)).card

/-- The graph as `tarjan` sees it on the indices `1 .. n`: the vertex at index `i` has an
adjacency edge whose destination is looked up at index `j`. -/
def nbr1 {D : Type} (g : GraphData D) (vs : List (Vertex D)) (idx : List (Int × Nat))
    (i j : Nat) : Prop :=
  ∃ v es eid e, 1 ≤ i ∧ vs[i - 1]? = some v ∧ find v.id g.adjMap = some es ∧ eid ∈ es ∧
    find eid g.idToEdge = some e ∧ indexOf idx e.dst = j

/-- The id `vertices[index - 1].id` of the vertex at an index of `tarjan`. -/
def idOf1 {D : Type} (vs : List (Vertex D)) (i : Nat) : Int := idAt vs (i - 1)

/-- No lookup of `tarjan` can fail: every stored vertex has an adjacency entry and every
edge id listed there names a stored edge. -/
def TModel {D : Type} (g : GraphData D) (vs : List (Vertex D)) : Prop :=
  ∀ (i : Nat) (v : Vertex D), vs[i]? = some v → ∃ es, find v.id g.adjMap = some es ∧
    ∀ eid ∈ es, ∃ e, find eid g.idToEdge = some e

/-- The invariant of the loop of `tarjan` over the roots: no call is running, and every
visited index is settled. -/
structure RInv (E : Nat → Nat → Prop) (idOf : Nat → Int) (n : Nat) (s : Tarjan) : Prop where
  stamps : ∀ x, s.vis x = true → s.d x ≤ s.time
  cleanP : ∀ x, s.vis x = false → s.parent x = -1
  cleanC : ∀ x, s.vis x = false → s.childrenNum x = 0
  visRange : ∀ x, s.vis x = true → 1 ≤ x ∧ x ≤ n
  closed : ∀ x, s.vis x = true → ∀ w, E x w → s.vis w = true
  fin : ∀ y, s.vis y = true →
    (idOf y ∈ s.cuts → IsArtI E y) ∧ (idOf y ∉ s.cuts → NbrConn E y)
  cutsVis : ∀ i, i ∈ s.cuts → ∃ y, s.vis y = true ∧ i = idOf y

/-- There is a path of adjacency edges from `a` to `b` that does not touch `v`. -/
def ReachAvoiding {D : Type} (g : GraphData D) (v : Int) : Int → Int → Prop :=
  Relation.ReflTransGen (fun x y => Arc g x y ∧ x ≠ v ∧ y ≠ v)

/-- The stored vertex `v` is an articulation point: removing it and its incident edges
disconnects two other stored vertices that are connected in `g`. -/
def IsArticulation {D : Type} (g : GraphData D) (v : Int) : Prop :=
  v ∈ vertexIds g ∧ ∃ a b, a ∈ vertexIds g ∧ b ∈ vertexIds g ∧ a ≠ v ∧ b ≠ v ∧
    Reach g a b ∧ ¬ ReachAvoiding g v a b

/-- The first graph of the test `Tarjan`: five vertices and the edges 1-2, 2-3. -/
def tarjanSmallGraph : GraphData Unit :=
  buildUndirected 5 [(0, 1, 2), (2, 2, 3)]

/-- The second graph of the test `Tarjan`: seven vertices and the edges 1-2, 2-3, 2-4,
3-5, 5-6, 6-7, 7-5. -/
def tarjanTestGraph : GraphData Unit :=
  buildUndirected 7 [(0, 1, 2), (2, 2, 3), (4, 2, 4), (6, 3, 5), (8, 5, 6), (10, 6, 7),
    (12, 7, 5)]

/-! ## Subgraphs, complement and the batch toggle (`data.h`, `algorithm.h`) -/

/-- Method `Graph::getDataOfVertex`; `none` is the `std::unexpected(-1)` result. -/
def Graph.getDataOfVertex {D : Type} (g : GraphData D) (id : Int) : Option D :=
  (find id g.idToVertex).map (fun v => v.data)

/-- Inner loop of `Graph::lightSubgraphOfVertices` over the edge ids of the entry `id`;
`idToEdge.at(eid)` fails on an absent id. -/
def Graph.lightVerticesEdges {D : Type} (g : GraphData D) (ids : List Int) (id : Int) :
    List Int → List (Int × List Int) → Except Fault (List (Int × List Int))
  | [], m => .ok m
  | eid :: rest, m =>
    match find eid g.idToEdge with
    | none => .error Fault.outOfRange
    | some edge =>
      Graph.lightVerticesEdges g ids id rest (if edge.dst ∈ ids then adjInsert id eid m else m)

/-- Outer loop of `Graph::lightSubgraphOfVertices` over the entries of `adjMap`. -/
def Graph.lightVerticesLoop {D : Type} (g : GraphData D) (ids : List Int) :
    List (Int × List Int) → List (Int × List Int) → Except Fault (List (Int × List Int))
  | [], m => .ok m
  | (id, edges) :: rest, m =>
    if id ∉ ids then Graph.lightVerticesLoop g ids rest m
    else
      match Graph.lightVerticesEdges g ids id edges (touch id m) with
      | .error f => .error f
      | .ok m' => Graph.lightVerticesLoop g ids rest m'

/-- Method `Graph::lightSubgraphOfVertices`. -/
def Graph.lightSubgraphOfVertices {D : Type} (g : GraphData D) (ids : List Int) :
    Except Fault (List (Int × List Int)) :=
  Graph.lightVerticesLoop g ids g.adjMap []

/-- First loop of `Graph::subgraphOfVertices`: the vertex of every adjacency key is
copied; `idToVertex.at(id)` fails on an absent id. -/
def Graph.copyVertices {D : Type} (g : GraphData D) :
    List (Int × List Int) → List (Int × Vertex D) → Except Fault (List (Int × Vertex D))
  | [], vt => .ok vt
  | (id, _) :: rest, vt =>
    match find id g.idToVertex with
    | none => .error Fault.outOfRange
    | some v => Graph.copyVertices g rest (emplace id v vt)

/-- Inner loop of the second loop of `Graph::subgraphOfVertices` over one adjacency set. -/
def Graph.copyEdgeIds {D : Type} (g : GraphData D) :
    List Int → List (Int × Edge) → Except Fault (List (Int × Edge))
  | [], et => .ok et
  | eid :: rest, et =>
    match find eid g.idToEdge with
    | none => .error Fault.outOfRange
    | some e => Graph.copyEdgeIds g rest (emplace eid e et)

/-- Second loop of `Graph::subgraphOfVertices`: the edges listed in the new adjacency
index are copied. -/
def Graph.copyEdges {D : Type} (g : GraphData D) :
    List (Int × List Int) → List (Int × Edge) → Except Fault (List (Int × Edge))
  | [], et => .ok et
  | (_, edges) :: rest, et =>
    match Graph.copyEdgeIds g edges et with
    | .error f => .error f
    | .ok et' => Graph.copyEdges g rest et'

/-- Method `Graph::subgraphOfVertices`. -/
def Graph.subgraphOfVertices {D : Type} (g : GraphData D) (ids : List Int) :
    Except Fault (GraphData D) :=
  match Graph.lightSubgraphOfVertices g ids with
  | .error f => .error f
  | .ok adj =>
    match Graph.copyVertices g adj [] with
    | .error f => .error f
    | .ok vt =>
      match Graph.copyEdges g adj [] with
      | .error f => .error f
      | .ok et => .ok { adjMap := adj, idToVertex := vt, idToEdge := et }

/-- Inner loop of `Graph::lightSubgraphOfEdges` over one adjacency set. -/
def Graph.lightEdgesInner {D : Type} (g : GraphData D) (ids : List Int) :
    List Int → List (Int × List Int) → Except Fault (List (Int × List Int))
  | [], m => .ok m
  | eid :: rest, m =>
    if eid ∉ ids then Graph.lightEdgesInner g ids rest m
    else
      match find eid g.idToEdge with
      | none => .error Fault.outOfRange
      | some edge => Graph.lightEdgesInner g ids rest (adjInsert edge.src eid m)

/-- Outer loop of `Graph::lightSubgraphOfEdges` over the entries of `adjMap`. -/
def Graph.lightEdgesLoop {D : Type} (g : GraphData D) (ids : List Int) :
    List (Int × List Int) → List (Int × List Int) → Except Fault (List (Int × List Int))
  | [], m => .ok m
  | (_, edges) :: rest, m =>
    match Graph.lightEdgesInner g ids edges m with
    | .error f => .error f
    | .ok m' => Graph.lightEdgesLoop g ids rest m'

/-- Method `Graph::lightSubgraphOfEdges`. -/
def Graph.lightSubgraphOfEdges {D : Type} (g : GraphData D) (ids : List Int) :
    Except Fault (List (Int × List Int)) :=
  Graph.lightEdgesLoop g ids g.adjMap []

/-- Inner loop of `Graph::subgraphOfEdges` over one adjacency set of the new index: the
edge and the vertex of its destination are copied. -/
def Graph.copyEdgesAndTargets {D : Type} (g : GraphData D) :
    List Int → List (Int × Vertex D) × List (Int × Edge) →
      Except Fault (List (Int × Vertex D) × List (Int × Edge))
  | [], s => .ok s
  | eid :: rest, (vt, et) =>
    match find eid g.idToEdge with
    | none => .error Fault.outOfRange
    | some ed =>
      match find ed.dst g.idToVertex with
      | none => .error Fault.outOfRange
      | some w => Graph.copyEdgesAndTargets g rest (emplace ed.dst w vt, emplace eid ed et)

/-- The loop of `Graph::subgraphOfEdges` over the entries of the new adjacency index. -/
def Graph.copyEntries {D : Type} (g : GraphData D) :
    List (Int × List Int) → List (Int × Vertex D) × List (Int × Edge) →
      Except Fault (List (Int × Vertex D) × List (Int × Edge))
  | [], s => .ok s
  | (id, edges) :: rest, (vt, et) =>
    match find id g.idToVertex with
    | none => .error Fault.outOfRange
    | some v =>
      match Graph.copyEdgesAndTargets g edges (emplace id v vt, et) with
      | .error f => .error f
      | .ok s' => Graph.copyEntries g rest s'

/-- Method `Graph::subgraphOfEdges`. -/
def Graph.subgraphOfEdges {D : Type} (g : GraphData D) (ids : List Int) :
    Except Fault (GraphData D) :=
  match Graph.lightSubgraphOfEdges g ids with
  | .error f => .error f
  | .ok adj =>
    match Graph.copyEntries g adj ([], []) with
    | .error f => .error f
    | .ok (vt, et) => .ok { adjMap := adj, idToVertex := vt, idToEdge := et }

/-- The function `addOrRemove(graph, edges)`; `delEdge` and `addEdge` are the virtual
methods of the graph passed in (those of `Graph` or of `UndirectedGraph`). -/
def algorithm.addOrRemove {D : Type}
    (delEdge : GraphData D → Int → Bool × GraphData D)
    (addEdge : GraphData D → Edge → Bool × GraphData D) :
    GraphData D → List Edge → GraphData D
  | g, [] => g
  | g, ed :: rest =>
    let r := delEdge g ed.id
    if r.1 then algorithm.addOrRemove delEdge addEdge r.2 rest
    else algorithm.addOrRemove delEdge addEdge (addEdge r.2 ed).2 rest

/-- The graph of the test `Subgraph`: vertices 1..5 with payloads 10..50 and the edges
1 -> 2, 2 -> 3, 3 -> 4, 4 -> 5, 1 -> 5. -/
def subgraphTestGraph : GraphData Int :=
  [((1 : Int), (1 : Int), (2 : Int)), (2, 2, 3), (3, 3, 4), (4, 4, 5), (5, 1, 5)].foldl
    (fun g e => (Graph.addEdge g ⟨e.1, e.2.1, e.2.2, 1⟩).2)
    ((List.range 5).foldl (fun g i => Graph.addVertex g ⟨(i : Int) + 1, ((i : Int) + 1) * 10⟩)
      (GraphData.empty Int))

/-- Method `UndirectedGraph::numEdges`. -/
def UndirectedGraph.numEdges {D : Type} (g : GraphData D) : Nat := g.idToEdge.length / 2

/-- The variables that the loops of `UndirectedGraph::complement` update: `compMap`,
`graphData.idToEdge` and the field `currentId` of `idCounter`. -/
structure ComplementState where
  compMap : List (Int × List Int)
  idToEdge : List (Int × Edge)
  currentId : Int

/-- The scan `for (auto eid : adjMap.at(v))` of `complement`, which stops at the first
edge whose destination is `u`. -/
def UndirectedGraph.connectedTo {D : Type} (g : GraphData D) (u : Int) :
    List Int → Except Fault Bool
  | [] => .ok false
  | eid :: rest =>
    match find eid g.idToEdge with
    | none => .error Fault.outOfRange
    | some e => if e.dst = u then .ok true else UndirectedGraph.connectedTo g u rest

/-- The loop `for (const auto& [u, _2] : adjMap)` of `complement` for a fixed `v`. -/
def UndirectedGraph.complementInner {D : Type} (g : GraphData D) (v : Int) :
    List (Int × List Int) → ComplementState → Except Fault ComplementState
  | [], s => .ok s
  | (u, _) :: rest, s =>
    if u = v then UndirectedGraph.complementInner g v rest s
    else
      match find v g.adjMap with
      | none => .error Fault.outOfRange
      | some es =>
        match UndirectedGraph.connectedTo g u es with
        | .error f => .error f
        | .ok true => UndirectedGraph.complementInner g v rest s
        | .ok false =>
          let cm := touch v s.compMap
          if u ∈ (find v cm).getD [] then
            UndirectedGraph.complementInner g v rest { s with compMap := cm }
          else
            let id := s.currentId + 2
            let e : Edge := { id := id, src := v, dst := u, weight := 1 }
            let revE : Edge := { id := getPairedId id, src := u, dst := v, weight := 1 }
            UndirectedGraph.complementInner g v rest
              { compMap := adjInsert u id (adjInsert v id cm),
                idToEdge := assign revE.id revE (assign id e s.idToEdge),
                currentId := id }

/-- The loop `for (const auto& [v, _] : adjMap)` of `complement`. -/
def UndirectedGraph.complementOuter {D : Type} (g : GraphData D) :
    List (Int × List Int) → ComplementState → Except Fault ComplementState
  | [], s => .ok s
  | (v, _) :: rest, s =>
    match UndirectedGraph.complementInner g v g.adjMap s with
    | .error f => .error f
    | .ok s' => UndirectedGraph.complementOuter g rest s'

/-- The loop `for (const auto& p : idToEdge)` of `complement`, whose body is the pair of
nested loops over `adjMap`. -/
def UndirectedGraph.complementPasses {D : Type} (g : GraphData D) :
    List (Int × Edge) → ComplementState → Except Fault ComplementState
  | [], s => .ok s
  | _ :: rest, s =>
    match UndirectedGraph.complementOuter g g.adjMap s with
    | .error f => .error f
    | .ok s' => UndirectedGraph.complementPasses g rest s'

/-- Method `UndirectedGraph::complement`. -/
def UndirectedGraph.complement {D : Type} (g : GraphData D) : Except Fault (GraphData D) :=
  match UndirectedGraph.complementPasses g g.idToEdge
      { compMap := [], idToEdge := [], currentId := 0 } with
  | .error f => .error f
  | .ok s => .ok { adjMap := s.compMap, idToVertex := g.idToVertex, idToEdge := s.idToEdge }

/-- The paired-edge invariant: every stored edge id has its paired id stored, with
reversed endpoints and the same weight. -/
def PairedInvariant {D : Type} (g : GraphData D) : Prop :=
  ∀ id e, find id g.idToEdge = some e →
    find (getPairedId id) g.idToEdge =
      some { id := getPairedId id, src := e.dst, dst := e.src, weight := e.weight }

/-- States of an `UndirectedGraph` that the public mutators produce from the empty graph,
with `addEdge` called only for an id that is fresh together with its paired id. -/
inductive UndirectedGraph.Reachable {D : Type} : GraphData D → Prop
  | empty : UndirectedGraph.Reachable (GraphData.empty D)
  | addVertex {g : GraphData D} (v : Vertex D) :
      UndirectedGraph.Reachable g → UndirectedGraph.Reachable (Graph.addVertex g v)
  | addEdge {g : GraphData D} (e : Edge) :
      UndirectedGraph.Reachable g → find e.id g.idToEdge = none →
      find (getPairedId e.id) g.idToEdge = none →
      UndirectedGraph.Reachable (UndirectedGraph.addEdge g e).2
  | delEdge {g : GraphData D} (id : Int) :
      UndirectedGraph.Reachable g → UndirectedGraph.Reachable (UndirectedGraph.delEdge g id).2
  | delVertex {g g' : GraphData D} (id : Int) (b : Bool) :
      UndirectedGraph.Reachable g → Graph.delVertex g id = .ok (b, g') →
      UndirectedGraph.Reachable g'

/-- The undirected graph after `addEdge(Edge(2, 1, 2))` and `delEdge(2)`. -/
def mirrorLeftBehind : GraphData Unit :=
  (UndirectedGraph.delEdge (UndirectedGraph.addEdge (GraphData.empty Unit) ⟨2, 1, 2, 1⟩).2 2).2

/-- Two isolated vertices 1 and 2, as an undirected graph. -/
def twoIsolated : GraphData Unit := buildUndirected 2 []

/-- Three vertices and the undirected edge 1-2 with id 2. -/
def oneEdgeOfThree : GraphData Unit := buildUndirected 3 [(2, 1, 2)]

/-- The graph of the test `GetDataOfVertex`: the vertices (1, 10) and (2, 20). -/
def twoVertices : GraphData Int :=
  Graph.addVertex (Graph.addVertex (GraphData.empty Int) ⟨1, 10⟩) ⟨2, 20⟩

/-- The graph of the test `AddAndRemoveEdge` before `delEdge(1)`: the vertices 1 and 2
and the edges `Edge(1, 1, 2)` and `Edge(2, 2, 1)`. -/
def twoEdges : GraphData Int :=
  (Graph.addEdge
    (Graph.addEdge
      (Graph.addVertex (Graph.addVertex (GraphData.empty Int) ⟨1, 10⟩) ⟨2, 20⟩)
      ⟨1, 1, 2, 1⟩).2
    ⟨2, 2, 1, 1⟩).2

/-- The edge id `eid` is in the set stored under `v` in the adjacency index `m`. -/
def ListedIn (m : List (Int × List Int)) (v eid : Int) : Prop :=
  ∃ es, find v m = some es ∧ eid ∈ es

/-- Every entry of the table `t` is an entry of the table `T`. -/
def SubTable {α : Type} (t T : List (Int × α)) : Prop :=
  ∀ k x, find k t = some x → find k T = some x

/-- No key of the adjacency index `m` has an empty set. -/
def NoEmptyEntry (m : List (Int × List Int)) : Prop :=
  ∀ v es, find v m = some es → es ≠ []

/-- States of a directed `Graph` that `addVertex`, `addEdge` with an edge id that the
edge table does not hold yet, `delEdge` and `delVertex` produce from the empty graph. -/
inductive Graph.ReachableFresh {D : Type} : GraphData D → Prop
  | empty : Graph.ReachableFresh (GraphData.empty D)
  | addVertex {g : GraphData D} (v : Vertex D) :
      Graph.ReachableFresh g → Graph.ReachableFresh (Graph.addVertex g v)
  | addEdge {g : GraphData D} (e : Edge) :
      Graph.ReachableFresh g → find e.id g.idToEdge = none →
      Graph.ReachableFresh (Graph.addEdge g e).2
  | delEdge {g : GraphData D} (id : Int) :
      Graph.ReachableFresh g → Graph.ReachableFresh (Graph.delEdge g id).2
  | delVertex {g g' : GraphData D} (id : Int) (b : Bool) :
      Graph.ReachableFresh g → Graph.delVertex g id = .ok (b, g') → Graph.ReachableFresh g'

/-- No set of the adjacency index `m` lists an edge id twice, as in every
`std::unordered_set`. -/
def NodupSets (m : List (Int × List Int)) : Prop :=
  ∀ v es, find v m = some es → es.Nodup

/-- The shape that the mutators of `Graph` keep: the adjacency index has distinct keys
and sets without repetition, and it is consistent with the edge table. -/
def Graph.WellFormed {D : Type} (g : GraphData D) : Prop :=
  IsMap g.adjMap ∧ NodupSets g.adjMap ∧ AdjConsistent g

/-- The graph of the test `GetEdgesOfVertex`: vertices 1, 2, 3 and the edges 1 -> 2
(id 1) and 2 -> 3 (id 2). -/
def edgesOfVertexGraph : GraphData Int :=
  (Graph.addEdge
    (Graph.addEdge
      (Graph.addVertex (Graph.addVertex (Graph.addVertex (GraphData.empty Int) ⟨1, 10⟩)
        ⟨2, 20⟩) ⟨3, 30⟩)
      ⟨1, 1, 2, 1⟩).2
    ⟨2, 2, 3, 1⟩).2

/-- States of a directed `Graph` that `addVertex`, `addEdge` with an edge whose source
is a stored vertex, `delEdge` and `delVertex` produce from the empty graph. -/
inductive Graph.ReachableStoredSource {D : Type} : GraphData D → Prop
  | empty : Graph.ReachableStoredSource (GraphData.empty D)
  | addVertex {g : GraphData D} (v : Vertex D) :
      Graph.ReachableStoredSource g → Graph.ReachableStoredSource (Graph.addVertex g v)
  | addEdge {g : GraphData D} (e : Edge) :
      Graph.ReachableStoredSource g → (find e.src g.idToVertex).isSome = true →
      Graph.ReachableStoredSource (Graph.addEdge g e).2
  | delEdge {g : GraphData D} (id : Int) :
      Graph.ReachableStoredSource g → Graph.ReachableStoredSource (Graph.delEdge g id).2
  | delVertex {g g' : GraphData D} (id : Int) (b : Bool) :
      Graph.ReachableStoredSource g → Graph.delVertex g id = .ok (b, g') →
      Graph.ReachableStoredSource g'

/-- The adjacency index and the vertex table have distinct keys each, and the same
keys. -/
def KeysAgree {D : Type} (g : GraphData D) : Prop :=
  IsMap g.adjMap ∧ IsMap g.idToVertex ∧
    ∀ v, (find v g.adjMap).isSome = true ↔ (find v g.idToVertex).isSome = true

/-- The graph of the test `AddAndRemoveVertex` after `delVertex(1)`: the vertex (2, 20)
with its empty adjacency set. -/
def oneVertexLeft : GraphData Int :=
  { adjMap := [(2, [])], idToVertex := [(2, ⟨2, 20⟩)], idToEdge := [] }

/-- A directed graph with the vertices 1 and 2 and the single edge 2 -> 1. -/
def oneWayEdge : GraphData Unit :=
  (Graph.addEdge (Graph.addVertex (Graph.addVertex (GraphData.empty Unit) ⟨1, ()⟩) ⟨2, ()⟩)
    ⟨1, 2, 1, 1⟩).2

/-- An undirected graph with the vertices 1 and 2 and the edge 1-3, stored with its
mirror; vertex 3 was never added. -/
def mirroredDangling : GraphData Unit :=
  (UndirectedGraph.addEdge
    (Graph.addVertex (Graph.addVertex (GraphData.empty Unit) ⟨1, ()⟩) ⟨2, ()⟩)
    ⟨0, 1, 3, 1⟩).2

/-- The undirected graph after `addEdge(Edge(2, 1, 2))` and `addEdge(Edge(1, 3, 4))`: the
second call reuses the mirror id 1 of the first, so the edge table keeps the edges 2
(1 -> 2) and 1 (2 -> 1), and the ids 1 and 2 are also listed under the vertices 3 and 4. -/
def collidingIds : GraphData Unit :=
  (UndirectedGraph.addEdge (UndirectedGraph.addEdge (GraphData.empty Unit) ⟨2, 1, 2, 1⟩).2
    ⟨1, 3, 4, 1⟩).2

/-! ## Basic facts about the containers -/

theorem find_eraseKey {α : Type} (k k' : Int) (m : List (Int × α)) :
    find k (eraseKey k' m) = if k = k' then none else find k m := by
  induction m with
  | nil => simp [eraseKey, find]
  | cons p m ih =>
    obtain ⟨a, v⟩ := p
    unfold eraseKey at ih ⊢
    by_cases h : a = k'
    · subst h
      by_cases hk : k = a
      · subst hk; simpa [List.filter, find] using ih
      · have hk' : ¬ a = k := fun h => hk h.symm
        simpa [List.filter, find, hk, hk'] using ih
    · by_cases hk : a = k
      · subst hk; simp [List.filter, find, h]
      · simpa [List.filter, find, h, hk] using ih

theorem find_eraseKey_self {α : Type} (k : Int) (m : List (Int × α)) :
    find k (eraseKey k m) = none := by
  simp [find_eraseKey]

theorem find_eraseKey_ne {α : Type} {k k' : Int} (h : k ≠ k') (m : List (Int × α)) :
    find k (eraseKey k' m) = find k m := by
  simp [find_eraseKey, h]

theorem find_eraseAll (k : Int) (ids : List Int) (m : List (Int × Edge)) :
    find k (Graph.eraseAll ids m) = if k ∈ ids then none else find k m := by
  induction ids generalizing m with
  | nil => simp [Graph.eraseAll]
  | cons a ids ih =>
    have : Graph.eraseAll (a :: ids) m = Graph.eraseAll ids (eraseKey a m) := rfl
    rw [this, ih, find_eraseKey]
    by_cases h1 : k ∈ ids
    · simp [h1]
    · by_cases h2 : k = a
      · simp [h2]
      · simp [h1, h2]

theorem foldl_setErase (rm es : List Int) :
    rm.foldl (fun acc eid => setErase eid acc) es = es.filter (fun x => decide (x ∉ rm)) := by
  induction rm generalizing es with
  | nil => simp
  | cons a rm ih =>
    rw [List.foldl_cons, ih, setErase, List.filter_filter]
    apply List.filter_congr
    intro x _
    simp [not_or, Bool.and_comm]

theorem find_some_mem {α : Type} {k : Int} {v : α} {m : List (Int × α)}
    (h : find k m = some v) : (k, v) ∈ m := by
  induction m with
  | nil => simp [find] at h
  | cons p m ih =>
    obtain ⟨a, w⟩ := p
    by_cases hk : a = k
    · subst hk
      simp [find] at h
      simp [h]
    · simp [find, hk] at h
      exact List.mem_cons_of_mem _ (ih h)

theorem find_of_mem {α : Type} {k : Int} {v : α} {m : List (Int × α)}
    (hm : IsMap m) (h : (k, v) ∈ m) : find k m = some v := by
  induction m with
  | nil => simp at h
  | cons p m ih =>
    obtain ⟨a, w⟩ := p
    simp only [IsMap, List.map_cons, List.nodup_cons] at hm
    rcases List.mem_cons.mp h with h | h
    · simp only [Prod.mk.injEq] at h
      obtain ⟨rfl, rfl⟩ := h
      simp [find]
    · have hne : a ≠ k := by
        intro hak
        subst hak
        exact hm.1 (List.mem_map.mpr ⟨(a, v), h, rfl⟩)
      simp only [find, hne, if_false]
      exact ih hm.2 h

theorem find_map_val {α β : Type} (f : Int → α → β) (k : Int) (m : List (Int × α)) :
    find k (m.map (fun p => (p.1, f p.1 p.2))) = (find k m).map (f k) := by
  induction m with
  | nil => rfl
  | cons p m ih =>
    obtain ⟨a, w⟩ := p
    by_cases hk : a = k
    · subst hk; simp [find]
    · simpa [find, hk] using ih

theorem find_map_filter (q : Int → Bool) (k : Int) (m : List (Int × List Int)) :
    find k (m.map (fun p => (p.1, p.2.filter q))) = (find k m).map (fun es => es.filter q) :=
  find_map_val (fun (_ : Int) (es : List Int) => es.filter q) k m

theorem isMap_eraseKey {α : Type} (k : Int) {m : List (Int × α)} (hm : IsMap m) :
    IsMap (eraseKey k m) := by
  unfold IsMap eraseKey at *
  exact (List.Nodup.sublist (List.Sublist.map _ (List.filter_sublist m)) hm)

theorem mem_eraseKey {α : Type} {k : Int} {p : Int × α} {m : List (Int × α)} :
    p ∈ eraseKey k m ↔ p ∈ m ∧ p.1 ≠ k := by
  simp [eraseKey]

theorem removeList_eq (id : Int) (table : List (Int × Edge)) (es : List Int) :
    Graph.removeList id table es =
      if es.all (fun eid => (find eid table).isSome) then
        .ok (es.filter (pointsTo table id))
      else .error Fault.outOfRange := by
  induction es with
  | nil => simp [Graph.removeList]
  | cons a es ih =>
    cases h : find a table with
    | none => simp [Graph.removeList, h]
    | some e =>
      by_cases hall : es.all (fun eid => (find eid table).isSome) = true
      · rw [if_pos hall] at ih
        have hall' : (a :: es).all (fun eid => (find eid table).isSome) = true := by
          simp only [List.all_cons, h, Option.isSome_some, Bool.true_and]
          exact hall
        rw [if_pos hall']
        by_cases hd : e.dst = id
        · simp [Graph.removeList, h, ih, List.filter, pointsTo, hd]
        · simp [Graph.removeList, h, ih, List.filter, pointsTo, hd]
      · rw [if_neg hall] at ih
        have hall' : ¬ (a :: es).all (fun eid => (find eid table).isSome) = true := by
          simp only [List.all_cons, h, Option.isSome_some, Bool.true_and]
          exact hall
        rw [if_neg hall']
        simp [Graph.removeList, h, ih]

theorem scanAdj_noop (id : Int) (adj : List (Int × List Int)) (table : List (Int × Edge))
    (b : Bool) (hdst : ∀ p ∈ adj, ∀ eid ∈ p.2, pointsTo table id eid = false) :
    Graph.scanAdj id adj table b =
      if adj.all (fun p => p.2.all (fun eid => (find eid table).isSome)) then
        .ok (adj, table, b)
      else .error Fault.outOfRange := by
  induction adj with
  | nil => simp [Graph.scanAdj]
  | cons p adj ih =>
    obtain ⟨v, es⟩ := p
    have hes : es.filter (pointsTo table id) = [] := by
      rw [List.filter_eq_nil_iff]
      intro eid he
      simp [hdst (v, es) (List.mem_cons_self _ _) eid he]
    have ih' := ih (fun q hq => hdst q (List.mem_cons_of_mem _ hq))
    by_cases h1 : es.all (fun eid => (find eid table).isSome) = true
    · by_cases h2 : adj.all (fun p => p.2.all (fun eid => (find eid table).isSome)) = true
      · rw [if_pos h2] at ih'
        simp [Graph.scanAdj, removeList_eq, h1, hes, Graph.eraseAll, ih', h2]
      · rw [if_neg h2] at ih'
        simp [Graph.scanAdj, removeList_eq, h1, hes, Graph.eraseAll, ih', h2]
    · simp [Graph.scanAdj, removeList_eq, h1]

theorem pointsTo_congr {t t' : List (Int × Edge)} {eid : Int} (h : find eid t = find eid t')
    (id : Int) : pointsTo t id eid = pointsTo t' id eid := by
  simp [pointsTo, h]

/-- The scan of `delVertex` over adjacency entries whose listed ids all resolve, in the
original table `T0` and in the current table, to an edge leaving the entry's key. -/
theorem scanAdj_spec (id : Int) (T0 : List (Int × Edge)) :
    ∀ (adj : List (Int × List Int)) (table : List (Int × Edge)) (b : Bool),
      IsMap adj →
      (∀ p ∈ adj, ∀ eid ∈ p.2,
        ∃ e, find eid T0 = some e ∧ e.src = p.1 ∧ find eid table = some e) →
      ∃ table', Graph.scanAdj id adj table b =
          .ok (adj.map (fun p => (p.1, p.2.filter (fun eid => !pointsTo T0 id eid))), table',
               b || adj.any (fun p => p.2.any (pointsTo T0 id))) ∧
        ∀ k, find k table' =
          if (∃ p ∈ adj, k ∈ p.2 ∧ pointsTo T0 id k = true) then none else find k table := by
  intro adj
  induction adj with
  | nil =>
    intro table b _ _
    exact ⟨table, by simp [Graph.scanAdj], by simp⟩
  | cons p adj ih =>
    intro table b hmap H
    obtain ⟨v, es⟩ := p
    have Hhead := H (v, es) (List.mem_cons_self _ _)
    have hall : es.all (fun eid => (find eid table).isSome) = true := by
      rw [List.all_eq_true]
      intro eid he
      obtain ⟨e, _, _, h3⟩ := Hhead eid he
      simp [h3]
    have hrm : es.filter (pointsTo table id) = es.filter (pointsTo T0 id) := by
      apply List.filter_congr
      intro eid he
      obtain ⟨e, h1, _, h3⟩ := Hhead eid he
      exact pointsTo_congr (h3.trans h1.symm) id
    have hkeep : es.filter (fun x => decide (x ∉ es.filter (pointsTo T0 id)))
        = es.filter (fun eid => !pointsTo T0 id eid) := by
      apply List.filter_congr
      intro eid he
      simp [List.mem_filter, he]
    simp only [IsMap, List.map_cons, List.nodup_cons] at hmap
    have Hrest : ∀ q ∈ adj, ∀ eid ∈ q.2, ∃ e, find eid T0 = some e ∧ e.src = q.1 ∧
        find eid (Graph.eraseAll (es.filter (pointsTo T0 id)) table) = some e := by
      intro q hq eid he
      obtain ⟨e, h1, h2, h3⟩ := H q (List.mem_cons_of_mem _ hq) eid he
      refine ⟨e, h1, h2, ?_⟩
      rw [find_eraseAll, if_neg, h3]
      intro hmem
      have hes : eid ∈ es := (List.mem_filter.mp hmem).1
      obtain ⟨e', h1', h2', _⟩ := Hhead eid hes
      rw [h1] at h1'
      cases h1'
      have : q.1 = v := h2.symm.trans h2'
      exact hmap.1 (List.mem_map.mpr ⟨q, hq, this⟩)
    obtain ⟨table', hrun, hfind⟩ :=
      ih (Graph.eraseAll (es.filter (pointsTo T0 id)) table)
        (b || !(es.filter (pointsTo T0 id)).isEmpty) hmap.2 Hrest
    refine ⟨table', ?_, ?_⟩
    · simp only [Graph.scanAdj, removeList_eq, hall, if_true, hrm, foldl_setErase, hkeep, hrun,
        List.map_cons, List.any_cons]
      congr 3
      have : (!(es.filter (pointsTo T0 id)).isEmpty) = es.any (pointsTo T0 id) := by
        cases h : es.any (pointsTo T0 id)
        · have : es.filter (pointsTo T0 id) = [] := by
            rw [List.filter_eq_nil_iff]
            intro a ha
            have := List.any_eq_false.mp h a ha
            simpa using this
          simp [this]
        · obtain ⟨a, ha, hp⟩ := List.any_eq_true.mp h
          have hm : a ∈ es.filter (pointsTo T0 id) := List.mem_filter.mpr ⟨ha, hp⟩
          cases h' : es.filter (pointsTo T0 id) with
          | nil => rw [h'] at hm; simp at hm
          | cons _ _ => simp
      rw [this, Bool.or_assoc]
    · intro k
      rw [hfind k, find_eraseAll]
      by_cases hk : ∃ p ∈ adj, k ∈ p.2 ∧ pointsTo T0 id k = true
      · have : ∃ p ∈ (v, es) :: adj, k ∈ p.2 ∧ pointsTo T0 id k = true := by
          obtain ⟨q, hq, h⟩ := hk
          exact ⟨q, List.mem_cons_of_mem _ hq, h⟩
        rw [if_pos hk, if_pos this]
      · rw [if_neg hk]
        by_cases hk2 : k ∈ es.filter (pointsTo T0 id)
        · have : ∃ p ∈ (v, es) :: adj, k ∈ p.2 ∧ pointsTo T0 id k = true :=
            ⟨(v, es), List.mem_cons_self _ _, (List.mem_filter.mp hk2).1,
              (List.mem_filter.mp hk2).2⟩
          rw [if_pos hk2, if_pos this]
        · have : ¬ ∃ p ∈ (v, es) :: adj, k ∈ p.2 ∧ pointsTo T0 id k = true := by
            rintro ⟨q, hq, h1, h2⟩
            rcases List.mem_cons.mp hq with rfl | hq
            · exact hk2 (List.mem_filter.mpr ⟨h1, h2⟩)
            · exact hk ⟨q, hq, h1, h2⟩
          rw [if_neg hk2, if_neg this]

theorem mem_setInsert {x c : Int} {s : List Int} : x ∈ setInsert c s ↔ x = c ∨ x ∈ s := by
  unfold setInsert
  by_cases h : c ∈ s
  · simp only [h, if_true]
    constructor
    · exact Or.inr
    · rintro (rfl | h') <;> assumption
  · simp only [h, if_false, List.mem_append, List.mem_singleton]
    tauto

theorem find_map_assign {α : Type} (k k' : Int) (v : α) (m : List (Int × α)) :
    find k (m.map (fun p => if p.1 = k' then (p.1, v) else p)) =
      if k = k' then (find k m).map (fun _ => v) else find k m := by
  induction m with
  | nil => simp [find]
  | cons p m ih =>
    obtain ⟨a, w⟩ := p
    rw [List.map_cons]
    by_cases h1 : a = k'
    · rw [if_pos (show (a, w).1 = k' from h1)]
      show (if a = k then some v else find k _) = _
      by_cases h2 : a = k
      · have h3 : k = k' := h2.symm.trans h1
        simp [find, h2, h3]
      · rw [if_neg h2, ih]
        simp [find, h2]
    · rw [if_neg (show ¬ (a, w).1 = k' from h1)]
      show (if a = k then some w else find k _) = _
      by_cases h2 : a = k
      · have h3 : ¬ k = k' := fun h => h1 (h2.trans h)
        simp [find, h2, h3]
      · rw [if_neg h2, ih]
        simp [find, h2]

theorem find_append_single {α : Type} (k k' : Int) (v : α) (m : List (Int × α)) :
    find k (m ++ [(k', v)]) =
      match find k m with
      | some x => some x
      | none => if k' = k then some v else none := by
  induction m with
  | nil => simp [find]
  | cons p m ih =>
    obtain ⟨a, w⟩ := p
    by_cases h : a = k
    · simp [find, h]
    · simpa [find, h] using ih

theorem find_assign {α : Type} (k k' : Int) (v : α) (m : List (Int × α)) :
    find k (assign k' v m) = if k = k' then some v else find k m := by
  unfold assign hasKey
  cases h : find k' m with
  | none =>
    simp only [Option.isSome_none, Bool.false_eq_true, if_false, find_append_single]
    by_cases hk : k = k'
    · subst hk; simp [h]
    · have hk' : ¬ k' = k := fun h => hk h.symm
      cases hf : find k m <;> simp [hk, hk']
  | some x =>
    simp only [Option.isSome_some, if_true, find_map_assign]
    by_cases hk : k = k'
    · subst hk; simp [h]
    · simp [hk]

theorem readD_assign (k k' v : Int) (m : List (Int × Int)) :
    algorithm.readD k (assign k' v m) = if k = k' then v else algorithm.readD k m := by
  unfold algorithm.readD
  rw [find_assign]
  by_cases h : k = k' <;> simp [h]

theorem arc_iff {D : Type} (g : GraphData D) (u w : Int) :
    arc g u w = true ↔
      ∃ es, find u g.adjMap = some es ∧
        ∃ eid ∈ es, ∃ e, find eid g.idToEdge = some e ∧ e.dst = w := by
  unfold arc
  cases h : find u g.adjMap with
  | none => simp
  | some es =>
    simp only [List.any_eq_true, Option.some.injEq, exists_eq_left']
    constructor
    · rintro ⟨eid, he, hp⟩
      refine ⟨eid, he, ?_⟩
      unfold pointsTo at hp
      cases hf : find eid g.idToEdge with
      | none => simp [hf] at hp
      | some e =>
        simp only [hf, decide_eq_true_eq] at hp
        exact ⟨e, rfl, hp⟩
    · rintro ⟨eid, he, e, hf, hd⟩
      exact ⟨eid, he, by simp [pointsTo, hf, hd]⟩

theorem sum_filter_le (l : List (Int × List Int)) (P Q : Int × List Int → Bool)
    (h : ∀ p, Q p = true → P p = true) :
    ((l.filter Q).map (fun p => p.2.length)).sum ≤ ((l.filter P).map (fun p => p.2.length)).sum := by
  induction l with
  | nil => simp
  | cons a l ih =>
    by_cases hq : Q a = true
    · have hp := h a hq
      simp only [List.filter_cons, hq, hp, if_true, List.map_cons, List.sum_cons]
      omega
    · by_cases hp : P a = true
      · simp only [List.filter_cons, hq, hp, if_true, if_false, List.map_cons, List.sum_cons,
          Bool.false_eq_true]
        omega
      · simp only [List.filter_cons, hq, hp, if_false, Bool.false_eq_true]
        exact ih

theorem pending_step (l : List (Int × List Int)) (visited : List Int) (curr : Int)
    (es : List Int) (hmem : (curr, es) ∈ l) (hc : curr ∉ visited) :
    ((l.filter (fun p => decide (p.1 ∉ setInsert curr visited))).map (fun p => p.2.length)).sum
        + es.length ≤
      ((l.filter (fun p => decide (p.1 ∉ visited))).map (fun p => p.2.length)).sum := by
  induction l with
  | nil => simp at hmem
  | cons a l ih =>
    have hmono : ∀ p : Int × List Int, decide (p.1 ∉ setInsert curr visited) = true →
        decide (p.1 ∉ visited) = true := by
      intro p hp
      simp only [decide_eq_true_eq] at hp ⊢
      exact fun h => hp (mem_setInsert.mpr (Or.inr h))
    rcases List.mem_cons.mp hmem with h | h
    · subst h
      have h1 : decide ((curr, es).1 ∉ setInsert curr visited) = false := by
        simp [mem_setInsert]
      have h2 : decide ((curr, es).1 ∉ visited) = true := by simpa using hc
      simp only [List.filter_cons, h1, h2, if_true, List.map_cons, List.sum_cons]
      have := sum_filter_le l (fun p => decide (p.1 ∉ visited))
        (fun p => decide (p.1 ∉ setInsert curr visited)) hmono
      simp only [Bool.false_eq_true, if_false]
      omega
    · have ih' := ih h
      by_cases hq : decide (a.1 ∉ setInsert curr visited) = true
      · have hp := hmono a hq
        simp only [List.filter_cons, hq, hp, if_true, List.map_cons, List.sum_cons]
        omega
      · by_cases hp : decide (a.1 ∉ visited) = true
        · simp only [List.filter_cons, hq, hp, if_true, if_false, List.map_cons, List.sum_cons,
            Bool.false_eq_true]
          omega
        · simp only [List.filter_cons, hq, hp, if_false, Bool.false_eq_true]
          exact ih'

/-- The inner loop of the search: either it returns a positive distance on reaching the
target, or it appends to the queue destinations of the scanned edges, none of them the
target, so that every scanned destination is visited or queued. -/
theorem bfsEdges_spec {D : Type} (g : GraphData D) (target curr : Int) (visited : List Int) :
    ∀ (es : List Int) (dist : List (Int × Int)) (q : List Int),
      (∀ eid ∈ es, ∃ e, find eid g.idToEdge = some e) →
      (∀ k, 0 ≤ algorithm.readD k dist) →
      (∃ d, algorithm.bfsEdges g target curr visited es dist q = .ok (.inl d) ∧ 0 < d ∧
          ∃ eid ∈ es, ∃ e, find eid g.idToEdge = some e ∧ e.dst = target) ∨
      (∃ dist' new, algorithm.bfsEdges g target curr visited es dist q
            = .ok (.inr (dist', q ++ new)) ∧
          (∀ k, 0 ≤ algorithm.readD k dist') ∧ new.length ≤ es.length ∧
          (∀ x ∈ new, x ≠ target ∧
            ∃ eid ∈ es, ∃ e, find eid g.idToEdge = some e ∧ e.dst = x) ∧
          (∀ eid ∈ es, ∀ e, find eid g.idToEdge = some e → e.dst ∈ visited ∨ e.dst ∈ new)) := by
  intro es
  induction es with
  | nil =>
    intro dist q _ hd
    right
    exact ⟨dist, [], by simp [algorithm.bfsEdges], hd, by simp, by simp, by simp⟩
  | cons eid rest ih =>
    intro dist q hres hd
    obtain ⟨e, he⟩ := hres eid (List.mem_cons_self _ _)
    have hres' : ∀ x ∈ rest, ∃ e, find x g.idToEdge = some e :=
      fun x hx => hres x (List.mem_cons_of_mem _ hx)
    by_cases hv : e.dst ∈ visited
    · have hstep : algorithm.bfsEdges g target curr visited (eid :: rest) dist q =
          algorithm.bfsEdges g target curr visited rest dist q := by
        simp [algorithm.bfsEdges, Graph.getEdge, he, hv]
      rcases ih dist q hres' hd with ⟨d, h1, h2, x, hx, h3⟩ | ⟨dist', new, h1, h2, h3, h4, h5⟩
      · left
        exact ⟨d, hstep.trans h1, h2, x, List.mem_cons_of_mem _ hx, h3⟩
      · right
        refine ⟨dist', new, hstep.trans h1, h2, by simp; omega, ?_, ?_⟩
        · intro x hx
          obtain ⟨hx1, y, hy, hy2⟩ := h4 x hx
          exact ⟨hx1, y, List.mem_cons_of_mem _ hy, hy2⟩
        · intro y hy e' he'
          rcases List.mem_cons.mp hy with rfl | hy
          · rw [he] at he'
            cases he'
            exact Or.inl hv
          · exact h5 y hy e' he'
    · by_cases ht : e.dst = target
      · left
        refine ⟨algorithm.readD curr dist + 1, ?_, ?_, eid, List.mem_cons_self _ _, e, he, ht⟩
        · have hv' : target ∉ visited := ht ▸ hv
          simp [algorithm.bfsEdges, Graph.getEdge, he, hv', ht, readD_assign]
        · have := hd curr
          omega
      · have hd' : ∀ k, 0 ≤ algorithm.readD k
            (assign e.dst (algorithm.readD curr dist + 1) dist) := by
          intro k
          rw [readD_assign]
          by_cases hk : k = e.dst
          · rw [if_pos hk]
            have := hd curr
            omega
          · rw [if_neg hk]
            exact hd k
        have hstep : algorithm.bfsEdges g target curr visited (eid :: rest) dist q =
            algorithm.bfsEdges g target curr visited rest
              (assign e.dst (algorithm.readD curr dist + 1) dist) (q ++ [e.dst]) := by
          simp [algorithm.bfsEdges, Graph.getEdge, he, hv, ht]
        rcases ih _ (q ++ [e.dst]) hres' hd' with
          ⟨d, h1, h2, x, hx, h3⟩ | ⟨dist', new, h1, h2, h3, h4, h5⟩
        · left
          exact ⟨d, hstep.trans h1, h2, x, List.mem_cons_of_mem _ hx, h3⟩
        · right
          refine ⟨dist', e.dst :: new, ?_, h2, by simp; omega, ?_, ?_⟩
          · rw [hstep, h1]
            simp
          · intro x hx
            rcases List.mem_cons.mp hx with rfl | hx
            · exact ⟨ht, eid, List.mem_cons_self _ _, e, he, rfl⟩
            · obtain ⟨hx1, y, hy, hy2⟩ := h4 x hx
              exact ⟨hx1, y, List.mem_cons_of_mem _ hy, hy2⟩
          · intro y hy e' he'
            rcases List.mem_cons.mp hy with rfl | hy
            · rw [he] at he'
              cases he'
              exact Or.inr (List.mem_cons_self _ _)
            · rcases h5 y hy e' he' with h | h
              · exact Or.inl h
              · exact Or.inr (List.mem_cons_of_mem _ h)

/-- The `while` loop of the search, started in a state that satisfies the invariant of
breadth-first search with enough fuel, returns `-1` when the target is unreachable and
a positive number when it is reachable. -/
theorem bfsLoop_spec {D : Type} (g : GraphData D) (source target : Int)
    (hres : ∀ v es, find v g.adjMap = some es → ∀ eid ∈ es,
      ∃ e, find eid g.idToEdge = some e ∧ (find e.dst g.adjMap).isSome = true) :
    ∀ (fuel : Nat) (dist : List (Int × Int)) (visited q : List Int),
      (∀ k, 0 ≤ algorithm.readD k dist) →
      (∀ x ∈ q, Reach g source x ∧ (find x g.adjMap).isSome = true ∧ x ≠ target) →
      (∀ x ∈ visited, Reach g source x ∧ x ≠ target ∧
        ∀ w, Arc g x w → w ∈ visited ∨ w ∈ q) →
      (source ∈ visited ∨ source ∈ q) →
      q.length + pending g visited < fuel →
      ∃ d, algorithm.bfsLoop g target fuel dist visited q = .ok d ∧
        ((d = -1 ∧ ¬ Reach g source target) ∨ (0 < d ∧ Reach g source target)) := by
  intro fuel
  induction fuel with
  | zero => intro _ _ _ _ _ _ _ h; omega
  | succ fuel ih =>
    intro dist visited q hd hq hvis hsrc hfuel
    cases q with
    | nil =>
      refine ⟨-1, by simp [algorithm.bfsLoop], Or.inl ⟨rfl, ?_⟩⟩
      have hs : source ∈ visited := by simpa using hsrc
      have hclosed : ∀ w, Reach g source w → w ∈ visited := by
        intro w hw
        induction hw with
        | refl => exact hs
        | tail _ hbc ihb => simpa using (hvis _ ihb).2.2 _ hbc
      intro hreach
      exact (hvis target (hclosed target hreach)).2.1 rfl
    | cons curr q' =>
      by_cases hc : curr ∈ visited
      · have hstep : algorithm.bfsLoop g target (fuel + 1) dist visited (curr :: q') =
            algorithm.bfsLoop g target fuel dist visited q' := by
          simp [algorithm.bfsLoop, hc]
        rw [hstep]
        apply ih dist visited q' hd
        · exact fun x hx => hq x (List.mem_cons_of_mem _ hx)
        · intro x hx
          obtain ⟨h1, h2, h3⟩ := hvis x hx
          refine ⟨h1, h2, fun w hw => ?_⟩
          rcases h3 w hw with h | h
          · exact Or.inl h
          · rcases List.mem_cons.mp h with rfl | h
            · exact Or.inl hc
            · exact Or.inr h
        · rcases hsrc with h | h
          · exact Or.inl h
          · rcases List.mem_cons.mp h with rfl | h
            · exact Or.inl hc
            · exact Or.inr h
        · simp only [List.length_cons] at hfuel
          omega
      · obtain ⟨hcr, hca, hct⟩ := hq curr (List.mem_cons_self _ _)
        obtain ⟨es, hes⟩ := Option.isSome_iff_exists.mp hca
        have hresE : ∀ eid ∈ es, ∃ e, find eid g.idToEdge = some e := by
          intro eid he
          obtain ⟨e, h1, _⟩ := hres curr es hes eid he
          exact ⟨e, h1⟩
        rcases bfsEdges_spec g target curr (setInsert curr visited) es dist q' hresE hd with
          ⟨d, h1, h2, eid, he, e, hfe, hdst⟩ | ⟨dist', new, h1, h2, h3, h4, h5⟩
        · refine ⟨d, by simp [algorithm.bfsLoop, hc, Graph.getEdgeIdsOfVertex, hes, h1],
            Or.inr ⟨h2, ?_⟩⟩
          exact Relation.ReflTransGen.tail hcr
            ((arc_iff g curr target).mpr ⟨es, hes, eid, he, e, hfe, hdst⟩)
        · have hstep : algorithm.bfsLoop g target (fuel + 1) dist visited (curr :: q') =
              algorithm.bfsLoop g target fuel dist' (setInsert curr visited) (q' ++ new) := by
            simp [algorithm.bfsLoop, hc, Graph.getEdgeIdsOfVertex, hes, h1]
          rw [hstep]
          apply ih dist' (setInsert curr visited) (q' ++ new) h2
          · intro x hx
            rcases List.mem_append.mp hx with hx | hx
            · exact hq x (List.mem_cons_of_mem _ hx)
            · obtain ⟨hxt, eid, he, e, hfe, hdst⟩ := h4 x hx
              obtain ⟨e', h1', h2'⟩ := hres curr es hes eid he
              rw [hfe] at h1'
              cases h1'
              refine ⟨?_, hdst ▸ h2', hxt⟩
              exact Relation.ReflTransGen.tail hcr
                ((arc_iff g curr x).mpr ⟨es, hes, eid, he, e, hfe, hdst⟩)
          · intro x hx
            rcases mem_setInsert.mp hx with rfl | hx
            · refine ⟨hcr, hct, fun w hw => ?_⟩
              obtain ⟨es', hes', eid, he, e, hfe, hdst⟩ := (arc_iff g x w).mp hw
              rw [hes] at hes'
              cases hes'
              rcases h5 eid he e hfe with h | h
              · exact Or.inl (hdst ▸ h)
              · exact Or.inr (List.mem_append.mpr (Or.inr (hdst ▸ h)))
            · obtain ⟨h1', h2', h3'⟩ := hvis x hx
              refine ⟨h1', h2', fun w hw => ?_⟩
              rcases h3' w hw with h | h
              · exact Or.inl (mem_setInsert.mpr (Or.inr h))
              · rcases List.mem_cons.mp h with rfl | h
                · exact Or.inl (mem_setInsert.mpr (Or.inl rfl))
                · exact Or.inr (List.mem_append.mpr (Or.inl h))
          · rcases hsrc with h | h
            · exact Or.inl (mem_setInsert.mpr (Or.inr h))
            · rcases List.mem_cons.mp h with rfl | h
              · exact Or.inl (mem_setInsert.mpr (Or.inl rfl))
              · exact Or.inr (List.mem_append.mpr (Or.inl h))
          · have hp := pending_step g.adjMap visited curr es (find_some_mem hes) hc
            simp only [List.length_cons, List.length_append] at hfuel ⊢
            unfold pending at hfuel ⊢
            omega

/-! ## Two-colouring by depth-first search -/

theorem ext_refl (c : Nat → Int) : Ext c c := fun _ _ => rfl

theorem ext_trans {a b c : Nat → Int} (h1 : Ext a b) (h2 : Ext b c) : Ext a c := by
  intro i hi
  have hb : b i = a i := h1 i hi
  rw [h2 i (by rw [hb]; exact hi), hb]

theorem goodNew_refl {D : Type} (g : GraphData D) (vs : List (Vertex D))
    (idx : List (Int × Nat)) (c : Nat → Int) : GoodNew g vs idx c c :=
  fun _ h1 h2 => absurd h1 h2

theorem goodNew_trans {D : Type} {g : GraphData D} {vs : List (Vertex D)}
    {idx : List (Int × Nat)} {a b c : Nat → Int}
    (hab : GoodNew g vs idx a b) (ebc : Ext b c) (hbc : GoodNew g vs idx b c) :
    GoodNew g vs idx a c := by
  intro i hai hci
  by_cases hbi : b i = -1
  · exact hbc i hbi hci
  · obtain ⟨h1, h2⟩ := hab i hai hbi
    have hci' : c i = b i := ebc i hbi
    refine ⟨by rw [hci']; exact h1, fun j hj => ?_⟩
    obtain ⟨h3, h4⟩ := h2 j hj
    rw [ebc j h3, hci']
    exact ⟨h3, h4⟩

theorem upd_same {α : Type} (v : Nat → α) (i : Nat) (x : α) : algorithm.upd v i x i = x := by
  simp [algorithm.upd]

theorem upd_other {α : Type} (v : Nat → α) {i j : Nat} (x : α) (h : j ≠ i) :
    algorithm.upd v i x j = v j := by
  simp [algorithm.upd, h]

theorem bool_eq_of_iff {a b r : Bool} (h : (a = r ↔ b = r)) : a = b := by
  cases a <;> cases b <;> cases r <;> simp at h ⊢

theorem flip_forced {χ : Nat → Bool} {r i j : Nat} {c : Int} (hc : c = 0 ∨ c = 1)
    (hne : χ i ≠ χ j) (hi : c = 0 ↔ χ i = χ r) : (1 - c = 0 ↔ χ j = χ r) := by
  rcases hc with rfl | rfl
  · have h1 : χ i = χ r := hi.mp rfl
    constructor
    · intro h; omega
    · intro h
      exact absurd (h1.trans h.symm) hne
  · have h1 : ¬ χ i = χ r := fun h => by have := hi.mpr h; omega
    constructor
    · intro _
      revert hne h1
      cases χ i <;> cases χ j <;> cases χ r <;> simp
    · intro _; rfl

theorem colorEdges_spec {D : Type} (g : GraphData D) (vs : List (Vertex D))
    (idx : List (Int × Nat))
    (self : Nat → Int → (Nat → Int) → Except Fault (Bool × (Nat → Int)))
    (hself : ∀ i c col b col', self i c col = .ok (b, col') → col i = -1 → (c = 0 ∨ c = 1) →
      DfsPost g vs idx i c col b col') :
    ∀ (es : List Int) (c : Int) (color : Nat → Int) (b : Bool) (color' : Nat → Int),
      algorithm.colorEdges g idx self c es color = .ok (b, color') → (c = 0 ∨ c = 1) →
      (b = true → Ext color color' ∧ GoodNew g vs idx color color' ∧
        ∀ eid ∈ es, ∀ e, find eid g.idToEdge = some e →
          color' (algorithm.indexOf idx e.dst) ≠ -1 ∧ color' (algorithm.indexOf idx e.dst) ≠ c) ∧
      (∀ χ r c0 index, Sound g vs idx χ c0 → Forced χ r c0 color → c0 index = -1 →
        color index = c → (c = 0 ↔ χ index = χ r) →
        (∀ eid ∈ es, ∀ e, find eid g.idToEdge = some e →
          nbr g vs idx index (algorithm.indexOf idx e.dst)) →
        b = true ∧ Forced χ r c0 color') := by
  intro es
  induction es with
  | nil =>
    intro c color b color' hrun _
    simp only [algorithm.colorEdges, Except.ok.injEq, Prod.mk.injEq] at hrun
    obtain ⟨rfl, rfl⟩ := hrun
    exact ⟨fun _ => ⟨ext_refl _, goodNew_refl g vs idx _, by simp⟩,
      fun χ r c0 index _ hF _ _ _ _ => ⟨rfl, hF⟩⟩
  | cons eid rest ih =>
    intro c color b color' hrun hc
    cases he : find eid g.idToEdge with
    | none => simp [algorithm.colorEdges, Graph.getEdge, he] at hrun
    | some e =>
      have hcne : c ≠ -1 := by rcases hc with rfl | rfl <;> decide
      have hc' : (1 - c = 0 ∨ 1 - c = 1) := by rcases hc with rfl | rfl <;> simp
      by_cases h1 : color (algorithm.indexOf idx e.dst) = -1
      · cases hs : self (algorithm.indexOf idx e.dst) (1 - c) color with
        | error f => simp [algorithm.colorEdges, Graph.getEdge, he, h1, hs] at hrun
        | ok res =>
          obtain ⟨b1, col1⟩ := res
          have post := hself _ _ _ _ _ hs h1 hc'
          cases b1 with
          | false =>
            simp only [algorithm.colorEdges, Graph.getEdge, he, h1, hs, if_true,
              Except.ok.injEq, Prod.mk.injEq] at hrun
            obtain ⟨rfl, rfl⟩ := hrun
            refine ⟨fun h => by simp at h, ?_⟩
            intro χ r c0 index hS hF _ _ hfc hes
            have hn := hes eid (List.mem_cons_self _ _) e he
            have := (post.2 χ r c0 hS hF (flip_forced hc (hS.proper _ _ hn) hfc)).1
            simp at this
          | true =>
            simp only [algorithm.colorEdges, Graph.getEdge, he, h1, hs, if_true] at hrun
            obtain ⟨hE1, hG1, hj1⟩ := post.1 rfl
            obtain ⟨ihPC, ihS⟩ := ih c col1 b color' hrun hc
            constructor
            · intro hb
              obtain ⟨hE2, hG2, hrest⟩ := ihPC hb
              refine ⟨ext_trans hE1 hE2, goodNew_trans hG1 hE2 hG2, ?_⟩
              intro x hx e' he'
              rcases List.mem_cons.mp hx with rfl | hx
              · rw [he] at he'
                cases he'
                have hne : col1 (algorithm.indexOf idx e.dst) ≠ -1 := by
                  rw [hj1]; rcases hc with rfl | rfl <;> decide
                rw [hE2 _ hne, hj1]
                rcases hc with rfl | rfl <;> decide
              · exact hrest x hx e' he'
            · intro χ r c0 index hS hF hc0 hci hfc hes
              have hn := hes eid (List.mem_cons_self _ _) e he
              obtain ⟨_, hF1⟩ := post.2 χ r c0 hS hF (flip_forced hc (hS.proper _ _ hn) hfc)
              have hci1 : col1 index = c := by
                rw [hE1 index (by rw [hci]; exact hcne), hci]
              exact ihS χ r c0 index hS hF1 hc0 hci1 hfc
                (fun x hx => hes x (List.mem_cons_of_mem _ hx))
      · by_cases h2 : color (algorithm.indexOf idx e.dst) = c
        · simp only [algorithm.colorEdges, Graph.getEdge, he, h1, h2, if_true, if_false,
            Except.ok.injEq, Prod.mk.injEq] at hrun
          have hrun' : b = false ∧ color' = color := by
            revert hrun
            simp only [hcne, if_false]
            rintro ⟨rfl, rfl⟩
            exact ⟨rfl, rfl⟩
          obtain ⟨rfl, rfl⟩ := hrun'
          refine ⟨fun h => by simp at h, ?_⟩
          intro χ r c0 index hS hF hc0 hci hfc hes
          exfalso
          have hn := hes eid (List.mem_cons_self _ _) e he
          have hj0 : c0 (algorithm.indexOf idx e.dst) = -1 := by
            by_contra hcon
            exact hS.closed _ hcon _ (hS.symm _ _ hn) hc0
          have hfj := hF.forced _ hj0 h1
          rw [h2] at hfj
          have : χ (algorithm.indexOf idx e.dst) = χ index :=
            bool_eq_of_iff (hfj.symm.trans hfc)
          exact hS.proper _ _ hn this.symm
        · have hrun' : algorithm.colorEdges g idx self c rest color = .ok (b, color') := by
            simpa [algorithm.colorEdges, Graph.getEdge, he, h1, h2] using hrun
          obtain ⟨ihPC, ihS⟩ := ih c color b color' hrun' hc
          constructor
          · intro hb
            obtain ⟨hE2, hG2, hrest⟩ := ihPC hb
            refine ⟨hE2, hG2, ?_⟩
            intro x hx e' he'
            rcases List.mem_cons.mp hx with rfl | hx
            · rw [he] at he'
              cases he'
              rw [hE2 _ h1]
              exact ⟨h1, h2⟩
            · exact hrest x hx e' he'
          · intro χ r c0 index hS hF hc0 hci hfc hes
            exact ihS χ r c0 index hS hF hc0 hci hfc
              (fun x hx => hes x (List.mem_cons_of_mem _ hx))

theorem colorDfs_spec {D : Type} (g : GraphData D) (vs : List (Vertex D))
    (idx : List (Int × Nat)) :
    ∀ (fuel index : Nat) (c : Int) (color : Nat → Int) (b : Bool) (color' : Nat → Int),
      algorithm.colorDfs g vs idx fuel index c color = .ok (b, color') →
      color index = -1 → (c = 0 ∨ c = 1) → DfsPost g vs idx index c color b color' := by
  intro fuel
  induction fuel with
  | zero =>
    intro index c color b color' hrun
    simp [algorithm.colorDfs] at hrun
  | succ fuel ih =>
    intro index c color b color' hrun hci hc
    have hcne : c ≠ -1 := by rcases hc with rfl | rfl <;> decide
    cases hv : vs[index]? with
    | none => simp [algorithm.colorDfs, hv] at hrun
    | some v =>
      cases hes : find v.id g.adjMap with
      | none => simp [algorithm.colorDfs, hv, Graph.getEdgeIdsOfVertex, hes] at hrun
      | some es =>
        simp only [algorithm.colorDfs, hv, Graph.getEdgeIdsOfVertex, hes] at hrun
        obtain ⟨hPC, hS⟩ := colorEdges_spec g vs idx
          (fun i c' col => algorithm.colorDfs g vs idx fuel i c' col)
          (fun i c' col b' col' h => ih i c' col b' col' h)
          es c (algorithm.upd color index c) b color' hrun hc
        constructor
        · intro hb
          obtain ⟨hE, hG, hedges⟩ := hPC hb
          have hidx : color' index = c := by
            rw [hE index (by rw [upd_same]; exact hcne), upd_same]
          refine ⟨?_, ?_, hidx⟩
          · intro i hi
            have hne : i ≠ index := fun h => hi (h ▸ hci)
            rw [hE i (by rw [upd_other _ _ hne]; exact hi), upd_other _ _ hne]
          · intro i hi hi'
            by_cases hne : i = index
            · subst hne
              refine ⟨by rw [hidx]; exact hc, ?_⟩
              rintro j ⟨v', es', eid, e, hv', hes', hmem, hfe, rfl⟩
              rw [hv] at hv'
              cases hv'
              rw [hes] at hes'
              cases hes'
              rw [hidx]
              exact hedges eid hmem e hfe
            · exact hG i (by rw [upd_other _ _ hne]; exact hi) hi'
        · intro χ r c0 hSound hF hfc
          have hc0 : c0 index = -1 := by
            by_contra hcon
            exact hcon ((hF.ext index hcon).symm.trans hci)
          refine hS χ r c0 index hSound ⟨?_, ?_⟩ hc0 (upd_same _ _ _) hfc ?_
          · intro i hi
            have hne : i ≠ index := fun h => hi (h ▸ hc0)
            rw [upd_other _ _ hne]
            exact hF.ext i hi
          · intro i hi hi'
            by_cases hne : i = index
            · subst hne
              rw [upd_same]
              exact hfc
            · rw [upd_other _ _ hne] at hi' ⊢
              exact hF.forced i hi hi'
          · intro eid hmem e hfe
            exact ⟨v, es, eid, e, hv, hes, hmem, hfe, rfl⟩

theorem uncolored_mono {n : Nat} {c c' : Nat → Int} (h : Ext c c') :
    uncolored n c' ≤ uncolored n c := by
  apply Finset.card_le_card
  intro i hi
  simp only [Finset.mem_filter] at hi ⊢
  refine ⟨hi.1, ?_⟩
  by_contra hc
  exact hc ((h i hc).symm.trans hi.2)

theorem uncolored_upd {n index : Nat} {color : Nat → Int} {x : Int} (hlt : index < n)
    (hc : color index = -1) (hx : x ≠ -1) :
    uncolored n (algorithm.upd color index x) < uncolored n color := by
  apply Finset.card_lt_card
  rw [Finset.ssubset_iff_of_subset]
  · refine ⟨index, by simp [hlt, hc], ?_⟩
    simp [upd_same, hx]
  · intro i hi
    simp only [Finset.mem_filter] at hi ⊢
    refine ⟨hi.1, ?_⟩
    by_cases hne : i = index
    · subst hne
      rw [upd_same] at hi
      exact absurd hi.2 hx
    · rw [upd_other _ _ hne] at hi
      exact hi.2

theorem uncolored_le (n : Nat) (c : Nat → Int) : uncolored n c ≤ n := by
  unfold uncolored
  calc ((Finset.range n).filter (fun i => c i = -1)).card
      ≤ (Finset.range n).card := Finset.card_filter_le _ _
    _ = n := Finset.card_range n

theorem colorEdges_total {D : Type} (g : GraphData D) (vs : List (Vertex D))
    (idx : List (Int × Nat)) (fuel : Nat)
    (self : Nat → Int → (Nat → Int) → Except Fault (Bool × (Nat → Int)))
    (hself : ∀ i c col b col', self i c col = .ok (b, col') → col i = -1 → (c = 0 ∨ c = 1) →
      DfsPost g vs idx i c col b col')
    (htot : ∀ i c col, i < vs.length → col i = -1 → (c = 0 ∨ c = 1) →
      uncolored vs.length col ≤ fuel → ∃ r, self i c col = .ok r) :
    ∀ (es : List Int) (c : Int) (color : Nat → Int),
      (∀ eid ∈ es, ∃ e, find eid g.idToEdge = some e ∧
        algorithm.indexOf idx e.dst < vs.length) →
      (c = 0 ∨ c = 1) → uncolored vs.length color ≤ fuel →
      ∃ r, algorithm.colorEdges g idx self c es color = .ok r := by
  intro es
  induction es with
  | nil => intro c color _ _ _; exact ⟨_, rfl⟩
  | cons eid rest ih =>
    intro c color hres hc hU
    obtain ⟨e, he, hlt⟩ := hres eid (List.mem_cons_self _ _)
    have hres' := fun x hx => hres x (List.mem_cons_of_mem _ hx)
    have hc' : (1 - c = 0 ∨ 1 - c = 1) := by rcases hc with rfl | rfl <;> simp
    by_cases h1 : color (algorithm.indexOf idx e.dst) = -1
    · obtain ⟨⟨b1, col1⟩, hs⟩ := htot _ (1 - c) color hlt h1 hc' hU
      cases b1 with
      | false =>
        exact ⟨(false, col1), by simp [algorithm.colorEdges, Graph.getEdge, he, h1, hs]⟩
      | true =>
        have hE := ((hself _ _ _ _ _ hs h1 hc').1 rfl).1
        obtain ⟨r, hr⟩ := ih c col1 hres' hc ((uncolored_mono hE).trans hU)
        exact ⟨r, by simp [algorithm.colorEdges, Graph.getEdge, he, h1, hs, hr]⟩
    · by_cases h2 : color (algorithm.indexOf idx e.dst) = c
      · have hcne : c ≠ -1 := by rcases hc with rfl | rfl <;> decide
        exact ⟨(false, color), by simp [algorithm.colorEdges, Graph.getEdge, he, h2, hcne]⟩
      · obtain ⟨r, hr⟩ := ih c color hres' hc hU
        exact ⟨r, by simp [algorithm.colorEdges, Graph.getEdge, he, h1, h2, hr]⟩

theorem colorDfs_total {D : Type} (g : GraphData D) (vs : List (Vertex D))
    (idx : List (Int × Nat)) (hnf : NoFault g vs idx) :
    ∀ (fuel index : Nat) (c : Int) (color : Nat → Int),
      index < vs.length → color index = -1 → (c = 0 ∨ c = 1) →
      uncolored vs.length color ≤ fuel →
      ∃ r, algorithm.colorDfs g vs idx fuel index c color = .ok r := by
  intro fuel
  induction fuel with
  | zero =>
    intro index c color hlt hci hc hU
    have hcne : c ≠ -1 := by rcases hc with rfl | rfl <;> decide
    have := uncolored_upd hlt hci hcne
    omega
  | succ fuel ih =>
    intro index c color hlt hci hc hU
    have hcne : c ≠ -1 := by rcases hc with rfl | rfl <;> decide
    have hv : vs[index]? = some vs[index] := List.getElem?_eq_getElem hlt
    obtain ⟨es, hes, hres⟩ := hnf index _ hv
    have hU' : uncolored vs.length (algorithm.upd color index c) ≤ fuel := by
      have := uncolored_upd hlt hci hcne
      omega
    obtain ⟨r, hr⟩ := colorEdges_total g vs idx fuel
      (fun i c' col => algorithm.colorDfs g vs idx fuel i c' col)
      (fun i c' col b' col' h => colorDfs_spec g vs idx fuel i c' col b' col' h)
      (fun i c' col h1 h2 h3 h4 => ih i c' col h1 h2 h3 h4)
      es c (algorithm.upd color index c) hres hc hU'
    exact ⟨r, by simp only [algorithm.colorDfs, hv, Graph.getEdgeIdsOfVertex, hes, hr]⟩

theorem colorRoots_spec {D : Type} (g : GraphData D) (vs : List (Vertex D))
    (idx : List (Int × Nat)) :
    ∀ (l : List Nat) (color : Nat → Int) (r : Option (Nat → Int)),
      algorithm.colorRoots g vs idx l color = .ok r → ProperClosed g vs idx color →
      (∀ color', r = some color' →
        ProperClosed g vs idx color' ∧ Ext color color' ∧ ∀ i ∈ l, color' i ≠ -1) ∧
      (∀ χ : Nat → Bool, (∀ i j, nbr g vs idx i j → χ i ≠ χ j) →
        (∀ i j, nbr g vs idx i j → nbr g vs idx j i) → r ≠ none) := by
  intro l
  induction l with
  | nil =>
    intro color r hrun hP
    simp only [algorithm.colorRoots, Except.ok.injEq] at hrun
    subst hrun
    refine ⟨?_, fun _ _ _ => by simp⟩
    intro color' h
    cases h
    exact ⟨hP, ext_refl _, by simp⟩
  | cons i rest ih =>
    intro color r hrun hP
    by_cases hi : color i = -1
    · cases hd : algorithm.colorDfs g vs idx (vs.length + 1) i 0 color with
      | error f => simp [algorithm.colorRoots, hi, hd] at hrun
      | ok res =>
        obtain ⟨b, col1⟩ := res
        have post := colorDfs_spec g vs idx _ i 0 color b col1 hd hi (Or.inl rfl)
        cases b with
        | false =>
          simp only [algorithm.colorRoots, hi, hd, if_true, Except.ok.injEq] at hrun
          subst hrun
          refine ⟨fun _ h => by simp at h, ?_⟩
          intro χ hprop hsym
          have := (post.2 χ i color ⟨hprop, hsym, fun x hx j hj => ((hP x hx).2 j hj).1⟩
            ⟨ext_refl _, fun x h1 h2 => absurd h1 h2⟩ (by simp)).1
          simp at this
        | true =>
          simp only [algorithm.colorRoots, hi, hd, if_true] at hrun
          obtain ⟨hE1, hG1, hi1⟩ := post.1 rfl
          have hP1 : ProperClosed g vs idx col1 := by
            intro x hx
            by_cases hx0 : color x = -1
            · exact hG1 x hx0 hx
            · obtain ⟨h1, h2⟩ := hP x hx0
              have hxe := hE1 x hx0
              refine ⟨by rw [hxe]; exact h1, fun j hj => ?_⟩
              obtain ⟨h3, h4⟩ := h2 j hj
              rw [hE1 j h3, hxe]
              exact ⟨h3, h4⟩
          obtain ⟨ihA, ihB⟩ := ih col1 r hrun hP1
          refine ⟨?_, ihB⟩
          intro color' hr
          obtain ⟨h1, h2, h3⟩ := ihA color' hr
          refine ⟨h1, ext_trans hE1 h2, ?_⟩
          intro x hx
          rcases List.mem_cons.mp hx with rfl | hx
          · rw [h2 x (by rw [hi1]; decide), hi1]
            decide
          · exact h3 x hx
    · have hrun' : algorithm.colorRoots g vs idx rest color = .ok r := by
        simpa [algorithm.colorRoots, hi] using hrun
      obtain ⟨ihA, ihB⟩ := ih color r hrun' hP
      refine ⟨?_, ihB⟩
      intro color' hr
      obtain ⟨h1, h2, h3⟩ := ihA color' hr
      refine ⟨h1, h2, ?_⟩
      intro x hx
      rcases List.mem_cons.mp hx with rfl | hx
      · rw [h2 x hi]
        exact hi
      · exact h3 x hx

theorem colorRoots_total {D : Type} (g : GraphData D) (vs : List (Vertex D))
    (idx : List (Int × Nat)) (hnf : NoFault g vs idx) :
    ∀ (l : List Nat) (color : Nat → Int), (∀ i ∈ l, i < vs.length) →
      ∃ r, algorithm.colorRoots g vs idx l color = .ok r := by
  intro l
  induction l with
  | nil => intro color _; exact ⟨_, rfl⟩
  | cons i rest ih =>
    intro color hl
    have hl' := fun x hx => hl x (List.mem_cons_of_mem _ hx)
    by_cases hi : color i = -1
    · obtain ⟨⟨b, col1⟩, hd⟩ := colorDfs_total g vs idx hnf (vs.length + 1) i 0 color
        (hl i (List.mem_cons_self _ _)) hi (Or.inl rfl)
        ((uncolored_le _ _).trans (Nat.le_succ _))
      cases b with
      | false => exact ⟨none, by simp [algorithm.colorRoots, hi, hd]⟩
      | true =>
        obtain ⟨r, hr⟩ := ih col1 hl'
        exact ⟨r, by simp [algorithm.colorRoots, hi, hd, hr]⟩
    · obtain ⟨r, hr⟩ := ih color hl'
      exact ⟨r, by simp [algorithm.colorRoots, hi, hr]⟩

theorem find_buildIndexFrom_not_mem {D : Type} (off : Nat) (id : Int) :
    ∀ (vs : List (Vertex D)) (k : Nat) (m : List (Int × Nat)),
      id ∉ vs.map (fun v => v.id) →
      find id (algorithm.buildIndexFrom off k vs m) = find id m := by
  intro vs
  induction vs with
  | nil => intro k m _; rfl
  | cons a vs ih =>
    intro k m hn
    simp only [List.map_cons, List.mem_cons, not_or] at hn
    rw [algorithm.buildIndexFrom, ih _ _ hn.2, find_assign, if_neg hn.1]

theorem find_buildIndexFrom_get {D : Type} (off : Nat) :
    ∀ (vs : List (Vertex D)) (k : Nat) (m : List (Int × Nat)) (i : Nat) (v : Vertex D),
      (vs.map (fun v => v.id)).Nodup → vs[i]? = some v →
      find v.id (algorithm.buildIndexFrom off k vs m) = some (k + i + off) := by
  intro vs
  induction vs with
  | nil => intro k m i v _ h; simp at h
  | cons a vs ih =>
    intro k m i v hnd h
    simp only [List.map_cons, List.nodup_cons] at hnd
    cases i with
    | zero =>
      simp only [List.getElem?_cons_zero, Option.some.injEq] at h
      subst h
      rw [algorithm.buildIndexFrom, find_buildIndexFrom_not_mem off _ _ _ _ hnd.1, find_assign,
        if_pos rfl]
      simp
    | succ i =>
      simp only [List.getElem?_cons_succ] at h
      rw [algorithm.buildIndexFrom, ih _ _ i v hnd.2 h]
      congr 1
      omega

theorem indexOf_buildIndex {D : Type} (vs : List (Vertex D)) (i : Nat) (v : Vertex D)
    (hnd : (vs.map (fun v => v.id)).Nodup) (h : vs[i]? = some v) :
    algorithm.indexOf (algorithm.buildIndex vs) v.id = i := by
  unfold algorithm.indexOf algorithm.buildIndex
  rw [find_buildIndexFrom_get 0 vs 0 [] i v hnd h]
  simp

theorem mem_partOf {D : Type} (color : Nat → Int) (x : Int) :
    ∀ (vs : List (Vertex D)) (k : Nat),
      x ∈ algorithm.partOf color k vs ↔
        ∃ (i : Nat) (v : Vertex D), vs[i]? = some v ∧ v.id = x ∧ color (k + i) = 0 := by
  intro vs
  induction vs with
  | nil => intro k; simp [algorithm.partOf]
  | cons a vs ih =>
    intro k
    have key : x ∈ algorithm.partOf color k (a :: vs) ↔
        (color k = 0 ∧ a.id = x) ∨ x ∈ algorithm.partOf color (k + 1) vs := by
      by_cases hc : color k = 0
      · simp only [algorithm.partOf, hc, if_true, List.mem_cons, true_and]
        constructor
        · rintro (h | h)
          · exact Or.inl h.symm
          · exact Or.inr h
        · rintro (h | h)
          · exact Or.inl h.symm
          · exact Or.inr h
      · simp [algorithm.partOf, hc]
    rw [key, ih (k + 1)]
    constructor
    · rintro (⟨h1, h2⟩ | ⟨i, v, h1, h2, h3⟩)
      · exact ⟨0, a, by simp, h2, by simpa using h1⟩
      · exact ⟨i + 1, v, by simpa using h1, h2, by rw [← h3]; congr 1; omega⟩
    · rintro ⟨i, v, h1, h2, h3⟩
      cases i with
      | zero =>
        simp only [List.getElem?_cons_zero, Option.some.injEq] at h1
        subst h1
        exact Or.inl ⟨by simpa using h3, h2⟩
      | succ i =>
        simp only [List.getElem?_cons_succ] at h1
        exact Or.inr ⟨i, v, h1, h2, by rw [← h3]; congr 1; omega⟩

theorem partOf_sublist {D : Type} (color : Nat → Int) :
    ∀ (vs : List (Vertex D)) (k : Nat),
      (algorithm.partOf color k vs).Sublist (vs.map (fun v => v.id)) := by
  intro vs
  induction vs with
  | nil => intro k; simp [algorithm.partOf]
  | cons a vs ih =>
    intro k
    by_cases hc : color k = 0
    · simp only [algorithm.partOf, hc, if_true, List.map_cons]
      exact List.Sublist.cons₂ _ (ih _)
    · simp only [algorithm.partOf, hc, if_false, List.map_cons]
      exact List.Sublist.cons _ (ih _)

theorem get_of_mem_ids {D : Type} {vs : List (Vertex D)} {x : Int}
    (h : x ∈ vs.map (fun v => v.id)) : ∃ (i : Nat) (v : Vertex D), vs[i]? = some v ∧ v.id = x := by
  obtain ⟨v, hv, rfl⟩ := List.mem_map.mp h
  obtain ⟨i, hi⟩ := List.getElem?_of_mem hv
  exact ⟨i, v, hi, rfl⟩

theorem get_unique {D : Type} {vs : List (Vertex D)} {i j : Nat} {v w : Vertex D}
    (hnd : (vs.map (fun v => v.id)).Nodup) (hi : vs[i]? = some v) (hj : vs[j]? = some w)
    (h : v.id = w.id) : i = j := by
  have h1 := indexOf_buildIndex vs i v hnd hi
  have h2 := indexOf_buildIndex vs j w hnd hj
  rw [h] at h1
  exact h1.symm.trans h2

theorem arc_mem_arcList {D : Type} (g : GraphData D) {u w : Int} (h : Arc g u w) :
    (u, w) ∈ arcList g := by
  obtain ⟨es, hes, eid, he, e, hfe, hd⟩ := (arc_iff g u w).mp h
  unfold arcList
  rw [List.mem_flatMap]
  refine ⟨(u, es), find_some_mem hes, ?_⟩
  rw [List.mem_filterMap]
  exact ⟨eid, he, by simp [hfe, hd]⟩

theorem listedStored_of_all {D : Type} (g : GraphData D)
    (h : g.adjMap.all (fun p => p.2.all (fun eid => (find eid g.idToEdge).isSome)) = true) :
    ListedStored g := by
  intro v es hv eid he
  exact List.all_eq_true.mp (List.all_eq_true.mp h (v, es) (find_some_mem hv)) eid he

/-- The colouring found by a successful run: all indices are coloured 0 or 1 and every
adjacency edge seen from a stored vertex joins two colours. -/
theorem isBipartite_ok_inv {D : Type} (g : GraphData D) (S : List Int)
    (h : algorithm.isBipartite g = .ok (.ok S)) :
    ∃ color : Nat → Int,
      S = algorithm.partOf color 0 (Graph.getAllVertices g) ∧
      ProperClosed g (Graph.getAllVertices g) (algorithm.buildIndex (Graph.getAllVertices g))
        color ∧
      ∀ i, i < (Graph.getAllVertices g).length → color i ≠ -1 := by
  unfold algorithm.isBipartite at h
  cases hr : algorithm.colorRoots g (Graph.getAllVertices g)
      (algorithm.buildIndex (Graph.getAllVertices g))
      (List.range (Graph.getAllVertices g).length) (fun _ => -1) with
  | error f => simp [hr] at h
  | ok r =>
    cases r with
    | none => simp [hr] at h
    | some color =>
      simp only [hr, Except.ok.injEq] at h
      obtain ⟨hA, _⟩ := colorRoots_spec g _ _ _ _ _ hr (fun i hi => absurd rfl hi)
      obtain ⟨h1, _, h3⟩ := hA color rfl
      exact ⟨color, h.symm, h1, fun i hi => h3 i (List.mem_range.mpr hi)⟩

theorem mem_partOf_iff {D : Type} {vs : List (Vertex D)} (color : Nat → Int) {i : Nat}
    {v : Vertex D} (hnd : (vs.map (fun v => v.id)).Nodup) (hi : vs[i]? = some v) :
    v.id ∈ algorithm.partOf color 0 vs ↔ color i = 0 := by
  rw [mem_partOf]
  constructor
  · rintro ⟨i', v', h1, h2, h3⟩
    have := get_unique hnd h1 hi h2
    subst this
    simpa using h3
  · intro h
    exact ⟨i, v, hi, rfl, by simpa using h⟩

theorem lt_of_get {D : Type} {vs : List (Vertex D)} {i : Nat} {v : Vertex D}
    (h : vs[i]? = some v) : i < vs.length := by
  by_contra hcon
  rw [List.getElem?_eq_none (Nat.le_of_not_lt hcon)] at h
  cases h

/-- An adjacency edge between stored vertices is an edge of the index graph. -/
theorem nbr_of_arc {D : Type} (g : GraphData D) {u w : Int} {i j : Nat} {v v' : Vertex D}
    (hnd : (vertexIds g).Nodup) (h : Arc g u w)
    (hi : (Graph.getAllVertices g)[i]? = some v) (hu : v.id = u)
    (hj : (Graph.getAllVertices g)[j]? = some v') (hw : v'.id = w) :
    nbr g (Graph.getAllVertices g) (algorithm.buildIndex (Graph.getAllVertices g)) i j := by
  obtain ⟨es, hes, eid, he, e, hfe, hd⟩ := (arc_iff g u w).mp h
  refine ⟨v, es, eid, e, hi, by rw [hu]; exact hes, he, hfe, ?_⟩
  rw [hd, ← hw]
  exact indexOf_buildIndex _ j v' hnd hj

/-- An edge of the index graph whose destination is a stored vertex is an adjacency
edge between the vertices at the two indices. -/
theorem arc_of_nbr {D : Type} (g : GraphData D) {i j : Nat} (hnd : (vertexIds g).Nodup)
    (hdst : ∀ u w, Arc g u w → w ∈ vertexIds g)
    (h : nbr g (Graph.getAllVertices g) (algorithm.buildIndex (Graph.getAllVertices g)) i j) :
    ∃ v v', (Graph.getAllVertices g)[i]? = some v ∧ (Graph.getAllVertices g)[j]? = some v' ∧
      Arc g v.id v'.id := by
  obtain ⟨v, es, eid, e, hv, hes, hmem, hfe, hj⟩ := h
  have harc : Arc g v.id e.dst := (arc_iff g _ _).mpr ⟨es, hes, eid, hmem, e, hfe, rfl⟩
  obtain ⟨j', v', hj', hw⟩ := get_of_mem_ids (hdst _ _ harc)
  have : algorithm.indexOf (algorithm.buildIndex (Graph.getAllVertices g)) e.dst = j' := by
    rw [← hw]
    exact indexOf_buildIndex _ j' v' hnd hj'
  rw [this] at hj
  subst hj
  exact ⟨v, v', hv, hj', hw ▸ harc⟩

/-! ## Removing an edge that is not stored -/

/-- C8: for a directed and for an undirected graph, `delEdge(id)` with an id that is not
in the edge table returns `false` and leaves the vertex table, the edge table and the
adjacency index unchanged; and `delEdge` is idempotent: after one call a second call
with the same id returns `false` and changes nothing. -/
theorem delEdge_absent_noop_idempotent {D : Type} (g : GraphData D) (id : Int) :
    (find id g.idToEdge = none →
        Graph.delEdge g id = (false, g) ∧ UndirectedGraph.delEdge g id = (false, g)) ∧
    Graph.delEdge (Graph.delEdge g id).2 id = (false, (Graph.delEdge g id).2) ∧
    UndirectedGraph.delEdge (UndirectedGraph.delEdge g id).2 id
      = (false, (UndirectedGraph.delEdge g id).2) := by
  refine ⟨fun h => ?_, ?_, ?_⟩
  · simp [Graph.delEdge, UndirectedGraph.delEdge, h]
  · cases h : find id g.idToEdge with
    | none => simp [Graph.delEdge, h]
    | some e => simp [Graph.delEdge, h, find_eraseKey_self]
  · cases h : find id g.idToEdge with
    | none => simp [UndirectedGraph.delEdge, h]
    | some e =>
      cases h2 : find (getPairedId id) (eraseKey id g.idToEdge) with
      | none => simp [UndirectedGraph.delEdge, h, h2, find_eraseKey_self]
      | some e2 => simp [UndirectedGraph.delEdge, h, h2, find_eraseKey_self]

/-- The test `AddAndRemoveEdge`: on the graph that holds only edge 2, `delEdge(3)` returns
`false` and changes nothing, for both kinds of graph, and deleting edge 2 twice is the
same as deleting it once. -/
theorem delEdge_absent_noop_idempotent_witness :
    find 3 sampleOneEdge.idToEdge = none ∧
    Graph.delEdge sampleOneEdge 3 = (false, sampleOneEdge) ∧
    UndirectedGraph.delEdge sampleOneEdge 3 = (false, sampleOneEdge) ∧
    (Graph.delEdge sampleOneEdge 2).1 = true ∧
    Graph.delEdge (Graph.delEdge sampleOneEdge 2).2 2
      = (false, (Graph.delEdge sampleOneEdge 2).2) :=
  ⟨by decide,
   ((delEdge_absent_noop_idempotent sampleOneEdge 3).1 (by decide)).1,
   ((delEdge_absent_noop_idempotent sampleOneEdge 3).1 (by decide)).2,
   by decide,
   (delEdge_absent_noop_idempotent sampleOneEdge 2).2.1⟩

/-! ## Removing a vertex that is not stored -/

/-- C9 fails as stated: `danglingGraph` is reachable and vertex 3 is absent from its
vertex table, yet `delVertex(3)` returns `true` and removes edge 1 from the edge table
and from the adjacency set of vertex 1. -/
theorem delVertex_absent_counterexample :
    Graph.Reachable danglingGraph ∧
    find 3 danglingGraph.idToVertex = none ∧
    danglingGraph.idToEdge = [(1, ⟨1, 1, 3, 1⟩)] ∧
    Graph.delVertex danglingGraph 3 =
      .ok (true, { adjMap := [(1, []), (2, [])],
                   idToVertex := [(1, ⟨1, 10⟩), (2, ⟨2, 20⟩)],
                   idToEdge := [] }) :=
  ⟨Graph.Reachable.addEdge _ (Graph.Reachable.addVertex _
      (Graph.Reachable.addVertex _ Graph.Reachable.empty)),
   by decide, by decide, rfl⟩

/-- C9, amended: when `id` has no adjacency entry and no edge listed in an adjacency set
has destination `id`, `delVertex(id)` changes nothing: it returns `false` with the three
tables unchanged, unless an adjacency set lists an id that is missing from the edge
table, in which case the lookup `idToEdge.at` fails; when every listed id is in the edge
table the call returns `false`. -/
theorem delVertex_absent_noop {D : Type} (g : GraphData D) (id : Int)
    (hadj : find id g.adjMap = none)
    (hdst : ∀ p ∈ g.adjMap, ∀ eid ∈ p.2, pointsTo g.idToEdge id eid = false) :
    (Graph.delVertex g id = .ok (false, g) ∨
      Graph.delVertex g id = .error Fault.outOfRange) ∧
    ((∀ p ∈ g.adjMap, ∀ eid ∈ p.2, (find eid g.idToEdge).isSome = true) →
      Graph.delVertex g id = .ok (false, g)) := by
  have key := scanAdj_noop id g.adjMap g.idToEdge false hdst
  constructor
  · by_cases h : g.adjMap.all (fun p => p.2.all (fun eid => (find eid g.idToEdge).isSome)) = true
    · left
      rw [if_pos h] at key
      simp [Graph.delVertex, hadj, key]
    · right
      rw [if_neg h] at key
      simp [Graph.delVertex, hadj, key]
  · intro hres
    have h : g.adjMap.all (fun p => p.2.all (fun eid => (find eid g.idToEdge).isSome)) = true := by
      simp only [List.all_eq_true]
      exact hres
    rw [if_pos h] at key
    simp [Graph.delVertex, hadj, key]

/-- The test `AddAndRemoveVertex`: on the graph holding vertices 1 and 2, `delVertex(3)`
returns `false` and changes nothing. -/
theorem delVertex_absent_noop_witness :
    Graph.delVertex
        (Graph.addVertex (Graph.addVertex (GraphData.empty Int) ⟨1, 10⟩) ⟨2, 20⟩) 3
      = .ok (false, Graph.addVertex (Graph.addVertex (GraphData.empty Int) ⟨1, 10⟩) ⟨2, 20⟩) :=
  (delVertex_absent_noop
    (Graph.addVertex (Graph.addVertex (GraphData.empty Int) ⟨1, 10⟩) ⟨2, 20⟩) 3
    (by decide) (by decide)).2 (by decide)

/-! ## Removing a vertex with its edges -/

/-- C10 fails as stated: in `storedWithoutAdjacency` the adjacency index and the edge
table are consistent and vertex 4 is stored, but it has no adjacency entry, and
`delVertex(4)`, which does return `true`, leaves vertex 4 in the vertex table. -/
theorem delVertex_stored_counterexample :
    AdjConsistent storedWithoutAdjacency ∧
    find 4 storedWithoutAdjacency.idToVertex = some ⟨4, 40⟩ ∧
    Graph.delVertex storedWithoutAdjacency 4 =
      .ok (true, { adjMap := [(3, [])],
                   idToVertex := [(3, ⟨3, 30⟩), (4, ⟨4, 40⟩)],
                   idToEdge := [] }) ∧
    find 4 [(3, (⟨3, 30⟩ : Vertex Int)), (4, ⟨4, 40⟩)] ≠ none := by
  refine ⟨?_, by decide, rfl, by decide⟩
  intro v eid
  simp only [Listed, storedWithoutAdjacency, find]
  constructor
  · rintro ⟨es, h1, h2⟩
    by_cases hv : (3 : Int) = v
    · simp only [hv, if_true, Option.some.injEq] at h1
      subst h1
      simp only [List.mem_singleton] at h2
      subst h2
      subst hv
      exact ⟨⟨3, 3, 4, 1⟩, by simp, rfl⟩
    · simp [hv] at h1
  · rintro ⟨e, h1, h2⟩
    by_cases he : (3 : Int) = eid
    · simp only [he, if_true, Option.some.injEq] at h1
      subst h1
      subst he
      simp at h2
      subst h2
      exact ⟨[3], by simp, by simp⟩
    · simp [he] at h1

/-- C10, amended: in a directed graph whose adjacency index and edge table are
consistent, for every vertex id that has an adjacency entry (as every vertex added with
`addVertex` has), `delVertex(id)` returns `true`, and afterwards `id` is in neither the
vertex table nor the adjacency index, the edge table is the former edge table without
the edges whose source or destination is `id`, every remaining adjacency set is its
former value without those edge ids, and all other vertices are unchanged. -/
theorem delVertex_stored {D : Type} (g : GraphData D) (id : Int)
    (hmap : IsMap g.adjMap) (hcons : AdjConsistent g)
    (ha : (find id g.adjMap).isSome = true) :
    ∃ g', Graph.delVertex g id = .ok (true, g') ∧
      find id g'.idToVertex = none ∧
      find id g'.adjMap = none ∧
      (∀ k, find k g'.idToEdge =
        (find k g.idToEdge).filter (fun e => decide (e.src ≠ id) && decide (e.dst ≠ id))) ∧
      (∀ v, v ≠ id → find v g'.adjMap =
        (find v g.adjMap).map (fun es => es.filter (fun eid => !incident g.idToEdge id eid))) ∧
      (∀ v, v ≠ id → find v g'.idToVertex = find v g.idToVertex) := by
  obtain ⟨out, hout⟩ := Option.isSome_iff_exists.mp ha
  have hlist : ∀ p ∈ g.adjMap, ∀ eid ∈ p.2, ∃ e, find eid g.idToEdge = some e ∧ e.src = p.1 := by
    intro p hp eid he
    exact (hcons p.1 eid).mp ⟨p.2, find_of_mem hmap hp, he⟩
  have hnotout : ∀ eid e, find eid g.idToEdge = some e → (eid ∈ out ↔ e.src = id) := by
    intro eid e he
    constructor
    · intro hmem
      obtain ⟨e', h1, h2⟩ := (hcons id eid).mp ⟨out, hout, hmem⟩
      rw [he] at h1
      cases h1
      exact h2
    · intro hsrc
      obtain ⟨es, h1, h2⟩ := (hcons id eid).mpr ⟨e, he, hsrc⟩
      rw [hout] at h1
      cases h1
      exact h2
  have H : ∀ p ∈ eraseKey id g.adjMap, ∀ eid ∈ p.2, ∃ e, find eid g.idToEdge = some e ∧
      e.src = p.1 ∧ find eid (Graph.eraseAll out g.idToEdge) = some e := by
    intro p hp eid he
    obtain ⟨hp1, hp2⟩ := mem_eraseKey.mp hp
    obtain ⟨e, h1, h2⟩ := hlist p hp1 eid he
    refine ⟨e, h1, h2, ?_⟩
    rw [find_eraseAll, if_neg, h1]
    intro hmem
    exact hp2 (h2.symm.trans ((hnotout eid e h1).mp hmem))
  obtain ⟨table', hrun, hfind⟩ :=
    scanAdj_spec id g.idToEdge (eraseKey id g.adjMap) (Graph.eraseAll out g.idToEdge) true
      (isMap_eraseKey id hmap) H
  refine ⟨{ adjMap := (eraseKey id g.adjMap).map
                (fun p => (p.1, p.2.filter (fun eid => !pointsTo g.idToEdge id eid))),
             idToVertex := eraseKey id g.idToVertex,
             idToEdge := table' }, ?_, ?_, ?_, ?_, ?_, ?_⟩
  · simp only [Graph.delVertex, hout, hrun, Bool.true_or]
  · exact find_eraseKey_self id g.idToVertex
  · show find id ((eraseKey id g.adjMap).map
        (fun p => (p.1, p.2.filter (fun eid => !pointsTo g.idToEdge id eid)))) = none
    rw [find_map_filter, find_eraseKey_self]
    rfl
  · intro k
    show find k table' = _
    rw [hfind k, find_eraseAll]
    cases hk : find k g.idToEdge with
    | none =>
      have : ¬ ∃ p ∈ eraseKey id g.adjMap, k ∈ p.2 ∧ pointsTo g.idToEdge id k = true := by
        rintro ⟨p, _, _, h⟩
        simp [pointsTo, hk] at h
      rw [if_neg this]
      by_cases h : k ∈ out <;> simp [h]
    | some e =>
      have h1 : (∃ p ∈ eraseKey id g.adjMap, k ∈ p.2 ∧ pointsTo g.idToEdge id k = true) ↔
          (e.src ≠ id ∧ e.dst = id) := by
        constructor
        · rintro ⟨p, hp, hkp, hpt⟩
          obtain ⟨hp1, hp2⟩ := mem_eraseKey.mp hp
          obtain ⟨e', h1, h2⟩ := hlist p hp1 k hkp
          rw [hk] at h1
          cases h1
          refine ⟨h2 ▸ hp2, ?_⟩
          simpa [pointsTo, hk] using hpt
        · rintro ⟨hs, hd⟩
          obtain ⟨es, h1, h2⟩ := (hcons e.src k).mpr ⟨e, hk, rfl⟩
          refine ⟨(e.src, es), mem_eraseKey.mpr ⟨find_some_mem h1, hs⟩, h2, ?_⟩
          simp [pointsTo, hk, hd]
      have h2 := hnotout k e hk
      by_cases hs : e.src = id
      · have hc : ¬ ∃ p ∈ eraseKey id g.adjMap, k ∈ p.2 ∧ pointsTo g.idToEdge id k = true :=
          fun h => (h1.mp h).1 hs
        rw [if_neg hc, if_pos (h2.mpr hs)]
        simp [Option.filter, hs]
      · by_cases hd : e.dst = id
        · rw [if_pos (h1.mpr ⟨hs, hd⟩)]
          simp [Option.filter, hs, hd]
        · have hc : ¬ ∃ p ∈ eraseKey id g.adjMap, k ∈ p.2 ∧ pointsTo g.idToEdge id k = true :=
            fun h => hd (h1.mp h).2
          rw [if_neg hc, if_neg (fun h => hs (h2.mp h))]
          simp [Option.filter, hs, hd]
  · intro v hv
    show find v ((eraseKey id g.adjMap).map
        (fun p => (p.1, p.2.filter (fun eid => !pointsTo g.idToEdge id eid)))) = _
    rw [find_map_filter, find_eraseKey_ne hv]
    cases hes : find v g.adjMap with
    | none => rfl
    | some es =>
      simp only [Option.map_some', Option.some.injEq]
      apply List.filter_congr
      intro eid he
      obtain ⟨e, h1, h2⟩ := hlist (v, es) (find_some_mem hes) eid he
      have : ¬ e.src = id := fun h => hv (h2.symm.trans h)
      simp [pointsTo, incident, h1, this]
  · intro v hv
    exact find_eraseKey_ne hv g.idToVertex

/-- The test `AddAndRemoveVertex`, with an edge added: in the graph with vertices 1, 2
and the edge 1 -> 2, `delVertex(2)` returns `true`, removes vertex 2 and the edge, and
keeps vertex 1. -/
theorem delVertex_stored_witness :
    ∃ g', Graph.delVertex
        (Graph.addEdge (Graph.addVertex (Graph.addVertex (GraphData.empty Int) ⟨1, 10⟩)
          ⟨2, 20⟩) ⟨1, 1, 2, 1⟩).2 2 = .ok (true, g') ∧
      find 2 g'.idToVertex = none ∧ find 2 g'.adjMap = none ∧
      find 1 g'.idToEdge = none ∧ find 1 g'.adjMap = some [] ∧
      find 1 g'.idToVertex = some ⟨1, 10⟩ := by
  have hcons : AdjConsistent
      (Graph.addEdge (Graph.addVertex (Graph.addVertex (GraphData.empty Int) ⟨1, 10⟩)
          ⟨2, 20⟩) ⟨1, 1, 2, 1⟩).2 := by
    intro v eid
    show (∃ es, find v [(1, [1]), (2, [])] = some es ∧ eid ∈ es) ↔
      ∃ e, find eid [(1, (⟨1, 1, 2, 1⟩ : Edge))] = some e ∧ e.src = v
    simp only [find]
    constructor
    · rintro ⟨es, h1, h2⟩
      by_cases hv : (1 : Int) = v
      · simp only [hv, if_true, Option.some.injEq] at h1
        subst h1
        simp only [List.mem_singleton] at h2
        subst h2
        subst hv
        exact ⟨⟨1, 1, 2, 1⟩, by simp, rfl⟩
      · by_cases hv2 : (2 : Int) = v
        · simp only [hv, hv2, if_true, if_false, Option.some.injEq] at h1
          subst h1
          simp at h2
        · simp [hv, hv2] at h1
    · rintro ⟨e, h1, h2⟩
      by_cases he : (1 : Int) = eid
      · simp only [he, if_true, Option.some.injEq] at h1
        subst h1
        subst he
        simp at h2
        subst h2
        exact ⟨[1], by simp, by simp⟩
      · simp [he] at h1
  obtain ⟨g', h1, h2, h3, h4, h5, h6⟩ := delVertex_stored _ 2 (by decide) hcons (by decide)
  refine ⟨g', h1, h2, h3, ?_, ?_, ?_⟩
  · rw [h4 1]; rfl
  · rw [h5 1 (by decide)]; rfl
  · rw [h6 1 (by decide)]; rfl

/-! ## Unweighted distance: the returned value is not always minimal -/

set_option maxRecDepth 100000 in
/-- C2, the code at a failing input: on the undirected graph with edges 1-2, 1-3, 2-3,
2-4, 3-4, 4-5 the call `distanceWithoutWeight(g, 1, 5)` returns 4, in each of the 432
orders in which the adjacency sets can enumerate their edges, although 1, 2, 4, 5 is a
path of 3 edges.  (The tests' values, 3 and 2 on the tree of the test `BFS`, are as the
spec says.) -/
theorem distanceWithoutWeight_not_minimal :
    algorithm.distanceWithoutWeight triangleLadder 1 5 = .ok 4 ∧
    isPath triangleLadder [1, 2, 4, 5] = true ∧
    (adjacencyOrders triangleLadder).length = 432 ∧
    (adjacencyOrders triangleLadder).all (fun g => distanceIs g 1 5 4) = true ∧
    algorithm.distanceWithoutWeight bfsTestGraph 1 6 = .ok 3 ∧
    algorithm.distanceWithoutWeight bfsTestGraph 1 5 = .ok 2 := by
  refine ⟨rfl, by decide, by decide, by decide, rfl, rfl⟩

/-! ## Unweighted distance: reachability -/

/-- C3: in a graph in which `from` has an adjacency entry and every edge id listed in an
adjacency set names a stored edge whose destination has an adjacency entry, for
`from != to` the call `distanceWithoutWeight(g, from, to)` returns a number; that number
is `-1` if and only if there is no path of adjacency edges from `from` to `to`, and it is
positive otherwise. -/
theorem distanceWithoutWeight_reachable_iff {D : Type} (g : GraphData D)
    (source target : Int) (hne : source ≠ target)
    (hsrc : (find source g.adjMap).isSome = true)
    (hres : ∀ v es, find v g.adjMap = some es → ∀ eid ∈ es,
      ∃ e, find eid g.idToEdge = some e ∧ (find e.dst g.adjMap).isSome = true) :
    ∃ d, algorithm.distanceWithoutWeight g source target = .ok d ∧
      (d = -1 ↔ ¬ Reach g source target) ∧ (d ≠ -1 → 0 < d) := by
  have hinit : ∀ k, 0 ≤ algorithm.readD k [(source, 0)] := by
    intro k
    unfold algorithm.readD find
    by_cases h : source = k <;> simp [h, find]
  obtain ⟨d, h1, h2⟩ := bfsLoop_spec g source target hres (algorithm.bfsFuel g)
    [(source, 0)] [] [source] hinit
    (by
      intro x hx
      rw [List.mem_singleton] at hx
      subst hx
      exact ⟨Relation.ReflTransGen.refl, hsrc, hne⟩)
    (by simp) (by simp)
    (by simp [pending, algorithm.bfsFuel]; omega)
  refine ⟨d, by simp [algorithm.distanceWithoutWeight, hne, h1], ?_, ?_⟩
  · rcases h2 with ⟨h, h'⟩ | ⟨h, h'⟩
    · exact ⟨fun _ => h', fun _ => h⟩
    · exact ⟨fun hd => by omega, fun hn => absurd h' hn⟩
  · rcases h2 with ⟨h, _⟩ | ⟨h, _⟩
    · exact fun hn => absurd h hn
    · exact fun _ => h

/-- The test `BFS`: on the tree with edges 1-2, 1-3, 2-4, 3-5, 4-6 vertex 6 is reachable
from vertex 1 and the distance returned is not `-1` but positive. -/
theorem distanceWithoutWeight_reachable_iff_witness :
    ∃ d, algorithm.distanceWithoutWeight bfsTestGraph 1 6 = .ok d ∧
      (d = -1 ↔ ¬ Reach bfsTestGraph 1 6) ∧ (d ≠ -1 → 0 < d) :=
  distanceWithoutWeight_reachable_iff bfsTestGraph 1 6 (by decide) (by decide)
    (by
      intro v es hv eid he
      have hall : bfsTestGraph.adjMap.all (fun p => p.2.all (fun eid =>
          match find eid bfsTestGraph.idToEdge with
          | some e => (find e.dst bfsTestGraph.adjMap).isSome
          | none => false)) = true := by decide
      have := List.all_eq_true.mp (List.all_eq_true.mp hall (v, es) (find_some_mem hv)) eid he
      cases hf : find eid bfsTestGraph.idToEdge with
      | none => simp [hf] at this
      | some e =>
        simp only [hf] at this
        exact ⟨e, rfl, this⟩)

/-! ## Bipartiteness -/

/-- C5 fails as stated: in `danglingSource` every edge destination is a stored vertex and
`isBipartite` returns the side `[1]`, but the edge 5 -> 2, which the adjacency index lists
under its source 5, has no endpoint in that side. -/
theorem isBipartite_side_counterexample :
    (danglingSource.idToEdge.all (fun p => decide (p.2.dst ∈ vertexIds danglingSource))) = true ∧
    algorithm.isBipartite danglingSource = .ok (.ok [1]) ∧
    find 5 danglingSource.adjMap = some [2] ∧
    find 2 danglingSource.idToEdge = some ⟨2, 5, 2, 1⟩ ∧
    arc danglingSource 5 2 = true ∧
    (5 : Int) ∉ [(1 : Int)] ∧ (2 : Int) ∉ [(1 : Int)] := by
  refine ⟨by decide, rfl, by decide, by decide, by decide, by decide, by decide⟩

/-- C5, amended: in a graph whose edge destinations are all stored vertices, whenever
`isBipartite(g)` returns a set `S`, `S` is a duplicate-free list of stored vertex ids and
every edge listed in the adjacency set of a stored vertex has exactly one endpoint in
`S`. -/
theorem isBipartite_side {D : Type} (g : GraphData D) (hids : (vertexIds g).Nodup)
    (hdst : ∀ u w, Arc g u w → w ∈ vertexIds g)
    (S : List Int) (h : algorithm.isBipartite g = .ok (.ok S)) :
    S.Nodup ∧ (∀ x ∈ S, x ∈ vertexIds g) ∧
    ∀ u ∈ vertexIds g, ∀ w, Arc g u w → (u ∈ S ↔ w ∉ S) := by
  obtain ⟨color, rfl, hP, hall⟩ := isBipartite_ok_inv g S h
  have hsub := partOf_sublist color (Graph.getAllVertices g) 0
  refine ⟨hsub.nodup hids, fun x hx => hsub.subset hx, ?_⟩
  intro u hu w harc
  obtain ⟨i, v, hi, rfl⟩ := get_of_mem_ids hu
  obtain ⟨j, v', hj, rfl⟩ := get_of_mem_ids (hdst _ _ harc)
  have hn := nbr_of_arc g hids harc hi rfl hj rfl
  rw [mem_partOf_iff color hids hi, mem_partOf_iff color hids hj]
  obtain ⟨h1, h2⟩ := hP i (hall i (lt_of_get hi))
  obtain ⟨h3, h4⟩ := h2 j hn
  obtain ⟨h5, _⟩ := hP j h3
  omega

/-- The test `IsBipartite`: for the path 1-2-3-4-5 the returned side is `[1, 3, 5]`; it
has no duplicates, holds stored vertices, and each edge has exactly one endpoint in it. -/
theorem isBipartite_side_witness :
    [(1 : Int), 3, 5].Nodup ∧ (∀ x ∈ [(1 : Int), 3, 5], x ∈ vertexIds pathGraph) ∧
    ∀ u ∈ vertexIds pathGraph, ∀ w, Arc pathGraph u w →
      (u ∈ [(1 : Int), 3, 5] ↔ w ∉ [(1 : Int), 3, 5]) :=
  isBipartite_side pathGraph (by decide)
    (fun u w h => by
      have hall : ∀ p ∈ arcList pathGraph, p.2 ∈ vertexIds pathGraph := by decide
      exact hall (u, w) (arc_mem_arcList pathGraph h))
    [1, 3, 5] rfl

/-- C4: for a graph as `UndirectedGraph` builds it (the stored vertices have distinct
ids and an adjacency entry each, every listed edge id names a stored edge, both
endpoints of every adjacency edge are stored vertices, and every adjacency edge has its
mirror), in every enumeration order, `isBipartite(g)` returns a vertex set if and only if
the vertices admit a 2-colouring in which every edge joins differently coloured vertices;
otherwise it returns the error string "The graph is not bipartite". -/
theorem isBipartite_iff_twoColourable {D : Type} (g : GraphData D)
    (hids : (vertexIds g).Nodup) (hstored : ListedStored g)
    (hadj : ∀ v ∈ vertexIds g, (find v g.adjMap).isSome = true)
    (hend : ∀ u w, Arc g u w → u ∈ vertexIds g ∧ w ∈ vertexIds g)
    (hmirror : ∀ u w, Arc g u w → Arc g w u) :
    ∃ r, algorithm.isBipartite g = .ok r ∧
      ((∃ S, r = .ok S) ↔ TwoColourable g) ∧
      (¬ TwoColourable g → r = .error "The graph is not bipartite") := by
  have hdst : ∀ u w, Arc g u w → w ∈ vertexIds g := fun u w h => (hend u w h).2
  have hnf : NoFault g (Graph.getAllVertices g)
      (algorithm.buildIndex (Graph.getAllVertices g)) := by
    intro i v hv
    have hvid : v.id ∈ vertexIds g :=
      List.mem_map.mpr ⟨v, List.getElem?_mem hv, rfl⟩
    obtain ⟨es, hes⟩ := Option.isSome_iff_exists.mp (hadj _ hvid)
    refine ⟨es, hes, fun eid he => ?_⟩
    obtain ⟨e, hfe⟩ := Option.isSome_iff_exists.mp (hstored _ es hes eid he)
    refine ⟨e, hfe, ?_⟩
    have harc : Arc g v.id e.dst := (arc_iff g _ _).mpr ⟨es, hes, eid, he, e, hfe, rfl⟩
    obtain ⟨j, v', hj, hw⟩ := get_of_mem_ids (hdst _ _ harc)
    rw [← hw, indexOf_buildIndex _ j v' hids hj]
    exact lt_of_get hj
  obtain ⟨r0, hr0⟩ := colorRoots_total g _ _ hnf
    (List.range (Graph.getAllVertices g).length) (fun _ => -1)
    (fun i hi => List.mem_range.mp hi)
  obtain ⟨hA, hB⟩ := colorRoots_spec g _ _ _ _ _ hr0 (fun i hi => absurd rfl hi)
  cases r0 with
  | none =>
    have hnot : ¬ TwoColourable g := by
      rintro ⟨χ, hχ⟩
      refine hB (fun i => χ (idAt (Graph.getAllVertices g) i)) ?_ ?_ rfl
      · intro i j hn
        obtain ⟨v, v', hv, hv', harc⟩ := arc_of_nbr g hids hdst hn
        simp only [idAt, hv, hv']
        exact hχ _ _ harc
      · intro i j hn
        obtain ⟨v, v', hv, hv', harc⟩ := arc_of_nbr g hids hdst hn
        exact nbr_of_arc g hids (hmirror _ _ harc) hv' rfl hv rfl
    refine ⟨.error "The graph is not bipartite", by simp [algorithm.isBipartite, hr0], ?_,
      fun _ => rfl⟩
    constructor
    · rintro ⟨S, hS⟩
      cases hS
    · intro h
      exact absurd h hnot
  | some color =>
    obtain ⟨hP, _, hall⟩ := hA color rfl
    have htwo : TwoColourable g := by
      refine ⟨fun u => decide (color (algorithm.indexOf
        (algorithm.buildIndex (Graph.getAllVertices g)) u) = 0), ?_⟩
      intro u w harc
      obtain ⟨hu, hw⟩ := hend u w harc
      obtain ⟨i, v, hi, rfl⟩ := get_of_mem_ids hu
      obtain ⟨j, v', hj, rfl⟩ := get_of_mem_ids hw
      have hn := nbr_of_arc g hids harc hi rfl hj rfl
      simp only [indexOf_buildIndex _ i v hids hi, indexOf_buildIndex _ j v' hids hj]
      obtain ⟨h1, h2⟩ := hP i (hall i (List.mem_range.mpr (lt_of_get hi)))
      obtain ⟨h3, h4⟩ := h2 j hn
      obtain ⟨h5, _⟩ := hP j h3
      intro hdec
      have : (color i = 0 ↔ color j = 0) := by
        constructor
        · intro h; simpa [h] using hdec
        · intro h; simpa [h] using hdec
      omega
    refine ⟨.ok (algorithm.partOf color 0 (Graph.getAllVertices g)),
      by simp [algorithm.isBipartite, hr0], ?_, fun h => absurd htwo h⟩
    exact ⟨fun _ => htwo, fun _ => ⟨_, rfl⟩⟩

/-- The test `IsBipartite`: the path 1-2-3-4-5 satisfies the hypotheses and `isBipartite`
returns the set `[1, 3, 5]` for it; with the edge 1-3 added the result is the error
string. -/
theorem isBipartite_iff_twoColourable_witness :
    (∃ r, algorithm.isBipartite pathGraph = .ok r ∧
      ((∃ S, r = .ok S) ↔ TwoColourable pathGraph) ∧
      (¬ TwoColourable pathGraph → r = .error "The graph is not bipartite")) ∧
    algorithm.isBipartite pathGraph = .ok (.ok [1, 3, 5]) ∧
    algorithm.isBipartite pathWithChord = .ok (.error "The graph is not bipartite") :=
  ⟨isBipartite_iff_twoColourable pathGraph (by decide)
    (listedStored_of_all pathGraph (by decide)) (by decide)
    (fun u w h => by
      have hall : ∀ p ∈ arcList pathGraph,
          p.1 ∈ vertexIds pathGraph ∧ p.2 ∈ vertexIds pathGraph := by decide
      exact hall (u, w) (arc_mem_arcList pathGraph h))
    (fun u w h => by
      have hall : ∀ p ∈ arcList pathGraph, arc pathGraph p.2 p.1 = true := by decide
      exact hall (u, w) (arc_mem_arcList pathGraph h)),
   rfl, rfl⟩

/-! ## Maximum bipartite matching -/

theorem unvisited_mono {n : Nat} {s s' : HK} (h : VisMono s s') :
    unvisited n s' ≤ unvisited n s := by
  apply Finset.card_le_card
  intro i hi
  simp only [Finset.mem_filter] at hi ⊢
  refine ⟨hi.1, ?_⟩
  by_contra hc
  have : s.vis i = true := by simpa using hc
  rw [h i this] at hi
  simp at hi

theorem unvisited_upd {n v : Nat} {s : HK} (hlt : v < n) (hv : s.vis v = false) :
    unvisited n { s with vis := upd s.vis v true } < unvisited n s := by
  apply Finset.card_lt_card
  rw [Finset.ssubset_iff_of_subset]
  · exact ⟨v, by simp [hlt, hv], by simp [upd_same]⟩
  · intro i hi
    simp only [Finset.mem_filter] at hi ⊢
    refine ⟨hi.1, ?_⟩
    by_cases hne : i = v
    · subst hne; exact hv
    · rw [upd_other _ _ hne] at hi
      exact hi.2

theorem valid_of_same {D : Type} {g : GraphData D} {vs : List (Vertex D)}
    {idx : List (Int × Nat)} {part1 : List Int} {s s1 : HK}
    (h : Valid g vs idx part1 s) (hs : SameArrays s s1) : Valid g vs idx part1 s1 := by
  obtain ⟨hx, hy⟩ := hs
  unfold Valid Matching at *
  rw [hx, hy]
  exact h

theorem dfsPre_of_same {D : Type} {g : GraphData D} {vs : List (Vertex D)}
    {idx : List (Int × Nat)} {part1 : List Int} {s s1 : HK} {u : Nat}
    (h : DfsPre g vs idx part1 s u) (hs : SameArrays s s1) (hm : VisMono s s1) :
    DfsPre g vs idx part1 s1 u := by
  obtain ⟨h1, h2, h3⟩ := h
  refine ⟨valid_of_same h1 hs, h2, ?_⟩
  rw [hs.1]
  rcases h3 with h3 | ⟨v, h3, h4⟩
  · exact Or.inl h3
  · exact Or.inr ⟨v, h3, hm v h4⟩

theorem dfsTrue_of_step {D : Type} {g : GraphData D} {vs : List (Vertex D)}
    {idx : List (Int × Nat)} {part1 : List Int} {s s1 s' : HK} {u : Nat}
    (hs : SameArrays s s1) (hl : SameLayers s s1) (hm : VisMono s s1)
    (h : DfsTrue g vs idx part1 u s1 s') : DfsTrue g vs idx part1 u s s' := by
  obtain ⟨hx, hy⟩ := hs
  obtain ⟨hdx, hdy, hdis⟩ := hl
  obtain ⟨l1, l2, l3⟩ := h.layers
  have hnot : ∀ v, s1.vis v = false → s.vis v = false := by
    intro v hv
    by_contra hc
    have : s.vis v = true := by simpa using hc
    rw [hm v this] at hv
    cases hv
  refine ⟨⟨l1.trans hdx, l2.trans hdy, l3.trans hdis⟩, fun v hv => h.mono v (hm v hv),
    h.matching, ?_, ?_, ?_, ?_, ?_⟩
  · intro y hy'
    obtain ⟨x, h1, h2⟩ := h.stale y hy'
    exact ⟨x, h1, by rw [hx] at h2; exact h2⟩
  · obtain ⟨v, h1, h2, h3⟩ := h.fresh
    exact ⟨v, h1, hnot v h2, h3⟩
  · intro y hv
    rw [h.frameY y (hm y hv), hy]
  · intro x hne hc
    rw [h.frameX x hne (by
      rw [hx]
      rcases hc with hc | ⟨v, hc, hv⟩
      · exact Or.inl hc
      · exact Or.inr ⟨v, hc, hm v hv⟩), hx]
  · intro x hxne
    exact h.grow x (by rw [hx]; exact hxne)

theorem dfsFalse_trans {D : Type} {g : GraphData D} {vs : List (Vertex D)}
    {idx : List (Int × Nat)} {s s1 s' : HK}
    (h1 : DfsFalse g vs idx s s1) (h2 : DfsFalse g vs idx s1 s') : DfsFalse g vs idx s s' := by
  obtain ⟨hx, hy⟩ := h1.same
  obtain ⟨hdx, hdy, hdis⟩ := h1.layers
  obtain ⟨hx2, hy2⟩ := h2.same
  obtain ⟨hdx2, hdy2, hdis2⟩ := h2.layers
  refine ⟨⟨hx2.trans hx, hy2.trans hy⟩, ⟨hdx2.trans hdx, hdy2.trans hdy, hdis2.trans hdis⟩,
    fun v hv => h2.mono v (h1.mono v hv), ?_⟩
  intro v hv hv'
  by_cases hv1 : s1.vis v = true
  · obtain ⟨e1, e2⟩ := h1.expl v hv hv1
    exact ⟨e1, fun hd v' ha => h2.mono v' (e2 hd v' ha)⟩
  · have hv1' : s1.vis v = false := by simpa using hv1
    obtain ⟨e1, e2⟩ := h2.expl v hv1' hv'
    unfold Admissible at e2
    rw [hy, hdy, hdis, hdx] at e2
    rw [hy] at e1
    exact ⟨e1, e2⟩

theorem dfsFalse_refl {D : Type} (g : GraphData D) (vs : List (Vertex D))
    (idx : List (Int × Nat)) (s : HK) : DfsFalse g vs idx s s :=
  ⟨⟨rfl, rfl⟩, ⟨rfl, rfl, rfl⟩, fun _ h => h, fun v h1 h2 => by rw [h1] at h2; cases h2⟩

theorem hkDfsEdges_spec {D : Type} (g : GraphData D) (vs : List (Vertex D))
    (idx : List (Int × Nat)) (part1 : List Int)
    (fuel : Nat) (self : Nat → HK → Except Fault (Bool × HK))
    (hself : ∀ u s, DfsPre g vs idx part1 s u → unvisited vs.length s < fuel →
      ∃ b s', self u s = .ok (b, s') ∧ HkPost g vs idx part1 u s b s')
    (u : Nat) :
    ∀ (es : List Int) (s : HK),
      (∀ eid ∈ es, ∃ e, find eid g.idToEdge = some e ∧
        nbr g vs idx u (indexOf idx e.dst) ∧ indexOf idx e.dst < vs.length) →
      DfsPre g vs idx part1 s u → unvisited vs.length s ≤ fuel →
      ∃ b s', hkDfsEdges g idx self u es s = .ok (b, s') ∧
        (b = false → DfsFalse g vs idx s s' ∧
          ∀ eid ∈ es, ∀ e, find eid g.idToEdge = some e →
            s.dy (indexOf idx e.dst) = s.dx u + 1 → s'.vis (indexOf idx e.dst) = true) ∧
        (b = true → DfsTrue g vs idx part1 u s s') := by
  intro es
  induction es with
  | nil =>
    intro s _ _ _
    exact ⟨false, s, rfl, fun _ => ⟨dfsFalse_refl g vs idx s, by simp⟩, fun h => by cases h⟩
  | cons eid rest ih =>
    intro s hes hpre hU
    obtain ⟨e, he, hnbr, hlt⟩ := hes eid (List.mem_cons_self _ _)
    have hes' := fun x hx => hes x (List.mem_cons_of_mem _ hx)
    obtain ⟨hvalid, hLu, hfree⟩ := hpre
    -- the step "skip" or "visit"
    by_cases hcond : s.vis (indexOf idx e.dst) = false ∧ s.dy (indexOf idx e.dst) = s.dx u + 1
    swap
    · -- the edge is skipped
      have hstep : hkDfsEdges g idx self u (eid :: rest) s = hkDfsEdges g idx self u rest s := by
        simp only [hkDfsEdges, Graph.getEdge, he]
        rw [if_neg hcond]
      obtain ⟨b, s', hrun, hF, hT⟩ := ih s hes' ⟨hvalid, hLu, hfree⟩ hU
      refine ⟨b, s', hstep.trans hrun, ?_, hT⟩
      intro hb
      obtain ⟨hf1, hf2⟩ := hF hb
      refine ⟨hf1, ?_⟩
      intro x hx e' he' hadm
      rcases List.mem_cons.mp hx with rfl | hx
      · rw [he] at he'
        cases he'
        have hv : s.vis (indexOf idx e.dst) = true := by
          by_contra hc
          exact hcond ⟨by simpa using hc, hadm⟩
        exact hf1.mono _ hv
      · exact hf2 x hx e' he' hadm
    · obtain ⟨hvis, hadm⟩ := hcond
      -- the state after `vis[v] = true`
      have hsame1 : SameArrays s { s with vis := upd s.vis (indexOf idx e.dst) true } :=
        ⟨rfl, rfl⟩
      have hlay1 : SameLayers s { s with vis := upd s.vis (indexOf idx e.dst) true } :=
        ⟨rfl, rfl, rfl⟩
      have hmono1 : VisMono s { s with vis := upd s.vis (indexOf idx e.dst) true } := by
        intro w hw
        show upd s.vis (indexOf idx e.dst) true w = true
        by_cases hne : w = indexOf idx e.dst
        · rw [hne, upd_same]
        · rw [upd_other _ _ hne]; exact hw
      have hpre1 := dfsPre_of_same (show DfsPre g vs idx part1 s u from ⟨hvalid, hLu, hfree⟩)
        hsame1 hmono1
      have hU1 : unvisited vs.length { s with vis := upd s.vis (indexOf idx e.dst) true } <
          unvisited vs.length s := unvisited_upd hlt hvis
      have hvis1 : ({ s with vis := upd s.vis (indexOf idx e.dst) true } : HK).vis
          (indexOf idx e.dst) = true := upd_same _ _ _
      -- facts about the visited right index, for the result `false`
      have hfalse1 : ∀ (s2 : HK),
          DfsFalse g vs idx { s with vis := upd s.vis (indexOf idx e.dst) true } s2 →
          (s.yMatch (indexOf idx e.dst) ≠ -1 ∧ (s.dy (indexOf idx e.dst) ≠ s.dis →
            ∀ v', Admissible g vs idx s (s.yMatch (indexOf idx e.dst)).toNat v' →
              s2.vis v' = true)) →
          DfsFalse g vs idx s s2 := by
        intro s2 h2 hv
        refine ⟨h2.same, h2.layers, fun w hw => h2.mono w (hmono1 w hw), ?_⟩
        intro w hw hw2
        by_cases hne : w = indexOf idx e.dst
        · subst hne
          exact hv
        · have : ({ s with vis := upd s.vis (indexOf idx e.dst) true } : HK).vis w = false := by
            show upd s.vis (indexOf idx e.dst) true w = false
            rw [upd_other _ _ hne]; exact hw
          exact h2.expl w this hw2
      have hfin : ∀ (s2 s' : HK) (b : Bool),
          DfsFalse g vs idx s s2 →
          s2.vis (indexOf idx e.dst) = true →
          hkDfsEdges g idx self u rest s2 = .ok (b, s') →
          (b = false → DfsFalse g vs idx s2 s' ∧
            ∀ eid ∈ rest, ∀ e, find eid g.idToEdge = some e →
              s2.dy (indexOf idx e.dst) = s2.dx u + 1 → s'.vis (indexOf idx e.dst) = true) →
          (b = true → DfsTrue g vs idx part1 u s2 s') →
          (b = false → DfsFalse g vs idx s s' ∧
            ∀ x ∈ eid :: rest, ∀ e', find x g.idToEdge = some e' →
              s.dy (indexOf idx e'.dst) = s.dx u + 1 → s'.vis (indexOf idx e'.dst) = true) ∧
          (b = true → DfsTrue g vs idx part1 u s s') := by
        intro s2 s' b h02 hv2 _ hF hT
        constructor
        · intro hb
          obtain ⟨hf1, hf2⟩ := hF hb
          refine ⟨dfsFalse_trans h02 hf1, ?_⟩
          intro x hx e' he' hadm'
          rcases List.mem_cons.mp hx with rfl | hx
          · rw [he] at he'
            cases he'
            exact hf1.mono _ hv2
          · obtain ⟨l1, l2, _⟩ := h02.layers
            exact hf2 x hx e' he' (by rw [l1, l2]; exact hadm')
        · intro hb
          exact dfsTrue_of_step h02.same h02.layers h02.mono (hT hb)
      by_cases hprune : s.yMatch (indexOf idx e.dst) ≠ -1 ∧ s.dy (indexOf idx e.dst) = s.dis
      · -- matched on the last layer: `continue`
        have hstep : hkDfsEdges g idx self u (eid :: rest) s =
            hkDfsEdges g idx self u rest { s with vis := upd s.vis (indexOf idx e.dst) true } := by
          simp only [hkDfsEdges, Graph.getEdge, he]
          rw [if_pos ⟨hvis, hadm⟩, if_pos hprune]
        obtain ⟨b, s', hrun, hF, hT⟩ := ih _ hes' hpre1 (Nat.le_of_lt (Nat.lt_of_lt_of_le hU1 hU))
        refine ⟨b, s', hstep.trans hrun, ?_⟩
        have h01 := hfalse1 _ (dfsFalse_refl g vs idx _)
          ⟨hprune.1, fun hne => absurd hprune.2 hne⟩
        exact hfin _ s' b h01 hvis1 hrun hF hT
      · by_cases hym : s.yMatch (indexOf idx e.dst) = -1
        · -- a free right index: augment
          refine ⟨true, { s with vis := upd s.vis (indexOf idx e.dst) true,
                                 xMatch := upd s.xMatch u (indexOf idx e.dst),
                                 yMatch := upd s.yMatch (indexOf idx e.dst) u }, ?_,
            (fun h => by cases h), fun _ => ?_⟩
          · simp only [hkDfsEdges, Graph.getEdge, he]
            rw [if_pos ⟨hvis, hadm⟩, if_neg hprune, if_pos hym]
          · refine ⟨⟨rfl, rfl, rfl⟩, hmono1, ?_, ?_, ?_, ?_, ?_, ?_⟩
            · intro x hx
              by_cases hxu : x = u
              · subst hxu
                exact ⟨hLu, indexOf idx e.dst, upd_same _ _ _, hnbr, upd_same _ _ _⟩
              · have hx' : s.xMatch x ≠ -1 := by
                  have : upd s.xMatch u ((indexOf idx e.dst : Nat) : Int) x = s.xMatch x :=
                    upd_other _ _ hxu
                  rw [← this]; exact hx
                obtain ⟨hL, v', h1, h2, h3⟩ := hvalid.1 x hx'
                refine ⟨hL, v', (upd_other _ _ hxu).trans h1, h2, ?_⟩
                have hne : v' ≠ indexOf idx e.dst := by
                  intro hc
                  rw [hc, hym] at h3
                  omega
                exact (upd_other _ _ hne).trans h3
            · intro y hy
              by_cases hyv : y = indexOf idx e.dst
              · subst hyv
                exact ⟨u, upd_same _ _ _, Or.inl (upd_same _ _ _)⟩
              · have hy' : s.yMatch y ≠ -1 := by
                  have : upd s.yMatch (indexOf idx e.dst) (u : Int) y = s.yMatch y :=
                    upd_other _ _ hyv
                  rw [← this]; exact hy
                obtain ⟨x, h1, h2⟩ := hvalid.2 y hy'
                refine ⟨x, (upd_other _ _ hyv).trans h1, ?_⟩
                by_cases hxu : x = u
                · exact Or.inr ⟨hxu, hxu ▸ h2⟩
                · exact Or.inl ((upd_other _ _ hxu).trans h2)
            · exact ⟨indexOf idx e.dst, upd_same _ _ _, hvis, upd_same _ _ _⟩
            · intro y hy
              have hne : y ≠ indexOf idx e.dst := by
                intro hc; rw [hc, hvis] at hy; cases hy
              exact upd_other _ _ hne
            · intro x hne _
              exact upd_other _ _ hne
            · intro x hx
              by_cases hxu : x = u
              · subst hxu
                show upd s.xMatch x ((indexOf idx e.dst : Nat) : Int) x ≠ -1
                rw [upd_same]; omega
              · show upd s.xMatch u ((indexOf idx e.dst : Nat) : Int) x ≠ -1
                rw [upd_other _ _ hxu]; exact hx
        · -- matched: recurse into the partner
          obtain ⟨u', hu'1, hu'2⟩ := hvalid.2 _ hym
          have htoNat : (s.yMatch (indexOf idx e.dst)).toNat = u' := by rw [hu'1]; simp
          have hLu' : LIdx idx part1 u' := (hvalid.1 u' (by rw [hu'2]; omega)).1
          have hpre' : DfsPre g vs idx part1
              { s with vis := upd s.vis (indexOf idx e.dst) true } u' :=
            ⟨valid_of_same hvalid hsame1, hLu', Or.inr ⟨indexOf idx e.dst, hu'2, hvis1⟩⟩
          obtain ⟨b1, s2, hcall, hpost⟩ := hself u' _ hpre' (Nat.lt_of_lt_of_le hU1 hU)
          have hdisne : ¬ s.dy (indexOf idx e.dst) = s.dis := fun h => hprune ⟨hym, h⟩
          cases b1 with
          | false =>
            obtain ⟨hf2, hadm2⟩ := hpost.1 rfl
            have hstep : hkDfsEdges g idx self u (eid :: rest) s =
                hkDfsEdges g idx self u rest s2 := by
              simp only [hkDfsEdges, Graph.getEdge, he]
              rw [if_pos ⟨hvis, hadm⟩, if_neg hprune, if_neg hym]
              simp only [htoNat, hcall]
            have h02 : DfsFalse g vs idx s s2 := by
              refine hfalse1 s2 hf2 ⟨hym, fun _ v' hv' => ?_⟩
              rw [htoNat] at hv'
              exact hadm2 v' hv'
            have hpre2 := dfsPre_of_same (show DfsPre g vs idx part1 s u from
              ⟨hvalid, hLu, hfree⟩) h02.same h02.mono
            have hU2 : unvisited vs.length s2 ≤ fuel :=
              (unvisited_mono h02.mono).trans hU
            obtain ⟨b, s', hrun, hF, hT⟩ := ih s2 hes' hpre2 hU2
            refine ⟨b, s', hstep.trans hrun, ?_⟩
            exact hfin s2 s' b h02 (hf2.mono _ hvis1) hrun hF hT
          | true =>
            have ht := hpost.2 rfl
            refine ⟨true, { s2 with xMatch := upd s2.xMatch u (indexOf idx e.dst),
                                    yMatch := upd s2.yMatch (indexOf idx e.dst) u }, ?_,
              (fun h => by cases h), fun _ => ?_⟩
            · simp only [hkDfsEdges, Graph.getEdge, he]
              rw [if_pos ⟨hvis, hadm⟩, if_neg hprune, if_neg hym]
              simp only [htoNat, hcall]
            · -- key facts
              obtain ⟨v'', hv''1, hv''2, hv''3⟩ := ht.fresh
              have hyv2 : s2.yMatch (indexOf idx e.dst) = (u' : Int) :=
                (ht.frameY _ hvis1).trans hu'1
              have hv''ne : v'' ≠ indexOf idx e.dst := by
                intro hc; rw [hc] at hv''2; rw [hvis1] at hv''2; cases hv''2
              have huu' : u ≠ u' := by
                intro hc
                rcases hfree with hf | ⟨v0, hf, hv0⟩
                · rw [hc, hu'2] at hf; omega
                · rw [hc, hu'2] at hf
                  have : indexOf idx e.dst = v0 := by exact_mod_cast hf
                  rw [← this, hvis] at hv0
                  cases hv0
              have hxu2 : s2.xMatch u = s.xMatch u := by
                refine ht.frameX u huu' ?_
                rcases hfree with hf | ⟨v0, hf, hv0⟩
                · exact Or.inl hf
                · exact Or.inr ⟨v0, hf, hmono1 v0 hv0⟩
              refine ⟨ht.layers, fun w hw => ht.mono w (hmono1 w hw), ?_, ?_, ?_, ?_, ?_, ?_⟩
              · intro x hx
                by_cases hxu : x = u
                · subst hxu
                  exact ⟨hLu, indexOf idx e.dst, upd_same _ _ _, hnbr, upd_same _ _ _⟩
                · have hx' : s2.xMatch x ≠ -1 := by
                    have : upd s2.xMatch u ((indexOf idx e.dst : Nat) : Int) x = s2.xMatch x :=
                      upd_other _ _ hxu
                    rw [← this]; exact hx
                  obtain ⟨hL, v', h1, h2, h3⟩ := ht.matching x hx'
                  refine ⟨hL, v', (upd_other _ _ hxu).trans h1, h2, ?_⟩
                  have hne : v' ≠ indexOf idx e.dst := by
                    intro hc
                    rw [hc, hyv2] at h3
                    have hxu' : u' = x := by exact_mod_cast h3
                    rw [← hxu', hv''1] at h1
                    have : v'' = v' := by exact_mod_cast h1
                    exact hv''ne (this.trans hc)
                  exact (upd_other _ _ hne).trans h3
              · intro y hy
                by_cases hyv : y = indexOf idx e.dst
                · subst hyv
                  exact ⟨u, upd_same _ _ _, Or.inl (upd_same _ _ _)⟩
                · have hy' : s2.yMatch y ≠ -1 := by
                    have : upd s2.yMatch (indexOf idx e.dst) (u : Int) y = s2.yMatch y :=
                      upd_other _ _ hyv
                    rw [← this]; exact hy
                  obtain ⟨x, h1, h2⟩ := ht.stale y hy'
                  refine ⟨x, (upd_other _ _ hyv).trans h1, ?_⟩
                  have h2' : s2.xMatch x = (y : Int) := by
                    rcases h2 with h2 | ⟨hxu', h2⟩
                    · exact h2
                    · exfalso
                      have h3 : ((indexOf idx e.dst : Nat) : Int) = (y : Int) := hu'2.symm.trans h2
                      exact hyv (by exact_mod_cast h3.symm)
                  by_cases hxu : x = u
                  · refine Or.inr ⟨hxu, ?_⟩
                    rw [← hxu2, ← hxu]; exact h2'
                  · exact Or.inl ((upd_other _ _ hxu).trans h2')
              · exact ⟨indexOf idx e.dst, upd_same _ _ _, hvis, ht.mono _ hvis1⟩
              · intro y hy
                have hne : y ≠ indexOf idx e.dst := by
                  intro hc; rw [hc, hvis] at hy; cases hy
                exact (upd_other _ _ hne).trans (ht.frameY y (hmono1 y hy))
              · intro x hne hc
                have hxu' : x ≠ u' := by
                  intro hcx
                  rcases hc with hc | ⟨v0, hc, hv0⟩
                  · rw [hcx, hu'2] at hc; omega
                  · rw [hcx, hu'2] at hc
                    have : indexOf idx e.dst = v0 := by exact_mod_cast hc
                    rw [← this, hvis] at hv0
                    cases hv0
                refine (upd_other _ _ hne).trans (ht.frameX x hxu' ?_)
                rcases hc with hc | ⟨v0, hc, hv0⟩
                · exact Or.inl hc
                · exact Or.inr ⟨v0, hc, hmono1 v0 hv0⟩
              · intro x hx
                by_cases hxu : x = u
                · subst hxu
                  show upd s2.xMatch x ((indexOf idx e.dst : Nat) : Int) x ≠ -1
                  rw [upd_same]; omega
                · show upd s2.xMatch u ((indexOf idx e.dst : Nat) : Int) x ≠ -1
                  rw [upd_other _ _ hxu]; exact ht.grow x hx

theorem unvisited_le (n : Nat) (s : HK) : unvisited n s ≤ n := by
  unfold unvisited
  calc ((Finset.range n).filter (fun v => s.vis v = false)).card
      ≤ (Finset.range n).card := Finset.card_filter_le _ _
    _ = n := Finset.card_range n

theorem hkDFS_spec {D : Type} (g : GraphData D) (vs : List (Vertex D))
    (idx : List (Int × Nat)) (part1 : List Int) (hG : HKGraph g vs idx part1) :
    ∀ (fuel u : Nat) (s : HK), DfsPre g vs idx part1 s u → unvisited vs.length s < fuel →
      ∃ b s', hkDFS g vs idx fuel u s = .ok (b, s') ∧ HkPost g vs idx part1 u s b s' := by
  intro fuel
  induction fuel with
  | zero => intro u s _ h; omega
  | succ fuel ih =>
    intro u s hpre hU
    have hlt : u < vs.length := hG.lrange u hpre.2.1
    have hv : vs[u]? = some vs[u] := List.getElem?_eq_getElem hlt
    obtain ⟨es, hes, hres⟩ := hG.nofault u _ hv
    have hes' : ∀ eid ∈ es, ∃ e, find eid g.idToEdge = some e ∧
        nbr g vs idx u (indexOf idx e.dst) ∧ indexOf idx e.dst < vs.length := by
      intro eid he
      obtain ⟨e, h1, h2⟩ := hres eid he
      exact ⟨e, h1, ⟨vs[u], es, eid, e, hv, hes, he, h1, rfl⟩, h2⟩
    obtain ⟨b, s', hrun, hF, hT⟩ := hkDfsEdges_spec g vs idx part1 fuel
      (fun u' s' => hkDFS g vs idx fuel u' s') (fun u' s' h1 h2 => ih u' s' h1 h2)
      u es s hes' hpre (Nat.le_of_lt_succ hU)
    refine ⟨b, s', by simp only [hkDFS, hv, Graph.getEdgeIdsOfVertex, hes, hrun], ?_, hT⟩
    intro hb
    obtain ⟨h1, h2⟩ := hF hb
    refine ⟨h1, ?_⟩
    rintro v ⟨⟨v', es', eid, e, hv', hes'', hmem, hfe, rfl⟩, hadm⟩
    rw [hv] at hv'
    cases hv'
    rw [hes] at hes''
    cases hes''
    exact h2 eid hmem e hfe hadm

theorem hkPhase_spec {D : Type} (g : GraphData D) (vs : List (Vertex D))
    (idx : List (Int × Nat)) (part1 : List Int) (hG : HKGraph g vs idx part1) :
    ∀ (ids : List Int) (s : HK) (res : Nat), (∀ id ∈ ids, id ∈ part1) →
      Valid g vs idx part1 s →
      ∃ s' res', hkPhase g vs idx ids s res = .ok (s', res') ∧
        PhasePost g vs idx part1 ids s s' := by
  intro ids
  induction ids with
  | nil =>
    intro s res _ hvalid
    exact ⟨s, res, rfl, hvalid, ⟨rfl, rfl, rfl⟩, fun _ h => h,
      Or.inr ⟨dfsFalse_refl g vs idx s, by simp⟩⟩
  | cons id rest ih =>
    intro s res hids hvalid
    have hids' := fun x hx => hids x (List.mem_cons_of_mem _ hx)
    have hL : LIdx idx part1 (indexOf idx id) := ⟨id, hids id (List.mem_cons_self _ _), rfl⟩
    by_cases hfree : s.xMatch (indexOf idx id) = -1
    · obtain ⟨b, s1, hcall, hpost⟩ := hkDFS_spec g vs idx part1 hG (vs.length + 1)
        (indexOf idx id) s ⟨hvalid, hL, Or.inl hfree⟩
        (Nat.lt_succ_of_le (unvisited_le _ _))
      cases b with
      | true =>
        have ht := hpost.2 rfl
        have hvalid1 : Valid g vs idx part1 s1 := by
          refine ⟨ht.matching, fun y hy => ?_⟩
          obtain ⟨x, h1, h2⟩ := ht.stale y hy
          refine ⟨x, h1, ?_⟩
          rcases h2 with h2 | ⟨_, h2⟩
          · exact h2
          · rw [hfree] at h2; omega
        obtain ⟨s', res', hrun, hv', hl', hg', _⟩ := ih s1 (res + 1) hids' hvalid1
        refine ⟨s', res', by simp only [hkPhase, hfree, if_true, hcall, hrun], hv', ?_, ?_, ?_⟩
        · obtain ⟨a1, a2, a3⟩ := ht.layers
          obtain ⟨b1, b2, b3⟩ := hl'
          exact ⟨b1.trans a1, b2.trans a2, b3.trans a3⟩
        · exact fun x hx => hg' x (ht.grow x hx)
        · left
          obtain ⟨v, hv1, _, _⟩ := ht.fresh
          exact ⟨indexOf idx id, hfree, hg' _ (by rw [hv1]; omega)⟩
      | false =>
        obtain ⟨hf, hadm⟩ := hpost.1 rfl
        obtain ⟨hx, hy⟩ := hf.same
        obtain ⟨a1, a2, a3⟩ := hf.layers
        obtain ⟨s', res', hrun, hv', hl', hg', hprog⟩ :=
          ih s1 res hids' (valid_of_same hvalid hf.same)
        refine ⟨s', res', by simp only [hkPhase, hfree, if_true, hcall, hrun], hv', ?_, ?_, ?_⟩
        · obtain ⟨b1, b2, b3⟩ := hl'
          exact ⟨b1.trans a1, b2.trans a2, b3.trans a3⟩
        · intro x hxne
          exact hg' x (by rw [hx]; exact hxne)
        · rcases hprog with ⟨x, h1, h2⟩ | ⟨h1, h2⟩
          · left
            exact ⟨x, by rw [← hx]; exact h1, h2⟩
          · right
            refine ⟨dfsFalse_trans hf h1, ?_⟩
            intro x hxm hxf v hv
            rcases List.mem_cons.mp hxm with rfl | hxm
            · exact h1.mono v (hadm v hv)
            · refine h2 x hxm (by rw [hx]; exact hxf) v ?_
              unfold Admissible at hv ⊢
              rw [a1, a2]
              exact hv
    · obtain ⟨s', res', hrun, hv', hl', hg', hprog⟩ := ih s res hids' hvalid
      refine ⟨s', res', by simp only [hkPhase, hfree, if_false, hrun], hv', hl', hg', ?_⟩
      rcases hprog with h | ⟨h1, h2⟩
      · exact Or.inl h
      · right
        refine ⟨h1, ?_⟩
        intro x hxm hxf v hv
        rcases List.mem_cons.mp hxm with rfl | hxm
        · exact absurd hxf hfree
        · exact h2 x hxm hxf v hv

theorem chain_pos {D : Type} {g : GraphData D} {vs : List (Vertex D)}
    {idx : List (Int × Nat)} {part1 : List Int} {s : HK} {y : Nat}
    (h : Chain g vs idx part1 s y) : 1 ≤ s.dy y := by
  induction h with
  | base u y _ _ h0 hadm => have := hadm.2; omega
  | step y' u y _ _ hdx hadm ih => have := hadm.2; omega

theorem layerExt_refl (s : HK) : LayerExt s s := ⟨rfl, rfl, ext_refl _, ext_refl _⟩

theorem layerExt_trans {a b c : HK} (h1 : LayerExt a b) (h2 : LayerExt b c) : LayerExt a c :=
  ⟨h2.xm.trans h1.xm, h2.ym.trans h1.ym, ext_trans h1.dx h2.dx, ext_trans h1.dy h2.dy⟩

theorem chain_mono {D : Type} {g : GraphData D} {vs : List (Vertex D)}
    {idx : List (Int × Nat)} {part1 : List Int} {s s' : HK} (hext : LayerExt s s') {y : Nat}
    (h : Chain g vs idx part1 s y) : Chain g vs idx part1 s' y := by
  induction h with
  | base u y hL hfree h0 hadm =>
    have hdx : s'.dx u = s.dx u := hext.dx u (by omega)
    have hdy : s'.dy y = s.dy y := hext.dy y (by have := hadm.2; omega)
    exact Chain.base u y hL (by rw [hext.xm]; exact hfree) (by omega)
      ⟨hadm.1, by rw [hdx, hdy]; exact hadm.2⟩
  | step y' u y hc hym hdxu hadm ih =>
    have hpos := chain_pos hc
    have hdy' : s'.dy y' = s.dy y' := hext.dy y' (by omega)
    have hdx : s'.dx u = s.dx u := hext.dx u (by omega)
    have hdy : s'.dy y = s.dy y := hext.dy y (by have := hadm.2; omega)
    exact Chain.step y' u y ih (by rw [hext.ym]; exact hym) (by rw [hdx, hdy']; exact hdxu)
      ⟨hadm.1, by rw [hdx, hdy]; exact hadm.2⟩

theorem labelled_mono {D : Type} {g : GraphData D} {vs : List (Vertex D)}
    {idx : List (Int × Nat)} {part1 : List Int} {s s' : HK} (hext : LayerExt s s') {u : Nat}
    (h : Labelled g vs idx part1 s u) : Labelled g vs idx part1 s' u := by
  obtain ⟨hL, h0, h3⟩ := h
  have hdx : s'.dx u = s.dx u := hext.dx u (by omega)
  refine ⟨hL, by omega, ?_⟩
  rcases h3 with h3 | ⟨y, hc, hy, hd⟩
  · exact Or.inl (by rw [hext.xm]; exact h3)
  · have hpos := chain_pos hc
    have hdy : s'.dy y = s.dy y := hext.dy y (by omega)
    exact Or.inr ⟨y, chain_mono hext hc, by rw [hext.ym]; exact hy, by rw [hdx, hdy]; exact hd⟩

theorem chain_of_labelled {D : Type} {g : GraphData D} {vs : List (Vertex D)}
    {idx : List (Int × Nat)} {part1 : List Int} {s : HK} {u v : Nat}
    (h : Labelled g vs idx part1 s u) (hadm : Admissible g vs idx s u v) :
    Chain g vs idx part1 s v := by
  obtain ⟨hL, h0, h3⟩ := h
  rcases h3 with h3 | ⟨y, hc, hy, hd⟩
  · exact Chain.base u v hL h3 h0 hadm
  · exact Chain.step y u v hc hy hd hadm

theorem ext_upd {c : Nat → Int} {v : Nat} (x : Int) (h : c v = -1) : Ext c (upd c v x) := by
  intro i hi
  have : i ≠ v := fun e => hi (e ▸ h)
  exact upd_other c x this

theorem binv_weaken {D : Type} {g : GraphData D} {vs : List (Vertex D)}
    {idx : List (Int × Nat)} {part1 : List Int} {P P' : Nat → Prop} {s : HK}
    (h : BInv g vs idx part1 P s) (h1 : ∀ x, P' x → P x)
    (h2 : ∀ x, P x → P' x ∨ ∀ v, nbr g vs idx x v → s.dy v ≠ -1) :
    BInv g vs idx part1 P' s :=
  ⟨h.valid, fun u hu => h.pend u (h1 u hu), h.lab, h.found, h.free,
    fun u hu => by
      rcases h.closed u hu with hp | hc
      · exact h2 u hp
      · exact Or.inr hc,
    h.matched, h.bound⟩

theorem bfs_step_free {D : Type} {g : GraphData D} {vs : List (Vertex D)}
    {idx : List (Int × Nat)} {part1 : List Int} {P : Nat → Prop} {s : HK} {u v : Nat}
    (hI : BInv g vs idx part1 P s) (hPu : P u) (hnb : nbr g vs idx u v) (hv : v < vs.length)
    (hdy : s.dy v = -1) (hym : s.yMatch v = -1) :
    BInv g vs idx part1 P { s with dy := upd s.dy v (s.dx u + 1), dis := s.dx u + 1 } ∧
    LayerExt s { s with dy := upd s.dy v (s.dx u + 1), dis := s.dx u + 1 } := by
  have hu := hI.pend u hPu
  have h0 : 0 ≤ s.dx u := hu.2.1
  have hext : LayerExt s { s with dy := upd s.dy v (s.dx u + 1), dis := s.dx u + 1 } :=
    ⟨rfl, rfl, ext_refl _, ext_upd _ hdy⟩
  have hunc : uncolored vs.length (upd s.dy v (s.dx u + 1)) < uncolored vs.length s.dy :=
    uncolored_upd hv hdy (by omega)
  refine ⟨⟨valid_of_same hI.valid ⟨rfl, rfl⟩, fun x hx => labelled_mono hext (hI.pend x hx),
    ?_, ?_, hI.free, ?_, ?_, ?_⟩, hext⟩
  · intro x hx
    rcases hI.lab x hx with h | ⟨y, h1, h2⟩
    · exact Or.inl h
    · exact Or.inr ⟨y, h1, by rw [hext.dy y h2]; exact h2⟩
  · intro _
    refine ⟨v, hym, upd_same _ _ _, ?_⟩
    exact chain_of_labelled (labelled_mono hext hu) ⟨hnb, upd_same _ _ _⟩
  · intro x hx
    rcases hI.closed x hx with h | h
    · exact Or.inl h
    · exact Or.inr (fun y hy => by rw [hext.dy y (h y hy)]; exact h y hy)
  · intro hbig hdis
    exfalso
    have hb := hI.bound u (by omega)
    have hdis' : s.dx u + 1 = INF := hdis
    omega
  · intro x hx
    have hb := hI.bound x hx
    show s.dx x + 2 * (uncolored vs.length (upd s.dy v (s.dx u + 1)) : Int) ≤ _
    omega

theorem bfs_step_matched {D : Type} {g : GraphData D} {vs : List (Vertex D)}
    {idx : List (Int × Nat)} {part1 : List Int} {P : Nat → Prop} {s : HK} {u v w : Nat}
    (hI : BInv g vs idx part1 P s) (hPu : P u) (hnb : nbr g vs idx u v) (hv : v < vs.length)
    (hdy : s.dy v = -1) (hym : s.yMatch v = (w : Int)) (hxm : s.xMatch w = (v : Int)) :
    BInv g vs idx part1 (fun x => P x ∨ x = w)
      { s with dy := upd s.dy v (s.dx u + 1), dx := upd s.dx w (s.dx u + 1 + 1) } ∧
    LayerExt s { s with dy := upd s.dy v (s.dx u + 1), dx := upd s.dx w (s.dx u + 1 + 1) } := by
  have hu := hI.pend u hPu
  have h0 : 0 ≤ s.dx u := hu.2.1
  have hdxw : s.dx w = -1 := by
    by_contra hne
    rcases hI.lab w hne with h | ⟨y, h1, h2⟩
    · rw [hxm] at h; omega
    · rw [hxm] at h1
      have : v = y := by exact_mod_cast h1
      exact h2 (this ▸ hdy)
  have hext : LayerExt s
      { s with dy := upd s.dy v (s.dx u + 1), dx := upd s.dx w (s.dx u + 1 + 1) } :=
    ⟨rfl, rfl, ext_upd _ hdxw, ext_upd _ hdy⟩
  have hunc : uncolored vs.length (upd s.dy v (s.dx u + 1)) < uncolored vs.length s.dy :=
    uncolored_upd hv hdy (by omega)
  have hchain := chain_of_labelled (labelled_mono hext hu)
    (show Admissible g vs idx _ u v from ⟨hnb, by
      show upd s.dy v (s.dx u + 1) v = upd s.dx w (s.dx u + 1 + 1) u + 1
      have huw : u ≠ w := fun e => by rw [e] at h0; omega
      rw [upd_same, upd_other _ _ huw]⟩)
  refine ⟨⟨valid_of_same hI.valid ⟨rfl, rfl⟩, ?_, ?_, ?_, ?_, ?_, ?_, ?_⟩, hext⟩
  · intro x hx
    rcases hx with hx | rfl
    · exact labelled_mono hext (hI.pend x hx)
    · refine ⟨(hI.valid.1 x (by rw [hxm]; omega)).1, ?_, Or.inr ⟨v, hchain, hym, ?_⟩⟩
      · show 0 ≤ upd s.dx x (s.dx u + 1 + 1) x
        rw [upd_same]; omega
      · show upd s.dx x (s.dx u + 1 + 1) x = upd s.dy v (s.dx u + 1) v + 1
        rw [upd_same, upd_same]
  · intro x hx
    by_cases hxw : x = w
    · subst hxw
      exact Or.inr ⟨v, hxm, by
        show upd s.dy v (s.dx u + 1) v ≠ -1
        rw [upd_same]; omega⟩
    · have hx' : s.dx x ≠ -1 := by
        have : upd s.dx w (s.dx u + 1 + 1) x = s.dx x := upd_other _ _ hxw
        rw [← this]; exact hx
      rcases hI.lab x hx' with h | ⟨y, h1, h2⟩
      · exact Or.inl h
      · exact Or.inr ⟨y, h1, by rw [hext.dy y h2]; exact h2⟩
  · intro hdis
    obtain ⟨y, h1, h2, h3⟩ := hI.found hdis
    have hpos := chain_pos h3
    exact ⟨y, h1, by rw [hext.dy y (by omega)]; exact h2, chain_mono hext h3⟩
  · intro x hL hfree
    have := hI.free x hL hfree
    rw [hext.dx x this]; exact this
  · intro x hx
    by_cases hxw : x = w
    · exact Or.inl (Or.inr hxw)
    · have hx' : s.dx x ≠ -1 := by
        have : upd s.dx w (s.dx u + 1 + 1) x = s.dx x := upd_other _ _ hxw
        rw [← this]; exact hx
      rcases hI.closed x hx' with h | h
      · exact Or.inl (Or.inl h)
      · exact Or.inr (fun y hy => by rw [hext.dy y (h y hy)]; exact h y hy)
  · intro hbig hdis y hy
    by_cases hyv : y = v
    · subst hyv
      refine ⟨by rw [show _ = s.yMatch y from rfl, hym]; omega, ?_⟩
      show upd s.dx w (s.dx u + 1 + 1) (s.yMatch y).toNat ≠ -1
      rw [hym, Int.toNat_natCast, upd_same]; omega
    · have hy' : s.dy y ≠ -1 := by
        have : upd s.dy v (s.dx u + 1) y = s.dy y := upd_other _ _ hyv
        rw [← this]; exact hy
      obtain ⟨h1, h2⟩ := hI.matched hbig hdis y hy'
      exact ⟨h1, by rw [hext.dx _ h2]; exact h2⟩
  · intro x hx
    show upd s.dx w (s.dx u + 1 + 1) x +
      2 * (uncolored vs.length (upd s.dy v (s.dx u + 1)) : Int) ≤ _
    by_cases hxw : x = w
    · subst hxw
      have hb := hI.bound u (by omega)
      rw [upd_same]; omega
    · have hx' : s.dx x ≠ -1 := by
        have : upd s.dx w (s.dx u + 1 + 1) x = s.dx x := upd_other _ _ hxw
        rw [← this]; exact hx
      have hb := hI.bound x hx'
      rw [upd_other _ _ hxw]; omega

theorem hkBfsEdges_spec {D : Type} (g : GraphData D) (vs : List (Vertex D))
    (idx : List (Int × Nat)) (part1 : List Int) (u : Nat) :
    ∀ (es : List Int) (s : HK) (q : List Nat),
      (∀ eid ∈ es, ∃ e, find eid g.idToEdge = some e ∧
        nbr g vs idx u (indexOf idx e.dst) ∧ indexOf idx e.dst < vs.length) →
      BInv g vs idx part1 (fun x => x = u ∨ x ∈ q) s →
      ∃ s' q', hkBfsEdges g idx u es s q = .ok (s', q') ∧
        BInv g vs idx part1 (fun x => x = u ∨ x ∈ q') s' ∧ LayerExt s s' ∧
        (∀ eid ∈ es, ∀ e, find eid g.idToEdge = some e → s'.dy (indexOf idx e.dst) ≠ -1) ∧
        q'.length + uncolored vs.length s'.dy ≤ q.length + uncolored vs.length s.dy := by
  intro es
  induction es with
  | nil =>
    intro s q _ hI
    exact ⟨s, q, rfl, hI, layerExt_refl s, by simp, le_refl _⟩
  | cons eid rest ih =>
    intro s q hes hI
    obtain ⟨e, he, hnb, hlt⟩ := hes eid (List.mem_cons_self _ _)
    have hes' := fun x hx => hes x (List.mem_cons_of_mem _ hx)
    have hfin : ∀ (s1 : HK) (q1 : List Nat), hkBfsEdges g idx u (eid :: rest) s q =
          hkBfsEdges g idx u rest s1 q1 →
        BInv g vs idx part1 (fun x => x = u ∨ x ∈ q1) s1 → LayerExt s s1 →
        s1.dy (indexOf idx e.dst) ≠ -1 →
        q1.length + uncolored vs.length s1.dy ≤ q.length + uncolored vs.length s.dy →
        ∃ s' q', hkBfsEdges g idx u (eid :: rest) s q = .ok (s', q') ∧
          BInv g vs idx part1 (fun x => x = u ∨ x ∈ q') s' ∧ LayerExt s s' ∧
          (∀ x ∈ eid :: rest, ∀ e, find x g.idToEdge = some e →
            s'.dy (indexOf idx e.dst) ≠ -1) ∧
          q'.length + uncolored vs.length s'.dy ≤ q.length + uncolored vs.length s.dy := by
      intro s1 q1 hstep hI1 hext1 hlab1 hm1
      obtain ⟨s', q', hrun, hI', hext', hall, hm'⟩ := ih s1 q1 hes' hI1
      refine ⟨s', q', hstep.trans hrun, hI', layerExt_trans hext1 hext', ?_, le_trans hm' hm1⟩
      intro x hx e' he'
      rcases List.mem_cons.mp hx with rfl | hx
      · rw [he] at he'
        cases he'
        rw [hext'.dy _ hlab1]; exact hlab1
      · exact hall x hx e' he'
    by_cases hdy : s.dy (indexOf idx e.dst) = -1
    swap
    · refine hfin s q ?_ hI (layerExt_refl s) hdy (le_refl _)
      simp only [hkBfsEdges, Graph.getEdge, he]
      rw [if_neg hdy]
    · have h0 : 0 ≤ s.dx u := (hI.pend u (Or.inl rfl)).2.1
      have hunc : uncolored vs.length (upd s.dy (indexOf idx e.dst) (s.dx u + 1)) <
          uncolored vs.length s.dy := uncolored_upd hlt hdy (by omega)
      by_cases hym : s.yMatch (indexOf idx e.dst) = -1
      · obtain ⟨hI1, hext1⟩ := bfs_step_free hI (Or.inl rfl) hnb hlt hdy hym
        refine hfin _ q ?_ hI1 hext1 ?_ ?_
        · simp only [hkBfsEdges, Graph.getEdge, he]
          rw [if_pos hdy, if_pos hym, upd_same]
        · show upd s.dy (indexOf idx e.dst) (s.dx u + 1) (indexOf idx e.dst) ≠ -1
          rw [upd_same]; omega
        · show q.length + uncolored vs.length (upd s.dy (indexOf idx e.dst) (s.dx u + 1)) ≤ _
          omega
      · obtain ⟨w, hw1, hw2⟩ := hI.valid.2 _ hym
        have htoNat : (s.yMatch (indexOf idx e.dst)).toNat = w := by
          rw [hw1]; exact Int.toNat_natCast w
        obtain ⟨hI1, hext1⟩ := bfs_step_matched hI (Or.inl rfl) hnb hlt hdy hw1 hw2
        have hI2 : BInv g vs idx part1 (fun x => x = u ∨ x ∈ q ++ [w])
            { s with dy := upd s.dy (indexOf idx e.dst) (s.dx u + 1),
                     dx := upd s.dx w (s.dx u + 1 + 1) } := by
          refine binv_weaken hI1 ?_ ?_
          · intro x hx
            rcases hx with hx | hx
            · exact Or.inl (Or.inl hx)
            · rcases List.mem_append.mp hx with hx | hx
              · exact Or.inl (Or.inr hx)
              · exact Or.inr (by simpa using hx)
          · intro x hx
            left
            rcases hx with (hx | hx) | hx
            · exact Or.inl hx
            · exact Or.inr (List.mem_append_left _ hx)
            · exact Or.inr (List.mem_append_right _ (by simp [hx]))
        refine hfin _ (q ++ [w]) ?_ hI2 hext1 ?_ ?_
        · simp only [hkBfsEdges, Graph.getEdge, he]
          rw [if_pos hdy, if_neg hym, upd_same, htoNat]
        · show upd s.dy (indexOf idx e.dst) (s.dx u + 1) (indexOf idx e.dst) ≠ -1
          rw [upd_same]; omega
        · show (q ++ [w]).length +
            uncolored vs.length (upd s.dy (indexOf idx e.dst) (s.dx u + 1)) ≤ _
          rw [List.length_append, List.length_singleton]
          omega

theorem hkBfsLoop_spec {D : Type} (g : GraphData D) (vs : List (Vertex D))
    (idx : List (Int × Nat)) (part1 : List Int) (hG : HKGraph g vs idx part1) :
    ∀ (fuel : Nat) (s : HK) (q : List Nat),
      BInv g vs idx part1 (fun x => x ∈ q) s → q.length + uncolored vs.length s.dy < fuel →
      ∃ s' q', hkBfsLoop g vs idx fuel s q = .ok s' ∧
        BInv g vs idx part1 (fun x => x ∈ q') s' ∧ LayerExt s s' ∧
        (q' = [] ∨ ∃ u ∈ q', s'.dx u > s'.dis) := by
  intro fuel
  induction fuel with
  | zero => intro s q _ h; omega
  | succ fuel ih =>
    intro s q hI hm
    cases q with
    | nil => exact ⟨s, [], rfl, hI, layerExt_refl s, Or.inl rfl⟩
    | cons u q =>
      by_cases hbrk : s.dx u > s.dis
      · refine ⟨s, u :: q, ?_, hI, layerExt_refl s, Or.inr ⟨u, List.mem_cons_self _ _, hbrk⟩⟩
        simp only [hkBfsLoop]
        rw [if_pos hbrk]
      · have hu := hI.pend u (List.mem_cons_self _ _)
        have hlt : u < vs.length := hG.lrange u hu.1
        have hv : vs[u]? = some vs[u] := List.getElem?_eq_getElem hlt
        obtain ⟨es, hes, hres⟩ := hG.nofault u _ hv
        have hes' : ∀ eid ∈ es, ∃ e, find eid g.idToEdge = some e ∧
            nbr g vs idx u (indexOf idx e.dst) ∧ indexOf idx e.dst < vs.length := by
          intro eid he
          obtain ⟨e, h1, h2⟩ := hres eid he
          exact ⟨e, h1, ⟨vs[u], es, eid, e, hv, hes, he, h1, rfl⟩, h2⟩
        have hI0 : BInv g vs idx part1 (fun x => x = u ∨ x ∈ q) s :=
          binv_weaken hI (fun x hx => List.mem_cons.mpr hx)
            (fun x hx => Or.inl (List.mem_cons.mp hx))
        obtain ⟨s1, q1, hrun, hI1, hext1, hall, hm1⟩ :=
          hkBfsEdges_spec g vs idx part1 u es s q hes' hI0
        have hI2 : BInv g vs idx part1 (fun x => x ∈ q1) s1 := by
          refine binv_weaken hI1 (fun x hx => Or.inr hx) ?_
          intro x hx
          rcases hx with rfl | hx
          · right
            rintro v ⟨v', es', eid, e, hv', hes'', hmem, hfe, rfl⟩
            rw [hv] at hv'
            cases hv'
            rw [hes] at hes''
            cases hes''
            exact hall eid hmem e hfe
          · exact Or.inl hx
        have hm2 : q1.length + uncolored vs.length s1.dy < fuel := by
          simp only [List.length_cons] at hm
          omega
        obtain ⟨s', q', hrun', hI', hext', hend⟩ := ih s1 q1 hI2 hm2
        refine ⟨s', q', ?_, hI', layerExt_trans hext1 hext', hend⟩
        simp only [hkBfsLoop]
        rw [if_neg hbrk]
        simp only [hv, Graph.getEdgeIdsOfVertex, hes, hrun, hrun']

theorem hkBfsInit_spec (idx : List (Int × Nat)) (part1 : List Int) :
    ∀ (ids : List Int) (s : HK) (q : List Nat), (∀ id ∈ ids, id ∈ part1) →
      (∀ u ∈ q, LIdx idx part1 u ∧ s.xMatch u = -1 ∧ s.dx u = 0) →
      (∀ u, s.dx u ≠ -1 → u ∈ q) →
      (hkBfsInit idx ids s q).1.xMatch = s.xMatch ∧
      (hkBfsInit idx ids s q).1.yMatch = s.yMatch ∧
      (hkBfsInit idx ids s q).1.dy = s.dy ∧
      (hkBfsInit idx ids s q).1.dis = s.dis ∧
      (∀ u ∈ (hkBfsInit idx ids s q).2, LIdx idx part1 u ∧ s.xMatch u = -1 ∧
        (hkBfsInit idx ids s q).1.dx u = 0) ∧
      (∀ u, (hkBfsInit idx ids s q).1.dx u ≠ -1 → u ∈ (hkBfsInit idx ids s q).2) ∧
      (∀ u ∈ q, u ∈ (hkBfsInit idx ids s q).2) ∧
      (∀ id ∈ ids, s.xMatch (indexOf idx id) = -1 →
        indexOf idx id ∈ (hkBfsInit idx ids s q).2) ∧
      (hkBfsInit idx ids s q).2.length ≤ q.length + ids.length := by
  intro ids
  induction ids with
  | nil =>
    intro s q _ h1 h2
    exact ⟨rfl, rfl, rfl, rfl, h1, h2, fun _ h => h, by simp, by simp [hkBfsInit]⟩
  | cons id rest ih =>
    intro s q hids h1 h2
    have hids' := fun x hx => hids x (List.mem_cons_of_mem _ hx)
    by_cases hfree : s.xMatch (indexOf idx id) = -1
    · have hstep : hkBfsInit idx (id :: rest) s q =
          hkBfsInit idx rest { s with dx := upd s.dx (indexOf idx id) 0 }
            (q ++ [indexOf idx id]) := by
        simp only [hkBfsInit]
        rw [if_pos hfree]
      rw [hstep]
      obtain ⟨a1, a2, a3, a4, a5, a6, a7, a8, a9⟩ :=
        ih { s with dx := upd s.dx (indexOf idx id) 0 } (q ++ [indexOf idx id]) hids'
          (by
            intro u hu
            rcases List.mem_append.mp hu with hu | hu
            · obtain ⟨b1, b2, b3⟩ := h1 u hu
              refine ⟨b1, b2, ?_⟩
              show upd s.dx (indexOf idx id) 0 u = 0
              by_cases hne : u = indexOf idx id
              · rw [hne, upd_same]
              · rw [upd_other _ _ hne]; exact b3
            · have hu' : u = indexOf idx id := by simpa using hu
              subst hu'
              exact ⟨⟨id, hids id (List.mem_cons_self _ _), rfl⟩, hfree, upd_same _ _ _⟩)
          (by
            intro u hu
            by_cases hne : u = indexOf idx id
            · exact List.mem_append_right _ (by simp [hne])
            · have : upd s.dx (indexOf idx id) 0 u = s.dx u := upd_other _ _ hne
              exact List.mem_append_left _ (h2 u (by rw [← this]; exact hu)))
      refine ⟨a1, a2, a3, a4, a5, a6, fun u hu => a7 u (List.mem_append_left _ hu), ?_, ?_⟩
      · intro x hx hxf
        rcases List.mem_cons.mp hx with rfl | hx
        · exact a7 _ (List.mem_append_right _ (by simp))
        · exact a8 x hx hxf
      · rw [List.length_append, List.length_singleton] at a9
        simp only [List.length_cons]
        omega
    · have hstep : hkBfsInit idx (id :: rest) s q = hkBfsInit idx rest s q := by
        simp only [hkBfsInit]
        rw [if_neg hfree]
      rw [hstep]
      obtain ⟨a1, a2, a3, a4, a5, a6, a7, a8, a9⟩ := ih s q hids' h1 h2
      refine ⟨a1, a2, a3, a4, a5, a6, a7, ?_, ?_⟩
      · intro x hx hxf
        rcases List.mem_cons.mp hx with rfl | hx
        · exact absurd hxf hfree
        · exact a8 x hx hxf
      · simp only [List.length_cons]
        omega

theorem hkBFS_spec {D : Type} (g : GraphData D) (vs : List (Vertex D))
    (idx : List (Int × Nat)) (part1 : List Int) (hG : HKGraph g vs idx part1)
    (s : HK) (hvalid : Valid g vs idx part1 s) :
    ∃ b s', hkBFS g vs idx part1 s = .ok (b, s') ∧ SameArrays s s' ∧
      (b = true → ∃ y, s'.yMatch y = -1 ∧ s'.dy y = s'.dis ∧ Chain g vs idx part1 s' y) ∧
      (b = false → 2 * (vs.length : Int) + 1 < INF → Cert g vs idx part1 s') := by
  obtain ⟨a1, a2, a3, a4, a5, a6, _, a8, a9⟩ := hkBfsInit_spec idx part1 part1
    { s with dis := INF, dx := fun _ => -1, dy := fun _ => -1 } [] (fun _ h => h)
    (by simp) (by intro u hu; exact absurd rfl hu)
  generalize hinit : hkBfsInit idx part1
    { s with dis := INF, dx := fun _ => -1, dy := fun _ => -1 } [] = init at a1 a2 a3 a4 a5 a6 a8 a9
  have hdy : ∀ v, init.1.dy v = -1 := fun v => by rw [a3]
  have hI : BInv g vs idx part1 (fun x => x ∈ init.2) init.1 := by
    refine ⟨valid_of_same hvalid ⟨a1, a2⟩, ?_, ?_, ?_, ?_, ?_, ?_, ?_⟩
    · intro u hu
      obtain ⟨b1, b2, b3⟩ := a5 u hu
      exact ⟨b1, by rw [b3], Or.inl (by rw [a1]; exact b2)⟩
    · intro u hu
      exact Or.inl (by rw [a1]; exact (a5 u (a6 u hu)).2.1)
    · intro h
      exact absurd a4 h
    · rintro u ⟨id, hid, rfl⟩ hfree
      rw [(a5 _ (a8 id hid (by rw [← a1]; exact hfree))).2.2]
      omega
    · intro u hu
      exact Or.inl (a6 u hu)
    · intro _ _ v hv
      exact absurd (hdy v) hv
    · intro u hu
      rw [(a5 u (a6 u hu)).2.2]
      have := uncolored_le vs.length init.1.dy
      omega
  have hm : init.2.length + uncolored vs.length init.1.dy < part1.length + vs.length + 1 := by
    have := uncolored_le vs.length init.1.dy
    simp only [List.length_nil] at a9
    omega
  obtain ⟨s', q', hrun, hI', hext, hend⟩ :=
    hkBfsLoop_spec g vs idx part1 hG _ init.1 init.2 hI hm
  refine ⟨decide (s'.dis ≠ INF), s', ?_, ⟨hext.xm.trans a1, hext.ym.trans a2⟩, ?_, ?_⟩
  · simp only [hkBFS, hinit, hrun]
  · intro hb
    exact hI'.found (by simpa using hb)
  · intro hb hbig
    have hdis : s'.dis = INF := by simpa using hb
    have hq : q' = [] := by
      rcases hend with h | ⟨u, hu, hgt⟩
      · exact h
      · exfalso
        have h0 := (hI'.pend u hu).2.1
        have := hI'.bound u (by omega)
        omega
    subst hq
    refine ⟨hI'.free, ?_, hI'.matched hbig hdis⟩
    intro u hu
    rcases hI'.closed u hu with h | h
    · simp at h
    · exact h

theorem phase_progress {D : Type} (g : GraphData D) (vs : List (Vertex D))
    (idx : List (Int × Nat)) (part1 : List Int) (s s' : HK)
    (hvis : ∀ v, s.vis v = false)
    (hfound : ∃ y, s.yMatch y = -1 ∧ s.dy y = s.dis ∧ Chain g vs idx part1 s y)
    (hpost : PhasePost g vs idx part1 part1 s s') :
    ∃ x, s.xMatch x = -1 ∧ s'.xMatch x ≠ -1 := by
  rcases hpost.2.2.2 with h | ⟨hF, hcl⟩
  · exact h
  · exfalso
    have hall : ∀ y, Chain g vs idx part1 s y → s.dy y ≤ s.dis → s'.vis y = true := by
      intro y hc
      induction hc with
      | base u y hL hfree h0 hadm =>
        intro _
        obtain ⟨id, hid, rfl⟩ := hL
        exact hcl id hid hfree y hadm
      | step y' u y hc hym hdx hadm ih =>
        intro hle
        have h2 := hadm.2
        have hv' := ih (by omega)
        obtain ⟨_, h4⟩ := hF.expl y' (hvis y') hv'
        have := h4 (by omega) y (by rw [hym, Int.toNat_natCast]; exact hadm)
        exact this
    obtain ⟨y, hy1, hy2, hy3⟩ := hfound
    have hv := hall y hy3 (by omega)
    exact (hF.expl y (hvis y) hv).1 hy1

theorem uncolored_lt {n : Nat} {c c' : Nat → Int} (hmono : ∀ i, c i ≠ -1 → c' i ≠ -1)
    {x : Nat} (hx : x < n) (h1 : c x = -1) (h2 : c' x ≠ -1) :
    uncolored n c' < uncolored n c := by
  apply Finset.card_lt_card
  rw [Finset.ssubset_iff_of_subset]
  · exact ⟨x, by simp [hx, h1], by simp [h2]⟩
  · intro i hi
    simp only [Finset.mem_filter] at hi ⊢
    refine ⟨hi.1, ?_⟩
    by_contra hc
    exact hmono i hc hi.2

theorem hkMain_spec {D : Type} (g : GraphData D) (vs : List (Vertex D))
    (idx : List (Int × Nat)) (part1 : List Int) (hG : HKGraph g vs idx part1) :
    ∀ (fuel : Nat) (s : HK) (res : Nat), Valid g vs idx part1 s →
      uncolored vs.length s.xMatch < fuel →
      ∃ s' res', hkMain g vs idx part1 fuel s res = .ok (s', res') ∧
        Valid g vs idx part1 s' ∧
        (2 * (vs.length : Int) + 1 < INF → Cert g vs idx part1 s') := by
  intro fuel
  induction fuel with
  | zero => intro s res _ h; omega
  | succ fuel ih =>
    intro s res hvalid hm
    obtain ⟨b, s1, hbfs, hsame, hT, hF⟩ := hkBFS_spec g vs idx part1 hG s hvalid
    have hvalid1 := valid_of_same hvalid hsame
    cases b with
    | false =>
      exact ⟨s1, res, by simp only [hkMain, hbfs], hvalid1, hF rfl⟩
    | true =>
      have hvalid2 : Valid g vs idx part1 { s1 with vis := fun _ => false } :=
        valid_of_same hvalid1 ⟨rfl, rfl⟩
      obtain ⟨s2, res2, hph, hpost⟩ :=
        hkPhase_spec g vs idx part1 hG part1 { s1 with vis := fun _ => false } res
          (fun _ h => h) hvalid2
      obtain ⟨y, hy1, hy2, hy3⟩ := hT rfl
      have hext : LayerExt s1 { s1 with vis := fun _ => false } :=
        ⟨rfl, rfl, ext_refl _, ext_refl _⟩
      obtain ⟨x, hx1, hx2⟩ := phase_progress g vs idx part1
        { s1 with vis := fun _ => false } s2 (fun _ => rfl)
        ⟨y, hy1, hy2, chain_mono hext hy3⟩ hpost
      have hxlt : x < vs.length := hG.lrange x (hpost.1.1 x hx2).1
      have hdec : uncolored vs.length s2.xMatch < uncolored vs.length s.xMatch := by
        have h := uncolored_lt hpost.2.2.1 hxlt hx1 hx2
        have e : s1.xMatch = s.xMatch := hsame.1
        rw [← e]
        exact h
      obtain ⟨s', res', hrun, hv', hc'⟩ := ih s2 res2 hpost.1 (by omega)
      exact ⟨s', res', by simp only [hkMain, hbfs, hph, hrun], hv', hc'⟩

theorem isMap_assign {α : Type} (k : Int) (v : α) {m : List (Int × α)} (hm : IsMap m) :
    IsMap (assign k v m) := by
  unfold assign
  by_cases h : hasKey k m = true
  · rw [if_pos h]
    have : (m.map (fun p => if p.1 = k then (p.1, v) else p)).map Prod.fst = m.map Prod.fst := by
      rw [List.map_map]
      apply List.map_congr_left
      intro p _
      by_cases hp : p.1 = k <;> simp [hp]
    unfold IsMap
    rw [this]
    exact hm
  · rw [if_neg h]
    unfold IsMap
    rw [List.map_append, List.nodup_append]
    refine ⟨hm, by simp, ?_⟩
    intro a ha hb
    have hak : a = k := by simpa using hb
    subst hak
    obtain ⟨p, hp, hpk⟩ := List.mem_map.mp ha
    have : find p.1 m = some p.2 := find_of_mem hm hp
    rw [hpk] at this
    exact h (by simp [hasKey, this])

theorem matchLoop_spec {D : Type} (vs : List (Vertex D)) (idx : List (Int × Nat))
    (arr : Nat → Int) :
    ∀ (ids : List Int) (m : List (Int × Int)),
      (∀ i ∈ ids, arr (indexOf idx i) ≠ -1 → (arr (indexOf idx i)).toNat < vs.length) →
      ∃ m', matchLoop vs idx arr ids m = .ok m' ∧
        (∀ k, find k m' = if k ∈ ids ∧ arr (indexOf idx k) ≠ -1
          then some (idAt vs (arr (indexOf idx k)).toNat) else find k m) ∧
        (IsMap m → IsMap m') := by
  intro ids
  induction ids with
  | nil =>
    intro m _
    exact ⟨m, rfl, by simp, fun h => h⟩
  | cons i rest ih =>
    intro m hr
    have hr' := fun x hx => hr x (List.mem_cons_of_mem _ hx)
    by_cases h : arr (indexOf idx i) ≠ -1
    · have hlt := hr i (List.mem_cons_self _ _) h
      have hv : vs[(arr (indexOf idx i)).toNat]? = some vs[(arr (indexOf idx i)).toNat] :=
        List.getElem?_eq_getElem hlt
      have hid : idAt vs (arr (indexOf idx i)).toNat = vs[(arr (indexOf idx i)).toNat].id := by
        simp only [idAt, hv]
      obtain ⟨m', hrun, hfind, hmap⟩ := ih (assign i vs[(arr (indexOf idx i)).toNat].id m) hr'
      refine ⟨m', ?_, ?_, fun hm => hmap (isMap_assign _ _ hm)⟩
      · simp only [matchLoop]
        rw [if_pos h]
        simp only [hv, hrun]
      · intro k
        rw [hfind k, find_assign]
        by_cases hk : k = i
        · subst hk
          simp [h, hid]
        · simp [hk]
    · obtain ⟨m', hrun, hfind, hmap⟩ := ih m hr'
      refine ⟨m', ?_, ?_, hmap⟩
      · simp only [matchLoop]
        rw [if_neg h]
        exact hrun
      · intro k
        rw [hfind k]
        by_cases hk : k = i
        · subst hk
          simp [h]
        · simp [hk]

theorem idx_of_mem {D : Type} (g : GraphData D) (hids : (vertexIds g).Nodup) {a : Int}
    (ha : a ∈ vertexIds g) :
    indexOf (buildIndex (Graph.getAllVertices g)) a < (Graph.getAllVertices g).length ∧
    idAt (Graph.getAllVertices g) (indexOf (buildIndex (Graph.getAllVertices g)) a) = a := by
  obtain ⟨i, v, hi, rfl⟩ := get_of_mem_ids ha
  rw [indexOf_buildIndex _ i v hids hi]
  exact ⟨lt_of_get hi, by simp only [idAt, hi]⟩

theorem idx_idAt {D : Type} (g : GraphData D) (hids : (vertexIds g).Nodup) {u : Nat}
    (hu : u < (Graph.getAllVertices g).length) :
    indexOf (buildIndex (Graph.getAllVertices g)) (idAt (Graph.getAllVertices g) u) = u ∧
    idAt (Graph.getAllVertices g) u ∈ vertexIds g := by
  have hv : (Graph.getAllVertices g)[u]? = some (Graph.getAllVertices g)[u] :=
    List.getElem?_eq_getElem hu
  have hid : idAt (Graph.getAllVertices g) u = (Graph.getAllVertices g)[u].id := by
    simp only [idAt, hv]
  rw [hid]
  exact ⟨indexOf_buildIndex _ u _ hids hv,
    List.mem_map.mpr ⟨_, List.getElem?_mem hv, rfl⟩⟩

theorem noFault_of {D : Type} (g : GraphData D) (hids : (vertexIds g).Nodup)
    (hstored : ListedStored g) (hadj : ∀ v ∈ vertexIds g, (find v g.adjMap).isSome = true)
    (hdst : ∀ u w, Arc g u w → w ∈ vertexIds g) :
    NoFault g (Graph.getAllVertices g) (buildIndex (Graph.getAllVertices g)) := by
  intro i v hv
  have hvid : v.id ∈ vertexIds g := List.mem_map.mpr ⟨v, List.getElem?_mem hv, rfl⟩
  obtain ⟨es, hes⟩ := Option.isSome_iff_exists.mp (hadj _ hvid)
  refine ⟨es, hes, fun eid he => ?_⟩
  obtain ⟨e, hfe⟩ := Option.isSome_iff_exists.mp (hstored _ es hes eid he)
  refine ⟨e, hfe, ?_⟩
  have harc : Arc g v.id e.dst := (arc_iff g _ _).mpr ⟨es, hes, eid, he, e, hfe, rfl⟩
  exact (idx_of_mem g hids (hdst _ _ harc)).1

theorem nbr_lt {D : Type} {g : GraphData D} {vs : List (Vertex D)} {idx : List (Int × Nat)}
    (hnf : NoFault g vs idx) {u v : Nat} (h : nbr g vs idx u v) : v < vs.length := by
  obtain ⟨v0, es, eid, e, hv, hes, hmem, hfe, rfl⟩ := h
  obtain ⟨es', hes', hres⟩ := hnf u v0 hv
  rw [hes] at hes'
  cases hes'
  obtain ⟨e', hfe', hlt⟩ := hres eid hmem
  rw [hfe] at hfe'
  cases hfe'
  exact hlt

theorem hkGraph_of {D : Type} (g : GraphData D) (hids : (vertexIds g).Nodup)
    (hstored : ListedStored g) (hadj : ∀ v ∈ vertexIds g, (find v g.adjMap).isSome = true)
    (hdst : ∀ u w, Arc g u w → w ∈ vertexIds g)
    (part1 : List Int) (hsub : ∀ a ∈ part1, a ∈ vertexIds g) :
    HKGraph g (Graph.getAllVertices g) (buildIndex (Graph.getAllVertices g)) part1 :=
  ⟨noFault_of g hids hstored hadj hdst, by
    rintro u ⟨id, hid, rfl⟩
    exact (idx_of_mem g hids (hsub id hid)).1⟩

/-- The map that `getMaxMatchByHopcraftKarp` returns, read off the final arrays. -/
theorem hk_result {D : Type} (g : GraphData D) (hids : (vertexIds g).Nodup)
    (hstored : ListedStored g) (hadj : ∀ v ∈ vertexIds g, (find v g.adjMap).isSome = true)
    (hdst : ∀ u w, Arc g u w → w ∈ vertexIds g)
    (part1 : List Int) (hsub : ∀ a ∈ part1, a ∈ vertexIds g) :
    ∃ s m, getMaxMatchByHopcraftKarp g part1 = .ok m ∧
      Valid g (Graph.getAllVertices g) (buildIndex (Graph.getAllVertices g)) part1 s ∧
      (2 * ((Graph.getAllVertices g).length : Int) + 1 < INF →
        Cert g (Graph.getAllVertices g) (buildIndex (Graph.getAllVertices g)) part1 s) ∧
      IsMap m ∧
      ∀ k, find k m =
        if (k ∈ vertexIds g ∧ k ∉ part1) ∧
            s.yMatch (indexOf (buildIndex (Graph.getAllVertices g)) k) ≠ -1 then
          some (idAt (Graph.getAllVertices g)
            (s.yMatch (indexOf (buildIndex (Graph.getAllVertices g)) k)).toNat)
        else if k ∈ part1 ∧ s.xMatch (indexOf (buildIndex (Graph.getAllVertices g)) k) ≠ -1 then
          some (idAt (Graph.getAllVertices g)
            (s.xMatch (indexOf (buildIndex (Graph.getAllVertices g)) k)).toNat)
        else none := by
  have hG := hkGraph_of g hids hstored hadj hdst part1 hsub
  have hguard : ¬ ((Graph.getAllVertices g).length = 0 ∧ part1 ≠ []) := by
    rintro ⟨h0, hne⟩
    cases part1 with
    | nil => exact hne rfl
    | cons a rest =>
      have := (idx_of_mem g hids (hsub a (List.mem_cons_self _ _))).1
      omega
  have hvalid0 : Valid g (Graph.getAllVertices g) (buildIndex (Graph.getAllVertices g)) part1
      { xMatch := fun _ => -1, yMatch := fun _ => -1, dx := fun _ => 0, dy := fun _ => 0,
        vis := fun _ => false, dis := INF } :=
    ⟨fun u hu => absurd rfl hu, fun v hv => absurd rfl hv⟩
  obtain ⟨s, res, hmain, hvalid, hcert⟩ := hkMain_spec g _ _ part1 hG
    ((Graph.getAllVertices g).length + 2) _ 0 hvalid0
    (Nat.lt_of_le_of_lt (uncolored_le _ _) (by omega))
  obtain ⟨m1, hrun1, hfind1, hmap1⟩ := matchLoop_spec (Graph.getAllVertices g)
    (buildIndex (Graph.getAllVertices g)) s.xMatch part1 [] (by
      intro i _ hne
      obtain ⟨_, v, hv, hnb, _⟩ := hvalid.1 _ hne
      rw [hv, Int.toNat_natCast]
      exact nbr_lt hG.nofault hnb)
  obtain ⟨m2, hrun2, hfind2, hmap2⟩ := matchLoop_spec (Graph.getAllVertices g)
    (buildIndex (Graph.getAllVertices g)) s.yMatch
    (((Graph.getAllVertices g).filter (fun v => decide (v.id ∉ part1))).map (fun v => v.id)) m1
    (by
      intro i _ hne
      obtain ⟨u, hu, hx⟩ := hvalid.2 _ hne
      rw [hu, Int.toNat_natCast]
      exact hG.lrange u (hvalid.1 u (by rw [hx]; omega)).1)
  refine ⟨s, m2, ?_, hvalid, hcert, hmap2 (hmap1 (by simp [IsMap])), ?_⟩
  · simp only [getMaxMatchByHopcraftKarp]
    rw [if_neg hguard]
    simp only [hmain, hrun1, hrun2]
  · intro k
    rw [hfind2 k, hfind1 k]
    have hmem : k ∈ ((Graph.getAllVertices g).filter (fun v => decide (v.id ∉ part1))).map
        (fun v => v.id) ↔ (k ∈ vertexIds g ∧ k ∉ part1) := by
      simp only [List.mem_map, List.mem_filter, decide_eq_true_eq, vertexIds]
      constructor
      · rintro ⟨v, ⟨h1, h2⟩, rfl⟩
        exact ⟨⟨v, h1, rfl⟩, h2⟩
      · rintro ⟨⟨v, h1, rfl⟩, h2⟩
        exact ⟨v, ⟨h1, h2⟩, rfl⟩
    simp only [hmem, find]

theorem idAt_of_get {D : Type} {vs : List (Vertex D)} {i : Nat} {v : Vertex D}
    (h : vs[i]? = some v) : idAt vs i = v.id := by
  simp only [idAt, h]

theorem result_left {D : Type} {g : GraphData D} {part1 : List Int} {s : HK}
    {m : List (Int × Int)} (hres : ResultOf g part1 s m) {k : Int} (hk : k ∈ part1)
    (hx : s.xMatch (indexOf (buildIndex (Graph.getAllVertices g)) k) ≠ -1) :
    find k m = some (idAt (Graph.getAllVertices g)
      (s.xMatch (indexOf (buildIndex (Graph.getAllVertices g)) k)).toNat) := by
  rw [hres k, if_neg (fun h => h.1.2 hk), if_pos ⟨hk, hx⟩]

theorem result_right {D : Type} {g : GraphData D} {part1 : List Int} {s : HK}
    {m : List (Int × Int)} (hres : ResultOf g part1 s m) {k : Int} (hk : k ∈ vertexIds g)
    (hk' : k ∉ part1)
    (hy : s.yMatch (indexOf (buildIndex (Graph.getAllVertices g)) k) ≠ -1) :
    find k m = some (idAt (Graph.getAllVertices g)
      (s.yMatch (indexOf (buildIndex (Graph.getAllVertices g)) k)).toNat) := by
  rw [hres k, if_pos ⟨⟨hk, hk'⟩, hy⟩]

theorem hk_symm {D : Type} (g : GraphData D) (hids : (vertexIds g).Nodup)
    (hdst : ∀ u w, Arc g u w → w ∈ vertexIds g) (hmirror : ∀ u w, Arc g u w → Arc g w u)
    (part1 : List Int) (hsub : ∀ a ∈ part1, a ∈ vertexIds g)
    (hbip : ∀ u w, Arc g u w → (u ∈ part1 ↔ w ∉ part1))
    (s : HK) (m : List (Int × Int))
    (hvalid : Valid g (Graph.getAllVertices g) (buildIndex (Graph.getAllVertices g)) part1 s)
    (hres : ResultOf g part1 s m) :
    ∀ a b, find a m = some b →
      find b m = some a ∧ Arc g a b ∧ (a ∈ part1 ↔ b ∉ part1) := by
  intro a b hab
  have hraw := hres a
  rw [hab] at hraw
  by_cases h1 : (a ∈ vertexIds g ∧ a ∉ part1) ∧
      s.yMatch (indexOf (buildIndex (Graph.getAllVertices g)) a) ≠ -1
  · rw [if_pos h1] at hraw
    obtain ⟨⟨haV, haP⟩, hy⟩ := h1
    obtain ⟨hvlt, hva⟩ := idx_of_mem g hids haV
    obtain ⟨u, hu, hxu⟩ := hvalid.2 _ hy
    rw [hu, Int.toNat_natCast] at hraw
    have hb : b = idAt (Graph.getAllVertices g) u := by injection hraw
    obtain ⟨⟨id, hid, hidu⟩, v', hv'1, hnb, _⟩ := hvalid.1 u (by rw [hxu]; omega)
    have hv' : v' = indexOf (buildIndex (Graph.getAllVertices g)) a := by
      rw [hxu] at hv'1; exact_mod_cast hv'1.symm
    subst hv'
    have hbid : b = id := by
      rw [hb, ← hidu]; exact (idx_of_mem g hids (hsub id hid)).2
    obtain ⟨v1, v2, hg1, hg2, harc⟩ := arc_of_nbr g hids hdst hnb
    have e1 : v1.id = b := by rw [← idAt_of_get hg1, hb]
    have e2 : v2.id = a := by rw [← idAt_of_get hg2]; exact hva
    rw [e1, e2] at harc
    have hbP : b ∈ part1 := hbid ▸ hid
    refine ⟨?_, hmirror _ _ harc, ⟨fun h => absurd h haP, fun h => absurd hbP h⟩⟩
    have hidxb : indexOf (buildIndex (Graph.getAllVertices g)) b = u := by rw [hbid]; exact hidu
    rw [result_left hres hbP (by rw [hidxb, hxu]; omega), hidxb, hxu, Int.toNat_natCast, hva]
  · rw [if_neg h1] at hraw
    by_cases h2 : a ∈ part1 ∧ s.xMatch (indexOf (buildIndex (Graph.getAllVertices g)) a) ≠ -1
    · rw [if_pos h2] at hraw
      obtain ⟨haP, hx⟩ := h2
      obtain ⟨hult, hua⟩ := idx_of_mem g hids (hsub a haP)
      obtain ⟨_, v, hv, hnb, hyv⟩ := hvalid.1 _ hx
      rw [hv, Int.toNat_natCast] at hraw
      have hb : b = idAt (Graph.getAllVertices g) v := by injection hraw
      obtain ⟨v1, v2, hg1, hg2, harc⟩ := arc_of_nbr g hids hdst hnb
      have e1 : v1.id = a := by rw [← idAt_of_get hg1]; exact hua
      have e2 : v2.id = b := by rw [← idAt_of_get hg2, hb]
      rw [e1, e2] at harc
      have hbP : b ∉ part1 := (hbip _ _ harc).mp haP
      have hidxb : indexOf (buildIndex (Graph.getAllVertices g)) b = v := by
        rw [hb]; exact (idx_idAt g hids (lt_of_get hg2)).1
      refine ⟨?_, harc, ⟨fun _ => hbP, fun _ => haP⟩⟩
      rw [result_right hres (hdst _ _ harc) hbP (by rw [hidxb, hyv]; omega), hidxb, hyv,
        Int.toNat_natCast, hua]
    · rw [if_neg h2] at hraw
      cases hraw

/-- C7: for a graph as `UndirectedGraph` builds it (the stored vertices have distinct ids
and an adjacency entry each, every listed edge id names a stored edge, both endpoints of
every adjacency edge are stored vertices, every adjacency edge has its mirror) and a list
`onePartIds` of stored vertex ids such that every edge joins a vertex in the list to a
vertex outside it, `getMaxMatchByHopcraftKarp(g, onePartIds)` returns a map `m` in which
every entry `m[a] = b` comes with `m[b] = a`, an edge from `a` to `b`, and exactly one of
`a`, `b` in `onePartIds`; no id is the partner of two different vertices; and an id that
is nobody's partner is not a key. -/
theorem hopcroftKarp_bidirectional {D : Type} (g : GraphData D)
    (hids : (vertexIds g).Nodup) (hstored : ListedStored g)
    (hadj : ∀ v ∈ vertexIds g, (find v g.adjMap).isSome = true)
    (hend : ∀ u w, Arc g u w → u ∈ vertexIds g ∧ w ∈ vertexIds g)
    (hmirror : ∀ u w, Arc g u w → Arc g w u)
    (onePartIds : List Int)
    (hsub : ∀ a ∈ onePartIds, a ∈ vertexIds g)
    (hbip : ∀ u w, Arc g u w → (u ∈ onePartIds ↔ w ∉ onePartIds)) :
    ∃ m, getMaxMatchByHopcraftKarp g onePartIds = .ok m ∧ IsMap m ∧
      (∀ a b, find a m = some b →
        find b m = some a ∧ Arc g a b ∧ (a ∈ onePartIds ↔ b ∉ onePartIds)) ∧
      (∀ a a' b, find a m = some b → find a' m = some b → a = a') ∧
      (∀ a, (∀ b, find b m ≠ some a) → find a m = none) := by
  have hdst : ∀ u w, Arc g u w → w ∈ vertexIds g := fun u w h => (hend u w h).2
  obtain ⟨s, m, hrun, hvalid, _, hmap, hres⟩ := hk_result g hids hstored hadj hdst onePartIds hsub
  have hsymm := hk_symm g hids hdst hmirror onePartIds hsub hbip s m hvalid hres
  refine ⟨m, hrun, hmap, hsymm, ?_, ?_⟩
  · intro a a' b h1 h2
    have e1 := (hsymm a b h1).1
    have e2 := (hsymm a' b h2).1
    rw [e1] at e2
    injection e2
  · intro a ha
    cases hfa : find a m with
    | none => rfl
    | some b => exact absurd (hsymm a b hfa).1 (ha b)

/-- The test `HopcraftKarp`: the graph satisfies the hypotheses, and the returned map is
the perfect matching 1-4, 2-5, 3-6 in both directions. -/
theorem hopcroftKarp_bidirectional_witness :
    (∃ m, getMaxMatchByHopcraftKarp matchingTestGraph [1, 2, 3] = .ok m ∧ IsMap m ∧
      (∀ a b, find a m = some b →
        find b m = some a ∧ Arc matchingTestGraph a b ∧
          (a ∈ [(1 : Int), 2, 3] ↔ b ∉ [(1 : Int), 2, 3])) ∧
      (∀ a a' b, find a m = some b → find a' m = some b → a = a') ∧
      (∀ a, (∀ b, find b m ≠ some a) → find a m = none)) ∧
    getMaxMatchByHopcraftKarp matchingTestGraph [1, 2, 3] =
      .ok [(1, 4), (2, 5), (3, 6), (4, 1), (5, 2), (6, 3)] :=
  ⟨hopcroftKarp_bidirectional matchingTestGraph (by decide)
    (listedStored_of_all matchingTestGraph (by decide)) (by decide)
    (fun u w h => by
      have hall : ∀ p ∈ arcList matchingTestGraph,
          p.1 ∈ vertexIds matchingTestGraph ∧ p.2 ∈ vertexIds matchingTestGraph := by decide
      exact hall (u, w) (arc_mem_arcList matchingTestGraph h))
    (fun u w h => by
      have hall : ∀ p ∈ arcList matchingTestGraph, arc matchingTestGraph p.2 p.1 = true := by
        decide
      exact hall (u, w) (arc_mem_arcList matchingTestGraph h))
    [1, 2, 3] (by decide)
    (fun u w h => by
      have hall : ∀ p ∈ arcList matchingTestGraph,
          (p.1 ∈ [(1 : Int), 2, 3] ↔ p.2 ∉ [(1 : Int), 2, 3]) := by decide
      exact hall (u, w) (arc_mem_arcList matchingTestGraph h)), rfl⟩

theorem ra_symm {E : Nat → Nat → Prop} (hsymm : ∀ a b, E a b → E b a) {p a b : Nat}
    (h : RA E p a b) : RA E p b a := by
  induction h with
  | refl => exact Relation.ReflTransGen.refl
  | tail _ hstep ih =>
    exact Relation.ReflTransGen.head ⟨hsymm _ _ hstep.1, hstep.2.2, hstep.2.1⟩ ih

theorem ra_trans {E : Nat → Nat → Prop} {p a b c : Nat} (h1 : RA E p a b) (h2 : RA E p b c) :
    RA E p a c := Relation.ReflTransGen.trans h1 h2

theorem ra_of_reachOut {E : Nat → Nat → Prop} {P : Nat → Prop} {p c x : Nat}
    (hp : P p) (hc : ¬ P c) (h : ReachOut E P c x) : RA E p c x ∧ ¬ P x := by
  induction h with
  | refl => exact ⟨Relation.ReflTransGen.refl, hc⟩
  | tail _ hstep ih =>
    refine ⟨Relation.ReflTransGen.tail ih.1 ⟨hstep.1, ?_, ?_⟩, hstep.2⟩
    · intro e; exact ih.2 (e ▸ hp)
    · intro e; exact hstep.2 (e ▸ hp)

theorem ra_of_reachIn {E : Nat → Nat → Prop} {P : Nat → Prop} {p u w : Nat}
    (hp : ¬ P p) (hu : P u) (h : ReachIn E P u w) : RA E p u w ∧ P w := by
  induction h with
  | refl => exact ⟨Relation.ReflTransGen.refl, hu⟩
  | tail _ hstep ih =>
    refine ⟨Relation.ReflTransGen.tail ih.1 ⟨hstep.1, ?_, ?_⟩, hstep.2⟩
    · intro e; exact hp (e ▸ ih.2)
    · intro e; exact hp (e ▸ hstep.2)

theorem reachOut_mono {E : Nat → Nat → Prop} {P Q : Nat → Prop} (h : ∀ x, Q x → P x)
    {a b : Nat} (hr : ReachOut E P a b) : ReachOut E Q a b :=
  Relation.ReflTransGen.mono (fun _ y hs => ⟨hs.1, fun hq => hs.2 (h y hq)⟩) hr

theorem reachIn_mono {E : Nat → Nat → Prop} {P Q : Nat → Prop} (h : ∀ x, P x → Q x)
    {a b : Nat} (hr : ReachIn E P a b) : ReachIn E Q a b :=
  Relation.ReflTransGen.mono (fun _ y hs => ⟨hs.1, h y hs.2⟩) hr

/-- If the neighbours of `p` hang together without `p`, then `p` separates nothing. -/
theorem not_art_of_nbrConn {E : Nat → Nat → Prop} (hsymm : ∀ a b, E a b → E b a) {p : Nat}
    (h : NbrConn E p) : ¬ IsArtI E p := by
  rintro ⟨a, b, ha, hb, hreach, hnot⟩
  obtain ⟨anchor, hanchor⟩ := h
  have key : ∀ x, Relation.ReflTransGen E a x →
      (x ≠ p → RA E p a x) ∧ (x = p → RA E p a anchor) := by
    intro x hx
    induction hx with
    | refl => exact ⟨fun _ => Relation.ReflTransGen.refl, fun e => absurd e ha⟩
    | @tail y z _ hstep ih =>
      constructor
      · intro hz
        by_cases hy : y = p
        · subst hy
          exact ra_trans (ih.2 rfl) (hanchor z hstep hz)
        · exact Relation.ReflTransGen.tail (ih.1 hy) ⟨hstep, hy, hz⟩
      · intro hz
        subst hz
        by_cases hy : y = z
        · exact ih.2 hy
        · exact ra_trans (ih.1 hy) (ra_symm hsymm (hanchor y (hsymm _ _ hstep) hy))
  exact hnot ((key b hreach).1 hb)

/-- A set `S` whose only exit is `p`, with a neighbour `b` of `p` outside, makes `p` an
articulation point. -/
theorem art_of_closed {E : Nat → Nat → Prop} {S : Nat → Prop} {p c b : Nat}
    (hc : S c) (hp : ¬ S p) (hb : ¬ S b) (hbp : b ≠ p)
    (hclosed : ∀ x w, S x → E x w → S w ∨ w = p) (hcp : E c p) (hpb : E p b) :
    IsArtI E p := by
  refine ⟨c, b, fun e => hp (e ▸ hc), hbp,
    Relation.ReflTransGen.tail (Relation.ReflTransGen.single hcp) hpb, ?_⟩
  intro hra
  have : ∀ y, RA E p c y → S y := by
    intro y hy
    induction hy with
    | refl => exact hc
    | tail _ hstep ih =>
      rcases hclosed _ _ ih hstep.1 with h | h
      · exact h
      · exact absurd h hstep.2.2
  exact hb (this b hra)

/-- The state at the start of the edge loop: the index `c` has just been stamped. -/
theorem linv_init {E : Nat → Nat → Prop} {idOf : Nat → Int} {n : Nat} {Grey : Nat → Prop}
    {s : Tarjan} {c : Nat} (hpre : TPre E idOf n Grey s c) :
    LInv E idOf n s c
      { s with time := s.time + 1, d := upd s.d c (s.time + 1),
               low := upd s.low c (s.time + 1), vis := upd s.vis c true } := by
  have hne : ∀ x, s.vis x = true → x ≠ c := fun x hx e => by
    rw [e, hpre.unvis] at hx; cases hx
  have hnew : ∀ x, NewIn s
      ({ s with time := s.time + 1, d := upd s.d c (s.time + 1),
                low := upd s.low c (s.time + 1), vis := upd s.vis c true } : Tarjan) x →
      x = c := by
    intro x hx
    by_contra hxc
    have h1 : upd s.vis c true x = true := hx.1
    rw [upd_other _ _ hxc, hx.2] at h1
    cases h1
  have hvis : ∀ x, upd s.vis c true x = false → s.vis x = false ∧ x ≠ c := by
    intro x hx
    by_cases hxc : x = c
    · rw [hxc, upd_same] at hx; cases hx
    · rw [upd_other _ _ hxc] at hx; exact ⟨hx, hxc⟩
  refine ⟨hpre.unvis, ?_, upd_same _ _ _, upd_same _ _ _, ?_, rfl, ?_, ?_, ?_, ?_, ?_, ?_, ?_,
    ?_, ?_, ?_, fun i h => h, fun i h => Or.inl h, ?_, ?_, ?_⟩
  · intro x hx
    have := hne x hx
    exact ⟨by show upd s.vis c true x = true; rw [upd_other _ _ this]; exact hx,
      upd_other _ _ this, upd_other _ _ this, rfl, rfl⟩
  · show upd s.low c (s.time + 1) c ≤ upd s.d c (s.time + 1) c
    rw [upd_same, upd_same]
  · show s.time < s.time + 1
    omega
  · intro x hx
    rw [hnew x hx]; exact hpre.range
  · intro x hx
    rw [hnew x hx]
    show s.time < upd s.d c (s.time + 1) c ∧ upd s.d c (s.time + 1) c ≤ s.time + 1
    rw [upd_same]; omega
  · intro x hx
    obtain ⟨h1, h2⟩ := hvis x hx
    exact hpre.cleanP x h1 h2
  · intro x hx
    exact hpre.cleanC x (hvis x hx).1
  · intro x hx hxc
    exact absurd (hnew x hx) hxc
  · intro x hx
    rw [hnew x hx]
    exact Relation.ReflTransGen.refl
  · intro x hx hxc
    exact absurd (hnew x hx) hxc
  · left
    show upd s.low c (s.time + 1) c = upd s.d c (s.time + 1) c
    rw [upd_same, upd_same]
  · intro y hy hyc
    exact absurd (hnew y hy) hyc
  · intro h
    exact absurd h (hpre.cleanCuts c hpre.range.1 hpre.range.2 hpre.unvis)
  · intro _
    exact Or.inl ⟨hpre.cleanC c hpre.unvis, hnew⟩
  · intro u _ _ x hx hxc
    exact absurd (hnew x hx) hxc

/-- An edge to a visited index: `low[p]` takes the stamp of the index unless it is the
parent. -/
theorem linv_back {E : Nat → Nat → Prop} {idOf : Nat → Int} {n : Nat}
    {s0 : Tarjan} {p : Nat} {s : Tarjan} (hI : LInv E idOf n s0 p s) {w : Nat}
    (hE : E p w) (hw : s.vis w = true) :
    LInv E idOf n s0 p { s with low := upd s.low p (min (s.low p) (s.d w)) } := by
  have hle : min (s.low p) (s.d w) ≤ s.low p := min_le_left _ _
  have hlow : upd s.low p (min (s.low p) (s.d w)) p = min (s.low p) (s.d w) := upd_same _ _ _
  refine ⟨hI.unvisP, ?_, hI.visP, hI.dP, ?_, hI.parentP, hI.time, hI.newRange, hI.stampsNew,
    hI.cleanP, hI.cleanC, hI.closedNew, hI.conn, ?_, ?_, hI.fin, hI.cutsOld, hI.cutsNew,
    hI.ownCut, hI.ownRoot, hI.ownNon⟩
  · intro x hx
    obtain ⟨h1, h2, h3, h4, h5⟩ := hI.frame x hx
    have hxp : x ≠ p := fun e => by rw [e, hI.unvisP] at hx; cases hx
    exact ⟨h1, h2, by show upd s.low p _ x = _; rw [upd_other _ _ hxp]; exact h3, h4, h5⟩
  · show upd s.low p (min (s.low p) (s.d w)) p ≤ s.d p
    rw [hlow]; exact le_trans hle hI.lowLe
  · intro x hx hxp y hy hxy
    show upd s.low p (min (s.low p) (s.d w)) p ≤ s.d y
    rw [hlow]; exact le_trans hle (hI.low1 x hx hxp y hy hxy)
  · show upd s.low p (min (s.low p) (s.d w)) p = s.d p ∨
      ∃ z w', NewIn s0 s z ∧ E z w' ∧ s.vis w' = true ∧
        upd s.low p (min (s.low p) (s.d w)) p = s.d w'
    rw [hlow]
    rcases le_total (s.low p) (s.d w) with h | h
    · rw [min_eq_left h]; exact hI.low2
    · rw [min_eq_right h]
      exact Or.inr ⟨p, w, ⟨hI.visP, hI.unvisP⟩, hE, hw, rfl⟩

theorem linv_vis_mono {E : Nat → Nat → Prop} {idOf : Nat → Int} {n : Nat}
    {s0 : Tarjan} {p : Nat} {s : Tarjan} (hI : LInv E idOf n s0 p s) {x : Nat}
    (h : s.vis x = false) : s0.vis x = false := by
  by_contra hc
  have : s0.vis x = true := by simpa using hc
  rw [(hI.frame x this).1] at h
  cases h

theorem linv_cleanCuts {E : Nat → Nat → Prop} {idOf : Nat → Int} {n : Nat}
    {Grey : Nat → Prop} {s0 : Tarjan} {p : Nat} {s : Tarjan} (hG : TGraph E idOf n)
    (hpre : TPre E idOf n Grey s0 p) (hI : LInv E idOf n s0 p s) {x : Nat}
    (h1 : 1 ≤ x) (h2 : x ≤ n) (h : s.vis x = false) : idOf x ∉ s.cuts := by
  intro hmem
  rcases hI.cutsNew _ hmem with h0 | ⟨y, hy, hxy⟩
  · exact hpre.cleanCuts x h1 h2 (linv_vis_mono hI h) h0
  · obtain ⟨hy1, hy2⟩ := hI.newRange y hy
    have := hG.inj x y h1 h2 hy1 hy2 hxy
    rw [this, hy.1] at h
    cases h

theorem linv_stamps {E : Nat → Nat → Prop} {idOf : Nat → Int} {n : Nat}
    {Grey : Nat → Prop} {s0 : Tarjan} {p : Nat} {s : Tarjan}
    (hpre : TPre E idOf n Grey s0 p) (hI : LInv E idOf n s0 p s) {x : Nat}
    (h : s.vis x = true) : s.d x ≤ s.time := by
  by_cases h0 : s0.vis x = true
  · rw [(hI.frame x h0).2.1]
    have := hpre.stamps x h0
    have := hI.time
    omega
  · exact (hI.stampsNew x ⟨h, by simpa using h0⟩).2

/-- The precondition of the recursive call for an unvisited neighbour `c` of `p`. -/
theorem child_pre {E : Nat → Nat → Prop} {idOf : Nat → Int} {n : Nat} {Grey : Nat → Prop}
    {s0 : Tarjan} {p : Nat} {s : Tarjan} (hG : TGraph E idOf n)
    (hpre : TPre E idOf n Grey s0 p) (hI : LInv E idOf n s0 p s) {c : Nat}
    (hE : E p c) (hc : s.vis c = false) :
    TPre E idOf n (fun x => Grey x ∨ x = p)
      { s with parent := upd s.parent c p,
               childrenNum := upd s.childrenNum p (s.childrenNum p + 1) } c := by
  have hcp : c ≠ p := fun e => by rw [e, hI.visP] at hc; cases hc
  refine ⟨hG.range p c hE, hc, ?_, ?_, ?_, ?_, ?_, ?_, ?_⟩
  · intro x hx hxc
    show upd s.parent c p x = -1
    rw [upd_other _ _ hxc]
    exact hI.cleanP x hx
  · intro x hx
    have hxp : x ≠ p := fun e => by
      have : s.vis x = false := hx
      rw [e, hI.visP] at this; cases this
    show upd s.childrenNum p (s.childrenNum p + 1) x = 0
    rw [upd_other _ _ hxp]
    exact hI.cleanC x hx
  · intro x h1 h2 hx
    exact linv_cleanCuts hG hpre hI h1 h2 hx
  · intro x hx
    exact linv_stamps hpre hI hx
  · intro w hw
    rcases hw with hw | hw
    · exact (hI.frame w (hpre.greyVis w hw)).1
    · rw [hw]; exact hI.visP
  · intro x hx hgrey w hxw
    have hx' : s.vis x = true := hx
    show s.vis w = true
    by_cases h0 : s0.vis x = true
    · exact (hI.frame w (hpre.closed x h0 (fun hg => hgrey (Or.inl hg)) w hxw)).1
    · exact hI.closedNew x ⟨hx', by simpa using h0⟩ (fun e => hgrey (Or.inr e)) w hxw
  · right
    refine ⟨p, upd_same _ _ _, Or.inr rfl, hE, ?_⟩
    intro w hw
    rcases hw with hw | hw
    · rcases hpre.link with ⟨_, hno⟩ | ⟨u, _, hu, hup, hreach⟩
      · exact absurd hw (hno w)
      · have hmono : ReachIn E (fun x => s.vis x = true) u w :=
          reachIn_mono (fun x hx => (hI.frame x hx).1) (hreach w hw)
        exact Relation.ReflTransGen.head
          ⟨hG.symm _ _ hup, (hI.frame u (hpre.greyVis u hu)).1⟩ hmono
    · rw [hw]
      exact Relation.ReflTransGen.refl

theorem pushCuts_spec (vid : Int) (p c : Nat) (s : Tarjan) :
    (pushCuts vid p c s).d = s.d ∧ (pushCuts vid p c s).low = s.low ∧
    (pushCuts vid p c s).parent = s.parent ∧
    (pushCuts vid p c s).childrenNum = s.childrenNum ∧
    (pushCuts vid p c s).vis = s.vis ∧ (pushCuts vid p c s).time = s.time ∧
    ∀ i, i ∈ (pushCuts vid p c s).cuts ↔
      i ∈ s.cuts ∨ (i = vid ∧ ((s.parent p = -1 ∧ s.childrenNum p > 1) ∨
        (s.parent p ≠ -1 ∧ s.low c ≥ s.d p))) := by
  by_cases h1 : s.parent p = -1 ∧ s.childrenNum p > 1
  · have h2 : ¬ (s.parent p ≠ -1 ∧ s.low c ≥ s.d p) := fun h => h.1 h1.1
    have e : pushCuts vid p c s = { s with cuts := s.cuts ++ [vid] } := by
      unfold pushCuts
      rw [if_pos h1]
      exact if_neg h2
    rw [e]
    refine ⟨rfl, rfl, rfl, rfl, rfl, rfl, fun i => ?_⟩
    simp [h1]
  · by_cases h2 : s.parent p ≠ -1 ∧ s.low c ≥ s.d p
    · have e : pushCuts vid p c s = { s with cuts := s.cuts ++ [vid] } := by
        unfold pushCuts
        rw [if_neg h1]
        simp only []
        rw [if_pos h2]
      rw [e]
      refine ⟨rfl, rfl, rfl, rfl, rfl, rfl, fun i => ?_⟩
      simp [h2]
    · have e : pushCuts vid p c s = s := by
        unfold pushCuts
        rw [if_neg h1]
        simp only []
        rw [if_neg h2]
      rw [e]
      refine ⟨rfl, rfl, rfl, rfl, rfl, rfl, fun i => ?_⟩
      simp [h1, h2]

/-- The subtree of a child whose `low` does not go below `p`, or of a child of a root, is
left only through `p`. -/
theorem child_closed {E : Nat → Nat → Prop} {idOf : Nat → Int} {n : Nat}
    {s0 : Tarjan} {p : Nat} {s s1 s2 : Tarjan} (hG : TGraph E idOf n)
    (hI : LInv E idOf n s0 p s) {c : Nat} (hvis1 : s1.vis = s.vis)
    (hpost : TPost E idOf n s1 c s2)
    (hold : ∀ x w, NewIn s1 s2 x → s0.vis w = true → E x w → w = p) :
    ∀ x w, NewIn s1 s2 x → E x w → NewIn s1 s2 w ∨ w = p := by
  intro x w hx hxw
  have hw2 := hpost.closedNew x hx w hxw
  by_cases hw1 : s1.vis w = true
  · right
    by_cases hw0 : s0.vis w = true
    · exact hold x w hx hw0 hxw
    · by_contra hwp
      rw [hvis1] at hw1
      have := hI.closedNew w ⟨hw1, by simpa using hw0⟩ hwp x (hG.symm _ _ hxw)
      have hx1 := hx.2
      rw [hvis1, this] at hx1
      cases hx1
  · exact Or.inl ⟨hw2, by simpa using hw1⟩

/-- The loop invariant after the recursive call for an unvisited neighbour `c`, the update
of `low[p]` and the two checks. -/
theorem linv_child {E : Nat → Nat → Prop} {idOf : Nat → Int} {n : Nat} {Grey : Nat → Prop}
    {s0 : Tarjan} {p : Nat} {s : Tarjan} (hG : TGraph E idOf n)
    (hpre : TPre E idOf n Grey s0 p) (hI : LInv E idOf n s0 p s) {c : Nat}
    (hE : E p c) (hc : s.vis c = false) (s1 s2 s4 : Tarjan)
    (h1 : s1 = { s with parent := upd s.parent c p,
                        childrenNum := upd s.childrenNum p (s.childrenNum p + 1) })
    (hpost : TPost E idOf n s1 c s2)
    (h4 : s4 = pushCuts (idOf p) p c
      { s2 with low := upd s2.low p (min (s2.low p) (s2.low c)) }) :
    LInv E idOf n s0 p s4 := by
  have hcp : c ≠ p := fun e => by rw [e, hI.visP] at hc; cases hc
  have hvis1 : s1.vis = s.vis := by rw [h1]
  have hd1 : s1.d = s.d := by rw [h1]
  have hlow1 : s1.low = s.low := by rw [h1]
  have htime1 : s1.time = s.time := by rw [h1]
  have hcuts1 : s1.cuts = s.cuts := by rw [h1]
  have hpar1 : s1.parent = upd s.parent c p := by rw [h1]
  have hch1 : s1.childrenNum = upd s.childrenNum p (s.childrenNum p + 1) := by rw [h1]
  obtain ⟨hd4, hlow4, hpar4, hch4, hvis4, htime4, hcuts4⟩ := pushCuts_spec (idOf p) p c
    { s2 with low := upd s2.low p (min (s2.low p) (s2.low c)) }
  rw [← h4] at hd4 hlow4 hpar4 hch4 hvis4 htime4 hcuts4
  have hd4' : s4.d = s2.d := hd4
  have hlow4' : s4.low = upd s2.low p (min (s2.low p) (s2.low c)) := hlow4
  have hpar4' : s4.parent = s2.parent := hpar4
  have hch4' : s4.childrenNum = s2.childrenNum := hch4
  have hvis4' : s4.vis = s2.vis := hvis4
  have htime4' : s4.time = s2.time := htime4
  have hcuts4' : ∀ i, i ∈ s4.cuts ↔ i ∈ s2.cuts ∨ (i = idOf p ∧
      ((s2.parent p = -1 ∧ s2.childrenNum p > 1) ∨ (s2.parent p ≠ -1 ∧ s2.low c ≥ s2.d p))) := by
    intro i
    rw [hcuts4 i]
    show _ ∨ (_ ∧ (_ ∨ (_ ∧ upd s2.low p (min (s2.low p) (s2.low c)) c ≥ s2.d p))) ↔ _
    rw [upd_other _ _ hcp]
  clear hd4 hlow4 hpar4 hch4 hvis4 htime4 hcuts4
  -- the current index across the call
  have hp1 : s1.vis p = true := by rw [hvis1]; exact hI.visP
  obtain ⟨hp2, hdp2, hlowp2, hparp2, hchp2⟩ := hpost.frame p hp1
  have hparp : s2.parent p = s.parent p := by
    rw [hparp2, hpar1, upd_other _ _ (Ne.symm hcp)]
  have hchp : s2.childrenNum p = s.childrenNum p + 1 := by rw [hchp2, hch1, upd_same]
  have hdp : s2.d p = s0.time + 1 := by rw [hdp2, hd1]; exact hI.dP
  have hlowp : s2.low p = s.low p := by rw [hlowp2, hlow1]
  have hparc : s1.parent c = (p : Int) := by rw [hpar1, upd_same]
  have hlow4p : s4.low p = min (s.low p) (s2.low c) := by rw [hlow4', upd_same, hlowp]
  have hp0 : ¬ (s0.vis p = true) := by rw [hI.unvisP]; simp
  -- visited indices across the call
  have hfr : ∀ x, s.vis x = true → s2.vis x = true ∧ s2.d x = s.d x := by
    intro x hx
    obtain ⟨a, b, _⟩ := hpost.frame x (by rw [hvis1]; exact hx)
    exact ⟨a, by rw [b, hd1]⟩
  have hold_new : ∀ x, NewIn s0 s x → NewIn s0 s4 x := by
    intro x hx
    exact ⟨by rw [hvis4']; exact (hfr x hx.1).1, hx.2⟩
  have hchild_new : ∀ x, NewIn s1 s2 x → NewIn s0 s4 x := by
    intro x hx
    exact ⟨by rw [hvis4']; exact hx.1, linv_vis_mono hI (by rw [← hvis1]; exact hx.2)⟩
  have hsplit : ∀ x, NewIn s0 s4 x → NewIn s0 s x ∨ NewIn s1 s2 x := by
    intro x hx
    by_cases h : s.vis x = true
    · exact Or.inl ⟨h, hx.2⟩
    · exact Or.inr ⟨by rw [← hvis4']; exact hx.1, by rw [hvis1]; simpa using h⟩
  have hchild_ne : ∀ x, NewIn s1 s2 x → x ≠ p := by
    intro x hx e
    have h2 := hx.2
    rw [e, hp1] at h2
    cases h2
  have hstamps : ∀ x, NewIn s0 s4 x → s0.time < s4.d x ∧ s4.d x ≤ s4.time := by
    intro x hx
    rw [hd4', htime4']
    rcases hsplit x hx with h | h
    · obtain ⟨a, b⟩ := hI.stampsNew x h
      rw [(hfr x h.1).2]
      have := hpost.time
      rw [htime1] at this
      omega
    · obtain ⟨a, b⟩ := hpost.stampsNew x h
      have := hI.time
      rw [htime1] at a
      omega
  -- the ids of the indices of the two generations
  have hid_ne : ∀ y, NewIn s0 s4 y → y ≠ p → idOf y ≠ idOf p := by
    intro y hy hyp e
    have hr : 1 ≤ y ∧ y ≤ n := by
      rcases hsplit y hy with h | h
      · exact hI.newRange y h
      · exact hpost.newRange y h
    exact hyp (hG.inj y p hr.1 hr.2 hpre.range.1 hpre.range.2 e)
  have hcuts_old : ∀ y, s.vis y = true → 1 ≤ y → y ≤ n → (idOf y ∈ s2.cuts ↔ idOf y ∈ s.cuts) := by
    intro y hy hy1 hy2
    constructor
    · intro h
      rcases hpost.cutsNew _ h with h' | ⟨y', hy', e⟩
      · rw [hcuts1] at h'; exact h'
      · obtain ⟨a, b⟩ := hpost.newRange y' hy'
        have := hG.inj y y' hy1 hy2 a b e
        have h2 := hy'.2
        rw [← this, hvis1, hy] at h2
        cases h2
    · intro h
      exact hpost.cutsOld _ (by rw [hcuts1]; exact h)
  have hcuts_p : idOf p ∈ s2.cuts ↔ idOf p ∈ s.cuts :=
    hcuts_old p hI.visP hpre.range.1 hpre.range.2
  -- paths inside the subtree of the child
  have hra_child : ∀ x, NewIn s1 s2 x → RA E p c x := by
    intro x hx
    exact (ra_of_reachOut (P := fun y => s1.vis y = true) hp1
      (by simp [hvis1, hc]) (hpost.conn x hx)).1
  refine ⟨hI.unvisP, ?_, by rw [hvis4']; exact hp2, by rw [hd4']; exact hdp, ?_, ?_, ?_, ?_,
    hstamps, ?_, ?_, ?_, ?_, ?_, ?_, ?_, ?_, ?_, ?_, ?_, ?_⟩
  · -- frame
    intro x hx
    obtain ⟨a1, a2, a3, a4, a5⟩ := hI.frame x hx
    have hxp : x ≠ p := fun e => hp0 (e ▸ hx)
    have hxc : x ≠ c := fun e => by rw [e, hc] at a1; cases a1
    obtain ⟨b1, b2, b3, b4, b5⟩ := hpost.frame x (by rw [hvis1]; exact a1)
    refine ⟨by rw [hvis4']; exact b1, by rw [hd4', b2, hd1]; exact a2, ?_, ?_, ?_⟩
    · rw [hlow4', upd_other _ _ hxp, b3, hlow1]; exact a3
    · rw [hpar4', b4, hpar1, upd_other _ _ hxc]; exact a4
    · rw [hch4', b5, hch1, upd_other _ _ hxp]; exact a5
  · -- lowLe
    rw [hlow4p, hd4', hdp, ← hI.dP]
    exact le_trans (min_le_left _ _) hI.lowLe
  · -- parentP
    rw [hpar4', hparp]; exact hI.parentP
  · -- time
    rw [htime4']
    have := hpost.time
    have := hI.time
    rw [htime1] at *
    omega
  · -- newRange
    intro x hx
    rcases hsplit x hx with h | h
    · exact hI.newRange x h
    · exact hpost.newRange x h
  · intro x hx; rw [hpar4']; exact hpost.cleanP x (by rw [← hvis4']; exact hx)
  · intro x hx; rw [hch4']; exact hpost.cleanC x (by rw [← hvis4']; exact hx)
  · -- closedNew
    intro x hx hxp w hxw
    rw [hvis4']
    rcases hsplit x hx with h | h
    · exact (hfr w (hI.closedNew x h hxp w hxw)).1
    · exact hpost.closedNew x h w hxw
  · -- conn
    intro x hx
    rcases hsplit x hx with h | h
    · exact hI.conn x h
    · have hm : ReachOut E (fun y => s0.vis y = true) c x :=
        reachOut_mono (fun y hy => by rw [hvis1]; exact (hI.frame y hy).1) (hpost.conn x h)
      exact Relation.ReflTransGen.head ⟨hE, by simp [linv_vis_mono hI hc]⟩ hm
  · -- low1
    intro x hx hxp w hw hxw
    have hws : s.vis w = true := (hI.frame w hw).1
    rw [hlow4p, hd4', (hfr w hws).2]
    rcases hsplit x hx with h | h
    · exact le_trans (min_le_left _ _) (hI.low1 x h hxp w hw hxw)
    · rcases hpost.low1 x h w (by rw [hvis1]; exact hws) hxw with ⟨_, e⟩ | hle
      · exfalso
        rw [hparc] at e
        have : w = p := by exact_mod_cast e
        exact hp0 (this ▸ hw)
      · rw [(hfr w hws).2] at hle
        exact le_trans (min_le_right _ _) hle
  · -- low2
    rw [hlow4p, hd4', hdp, ← hI.dP]
    rcases le_total (s.low p) (s2.low c) with h | h
    · rw [min_eq_left h]
      rcases hI.low2 with e | ⟨z, w, hz, hzw, hw, e⟩
      · exact Or.inl e
      · exact Or.inr ⟨z, w, hold_new z hz, hzw, by rw [hvis4']; exact (hfr w hw).1,
          by rw [(hfr w hw).2]; exact e⟩
    · rw [min_eq_right h]
      right
      rcases hpost.low2 with e | ⟨z, w, hz, hzw, hw, e⟩
      · exact ⟨p, c, ⟨by rw [hvis4']; exact hp2, hI.unvisP⟩, hE,
          by rw [hvis4']; exact hpost.visC, e⟩
      · exact ⟨z, w, hchild_new z hz, hzw, by rw [hvis4']; exact hw, e⟩
  · -- fin
    intro y hy hyp
    have hmem : idOf y ∈ s4.cuts ↔ idOf y ∈ s2.cuts := by
      rw [hcuts4']
      constructor
      · rintro (h | ⟨h, _⟩)
        · exact h
        · exact absurd h (hid_ne y hy hyp)
      · exact fun h => Or.inl h
    rw [hmem]
    rcases hsplit y hy with h | h
    · obtain ⟨hr1, hr2⟩ := hI.newRange y h
      rw [hcuts_old y h.1 hr1 hr2]
      exact hI.fin y h hyp
    · exact hpost.fin y h
  · -- cutsOld
    intro i hi
    rw [hcuts4']
    exact Or.inl (hpost.cutsOld i (by rw [hcuts1]; exact hI.cutsOld i hi))
  · -- cutsNew
    intro i hi
    rcases (hcuts4' i).mp hi with h | ⟨h, _⟩
    · rcases hpost.cutsNew i h with h' | ⟨y, hy, e⟩
      · rw [hcuts1] at h'
        rcases hI.cutsNew i h' with h'' | ⟨y, hy, e⟩
        · exact Or.inl h''
        · exact Or.inr ⟨y, hold_new y hy, e⟩
      · exact Or.inr ⟨y, hchild_new y hy, e⟩
    · exact Or.inr ⟨p, ⟨by rw [hvis4']; exact hp2, hI.unvisP⟩, h⟩
  · -- ownCut
    intro hmem
    rcases (hcuts4' _).mp hmem with h | ⟨_, h⟩
    · exact hI.ownCut (hcuts_p.mp h)
    · rcases h with ⟨hroot, hgt⟩ | ⟨hnon, hge⟩
      · -- a root with a second child
        rw [hparp] at hroot
        rw [hchp] at hgt
        rcases hI.ownRoot hroot with ⟨h0, _⟩ | ⟨_, c1, hc1, hc1p, hc1new, _⟩ | ⟨_, hin⟩
        · omega
        · have hnogrey : ∀ w, ¬ Grey w := by
            rcases hpre.link with ⟨_, h⟩ | ⟨u, hu, _⟩
            · exact h
            · rw [← hI.parentP, hroot] at hu; omega
          have hcl := child_closed hG hI hvis1 hpost (by
            intro x w hx hw hxw
            exfalso
            have := hpre.closed w hw (hnogrey w) x (hG.symm _ _ hxw)
            have hx1 := hx.2
            rw [hvis1, (hI.frame x this).1] at hx1
            cases hx1)
          exact art_of_closed (S := NewIn s1 s2) (c := c) (b := c1)
            ⟨hpost.visC, by rw [hvis1]; exact hc⟩
            (fun h => hchild_ne p h rfl)
            (fun h => by
              have := h.2
              rw [hvis1, hc1new.1] at this
              cases this)
            hc1p hcl (hG.symm _ _ hE) hc1
        · exact hI.ownCut hin
      · -- a child that cannot pass `p`
        rw [hparp] at hnon
        obtain ⟨u, hu, hgu, hup⟩ : ∃ u : Nat, s0.parent p = (u : Int) ∧ Grey u ∧ E u p := by
          rcases hpre.link with ⟨h, _⟩ | ⟨u, hu, hgu, hup, _⟩
          · rw [← hI.parentP] at h; exact absurd h hnon
          · exact ⟨u, hu, hgu, hup⟩
        have hu0 : s0.vis u = true := hpre.greyVis u hgu
        have hcl := child_closed hG hI hvis1 hpost (by
          intro x w hx hw hxw
          have hws : s.vis w = true := (hI.frame w hw).1
          rcases hpost.low1 x hx w (by rw [hvis1]; exact hws) hxw with ⟨_, e⟩ | hle
          · rw [hparc] at e
            exact_mod_cast e
          · exfalso
            rw [(hfr w hws).2, (hI.frame w hw).2.1] at hle
            have := hpre.stamps w hw
            rw [hdp] at hge
            omega)
        exact art_of_closed (S := NewIn s1 s2) (c := c) (b := u)
          ⟨hpost.visC, by rw [hvis1]; exact hc⟩
          (fun h => hchild_ne p h rfl)
          (fun h => by
            have := h.2
            rw [hvis1, (hI.frame u hu0).1] at this
            cases this)
          (fun e => hp0 (e ▸ hu0)) hcl (hG.symm _ _ hE) (hG.symm _ _ hup)
  · -- ownRoot
    intro hroot
    rw [hpar4', hparp] at hroot
    rw [hch4', hchp]
    rcases hI.ownRoot hroot with ⟨h0, hall⟩ | ⟨h1', c1, _⟩ | ⟨h2, hin⟩
    · right; left
      refine ⟨by omega, c, hE, hcp, hchild_new c ⟨hpost.visC, by rw [hvis1]; exact hc⟩, ?_⟩
      intro x hx hxp
      rcases hsplit x hx with h | h
      · exact absurd (hall x h) hxp
      · exact hra_child x h
    · right; right
      refine ⟨by omega, (hcuts4' _).mpr (Or.inr ⟨rfl, Or.inl ⟨?_, ?_⟩⟩)⟩
      · rw [hparp]; exact hroot
      · rw [hchp]; omega
    · right; right
      exact ⟨by omega, (hcuts4' _).mpr (Or.inl (hcuts_p.mpr hin))⟩
  · -- ownNon
    intro u hu hnot x hx hxp
    rw [hpar4', hparp] at hu
    have hnot2 : idOf p ∉ s2.cuts := fun h => hnot ((hcuts4' _).mpr (Or.inl h))
    have hnots : idOf p ∉ s.cuts := fun h => hnot2 (hcuts_p.mpr h)
    rcases hsplit x hx with h | h
    · exact hI.ownNon u hu hnots x h hxp
    · have hlt : s2.low c < s0.time + 1 := by
        by_contra hge
        refine hnot ((hcuts4' _).mpr (Or.inr ⟨rfl, Or.inr ⟨?_, ?_⟩⟩))
        · rw [hparp, hu]; omega
        · rw [hdp]; omega
      obtain ⟨hgu, hreach⟩ : Grey u ∧
          ∀ w, Grey w → ReachIn E (fun x => s0.vis x = true) u w := by
        rcases hpre.link with ⟨h', _⟩ | ⟨u', hu', hgu', _, hr⟩
        · rw [← hI.parentP, hu] at h'; omega
        · rw [← hI.parentP, hu] at hu'
          have : u = u' := by exact_mod_cast hu'
          subst this
          exact ⟨hgu', hr⟩
      rcases hpost.low2 with e | ⟨z, w, hz, hzw, hw, e⟩
      · exfalso
        rw [e, hpost.dC, htime1] at hlt
        have := hI.time
        omega
      · have hw0 : s0.vis w = true := by
          by_contra hcon
          have := (hstamps w ⟨by rw [hvis4']; exact hw, by simpa using hcon⟩).1
          rw [hd4', ← e] at this
          omega
        have hgw : Grey w := by
          by_contra hcon
          have := hpre.closed w hw0 hcon z (hG.symm _ _ hzw)
          have hz1 := hz.2
          rw [hvis1, (hI.frame z this).1] at hz1
          cases hz1
        have r1 : RA E p u w :=
          (ra_of_reachIn (P := fun x => s0.vis x = true) hp0 (hpre.greyVis u hgu)
            (hreach w hgw)).1
        have r2 : RA E p w z := Relation.ReflTransGen.single
          ⟨hG.symm _ _ hzw, fun e' => hp0 (e' ▸ hw0), hchild_ne z hz⟩
        have r3 : RA E p z c := ra_symm hG.symm (hra_child z hz)
        exact ra_trans (ra_trans (ra_trans r1 r2) r3) (hra_child x h)

/-- When the edge loop is over, the invariant gives the guarantee of the call. -/
theorem linv_finish {E : Nat → Nat → Prop} {idOf : Nat → Int} {n : Nat} {Grey : Nat → Prop}
    {s0 : Tarjan} {p : Nat} {s : Tarjan} (hG : TGraph E idOf n)
    (hpre : TPre E idOf n Grey s0 p) (hI : LInv E idOf n s0 p s)
    (hscan : ∀ w, E p w → s.vis w = true ∧
      (s0.vis w = true → (w : Int) = s0.parent p ∨ s.low p ≤ s.d w)) :
    TPost E idOf n s0 p s := by
  have hp0 : ¬ (s0.vis p = true) := by rw [hI.unvisP]; simp
  refine ⟨hI.frame, hI.parentP, hI.visP, hI.dP, hI.lowLe, hI.time, hI.newRange, hI.stampsNew,
    hI.cleanP, hI.cleanC, ?_, hI.conn, ?_, hI.low2, ?_, hI.cutsOld, hI.cutsNew⟩
  · intro x hx w hxw
    by_cases hxp : x = p
    · subst hxp; exact (hscan w hxw).1
    · exact hI.closedNew x hx hxp w hxw
  · intro x hx w hw hxw
    by_cases hxp : x = p
    · subst hxp
      rcases (hscan w hxw).2 hw with h | h
      · exact Or.inl ⟨rfl, h⟩
      · exact Or.inr h
    · exact Or.inr (hI.low1 x hx hxp w hw hxw)
  · intro y hy
    by_cases hyp : y = p
    swap
    · exact hI.fin y hy hyp
    subst hyp
    refine ⟨hI.ownCut, fun hnot => ?_⟩
    rcases hpre.link with ⟨hroot, hnogrey⟩ | ⟨u, hu, hgu, hup, hreach⟩
    · have hold : ∀ w, E y w → s0.vis w = true → False := by
        intro w hw hw0
        exact hp0 (hpre.closed w hw0 (hnogrey w) y (hG.symm _ _ hw))
      rcases hI.ownRoot (by rw [hI.parentP]; exact hroot) with
        ⟨_, hall⟩ | ⟨_, c1, _, _, _, hc1⟩ | ⟨_, hin⟩
      · refine ⟨y, fun w hw hwy => ?_⟩
        exfalso
        by_cases hw0 : s0.vis w = true
        · exact hold w hw hw0
        · exact hwy (hall w ⟨(hscan w hw).1, by simpa using hw0⟩)
      · refine ⟨c1, fun w hw hwy => ?_⟩
        by_cases hw0 : s0.vis w = true
        · exact absurd hw0 (fun h => hold w hw h)
        · exact hc1 w ⟨(hscan w hw).1, by simpa using hw0⟩ hwy
      · exact absurd hin hnot
    · refine ⟨u, fun w hw hwy => ?_⟩
      by_cases hw0 : s0.vis w = true
      · have hgw : Grey w := by
          by_contra hcon
          exact hp0 (hpre.closed w hw0 hcon y (hG.symm _ _ hw))
        exact (ra_of_reachIn (P := fun x => s0.vis x = true) hp0 (hpre.greyVis u hgu)
          (hreach w hgw)).1
      · exact hI.ownNon u (by rw [hI.parentP]; exact hu) hnot w
          ⟨(hscan w hw).1, by simpa using hw0⟩ hwy

theorem unvisitedT_le (n : Nat) (s : Tarjan) : unvisitedT n s ≤ n := by
  unfold unvisitedT
  calc ((Finset.range n).filter (fun i => s.vis (i + 1) = false)).card
      ≤ (Finset.range n).card := Finset.card_filter_le _ _
    _ = n := Finset.card_range n

theorem unvisitedT_mono {n : Nat} {s s' : Tarjan}
    (h : ∀ x, s.vis x = true → s'.vis x = true) : unvisitedT n s' ≤ unvisitedT n s := by
  apply Finset.card_le_card
  intro i hi
  simp only [Finset.mem_filter] at hi ⊢
  refine ⟨hi.1, ?_⟩
  by_contra hc
  have := h (i + 1) (by simpa using hc)
  rw [this] at hi
  cases hi.2

theorem unvisitedT_lt {n : Nat} {s s' : Tarjan}
    (h : ∀ x, s.vis x = true → s'.vis x = true) {c : Nat} (h1 : 1 ≤ c) (h2 : c ≤ n)
    (hc : s.vis c = false) (hc' : s'.vis c = true) : unvisitedT n s' < unvisitedT n s := by
  apply Finset.card_lt_card
  rw [Finset.ssubset_iff_of_subset]
  · refine ⟨c - 1, ?_, ?_⟩
    · simp only [Finset.mem_filter, Finset.mem_range]
      have e : c - 1 + 1 = c := by omega
      exact ⟨by omega, by rw [e]; exact hc⟩
    · simp only [Finset.mem_filter, Finset.mem_range, not_and]
      have e : c - 1 + 1 = c := by omega
      intro _
      rw [e, hc']
      simp
  · intro i hi
    simp only [Finset.mem_filter] at hi ⊢
    refine ⟨hi.1, ?_⟩
    by_contra hcon
    have := h (i + 1) (by simpa using hcon)
    rw [this] at hi
    cases hi.2

theorem cutEdges_spec {D : Type} (g : GraphData D) (vs : List (Vertex D))
    (idx : List (Int × Nat))
    (hG : TGraph (nbr1 g vs idx) (idOf1 vs) vs.length) (Grey : Nat → Prop)
    (s0 : Tarjan) (p : Nat) (hpre : TPre (nbr1 g vs idx) (idOf1 vs) vs.length Grey s0 p)
    (fuel : Nat) (self : Nat → Tarjan → Except Fault Tarjan)
    (hself : ∀ (Grey' : Nat → Prop) (c : Nat) (s : Tarjan),
      TPre (nbr1 g vs idx) (idOf1 vs) vs.length Grey' s c → unvisitedT vs.length s < fuel →
      ∃ s', self c s = .ok s' ∧ TPost (nbr1 g vs idx) (idOf1 vs) vs.length s c s') :
    ∀ (es : List Int) (s : Tarjan),
      (∀ eid ∈ es, ∃ e, find eid g.idToEdge = some e ∧ nbr1 g vs idx p (indexOf idx e.dst)) →
      LInv (nbr1 g vs idx) (idOf1 vs) vs.length s0 p s → unvisitedT vs.length s < fuel →
      ∃ s', cutEdges g idx self (idOf1 vs p) p es s = .ok s' ∧
        LInv (nbr1 g vs idx) (idOf1 vs) vs.length s0 p s' ∧
        (∀ x, s.vis x = true → s'.vis x = true ∧ s'.d x = s.d x) ∧
        s'.low p ≤ s.low p ∧
        (∀ eid ∈ es, ∀ e, find eid g.idToEdge = some e →
          s'.vis (indexOf idx e.dst) = true ∧
          (s0.vis (indexOf idx e.dst) = true →
            ((indexOf idx e.dst : Nat) : Int) = s0.parent p ∨
              s'.low p ≤ s'.d (indexOf idx e.dst))) := by
  intro es
  induction es with
  | nil =>
    intro s _ hI _
    exact ⟨s, rfl, hI, fun x hx => ⟨hx, rfl⟩, le_refl _, by simp⟩
  | cons eid rest ih =>
    intro s hes hI hm
    obtain ⟨e, he, hE⟩ := hes eid (List.mem_cons_self _ _)
    have hes' := fun x hx => hes x (List.mem_cons_of_mem _ hx)
    -- how a step followed by the rest of the loop gives the result
    have hfin : ∀ (sa : Tarjan),
        cutEdges g idx self (idOf1 vs p) p (eid :: rest) s =
          cutEdges g idx self (idOf1 vs p) p rest sa →
        LInv (nbr1 g vs idx) (idOf1 vs) vs.length s0 p sa →
        (∀ x, s.vis x = true → sa.vis x = true ∧ sa.d x = s.d x) →
        sa.low p ≤ s.low p →
        (sa.vis (indexOf idx e.dst) = true ∧
          (s0.vis (indexOf idx e.dst) = true →
            ((indexOf idx e.dst : Nat) : Int) = s0.parent p ∨
              sa.low p ≤ sa.d (indexOf idx e.dst))) →
        ∃ s', cutEdges g idx self (idOf1 vs p) p (eid :: rest) s = .ok s' ∧
          LInv (nbr1 g vs idx) (idOf1 vs) vs.length s0 p s' ∧
          (∀ x, s.vis x = true → s'.vis x = true ∧ s'.d x = s.d x) ∧
          s'.low p ≤ s.low p ∧
          (∀ x ∈ eid :: rest, ∀ e, find x g.idToEdge = some e →
            s'.vis (indexOf idx e.dst) = true ∧
            (s0.vis (indexOf idx e.dst) = true →
              ((indexOf idx e.dst : Nat) : Int) = s0.parent p ∨
                s'.low p ≤ s'.d (indexOf idx e.dst))) := by
      intro sa hstep hIa hmono hlow hedge
      have hma : unvisitedT vs.length sa < fuel :=
        lt_of_le_of_lt (unvisitedT_mono (fun x hx => (hmono x hx).1)) hm
      obtain ⟨s', hrun, hI', hmono', hlow', hall⟩ := ih sa hes' hIa hma
      refine ⟨s', hstep.trans hrun, hI', ?_, le_trans hlow' hlow, ?_⟩
      · intro x hx
        obtain ⟨a, b⟩ := hmono x hx
        obtain ⟨a', b'⟩ := hmono' x a
        exact ⟨a', b'.trans b⟩
      · intro x hx e' he'
        rcases List.mem_cons.mp hx with rfl | hx
        · rw [he] at he'
          cases he'
          obtain ⟨a, b⟩ := hedge
          obtain ⟨a', b'⟩ := hmono' _ a
          refine ⟨a', fun h0 => ?_⟩
          rcases b h0 with h | h
          · exact Or.inl h
          · right
            rw [b']
            exact le_trans hlow' h
        · exact hall x hx e' he'
    by_cases hvis : s.vis (indexOf idx e.dst) = false
    · -- an unvisited neighbour: the recursive call
      have hpre1 := child_pre hG hpre hI hE hvis
      obtain ⟨s2, hcall, hpost⟩ := hself _ _ _ hpre1 hm
      have hI4 := linv_child hG hpre hI hE hvis _ s2 _ rfl hpost rfl
      obtain ⟨hd4, hlow4, _, _, hvis4, _, _⟩ := pushCuts_spec (idOf1 vs p) p (indexOf idx e.dst)
        { s2 with low := upd s2.low p (min (s2.low p) (s2.low (indexOf idx e.dst))) }
      refine hfin _ ?_ hI4 ?_ ?_ ?_
      · simp only [cutEdges, Graph.getEdge, he]
        rw [if_pos hvis]
        simp only [hcall]
      · intro x hx
        obtain ⟨a, b, _⟩ := hpost.frame x hx
        exact ⟨by rw [hvis4]; exact a, by rw [hd4]; exact b⟩
      · rw [hlow4]
        show upd s2.low p (min (s2.low p) (s2.low (indexOf idx e.dst))) p ≤ s.low p
        rw [upd_same]
        have : s2.low p = s.low p := (hpost.frame p hI.visP).2.2.1
        rw [this]
        exact min_le_left _ _
      · refine ⟨by rw [hvis4]; exact hpost.visC, fun h0 => ?_⟩
        rw [(hI.frame _ h0).1] at hvis
        cases hvis
    · have hvis' : s.vis (indexOf idx e.dst) = true := by simpa using hvis
      by_cases hpar : ((indexOf idx e.dst : Nat) : Int) ≠ s.parent p
      · -- a visited neighbour other than the parent
        refine hfin _ ?_ (linv_back hI hE hvis') (fun x hx => ⟨hx, rfl⟩) ?_ ?_
        · simp only [cutEdges, Graph.getEdge, he]
          rw [if_neg hvis, if_pos hpar]
        · show upd s.low p (min (s.low p) (s.d (indexOf idx e.dst))) p ≤ s.low p
          rw [upd_same]
          exact min_le_left _ _
        · refine ⟨hvis', fun _ => Or.inr ?_⟩
          show upd s.low p (min (s.low p) (s.d (indexOf idx e.dst))) p ≤ s.d (indexOf idx e.dst)
          rw [upd_same]
          exact min_le_right _ _
      · -- the edge back to the parent
        have hpar' : ((indexOf idx e.dst : Nat) : Int) = s.parent p := by
          by_contra h; exact hpar h
        refine hfin s ?_ hI (fun x hx => ⟨hx, rfl⟩) (le_refl _) ?_
        · simp only [cutEdges, Graph.getEdge, he]
          rw [if_neg hvis, if_neg hpar]
        · exact ⟨hvis', fun _ => Or.inl (hpar'.trans hI.parentP)⟩

theorem dfscv_spec {D : Type} (g : GraphData D) (vs : List (Vertex D))
    (idx : List (Int × Nat))
    (hG : TGraph (nbr1 g vs idx) (idOf1 vs) vs.length) (hM : TModel g vs) :
    ∀ (fuel : Nat) (Grey : Nat → Prop) (c : Nat) (s : Tarjan),
      TPre (nbr1 g vs idx) (idOf1 vs) vs.length Grey s c → unvisitedT vs.length s < fuel →
      ∃ s', dfscv g vs idx fuel c s = .ok s' ∧
        TPost (nbr1 g vs idx) (idOf1 vs) vs.length s c s' := by
  intro fuel
  induction fuel with
  | zero => intro _ _ _ _ h; omega
  | succ fuel ih =>
    intro Grey c s hpre hm
    obtain ⟨hc1, hc2⟩ := hpre.range
    have hlt : c - 1 < vs.length := by omega
    have hv : vs[c - 1]? = some vs[c - 1] := List.getElem?_eq_getElem hlt
    obtain ⟨es, hes, hres⟩ := hM (c - 1) _ hv
    have hes' : ∀ eid ∈ es, ∃ e, find eid g.idToEdge = some e ∧
        nbr1 g vs idx c (indexOf idx e.dst) := by
      intro eid he
      obtain ⟨e, h1⟩ := hres eid he
      exact ⟨e, h1, vs[c - 1], es, eid, e, hc1, hv, hes, he, h1, rfl⟩
    have hI := linv_init hpre
    have hm1 : unvisitedT vs.length
        ({ s with time := s.time + 1, d := upd s.d c (s.time + 1),
                  low := upd s.low c (s.time + 1), vis := upd s.vis c true } : Tarjan) < fuel := by
      have := @unvisitedT_lt vs.length s _ (fun x hx => (hI.frame x hx).1) c hc1 hc2
        hpre.unvis hI.visP
      omega
    obtain ⟨s', hrun, hI', _, _, hall⟩ := cutEdges_spec g vs idx hG Grey s c hpre fuel
      (fun i s' => dfscv g vs idx fuel i s') (fun G' c' s' h1 h2 => ih G' c' s' h1 h2)
      es _ hes' hI hm1
    have hid : idOf1 vs c = vs[c - 1].id := by
      simp only [idOf1, idAt, hv]
    refine ⟨s', ?_, linv_finish hG hpre hI' ?_⟩
    · simp only [dfscv]
      rw [if_neg (by omega)]
      simp only [hv, Graph.getEdgeIdsOfVertex, hes]
      rw [← hid]
      exact hrun
    · rintro w ⟨v', es', eid, e, _, hv', hes'', hmem, hfe, rfl⟩
      rw [hv] at hv'
      cases hv'
      rw [hes] at hes''
      cases hes''
      exact hall eid hmem e hfe

theorem rinv_pre {E : Nat → Nat → Prop} {idOf : Nat → Int} {n : Nat} {s : Tarjan}
    (hG : TGraph E idOf n) (hR : RInv E idOf n s) {i : Nat} (h1 : 1 ≤ i) (h2 : i ≤ n)
    (hi : s.vis i = false) : TPre E idOf n (fun _ => False) s i := by
  refine ⟨⟨h1, h2⟩, hi, fun x hx _ => hR.cleanP x hx, hR.cleanC, ?_, hR.stamps,
    fun _ h => absurd h id, fun x hx _ => hR.closed x hx,
    Or.inl ⟨hR.cleanP i hi, fun _ h => h⟩⟩
  intro x hx1 hx2 hx hmem
  obtain ⟨y, hy, e⟩ := hR.cutsVis _ hmem
  obtain ⟨hy1, hy2⟩ := hR.visRange y hy
  have := hG.inj x y hx1 hx2 hy1 hy2 e
  rw [this, hy] at hx
  cases hx

theorem rinv_step {E : Nat → Nat → Prop} {idOf : Nat → Int} {n : Nat} {s s' : Tarjan}
    (hG : TGraph E idOf n) (hR : RInv E idOf n s) {i : Nat}
    (hpost : TPost E idOf n s i s') : RInv E idOf n s' := by
  have hcase : ∀ x, s'.vis x = true → s.vis x = true ∨ NewIn s s' x := by
    intro x hx
    by_cases h : s.vis x = true
    · exact Or.inl h
    · exact Or.inr ⟨hx, by simpa using h⟩
  refine ⟨?_, hpost.cleanP, hpost.cleanC, ?_, ?_, ?_, ?_⟩
  · intro x hx
    rcases hcase x hx with h | h
    · rw [(hpost.frame x h).2.1]
      have := hR.stamps x h
      have := hpost.time
      omega
    · exact (hpost.stampsNew x h).2
  · intro x hx
    rcases hcase x hx with h | h
    · exact hR.visRange x h
    · exact hpost.newRange x h
  · intro x hx w hxw
    rcases hcase x hx with h | h
    · exact (hpost.frame w (hR.closed x h w hxw)).1
    · exact hpost.closedNew x h w hxw
  · intro y hy
    rcases hcase y hy with h | h
    · obtain ⟨hy1, hy2⟩ := hR.visRange y h
      have hmem : idOf y ∈ s'.cuts ↔ idOf y ∈ s.cuts := by
        constructor
        · intro hin
          rcases hpost.cutsNew _ hin with h' | ⟨y', hy', e⟩
          · exact h'
          · obtain ⟨a, b⟩ := hpost.newRange y' hy'
            have := hG.inj y y' hy1 hy2 a b e
            have h2 := hy'.2
            rw [← this, h] at h2
            cases h2
        · exact hpost.cutsOld _
      rw [hmem]
      exact hR.fin y h
    · exact hpost.fin y h
  · intro i' hi'
    rcases hpost.cutsNew i' hi' with h | ⟨y, hy, e⟩
    · obtain ⟨y, hy, e⟩ := hR.cutsVis i' h
      exact ⟨y, (hpost.frame y hy).1, e⟩
    · exact ⟨y, hy.1, e⟩

theorem cutRoots_spec {D : Type} (g : GraphData D) (vs : List (Vertex D))
    (idx : List (Int × Nat))
    (hG : TGraph (nbr1 g vs idx) (idOf1 vs) vs.length) (hM : TModel g vs) :
    ∀ (roots : List Nat) (s : Tarjan), (∀ i ∈ roots, 1 ≤ i ∧ i ≤ vs.length) →
      RInv (nbr1 g vs idx) (idOf1 vs) vs.length s →
      ∃ s', cutRoots g vs idx roots s = .ok s' ∧
        RInv (nbr1 g vs idx) (idOf1 vs) vs.length s' ∧
        (∀ x, s.vis x = true → s'.vis x = true) ∧ ∀ i ∈ roots, s'.vis i = true := by
  intro roots
  induction roots with
  | nil =>
    intro s _ hR
    exact ⟨s, rfl, hR, fun _ h => h, by simp⟩
  | cons i rest ih =>
    intro s hr hR
    obtain ⟨h1, h2⟩ := hr i (List.mem_cons_self _ _)
    have hr' := fun x hx => hr x (List.mem_cons_of_mem _ hx)
    by_cases hi : s.vis i = false
    · obtain ⟨s1, hcall, hpost⟩ := dfscv_spec g vs idx hG hM (vs.length + 1) _ i s
        (rinv_pre hG hR h1 h2 hi) (Nat.lt_succ_of_le (unvisitedT_le _ _))
      obtain ⟨s', hrun, hR', hmono, hall⟩ := ih s1 hr' (rinv_step hG hR hpost)
      refine ⟨s', ?_, hR', fun x hx => hmono x (hpost.frame x hx).1, ?_⟩
      · simp only [cutRoots]
        rw [if_pos hi]
        simp only [hcall, hrun]
      · intro x hx
        rcases List.mem_cons.mp hx with rfl | hx
        · exact hmono _ hpost.visC
        · exact hall x hx
    · obtain ⟨s', hrun, hR', hmono, hall⟩ := ih s hr' hR
      refine ⟨s', ?_, hR', hmono, ?_⟩
      · simp only [cutRoots]
        rw [if_neg hi]
        exact hrun
      · intro x hx
        rcases List.mem_cons.mp hx with rfl | hx
        · exact hmono _ (by simpa using hi)
        · exact hall x hx

theorem mem_insertSorted (a x : Int) (l : List Int) :
    a ∈ insertSorted x l ↔ a = x ∨ a ∈ l := by
  induction l with
  | nil => simp [insertSorted]
  | cons y ys ih =>
    unfold insertSorted
    by_cases h : x ≤ y
    · rw [if_pos h]; simp
    · rw [if_neg h]
      simp only [List.mem_cons, ih]
      tauto

theorem mem_sortInts (a : Int) (l : List Int) : a ∈ sortInts l ↔ a ∈ l := by
  unfold sortInts
  induction l with
  | nil => simp
  | cons x xs ih =>
    rw [List.foldr_cons, mem_insertSorted, ih]
    simp

theorem mem_unique (a : Int) : ∀ l : List Int, a ∈ unique l ↔ a ∈ l
  | [] => by simp [unique]
  | [x] => by simp [unique]
  | x :: y :: rest => by
    have ih := mem_unique a (y :: rest)
    unfold unique
    by_cases h : x = y
    · rw [if_pos h, ih, h]
      simp
    · rw [if_neg h]
      simp only [List.mem_cons] at ih ⊢
      rw [ih]

/-- The result of `tarjan` in terms of the index graph. -/
theorem tarjan_index {D : Type} (g : GraphData D)
    (hG : TGraph (nbr1 g (Graph.getAllVertices g)
        (buildIndexFrom 1 0 (Graph.getAllVertices g) []))
      (idOf1 (Graph.getAllVertices g)) (Graph.getAllVertices g).length)
    (hM : TModel g (Graph.getAllVertices g)) :
    ∃ cuts, tarjan g = .ok cuts ∧ ∀ i, i ∈ cuts ↔
      ∃ y, 1 ≤ y ∧ y ≤ (Graph.getAllVertices g).length ∧
        i = idOf1 (Graph.getAllVertices g) y ∧
        IsArtI (nbr1 g (Graph.getAllVertices g)
          (buildIndexFrom 1 0 (Graph.getAllVertices g) [])) y := by
  have hR0 : RInv (nbr1 g (Graph.getAllVertices g)
      (buildIndexFrom 1 0 (Graph.getAllVertices g) []))
      (idOf1 (Graph.getAllVertices g)) (Graph.getAllVertices g).length
      { d := fun _ => -1, low := fun _ => 0, parent := fun _ => -1, childrenNum := fun _ => 0,
        vis := fun _ => false, time := 0, cuts := [] } := by
    refine ⟨?_, fun _ _ => rfl, fun _ _ => rfl, ?_, ?_, ?_, ?_⟩
    · intro x hx; cases hx
    · intro x hx; cases hx
    · intro x hx; cases hx
    · intro x hx; cases hx
    · intro i hi; cases hi
  obtain ⟨s, hrun, hR, _, hall⟩ := cutRoots_spec g _ _ hG hM
    ((List.range (Graph.getAllVertices g).length).map (fun i => i + 1)) _
    (by
      intro i hi
      obtain ⟨j, hj, rfl⟩ := List.mem_map.mp hi
      have := List.mem_range.mp hj
      omega) hR0
  refine ⟨unique (sortInts s.cuts), by simp only [tarjan, hrun], fun i => ?_⟩
  rw [mem_unique, mem_sortInts]
  constructor
  · intro hi
    obtain ⟨y, hy, e⟩ := hR.cutsVis i hi
    obtain ⟨h1, h2⟩ := hR.visRange y hy
    exact ⟨y, h1, h2, e, (hR.fin y hy).1 (e ▸ hi)⟩
  · rintro ⟨y, h1, h2, e, hart⟩
    have hy : s.vis y = true := hall y (List.mem_map.mpr ⟨y - 1, List.mem_range.mpr (by omega),
      by omega⟩)
    by_contra hnot
    exact not_art_of_nbrConn hG.symm ((hR.fin y hy).2 (e ▸ hnot)) hart

theorem idx1_of_mem {D : Type} (g : GraphData D) (hids : (vertexIds g).Nodup) {a : Int}
    (ha : a ∈ vertexIds g) :
    1 ≤ indexOf (buildIndexFrom 1 0 (Graph.getAllVertices g) []) a ∧
    indexOf (buildIndexFrom 1 0 (Graph.getAllVertices g) []) a ≤
      (Graph.getAllVertices g).length ∧
    idOf1 (Graph.getAllVertices g)
      (indexOf (buildIndexFrom 1 0 (Graph.getAllVertices g) []) a) = a := by
  obtain ⟨i, v, hi, rfl⟩ := get_of_mem_ids ha
  have hf := find_buildIndexFrom_get 1 (Graph.getAllVertices g) 0 [] i v hids hi
  have hix : indexOf (buildIndexFrom 1 0 (Graph.getAllVertices g) []) v.id = i + 1 := by
    unfold indexOf
    rw [hf]
    simp
  rw [hix]
  have := lt_of_get hi
  refine ⟨by omega, by omega, ?_⟩
  simp only [idOf1, Nat.add_sub_cancel, idAt, hi]

theorem idx1_idOf {D : Type} (g : GraphData D) (hids : (vertexIds g).Nodup) {y : Nat}
    (h1 : 1 ≤ y) (h2 : y ≤ (Graph.getAllVertices g).length) :
    idOf1 (Graph.getAllVertices g) y ∈ vertexIds g ∧
    indexOf (buildIndexFrom 1 0 (Graph.getAllVertices g) [])
      (idOf1 (Graph.getAllVertices g) y) = y := by
  have hlt : y - 1 < (Graph.getAllVertices g).length := by omega
  have hv : (Graph.getAllVertices g)[y - 1]? = some (Graph.getAllVertices g)[y - 1] :=
    List.getElem?_eq_getElem hlt
  have hid : idOf1 (Graph.getAllVertices g) y = (Graph.getAllVertices g)[y - 1].id := by
    simp only [idOf1, idAt, hv]
  rw [hid]
  refine ⟨List.mem_map.mpr ⟨_, List.getElem?_mem hv, rfl⟩, ?_⟩
  have hf := find_buildIndexFrom_get 1 (Graph.getAllVertices g) 0 [] (y - 1) _ hids hv
  unfold indexOf
  rw [hf]
  simp only [Option.getD_some]
  omega

theorem arc_of_nbr1 {D : Type} (g : GraphData D) (hids : (vertexIds g).Nodup)
    (hdst : ∀ u w, Arc g u w → w ∈ vertexIds g) {i j : Nat}
    (h : nbr1 g (Graph.getAllVertices g) (buildIndexFrom 1 0 (Graph.getAllVertices g) []) i j) :
    Arc g (idOf1 (Graph.getAllVertices g) i) (idOf1 (Graph.getAllVertices g) j) ∧
    (1 ≤ i ∧ i ≤ (Graph.getAllVertices g).length) ∧
    (1 ≤ j ∧ j ≤ (Graph.getAllVertices g).length) := by
  obtain ⟨v, es, eid, e, h1, hv, hes, hmem, hfe, rfl⟩ := h
  have harc : Arc g v.id e.dst := (arc_iff g _ _).mpr ⟨es, hes, eid, hmem, e, hfe, rfl⟩
  obtain ⟨a, b, c⟩ := idx1_of_mem g hids (hdst _ _ harc)
  have hid : idOf1 (Graph.getAllVertices g) i = v.id := by
    simp only [idOf1, idAt, hv]
  have := lt_of_get hv
  rw [hid, c]
  exact ⟨harc, ⟨h1, by omega⟩, a, b⟩

theorem nbr1_of_arc {D : Type} (g : GraphData D) (hids : (vertexIds g).Nodup) {a b : Int}
    (ha : a ∈ vertexIds g) (h : Arc g a b) :
    nbr1 g (Graph.getAllVertices g) (buildIndexFrom 1 0 (Graph.getAllVertices g) [])
      (indexOf (buildIndexFrom 1 0 (Graph.getAllVertices g) []) a)
      (indexOf (buildIndexFrom 1 0 (Graph.getAllVertices g) []) b) := by
  obtain ⟨i, v, hi, rfl⟩ := get_of_mem_ids ha
  have hf := find_buildIndexFrom_get 1 (Graph.getAllVertices g) 0 [] i v hids hi
  have hix : indexOf (buildIndexFrom 1 0 (Graph.getAllVertices g) []) v.id = i + 1 := by
    unfold indexOf
    rw [hf]
    simp
  obtain ⟨es, hes, eid, he, e, hfe, hd⟩ := (arc_iff g _ _).mp h
  rw [hix]
  exact ⟨v, es, eid, e, by omega, by simpa using hi, hes, he, hfe, by rw [hd]⟩

theorem tgraph_of {D : Type} (g : GraphData D) (hids : (vertexIds g).Nodup)
    (hend : ∀ u w, Arc g u w → u ∈ vertexIds g ∧ w ∈ vertexIds g)
    (hmirror : ∀ u w, Arc g u w → Arc g w u) :
    TGraph (nbr1 g (Graph.getAllVertices g) (buildIndexFrom 1 0 (Graph.getAllVertices g) []))
      (idOf1 (Graph.getAllVertices g)) (Graph.getAllVertices g).length := by
  have hdst : ∀ u w, Arc g u w → w ∈ vertexIds g := fun u w h => (hend u w h).2
  refine ⟨?_, ?_, ?_⟩
  · intro a b hab
    obtain ⟨harc, ⟨a1, a2⟩, b1, b2⟩ := arc_of_nbr1 g hids hdst hab
    have h := nbr1_of_arc g hids (idx1_idOf g hids b1 b2).1 (hmirror _ _ harc)
    rw [(idx1_idOf g hids b1 b2).2, (idx1_idOf g hids a1 a2).2] at h
    exact h
  · intro a b hab
    exact (arc_of_nbr1 g hids hdst hab).2.2
  · intro a b a1 a2 b1 b2 e
    rw [← (idx1_idOf g hids a1 a2).2, ← (idx1_idOf g hids b1 b2).2, e]

theorem tmodel_of {D : Type} (g : GraphData D) (hstored : ListedStored g)
    (hadj : ∀ v ∈ vertexIds g, (find v g.adjMap).isSome = true) :
    TModel g (Graph.getAllVertices g) := by
  intro i v hv
  have hvid : v.id ∈ vertexIds g := List.mem_map.mpr ⟨v, List.getElem?_mem hv, rfl⟩
  obtain ⟨es, hes⟩ := Option.isSome_iff_exists.mp (hadj _ hvid)
  refine ⟨es, hes, fun eid he => ?_⟩
  exact Option.isSome_iff_exists.mp (hstored _ es hes eid he)

/-- Paths of the index graph are paths of adjacency edges between the ids. -/
theorem reach_of_index {D : Type} (g : GraphData D) (hids : (vertexIds g).Nodup)
    (hdst : ∀ u w, Arc g u w → w ∈ vertexIds g) {a b : Nat}
    (h : Relation.ReflTransGen (nbr1 g (Graph.getAllVertices g)
      (buildIndexFrom 1 0 (Graph.getAllVertices g) [])) a b) :
    Reach g (idOf1 (Graph.getAllVertices g) a) (idOf1 (Graph.getAllVertices g) b) := by
  induction h with
  | refl => exact Relation.ReflTransGen.refl
  | tail _ hstep ih => exact Relation.ReflTransGen.tail ih (arc_of_nbr1 g hids hdst hstep).1

theorem index_of_reach {D : Type} (g : GraphData D) (hids : (vertexIds g).Nodup)
    (hend : ∀ u w, Arc g u w → u ∈ vertexIds g ∧ w ∈ vertexIds g) {a b : Int}
    (h : Reach g a b) :
    Relation.ReflTransGen (nbr1 g (Graph.getAllVertices g)
      (buildIndexFrom 1 0 (Graph.getAllVertices g) []))
      (indexOf (buildIndexFrom 1 0 (Graph.getAllVertices g) []) a)
      (indexOf (buildIndexFrom 1 0 (Graph.getAllVertices g) []) b) := by
  induction h with
  | refl => exact Relation.ReflTransGen.refl
  | tail _ hstep ih =>
    exact Relation.ReflTransGen.tail ih (nbr1_of_arc g hids (hend _ _ hstep).1 hstep)

theorem avoiding_of_index {D : Type} (g : GraphData D) (hids : (vertexIds g).Nodup)
    (hdst : ∀ u w, Arc g u w → w ∈ vertexIds g) {y a b : Nat}
    (hy1 : 1 ≤ y) (hy2 : y ≤ (Graph.getAllVertices g).length)
    (h : RA (nbr1 g (Graph.getAllVertices g)
      (buildIndexFrom 1 0 (Graph.getAllVertices g) [])) y a b) :
    ReachAvoiding g (idOf1 (Graph.getAllVertices g) y)
      (idOf1 (Graph.getAllVertices g) a) (idOf1 (Graph.getAllVertices g) b) := by
  induction h with
  | refl => exact Relation.ReflTransGen.refl
  | tail _ hstep ih =>
    obtain ⟨harc, ⟨a1, a2⟩, b1, b2⟩ := arc_of_nbr1 g hids hdst hstep.1
    refine Relation.ReflTransGen.tail ih ⟨harc, ?_, ?_⟩
    · intro e
      apply hstep.2.1
      rw [← (idx1_idOf g hids a1 a2).2, ← (idx1_idOf g hids hy1 hy2).2, e]
    · intro e
      apply hstep.2.2
      rw [← (idx1_idOf g hids b1 b2).2, ← (idx1_idOf g hids hy1 hy2).2, e]

theorem index_of_avoiding {D : Type} (g : GraphData D) (hids : (vertexIds g).Nodup)
    (hend : ∀ u w, Arc g u w → u ∈ vertexIds g ∧ w ∈ vertexIds g) {v a b : Int}
    (hv : v ∈ vertexIds g) (h : ReachAvoiding g v a b) :
    RA (nbr1 g (Graph.getAllVertices g) (buildIndexFrom 1 0 (Graph.getAllVertices g) []))
      (indexOf (buildIndexFrom 1 0 (Graph.getAllVertices g) []) v)
      (indexOf (buildIndexFrom 1 0 (Graph.getAllVertices g) []) a)
      (indexOf (buildIndexFrom 1 0 (Graph.getAllVertices g) []) b) := by
  induction h with
  | refl => exact Relation.ReflTransGen.refl
  | tail _ hstep ih =>
    obtain ⟨hx, hz⟩ := hend _ _ hstep.1
    refine Relation.ReflTransGen.tail ih ⟨nbr1_of_arc g hids hx hstep.1, ?_, ?_⟩
    · intro e
      apply hstep.2.1
      rw [← (idx1_of_mem g hids hx).2.2, ← (idx1_of_mem g hids hv).2.2, e]
    · intro e
      apply hstep.2.2
      rw [← (idx1_of_mem g hids hz).2.2, ← (idx1_of_mem g hids hv).2.2, e]

/-- Articulation points of the index graph are the articulation points of `g`. -/
theorem isArt_iff {D : Type} (g : GraphData D) (hids : (vertexIds g).Nodup)
    (hend : ∀ u w, Arc g u w → u ∈ vertexIds g ∧ w ∈ vertexIds g) {y : Nat}
    (hy1 : 1 ≤ y) (hy2 : y ≤ (Graph.getAllVertices g).length) :
    IsArtI (nbr1 g (Graph.getAllVertices g) (buildIndexFrom 1 0 (Graph.getAllVertices g) [])) y ↔
      IsArticulation g (idOf1 (Graph.getAllVertices g) y) := by
  have hdst : ∀ u w, Arc g u w → w ∈ vertexIds g := fun u w h => (hend u w h).2
  obtain ⟨hyV, hyix⟩ := idx1_idOf g hids hy1 hy2
  constructor
  · rintro ⟨a, b, ha, hb, hreach, hnot⟩
    -- both ends lie on an edge, hence in the range
    have hab : a ≠ b := fun e => hnot (e ▸ Relation.ReflTransGen.refl)
    have har : 1 ≤ a ∧ a ≤ (Graph.getAllVertices g).length := by
      rcases Relation.ReflTransGen.cases_head hreach with e | ⟨c, hac, _⟩
      · exact absurd e hab
      · exact (arc_of_nbr1 g hids hdst hac).2.1
    have hbr : 1 ≤ b ∧ b ≤ (Graph.getAllVertices g).length := by
      rcases Relation.ReflTransGen.cases_tail hreach with e | ⟨c, _, hcb⟩
      · exact absurd e.symm hab
      · exact (arc_of_nbr1 g hids hdst hcb).2.2
    obtain ⟨haV, haix⟩ := idx1_idOf g hids har.1 har.2
    obtain ⟨hbV, hbix⟩ := idx1_idOf g hids hbr.1 hbr.2
    refine ⟨hyV, _, _, haV, hbV, ?_, ?_, reach_of_index g hids hdst hreach, ?_⟩
    · intro e; apply ha; rw [← haix, ← hyix, e]
    · intro e; apply hb; rw [← hbix, ← hyix, e]
    · intro h
      have := index_of_avoiding g hids hend hyV h
      rw [hyix, haix, hbix] at this
      exact hnot this
  · rintro ⟨_, a, b, haV, hbV, ha, hb, hreach, hnot⟩
    obtain ⟨a1, a2, a3⟩ := idx1_of_mem g hids haV
    obtain ⟨b1, b2, b3⟩ := idx1_of_mem g hids hbV
    refine ⟨_, _, ?_, ?_, index_of_reach g hids hend hreach, ?_⟩
    · intro e; apply ha; rw [← a3, e]
    · intro e; apply hb; rw [← b3, e]
    · intro h
      have := avoiding_of_index g hids hdst hy1 hy2 h
      rw [a3, b3] at this
      exact hnot this

/-- C1: for a graph as `UndirectedGraph` builds it (the stored vertices have distinct ids
and an adjacency entry each, every listed edge id names a stored edge, both endpoints of
every adjacency edge are stored vertices, every adjacency edge has its mirror), in every
enumeration order, `tarjan(g)` returns a list, and a vertex id is in it if and only if it
is an articulation point: a stored vertex whose removal disconnects two other stored
vertices that are connected in `g`. -/
theorem tarjan_articulation {D : Type} (g : GraphData D)
    (hids : (vertexIds g).Nodup) (hstored : ListedStored g)
    (hadj : ∀ v ∈ vertexIds g, (find v g.adjMap).isSome = true)
    (hend : ∀ u w, Arc g u w → u ∈ vertexIds g ∧ w ∈ vertexIds g)
    (hmirror : ∀ u w, Arc g u w → Arc g w u) :
    ∃ cuts, tarjan g = .ok cuts ∧ ∀ v, v ∈ cuts ↔ IsArticulation g v := by
  obtain ⟨cuts, hrun, hmem⟩ :=
    tarjan_index g (tgraph_of g hids hend hmirror) (tmodel_of g hstored hadj)
  refine ⟨cuts, hrun, fun v => ?_⟩
  rw [hmem v]
  constructor
  · rintro ⟨y, h1, h2, rfl, hart⟩
    exact (isArt_iff g hids hend h1 h2).mp hart
  · intro h
    obtain ⟨a, b, c⟩ := idx1_of_mem g hids h.1
    refine ⟨_, a, b, c.symm, (isArt_iff g hids hend a b).mpr ?_⟩
    rw [c]
    exact h

/-- The test `Tarjan`: the second test graph satisfies the hypotheses, and `tarjan`
returns `[2]` and `[2, 3, 5]` for the two test graphs. -/
theorem tarjan_articulation_witness :
    (∃ cuts, tarjan tarjanTestGraph = .ok cuts ∧
      ∀ v, v ∈ cuts ↔ IsArticulation tarjanTestGraph v) ∧
    tarjan tarjanSmallGraph = .ok [2] ∧ tarjan tarjanTestGraph = .ok [2, 3, 5] :=
  ⟨tarjan_articulation tarjanTestGraph (by decide)
    (listedStored_of_all tarjanTestGraph (by decide)) (by decide)
    (fun u w h => by
      have hall : ∀ p ∈ arcList tarjanTestGraph,
          p.1 ∈ vertexIds tarjanTestGraph ∧ p.2 ∈ vertexIds tarjanTestGraph := by decide
      exact hall (u, w) (arc_mem_arcList tarjanTestGraph h))
    (fun u w h => by
      have hall : ∀ p ∈ arcList tarjanTestGraph, arc tarjanTestGraph p.2 p.1 = true := by
        decide
      exact hall (u, w) (arc_mem_arcList tarjanTestGraph h)), rfl, rfl⟩

/-! ## Storage operations -/

/-- C13, the code at a failing input: the state after `addEdge(Edge(2, 1, 2))` and
`delEdge(2)` is reachable, its edge table still holds the mirror edge 1 (from 2 to 1),
and the paired id 2 of that edge is gone, so the paired-edge invariant does not hold. -/
theorem pairedInvariant_broken_by_delEdge :
    UndirectedGraph.Reachable mirrorLeftBehind ∧
    mirrorLeftBehind.idToEdge = [(1, ⟨1, 2, 1, 1⟩)] ∧
    find (getPairedId 1) mirrorLeftBehind.idToEdge = none ∧
    ¬ PairedInvariant mirrorLeftBehind := by
  refine ⟨UndirectedGraph.Reachable.delEdge 2
    (UndirectedGraph.Reachable.addEdge ⟨2, 1, 2, 1⟩ UndirectedGraph.Reachable.empty rfl rfl),
    rfl, rfl, fun h => ?_⟩
  have h1 := h 1 ⟨1, 2, 1, 1⟩ rfl
  have h2 : find (getPairedId 1) mirrorLeftBehind.idToEdge = none := rfl
  rw [h2] at h1
  cases h1

/-- C17, the code at a failing input: on the empty undirected graph, toggling
`Edge(2, 1, 2)` twice (in one call or in two calls) leaves the mirror edge 1 in the edge
table, which was empty before. -/
theorem addOrRemove_twice_undirected_leaves_mirror :
    (GraphData.empty Unit).idToEdge = [] ∧
    (addOrRemove UndirectedGraph.delEdge UndirectedGraph.addEdge (GraphData.empty Unit)
      [⟨2, 1, 2, 1⟩, ⟨2, 1, 2, 1⟩]).idToEdge = [(1, ⟨1, 2, 1, 1⟩)] ∧
    (addOrRemove UndirectedGraph.delEdge UndirectedGraph.addEdge
      (addOrRemove UndirectedGraph.delEdge UndirectedGraph.addEdge (GraphData.empty Unit)
        [⟨2, 1, 2, 1⟩]) [⟨2, 1, 2, 1⟩]).idToEdge = [(1, ⟨1, 2, 1, 1⟩)] :=
  ⟨rfl, rfl, rfl⟩

/-- C20, the code at two failing inputs: for two isolated vertices (the paired-edge
invariant holds trivially) `complement()` returns no edge at all, and for three vertices
with the edge 1-2 it returns twelve edge-table entries, six of them between 1 and 3 and
six between 2 and 3, where one undirected edge (two entries) per non-adjacent pair is
claimed. -/
theorem complement_not_one_edge_per_pair :
    PairedInvariant twoIsolated ∧
    UndirectedGraph.complement twoIsolated =
      .ok { adjMap := [], idToVertex := [(1, ⟨1, ()⟩), (2, ⟨2, ()⟩)], idToEdge := [] } ∧
    PairedInvariant oneEdgeOfThree ∧
    UndirectedGraph.complement oneEdgeOfThree =
      .ok { adjMap := [(1, [2, 6, 8, 12]), (3, [2, 4, 6, 8, 10, 12]), (2, [4, 10])],
            idToVertex := [(1, ⟨1, ()⟩), (2, ⟨2, ()⟩), (3, ⟨3, ()⟩)],
            idToEdge := [(2, ⟨2, 1, 3, 1⟩), (1, ⟨1, 3, 1, 1⟩), (4, ⟨4, 2, 3, 1⟩),
              (3, ⟨3, 3, 2, 1⟩), (6, ⟨6, 3, 1, 1⟩), (5, ⟨5, 1, 3, 1⟩), (8, ⟨8, 1, 3, 1⟩),
              (7, ⟨7, 3, 1, 1⟩), (10, ⟨10, 2, 3, 1⟩), (9, ⟨9, 3, 2, 1⟩),
              (12, ⟨12, 3, 1, 1⟩), (11, ⟨11, 1, 3, 1⟩)] } := by
  refine ⟨fun id e h => ?_, rfl, fun id e h => ?_, rfl⟩
  · cases h
  · have hmem := find_some_mem h
    have hall : ∀ p ∈ oneEdgeOfThree.idToEdge, find (getPairedId p.1) oneEdgeOfThree.idToEdge =
        some { id := getPairedId p.1, src := p.2.dst, dst := p.2.src, weight := p.2.weight } := by
      decide
    exact hall (id, e) hmem

theorem find_emplace_some {α : Type} {k : Int} {x : α} (k' : Int) (v : α)
    {m : List (Int × α)} (h : find k m = some x) : find k (emplace k' v m) = some x := by
  unfold emplace hasKey
  cases h' : find k' m with
  | some y => simp only [Option.isSome_some, if_true]; exact h
  | none =>
    simp only [Option.isSome_none, Bool.false_eq_true, if_false, find_append_single, h]

theorem find_emplace_none {α : Type} {k : Int} (k' : Int) (v : α)
    {m : List (Int × α)} (h : find k m = none) :
    find k (emplace k' v m) = if k' = k then some v else none := by
  unfold emplace hasKey
  cases h' : find k' m with
  | some y =>
    have : k' ≠ k := fun e => by rw [e, h] at h'; cases h'
    simp only [Option.isSome_some, if_true, h, if_neg this]
  | none =>
    simp only [Option.isSome_none, Bool.false_eq_true, if_false, find_append_single, h]

theorem find_touch_some {k : Int} {x : List Int} (k' : Int)
    {m : List (Int × List Int)} (h : find k m = some x) : find k (touch k' m) = some x :=
  find_emplace_some k' [] h

theorem find_touch_none {k : Int} (k' : Int)
    {m : List (Int × List Int)} (h : find k m = none) :
    find k (touch k' m) = if k' = k then some [] else none :=
  find_emplace_none k' [] h

/-- C18 fails as stated: after `addVertex` of (1, 10) and then of (1, 99), the payload
returned for id 1 is still 10. -/
theorem addVertex_duplicate_counterexample :
    Graph.getDataOfVertex
      (Graph.addVertex (Graph.addVertex (GraphData.empty Int) ⟨1, 10⟩) ⟨1, 99⟩) 1 = some 10 ∧
    (some (10 : Int)) ≠ some 99 := by
  exact ⟨rfl, by decide⟩

/-- C18, amended: after `addVertex(v)` an adjacency entry exists for `v.id` and
`getDataOfVertex(v.id)` succeeds; it returns the payload of `v` when no vertex with that
id was stored before, and the payload stored before otherwise (a duplicate id does not
overwrite).  In the test, ids 1 and 2 give 10 and 20 and id 3 fails. -/
theorem addVertex_getDataOfVertex {D : Type} (g : GraphData D) (v : Vertex D) :
    (find v.id (Graph.addVertex g v).adjMap).isSome = true ∧
    (find v.id g.idToVertex = none →
      Graph.getDataOfVertex (Graph.addVertex g v) v.id = some v.data) ∧
    (∀ w, find v.id g.idToVertex = some w →
      Graph.getDataOfVertex (Graph.addVertex g v) v.id = some w.data) ∧
    Graph.getDataOfVertex twoVertices 1 = some 10 ∧
    Graph.getDataOfVertex twoVertices 2 = some 20 ∧
    Graph.getDataOfVertex twoVertices 3 = none := by
  refine ⟨?_, ?_, ?_, rfl, rfl, rfl⟩
  · show (find v.id (touch v.id g.adjMap)).isSome = true
    cases h : find v.id g.adjMap with
    | some x => rw [find_touch_some _ h]; rfl
    | none => rw [find_touch_none _ h]; simp
  · intro h
    show (find v.id (emplace v.id v g.idToVertex)).map (fun v => v.data) = some v.data
    rw [find_emplace_none _ _ h]
    simp
  · intro w h
    show (find v.id (emplace v.id v g.idToVertex)).map (fun v => v.data) = some w.data
    rw [find_emplace_some _ _ h]
    rfl

theorem find_map_key (f : List Int → List Int) (k k' : Int) (m : List (Int × List Int)) :
    find k' (m.map (fun p => if p.1 = k then (p.1, f p.2) else p)) =
      if k' = k then (find k' m).map f else find k' m := by
  induction m with
  | nil => simp [find]
  | cons p m ih =>
    obtain ⟨a, w⟩ := p
    rw [List.map_cons]
    by_cases h1 : a = k
    · rw [if_pos (show (a, w).1 = k from h1)]
      show (if a = k' then some (f w) else find k' _) = _
      by_cases h2 : a = k'
      · have h3 : k' = k := h2.symm.trans h1
        simp [find, h2, h3]
      · rw [if_neg h2, ih]
        simp [find, h2]
    · rw [if_neg (show ¬ (a, w).1 = k from h1)]
      show (if a = k' then some w else find k' _) = _
      by_cases h2 : a = k'
      · have h3 : ¬ k' = k := fun e => h1 (h2.trans e)
        simp [find, h2, h3]
      · rw [if_neg h2, ih]
        simp [find, h2]

theorem find_touch_self (k : Int) (m : List (Int × List Int)) :
    find k (touch k m) = some ((find k m).getD []) := by
  cases h : find k m with
  | some x => rw [find_touch_some _ h]; rfl
  | none => rw [find_touch_none _ h]; simp

theorem find_touch_ne {k k' : Int} (h : k ≠ k') (m : List (Int × List Int)) :
    find k (touch k' m) = find k m := by
  cases h' : find k m with
  | some x => rw [find_touch_some _ h']
  | none => rw [find_touch_none _ h', if_neg (Ne.symm h)]

theorem find_adjInsert (k x k' : Int) (m : List (Int × List Int)) :
    find k' (adjInsert k x m) =
      if k' = k then some (setInsert x ((find k m).getD [])) else find k' m := by
  unfold adjInsert
  rw [find_map_key]
  by_cases h : k' = k
  · subst h
    rw [if_pos rfl, if_pos rfl, find_touch_self]
    rfl
  · rw [if_neg h, if_neg h, find_touch_ne h]

theorem find_adjErase (k x k' : Int) (m : List (Int × List Int)) :
    find k' (adjErase k x m) =
      if k' = k then some (setErase x ((find k m).getD [])) else find k' m := by
  unfold adjErase
  rw [find_map_key]
  by_cases h : k' = k
  · subst h
    rw [if_pos rfl, if_pos rfl, find_touch_self]
    rfl
  · rw [if_neg h, if_neg h, find_touch_ne h]

theorem mem_setErase {x c : Int} {s : List Int} : x ∈ setErase c s ↔ x ∈ s ∧ x ≠ c := by
  simp [setErase]

theorem length_eraseKey {α : Type} {k : Int} {v : α} {m : List (Int × α)} (hm : IsMap m)
    (h : find k m = some v) : (eraseKey k m).length + 1 = m.length := by
  induction m with
  | nil => simp [find] at h
  | cons p m ih =>
    obtain ⟨a, w⟩ := p
    simp only [IsMap, List.map_cons, List.nodup_cons] at hm
    by_cases hak : a = k
    · subst hak
      have hnot : ∀ q ∈ m, q.1 ≠ a := fun q hq e => hm.1 (List.mem_map.mpr ⟨q, hq, e⟩)
      have : eraseKey a ((a, w) :: m) = m := by
        unfold eraseKey
        rw [List.filter_cons_of_neg (by simp)]
        exact List.filter_eq_self.mpr (fun q hq => by simpa using hnot q hq)
      rw [this]
      rfl
    · have h' : find k m = some v := by simpa [find, hak] using h
      have : eraseKey k ((a, w) :: m) = (a, w) :: eraseKey k m := by
        unfold eraseKey
        rw [List.filter_cons_of_pos (by simpa using hak)]
      rw [this, List.length_cons, List.length_cons, ih hm.2 h']

theorem getPairedId_ne (id : Int) : getPairedId id ≠ id := by
  unfold getPairedId
  split <;> omega

/-- Consistency of the adjacency index and the edge table from two checks that can be
evaluated on a concrete graph. -/
theorem adjConsistent_of_checks {D : Type} (g : GraphData D)
    (h1 : ∀ p ∈ g.adjMap, ∀ x ∈ p.2, (find x g.idToEdge).map (fun e => e.src) = some p.1)
    (h2 : ∀ p ∈ g.idToEdge,
      (find p.2.src g.adjMap).any (fun es => decide (p.1 ∈ es)) = true) :
    AdjConsistent g := by
  intro v eid
  constructor
  · rintro ⟨es, hes, hmem⟩
    have := h1 (v, es) (find_some_mem hes) eid hmem
    cases hf : find eid g.idToEdge with
    | none => rw [hf] at this; cases this
    | some e =>
      rw [hf] at this
      exact ⟨e, rfl, by simpa using this⟩
  · rintro ⟨e, he, rfl⟩
    have := h2 (eid, e) (find_some_mem he)
    cases hf : find e.src g.adjMap with
    | none => rw [hf] at this; cases this
    | some es =>
      rw [hf] at this
      exact ⟨es, hf, by simpa using this⟩

/-- C11: in a directed graph whose edge table has distinct keys and is consistent with
the adjacency index, `delEdge(id)` for a stored id returns `true`; afterwards the id is
not in the edge table and every other id holds the edge it held, the adjacency set of the
edge's source is its former value without `id`, every other adjacency entry and the
vertex table are unchanged, and `numEdges()` is smaller by exactly one. -/
theorem delEdge_present {D : Type} (g : GraphData D) (hmap : IsMap g.idToEdge)
    (hcons : AdjConsistent g) (id : Int) (e : Edge) (h : find id g.idToEdge = some e) :
    ∃ g' es, Graph.delEdge g id = (true, g') ∧
      find id g'.idToEdge = none ∧
      (∀ k, k ≠ id → find k g'.idToEdge = find k g.idToEdge) ∧
      find e.src g.adjMap = some es ∧ id ∈ es ∧
      find e.src g'.adjMap = some (setErase id es) ∧
      (∀ x, x ∈ setErase id es ↔ x ∈ es ∧ x ≠ id) ∧
      (∀ v, v ≠ e.src → find v g'.adjMap = find v g.adjMap) ∧
      g'.idToVertex = g.idToVertex ∧
      Graph.numEdges g' + 1 = Graph.numEdges g := by
  obtain ⟨es, hes, hmem⟩ := (hcons e.src id).mpr ⟨e, h, rfl⟩
  have hkey : hasKey e.src g.adjMap = true := by simp [hasKey, hes]
  refine ⟨{ g with adjMap := adjErase e.src id g.adjMap, idToEdge := eraseKey id g.idToEdge },
    es, ?_, find_eraseKey_self id g.idToEdge, fun k hk => find_eraseKey_ne hk g.idToEdge,
    hes, hmem, ?_, fun x => mem_setErase, ?_, rfl, length_eraseKey hmap h⟩
  · simp only [Graph.delEdge, h, hkey, if_true]
  · show find e.src (adjErase e.src id g.adjMap) = _
    rw [find_adjErase, if_pos rfl, hes]
    rfl
  · intro v hv
    show find v (adjErase e.src id g.adjMap) = _
    rw [find_adjErase, if_neg hv]

/-- The test `AddAndRemoveEdge`: with the edges 1 and 2 stored, `delEdge(1)` returns
`true` and leaves one edge. -/
theorem delEdge_present_witness :
    (∃ g' es, Graph.delEdge twoEdges 1 = (true, g') ∧
      find 1 g'.idToEdge = none ∧
      (∀ k, k ≠ 1 → find k g'.idToEdge = find k twoEdges.idToEdge) ∧
      find (1 : Int) twoEdges.adjMap = some es ∧ (1 : Int) ∈ es ∧
      find (1 : Int) g'.adjMap = some (setErase 1 es) ∧
      (∀ x, x ∈ setErase 1 es ↔ x ∈ es ∧ x ≠ 1) ∧
      (∀ v, v ≠ (1 : Int) → find v g'.adjMap = find v twoEdges.adjMap) ∧
      g'.idToVertex = twoEdges.idToVertex ∧
      Graph.numEdges g' + 1 = Graph.numEdges twoEdges) ∧
    Graph.numEdges twoEdges = 2 ∧ Graph.numEdges (Graph.delEdge twoEdges 1).2 = 1 :=
  ⟨delEdge_present twoEdges (by decide)
    (adjConsistent_of_checks twoEdges (by decide) (by decide)) 1 ⟨1, 1, 2, 1⟩ rfl, rfl, rfl⟩

/-! ## Insertion into the undirected graph -/

/-- C12: for an edge `e` such that neither `e.id` nor `pairedId(e.id)` is in the edge
table, `UndirectedGraph::addEdge(e)` returns `true`; afterwards the edge table holds `e`
under `e.id` and the mirror edge `(pairedId(e.id), e.to, e.from, e.weight)` under
`pairedId(e.id)`, `e.id` is in `adjacency[e.from]`, `pairedId(e.id)` is in
`adjacency[e.to]`, and every other edge id holds what it held before. -/
theorem undirected_addEdge_fresh {D : Type} (g : GraphData D) (e : Edge)
    (h1 : find e.id g.idToEdge = none) (h2 : find (getPairedId e.id) g.idToEdge = none) :
    (UndirectedGraph.addEdge g e).1 = true ∧
    find e.id (UndirectedGraph.addEdge g e).2.idToEdge = some e ∧
    find (getPairedId e.id) (UndirectedGraph.addEdge g e).2.idToEdge =
      some { id := getPairedId e.id, src := e.dst, dst := e.src, weight := e.weight } ∧
    (∃ es, find e.src (UndirectedGraph.addEdge g e).2.adjMap = some es ∧ e.id ∈ es) ∧
    (∃ es, find e.dst (UndirectedGraph.addEdge g e).2.adjMap = some es ∧
      getPairedId e.id ∈ es) ∧
    (∀ k x, find k g.idToEdge = some x →
      find k (UndirectedGraph.addEdge g e).2.idToEdge = some x) ∧
    (∀ k, k ≠ e.id → k ≠ getPairedId e.id →
      find k (UndirectedGraph.addEdge g e).2.idToEdge = find k g.idToEdge) ∧
    (UndirectedGraph.addEdge g e).2.idToVertex = g.idToVertex := by
  have hne : getPairedId e.id ≠ e.id := getPairedId_ne e.id
  have ht1 : find e.id (emplace e.id e g.idToEdge) = some e := by
    rw [find_emplace_none _ _ h1, if_pos rfl]
  refine ⟨rfl, ?_, ?_, ?_, ?_, ?_, ?_, rfl⟩
  · show find e.id (emplace (getPairedId e.id) _ (emplace e.id e g.idToEdge)) = some e
    exact find_emplace_some _ _ ht1
  · show find (getPairedId e.id) (emplace (getPairedId e.id) _ (emplace e.id e g.idToEdge)) = _
    have : find (getPairedId e.id) (emplace e.id e g.idToEdge) = none := by
      rw [find_emplace_none _ _ h2, if_neg (Ne.symm hne)]
    rw [find_emplace_none _ _ this, if_pos rfl]
  · show ∃ es, find e.src (adjInsert e.dst (getPairedId e.id)
      (adjInsert e.src e.id g.adjMap)) = some es ∧ e.id ∈ es
    have hin : find e.src (adjInsert e.src e.id g.adjMap) =
        some (setInsert e.id ((find e.src g.adjMap).getD [])) := by
      rw [find_adjInsert, if_pos rfl]
    by_cases hsd : e.src = e.dst
    · refine ⟨_, by rw [find_adjInsert, if_pos hsd], ?_⟩
      rw [← hsd, hin]
      exact mem_setInsert.mpr (Or.inr (mem_setInsert.mpr (Or.inl rfl)))
    · exact ⟨_, by rw [find_adjInsert, if_neg hsd, hin], mem_setInsert.mpr (Or.inl rfl)⟩
  · show ∃ es, find e.dst (adjInsert e.dst (getPairedId e.id)
      (adjInsert e.src e.id g.adjMap)) = some es ∧ getPairedId e.id ∈ es
    exact ⟨_, by rw [find_adjInsert, if_pos rfl], mem_setInsert.mpr (Or.inl rfl)⟩
  · intro k x hk
    show find k (emplace (getPairedId e.id) _ (emplace e.id e g.idToEdge)) = some x
    exact find_emplace_some _ _ (find_emplace_some _ _ hk)
  · intro k hk1 hk2
    show find k (emplace (getPairedId e.id) _ (emplace e.id e g.idToEdge)) = find k g.idToEdge
    have step : ∀ (k' : Int) (v : Edge) (m : List (Int × Edge)), k ≠ k' →
        find k (emplace k' v m) = find k m := by
      intro k' v m hkk
      cases hf : find k m with
      | some x => exact find_emplace_some _ _ hf
      | none => rw [find_emplace_none _ _ hf, if_neg (Ne.symm hkk)]
    rw [step _ _ _ hk2, step _ _ _ hk1]

/-- The second edge of the test `Tarjan`: on five vertices with the edge 1-2 stored under
0 and -1, `addEdge(Edge(2, 1, 3))` stores edge 2 and its mirror 1 and keeps 0 and -1. -/
theorem undirected_addEdge_fresh_witness :
    ((UndirectedGraph.addEdge (buildUndirected 5 [(0, 1, 2)]) ⟨2, 1, 3, 1⟩).1 = true ∧
    find (2 : Int) (UndirectedGraph.addEdge (buildUndirected 5 [(0, 1, 2)]) ⟨2, 1, 3, 1⟩).2.idToEdge =
      some ⟨2, 1, 3, 1⟩ ∧
    find (getPairedId 2)
        (UndirectedGraph.addEdge (buildUndirected 5 [(0, 1, 2)]) ⟨2, 1, 3, 1⟩).2.idToEdge =
      some { id := getPairedId 2, src := 3, dst := 1, weight := 1 } ∧
    (∃ es, find (1 : Int)
        (UndirectedGraph.addEdge (buildUndirected 5 [(0, 1, 2)]) ⟨2, 1, 3, 1⟩).2.adjMap
      = some es ∧ (2 : Int) ∈ es) ∧
    (∃ es, find (3 : Int)
        (UndirectedGraph.addEdge (buildUndirected 5 [(0, 1, 2)]) ⟨2, 1, 3, 1⟩).2.adjMap
      = some es ∧ getPairedId 2 ∈ es) ∧
    (∀ k x, find k (buildUndirected 5 [(0, 1, 2)]).idToEdge = some x →
      find k (UndirectedGraph.addEdge (buildUndirected 5 [(0, 1, 2)]) ⟨2, 1, 3, 1⟩).2.idToEdge =
        some x) ∧
    (∀ k, k ≠ (2 : Int) → k ≠ getPairedId 2 →
      find k (UndirectedGraph.addEdge (buildUndirected 5 [(0, 1, 2)]) ⟨2, 1, 3, 1⟩).2.idToEdge =
        find k (buildUndirected 5 [(0, 1, 2)]).idToEdge) ∧
    (UndirectedGraph.addEdge (buildUndirected 5 [(0, 1, 2)]) ⟨2, 1, 3, 1⟩).2.idToVertex =
      (buildUndirected 5 [(0, 1, 2)]).idToVertex) ∧
    getPairedId 2 = 1 ∧
    find (0 : Int) (buildUndirected 5 [(0, 1, 2)]).idToEdge = some ⟨0, 1, 2, 1⟩ :=
  ⟨undirected_addEdge_fresh (buildUndirected 5 [(0, 1, 2)]) ⟨2, 1, 3, 1⟩ rfl rfl, by decide, rfl⟩

/-! ## Subgraph by edge ids -/

theorem find_eq_none_iff {α : Type} (k : Int) (m : List (Int × α)) :
    find k m = none ↔ k ∉ m.map Prod.fst := by
  induction m with
  | nil => simp [find]
  | cons p m ih =>
    obtain ⟨a, w⟩ := p
    by_cases h : a = k
    · simp [find, h]
    · have h' : ¬ k = a := fun e => h e.symm
      simp [find, h, h', ih]

theorem isMap_emplace {α : Type} (k : Int) (v : α) {m : List (Int × α)} (hm : IsMap m) :
    IsMap (emplace k v m) := by
  unfold emplace hasKey
  cases h : find k m with
  | some y => simpa using hm
  | none =>
    have hk := (find_eq_none_iff k m).mp h
    simp only [Option.isSome_none, Bool.false_eq_true, if_false]
    unfold IsMap at *
    rw [List.map_append, List.nodup_append]
    refine ⟨hm, by simp, ?_⟩
    intro a ha hb
    simp at hb
    subst hb
    exact hk ha

theorem isMap_nil {α : Type} : IsMap ([] : List (Int × α)) := by
  simp [IsMap]

theorem isMap_map_key (f : List Int → List Int) (k : Int) {m : List (Int × List Int)}
    (hm : IsMap m) : IsMap (m.map (fun p => if p.1 = k then (p.1, f p.2) else p)) := by
  unfold IsMap at *
  have : (m.map (fun p => if p.1 = k then (p.1, f p.2) else p)).map Prod.fst =
      m.map Prod.fst := by
    rw [List.map_map]
    apply List.map_congr_left
    intro p _
    show (if p.1 = k then (p.1, f p.2) else p).1 = p.1
    split <;> rfl
  rw [this]
  exact hm

theorem isMap_touch (k : Int) {m : List (Int × List Int)} (hm : IsMap m) :
    IsMap (touch k m) :=
  isMap_emplace k [] hm

theorem isMap_adjInsert (k x : Int) {m : List (Int × List Int)} (hm : IsMap m) :
    IsMap (adjInsert k x m) :=
  isMap_map_key (setInsert x) k (isMap_touch k hm)

theorem isMap_adjErase (k x : Int) {m : List (Int × List Int)} (hm : IsMap m) :
    IsMap (adjErase k x m) :=
  isMap_map_key (setErase x) k (isMap_touch k hm)

theorem subTable_emplace {α : Type} {t T : List (Int × α)} {k : Int} {v : α}
    (h : SubTable t T) (hk : find k T = some v) : SubTable (emplace k v t) T := by
  intro k' x hx
  cases hf : find k' t with
  | some y =>
    rw [find_emplace_some _ _ hf] at hx
    cases hx
    exact h _ _ hf
  | none =>
    rw [find_emplace_none _ _ hf] at hx
    by_cases hkk : k = k'
    · rw [if_pos hkk] at hx
      cases hx
      rw [← hkk]; exact hk
    · rw [if_neg hkk] at hx
      cases hx

theorem isSome_find_emplace {α : Type} (k k' : Int) (v : α) (t : List (Int × α)) :
    (find k' (emplace k v t)).isSome = true ↔ (find k' t).isSome = true ∨ k' = k := by
  cases hf : find k' t with
  | some y => rw [find_emplace_some _ _ hf]; simp
  | none =>
    rw [find_emplace_none _ _ hf]
    by_cases hkk : k = k'
    · simp [hkk]
    · have : ¬ k' = k := fun e => hkk e.symm
      simp [hkk, this]

theorem subTable_nil {α : Type} (T : List (Int × α)) : SubTable ([] : List (Int × α)) T := by
  intro k x h
  simp [find] at h

theorem listedIn_adjInsert (k x v eid : Int) (m : List (Int × List Int)) :
    ListedIn (adjInsert k x m) v eid ↔ ListedIn m v eid ∨ (v = k ∧ eid = x) := by
  unfold ListedIn
  rw [find_adjInsert]
  by_cases h : v = k
  · subst h
    rw [if_pos rfl]
    constructor
    · rintro ⟨es, hes, hmem⟩
      cases hes
      rcases mem_setInsert.mp hmem with h1 | h1
      · exact Or.inr ⟨rfl, h1⟩
      · cases hf : find v m with
        | none => rw [hf] at h1; simp at h1
        | some es' => rw [hf] at h1; exact Or.inl ⟨es', rfl, h1⟩
    · rintro (⟨es, hes, hmem⟩ | ⟨_, rfl⟩)
      · exact ⟨_, rfl, mem_setInsert.mpr (Or.inr (by rw [hes]; exact hmem))⟩
      · exact ⟨_, rfl, mem_setInsert.mpr (Or.inl rfl)⟩
  · rw [if_neg h]
    constructor
    · intro h1; exact Or.inl h1
    · rintro (h1 | ⟨h1, _⟩)
      · exact h1
      · exact absurd h1 h

theorem noEmptyEntry_adjInsert (k x : Int) {m : List (Int × List Int)}
    (hm : NoEmptyEntry m) : NoEmptyEntry (adjInsert k x m) := by
  intro v es hes
  rw [find_adjInsert] at hes
  by_cases h : v = k
  · rw [if_pos h] at hes
    cases hes
    intro h0
    have : x ∈ setInsert x ((find k m).getD []) := mem_setInsert.mpr (Or.inl rfl)
    rw [h0] at this
    cases this
  · rw [if_neg h] at hes
    exact hm v es hes

theorem lightEdgesInner_spec {D : Type} (g : GraphData D) (ids : List Int) :
    ∀ (edges : List Int) (m : List (Int × List Int)),
      (∀ eid ∈ edges, eid ∈ ids → (find eid g.idToEdge).isSome = true) →
      ∃ m', Graph.lightEdgesInner g ids edges m = .ok m' ∧
        (IsMap m → IsMap m') ∧ (NoEmptyEntry m → NoEmptyEntry m') ∧
        ∀ v eid, ListedIn m' v eid ↔ ListedIn m v eid ∨
          (eid ∈ edges ∧ eid ∈ ids ∧ ∃ e, find eid g.idToEdge = some e ∧ e.src = v)
  | [], m, _ => ⟨m, rfl, id, id, fun v eid => by simp⟩
  | x :: rest, m, h => by
    have hrest : ∀ eid ∈ rest, eid ∈ ids → (find eid g.idToEdge).isSome = true :=
      fun eid he => h eid (List.mem_cons_of_mem _ he)
    by_cases hx : x ∈ ids
    · have hs := h x (List.mem_cons_self _ _) hx
      cases hf : find x g.idToEdge with
      | none => rw [hf] at hs; cases hs
      | some edge =>
        obtain ⟨m', hm', h1, h2, h3⟩ :=
          lightEdgesInner_spec g ids rest (adjInsert edge.src x m) hrest
        refine ⟨m', ?_, fun hm => h1 (isMap_adjInsert _ _ hm),
          fun hm => h2 (noEmptyEntry_adjInsert _ _ hm), ?_⟩
        · rw [Graph.lightEdgesInner, if_neg (not_not.mpr hx)]
          simp only [hf]
          exact hm'
        · intro v eid
          rw [h3, listedIn_adjInsert]
          constructor
          · rintro ((h4 | ⟨rfl, rfl⟩) | ⟨h4, h5, h6⟩)
            · exact Or.inl h4
            · exact Or.inr ⟨List.mem_cons_self _ _, hx, edge, hf, rfl⟩
            · exact Or.inr ⟨List.mem_cons_of_mem _ h4, h5, h6⟩
          · rintro (h4 | ⟨h4, h5, e, he, hv⟩)
            · exact Or.inl (Or.inl h4)
            · rcases List.mem_cons.mp h4 with h7 | h7
              · subst h7
                rw [hf] at he
                cases he
                exact Or.inl (Or.inr ⟨hv.symm, rfl⟩)
              · exact Or.inr ⟨h7, h5, e, he, hv⟩
    · obtain ⟨m', hm', h1, h2, h3⟩ := lightEdgesInner_spec g ids rest m hrest
      refine ⟨m', ?_, h1, h2, ?_⟩
      · rw [Graph.lightEdgesInner, if_pos hx]
        exact hm'
      · intro v eid
        rw [h3]
        constructor
        · rintro (h4 | ⟨h4, h5, h6⟩)
          · exact Or.inl h4
          · exact Or.inr ⟨List.mem_cons_of_mem _ h4, h5, h6⟩
        · rintro (h4 | ⟨h4, h5, h6⟩)
          · exact Or.inl h4
          · rcases List.mem_cons.mp h4 with h7 | h7
            · subst h7; exact absurd h5 hx
            · exact Or.inr ⟨h7, h5, h6⟩

theorem lightEdgesLoop_spec {D : Type} (g : GraphData D) (ids : List Int) :
    ∀ (L : List (Int × List Int)) (m : List (Int × List Int)),
      (∀ p ∈ L, ∀ eid ∈ p.2, eid ∈ ids → (find eid g.idToEdge).isSome = true) →
      ∃ m', Graph.lightEdgesLoop g ids L m = .ok m' ∧
        (IsMap m → IsMap m') ∧ (NoEmptyEntry m → NoEmptyEntry m') ∧
        ∀ v eid, ListedIn m' v eid ↔ ListedIn m v eid ∨
          ((∃ p ∈ L, eid ∈ p.2) ∧ eid ∈ ids ∧ ∃ e, find eid g.idToEdge = some e ∧ e.src = v)
  | [], m, _ => ⟨m, rfl, id, id, fun v eid => by simp⟩
  | (a, edges) :: rest, m, h => by
    obtain ⟨m1, hm1, h1, h2, h3⟩ := lightEdgesInner_spec g ids edges m
      (fun eid he => h (a, edges) (List.mem_cons_self _ _) eid he)
    obtain ⟨m2, hm2, k1, k2, k3⟩ := lightEdgesLoop_spec g ids rest m1
      (fun p hp => h p (List.mem_cons_of_mem _ hp))
    refine ⟨m2, ?_, fun hm => k1 (h1 hm), fun hm => k2 (h2 hm), ?_⟩
    · rw [Graph.lightEdgesLoop]
      simp only [hm1]
      exact hm2
    · intro v eid
      rw [k3, h3]
      constructor
      · rintro ((h4 | ⟨h4, h5, h6⟩) | ⟨⟨p, hp, hpe⟩, h5, h6⟩)
        · exact Or.inl h4
        · exact Or.inr ⟨⟨(a, edges), List.mem_cons_self _ _, h4⟩, h5, h6⟩
        · exact Or.inr ⟨⟨p, List.mem_cons_of_mem _ hp, hpe⟩, h5, h6⟩
      · rintro (h4 | ⟨⟨p, hp, hpe⟩, h5, h6⟩)
        · exact Or.inl (Or.inl h4)
        · rcases List.mem_cons.mp hp with h7 | h7
          · subst h7
            exact Or.inl (Or.inr ⟨hpe, h5, h6⟩)
          · exact Or.inr ⟨⟨p, h7, hpe⟩, h5, h6⟩

theorem copyEdgesAndTargets_spec {D : Type} (g : GraphData D) :
    ∀ (edges : List Int) (vt : List (Int × Vertex D)) (et : List (Int × Edge)),
      (∀ eid ∈ edges, ∃ ed, find eid g.idToEdge = some ed ∧
        (find ed.dst g.idToVertex).isSome = true) →
      ∃ vt' et', Graph.copyEdgesAndTargets g edges (vt, et) = .ok (vt', et') ∧
        (IsMap vt → IsMap vt') ∧ (IsMap et → IsMap et') ∧
        (SubTable vt g.idToVertex → SubTable vt' g.idToVertex) ∧
        (SubTable et g.idToEdge → SubTable et' g.idToEdge) ∧
        (∀ k, (find k et').isSome = true ↔ (find k et).isSome = true ∨ k ∈ edges) ∧
        (∀ v, (find v vt').isSome = true ↔ (find v vt).isSome = true ∨
          ∃ eid ∈ edges, ∃ ed, find eid g.idToEdge = some ed ∧ ed.dst = v)
  | [], vt, et, _ => ⟨vt, et, rfl, id, id, id, id, fun k => by simp, fun v => by simp⟩
  | x :: rest, vt, et, h => by
    obtain ⟨ed, hed, hw⟩ := h x (List.mem_cons_self _ _)
    cases hf : find ed.dst g.idToVertex with
    | none => rw [hf] at hw; cases hw
    | some w =>
      obtain ⟨vt', et', h0, h1, h2, h3, h4, h5, h6⟩ :=
        copyEdgesAndTargets_spec g rest (emplace ed.dst w vt) (emplace x ed et)
          (fun eid he => h eid (List.mem_cons_of_mem _ he))
      refine ⟨vt', et', ?_, fun hm => h1 (isMap_emplace _ _ hm),
        fun hm => h2 (isMap_emplace _ _ hm), fun hs => h3 (subTable_emplace hs hf),
        fun hs => h4 (subTable_emplace hs hed), ?_, ?_⟩
      · rw [Graph.copyEdgesAndTargets]
        simp only [hed, hf]
        exact h0
      · intro k
        rw [h5, isSome_find_emplace, List.mem_cons]
        tauto
      · intro v
        rw [h6, isSome_find_emplace]
        constructor
        · rintro ((h7 | h7) | ⟨eid, he, h8⟩)
          · exact Or.inl h7
          · exact Or.inr ⟨x, List.mem_cons_self _ _, ed, hed, h7.symm⟩
          · exact Or.inr ⟨eid, List.mem_cons_of_mem _ he, h8⟩
        · rintro (h7 | ⟨eid, he, ed', hed', hv⟩)
          · exact Or.inl (Or.inl h7)
          · rcases List.mem_cons.mp he with h8 | h8
            · subst h8
              rw [hed] at hed'
              cases hed'
              exact Or.inl (Or.inr hv.symm)
            · exact Or.inr ⟨eid, h8, ed', hed', hv⟩

theorem copyEntries_spec {D : Type} (g : GraphData D) :
    ∀ (L : List (Int × List Int)) (vt : List (Int × Vertex D)) (et : List (Int × Edge)),
      (∀ p ∈ L, (find p.1 g.idToVertex).isSome = true ∧
        ∀ eid ∈ p.2, ∃ ed, find eid g.idToEdge = some ed ∧
          (find ed.dst g.idToVertex).isSome = true) →
      ∃ vt' et', Graph.copyEntries g L (vt, et) = .ok (vt', et') ∧
        (IsMap vt → IsMap vt') ∧ (IsMap et → IsMap et') ∧
        (SubTable vt g.idToVertex → SubTable vt' g.idToVertex) ∧
        (SubTable et g.idToEdge → SubTable et' g.idToEdge) ∧
        (∀ k, (find k et').isSome = true ↔ (find k et).isSome = true ∨ ∃ p ∈ L, k ∈ p.2) ∧
        (∀ v, (find v vt').isSome = true ↔ (find v vt).isSome = true ∨ (∃ p ∈ L, p.1 = v) ∨
          ∃ p ∈ L, ∃ eid ∈ p.2, ∃ ed, find eid g.idToEdge = some ed ∧ ed.dst = v)
  | [], vt, et, _ => ⟨vt, et, rfl, id, id, id, id, fun k => by simp, fun v => by simp⟩
  | (a, edges) :: rest, vt, et, h => by
    obtain ⟨ha, hedges⟩ := h (a, edges) (List.mem_cons_self _ _)
    cases hf : find a g.idToVertex with
    | none => rw [show find (a, edges).1 g.idToVertex = find a g.idToVertex from rfl, hf] at ha
              cases ha
    | some va =>
      obtain ⟨vt1, et1, h0, h1, h2, h3, h4, h5, h6⟩ :=
        copyEdgesAndTargets_spec g edges (emplace a va vt) et hedges
      obtain ⟨vt2, et2, k0, k1, k2, k3, k4, k5, k6⟩ :=
        copyEntries_spec g rest vt1 et1 (fun p hp => h p (List.mem_cons_of_mem _ hp))
      refine ⟨vt2, et2, ?_, fun hm => k1 (h1 (isMap_emplace _ _ hm)), fun hm => k2 (h2 hm),
        fun hs => k3 (h3 (subTable_emplace hs hf)), fun hs => k4 (h4 hs), ?_, ?_⟩
      · rw [Graph.copyEntries]
        simp only [hf, h0]
        exact k0
      · intro k
        rw [k5, h5]
        constructor
        · rintro ((h7 | h7) | ⟨p, hp, hk⟩)
          · exact Or.inl h7
          · exact Or.inr ⟨(a, edges), List.mem_cons_self _ _, h7⟩
          · exact Or.inr ⟨p, List.mem_cons_of_mem _ hp, hk⟩
        · rintro (h7 | ⟨p, hp, hk⟩)
          · exact Or.inl (Or.inl h7)
          · rcases List.mem_cons.mp hp with h8 | h8
            · subst h8; exact Or.inl (Or.inr hk)
            · exact Or.inr ⟨p, h8, hk⟩
      · intro v
        rw [k6, h6, isSome_find_emplace]
        constructor
        · rintro (((h7 | h7) | ⟨eid, he, h8⟩) | ⟨p, hp, hk⟩ | ⟨p, hp, hk⟩)
          · exact Or.inl h7
          · exact Or.inr (Or.inl ⟨(a, edges), List.mem_cons_self _ _, h7.symm⟩)
          · exact Or.inr (Or.inr ⟨(a, edges), List.mem_cons_self _ _, eid, he, h8⟩)
          · exact Or.inr (Or.inl ⟨p, List.mem_cons_of_mem _ hp, hk⟩)
          · exact Or.inr (Or.inr ⟨p, List.mem_cons_of_mem _ hp, hk⟩)
        · rintro (h7 | ⟨p, hp, hk⟩ | ⟨p, hp, hk⟩)
          · exact Or.inl (Or.inl (Or.inl h7))
          · rcases List.mem_cons.mp hp with h8 | h8
            · subst h8; exact Or.inl (Or.inl (Or.inr hk.symm))
            · exact Or.inr (Or.inl ⟨p, h8, hk⟩)
          · rcases List.mem_cons.mp hp with h8 | h8
            · subst h8; exact Or.inl (Or.inr hk)
            · exact Or.inr (Or.inr ⟨p, h8, hk⟩)

theorem listedIn_iff_mem {m : List (Int × List Int)} (hm : IsMap m) (eid : Int) :
    (∃ p ∈ m, eid ∈ p.2) ↔ ∃ v, ListedIn m v eid := by
  constructor
  · rintro ⟨⟨v, es⟩, hp, he⟩
    exact ⟨v, es, find_of_mem hm hp, he⟩
  · rintro ⟨v, es, hes, he⟩
    exact ⟨(v, es), find_some_mem hes, he⟩

theorem isSome_find_adjInsert (k x v : Int) (m : List (Int × List Int)) :
    (find v (adjInsert k x m)).isSome = true ↔ (find v m).isSome = true ∨ v = k := by
  rw [find_adjInsert]
  by_cases h : v = k
  · simp [h]
  · simp [h]

theorem isSome_find_touch (k v : Int) (m : List (Int × List Int)) :
    (find v (touch k m)).isSome = true ↔ (find v m).isSome = true ∨ v = k :=
  isSome_find_emplace k v [] m

theorem listedIn_touch (k v eid : Int) (m : List (Int × List Int)) :
    ListedIn (touch k m) v eid ↔ ListedIn m v eid := by
  unfold ListedIn
  cases hf : find v m with
  | some es => rw [find_touch_some _ hf]
  | none =>
    rw [find_touch_none _ hf]
    by_cases h : k = v
    · simp [h]
    · simp [h]

theorem lightVerticesEdges_spec {D : Type} (g : GraphData D) (ids : List Int) (id : Int) :
    ∀ (edges : List Int) (m : List (Int × List Int)),
      (∀ eid ∈ edges, (find eid g.idToEdge).isSome = true) →
      ∃ m', Graph.lightVerticesEdges g ids id edges m = .ok m' ∧
        (IsMap m → IsMap m') ∧
        (∀ v, (find v m').isSome = true → (find v m).isSome = true ∨ v = id) ∧
        (∀ v, (find v m).isSome = true → (find v m').isSome = true) ∧
        ∀ v eid, ListedIn m' v eid ↔ ListedIn m v eid ∨
          (v = id ∧ eid ∈ edges ∧ ∃ e, find eid g.idToEdge = some e ∧ e.dst ∈ ids)
  | [], m, _ => ⟨m, rfl, fun hm => hm, fun _ h => Or.inl h, fun _ h => h, fun v eid => by simp⟩
  | x :: rest, m, h => by
    have hs := h x (List.mem_cons_self _ _)
    have hrest : ∀ eid ∈ rest, (find eid g.idToEdge).isSome = true :=
      fun eid he => h eid (List.mem_cons_of_mem _ he)
    cases hf : find x g.idToEdge with
    | none => rw [hf] at hs; cases hs
    | some edge =>
      by_cases hd : edge.dst ∈ ids
      · obtain ⟨m', hm', h1, h2, h3, h4⟩ :=
          lightVerticesEdges_spec g ids id rest (adjInsert id x m) hrest
        refine ⟨m', ?_, fun hm => h1 (isMap_adjInsert _ _ hm), ?_, ?_, ?_⟩
        · rw [Graph.lightVerticesEdges]
          simp only [hf, if_pos hd]
          exact hm'
        · intro v hv
          rcases h2 v hv with h5 | h5
          · exact (isSome_find_adjInsert _ _ _ _).mp h5
          · exact Or.inr h5
        · intro v hv
          exact h3 v ((isSome_find_adjInsert _ _ _ _).mpr (Or.inl hv))
        · intro v eid
          rw [h4, listedIn_adjInsert]
          constructor
          · rintro ((h5 | ⟨rfl, rfl⟩) | ⟨h5, h6, h7⟩)
            · exact Or.inl h5
            · exact Or.inr ⟨rfl, List.mem_cons_self _ _, edge, hf, hd⟩
            · exact Or.inr ⟨h5, List.mem_cons_of_mem _ h6, h7⟩
          · rintro (h5 | ⟨h5, h6, h7⟩)
            · exact Or.inl (Or.inl h5)
            · rcases List.mem_cons.mp h6 with h8 | h8
              · exact Or.inl (Or.inr ⟨h5, h8⟩)
              · exact Or.inr ⟨h5, h8, h7⟩
      · obtain ⟨m', hm', h1, h2, h3, h4⟩ := lightVerticesEdges_spec g ids id rest m hrest
        refine ⟨m', ?_, h1, h2, h3, ?_⟩
        · rw [Graph.lightVerticesEdges]
          simp only [hf, if_neg hd]
          exact hm'
        · intro v eid
          rw [h4]
          constructor
          · rintro (h5 | ⟨h5, h6, h7⟩)
            · exact Or.inl h5
            · exact Or.inr ⟨h5, List.mem_cons_of_mem _ h6, h7⟩
          · rintro (h5 | ⟨h5, h6, e, he, hde⟩)
            · exact Or.inl h5
            · rcases List.mem_cons.mp h6 with h8 | h8
              · subst h8
                rw [hf] at he
                cases he
                exact absurd hde hd
              · exact Or.inr ⟨h5, h8, e, he, hde⟩

theorem lightVerticesLoop_spec {D : Type} (g : GraphData D) (ids : List Int) :
    ∀ (L : List (Int × List Int)) (m : List (Int × List Int)),
      (∀ p ∈ L, ∀ eid ∈ p.2, (find eid g.idToEdge).isSome = true) →
      ∃ m', Graph.lightVerticesLoop g ids L m = .ok m' ∧
        (IsMap m → IsMap m') ∧
        (∀ v, (find v m').isSome = true ↔
          (find v m).isSome = true ∨ (v ∈ ids ∧ ∃ es, (v, es) ∈ L)) ∧
        ∀ v eid, ListedIn m' v eid ↔ ListedIn m v eid ∨
          (v ∈ ids ∧ ∃ es, (v, es) ∈ L ∧ eid ∈ es ∧
            ∃ e, find eid g.idToEdge = some e ∧ e.dst ∈ ids)
  | [], m, _ => ⟨m, rfl, id, fun v => by simp, fun v eid => by simp⟩
  | (a, edges) :: rest, m, h => by
    have hrest : ∀ p ∈ rest, ∀ eid ∈ p.2, (find eid g.idToEdge).isSome = true :=
      fun p hp => h p (List.mem_cons_of_mem _ hp)
    by_cases ha : a ∈ ids
    · obtain ⟨m1, hm1, h1, h2, h3, h4⟩ := lightVerticesEdges_spec g ids a edges (touch a m)
        (fun eid he => h (a, edges) (List.mem_cons_self _ _) eid he)
      obtain ⟨m2, hm2, k1, k2, k3⟩ := lightVerticesLoop_spec g ids rest m1 hrest
      refine ⟨m2, ?_, fun hm => k1 (h1 (isMap_touch _ hm)), ?_, ?_⟩
      · rw [Graph.lightVerticesLoop, if_neg (not_not.mpr ha)]
        simp only [hm1]
        exact hm2
      · intro v
        rw [k2]
        constructor
        · rintro (h5 | ⟨h5, es, h6⟩)
          · rcases h2 v h5 with h7 | h7
            · rcases (isSome_find_touch _ _ _).mp h7 with h8 | h8
              · exact Or.inl h8
              · exact Or.inr ⟨h8 ▸ ha, edges, h8 ▸ List.mem_cons_self _ _⟩
            · exact Or.inr ⟨h7 ▸ ha, edges, h7 ▸ List.mem_cons_self _ _⟩
          · exact Or.inr ⟨h5, es, List.mem_cons_of_mem _ h6⟩
        · rintro (h5 | ⟨h5, es, h6⟩)
          · exact Or.inl (h3 v ((isSome_find_touch _ _ _).mpr (Or.inl h5)))
          · rcases List.mem_cons.mp h6 with h7 | h7
            · simp only [Prod.mk.injEq] at h7
              exact Or.inl (h3 v ((isSome_find_touch _ _ _).mpr (Or.inr h7.1)))
            · exact Or.inr ⟨h5, es, h7⟩
      · intro v eid
        rw [k3, h4, listedIn_touch]
        constructor
        · rintro ((h5 | ⟨h5, h6, h7⟩) | ⟨h5, es, h6, h7⟩)
          · exact Or.inl h5
          · exact Or.inr ⟨h5 ▸ ha, edges, h5 ▸ List.mem_cons_self _ _, h6, h7⟩
          · exact Or.inr ⟨h5, es, List.mem_cons_of_mem _ h6, h7⟩
        · rintro (h5 | ⟨h5, es, h6, h7, h8⟩)
          · exact Or.inl (Or.inl h5)
          · rcases List.mem_cons.mp h6 with h9 | h9
            · simp only [Prod.mk.injEq] at h9
              exact Or.inl (Or.inr ⟨h9.1, h9.2 ▸ h7, h8⟩)
            · exact Or.inr ⟨h5, es, h9, h7, h8⟩
    · obtain ⟨m2, hm2, k1, k2, k3⟩ := lightVerticesLoop_spec g ids rest m hrest
      refine ⟨m2, ?_, k1, ?_, ?_⟩
      · rw [Graph.lightVerticesLoop, if_pos ha]
        exact hm2
      · intro v
        rw [k2]
        constructor
        · rintro (h5 | ⟨h5, es, h6⟩)
          · exact Or.inl h5
          · exact Or.inr ⟨h5, es, List.mem_cons_of_mem _ h6⟩
        · rintro (h5 | ⟨h5, es, h6⟩)
          · exact Or.inl h5
          · rcases List.mem_cons.mp h6 with h7 | h7
            · simp only [Prod.mk.injEq] at h7
              exact absurd (h7.1 ▸ h5) ha
            · exact Or.inr ⟨h5, es, h7⟩
      · intro v eid
        rw [k3]
        constructor
        · rintro (h5 | ⟨h5, es, h6, h7⟩)
          · exact Or.inl h5
          · exact Or.inr ⟨h5, es, List.mem_cons_of_mem _ h6, h7⟩
        · rintro (h5 | ⟨h5, es, h6, h7⟩)
          · exact Or.inl h5
          · rcases List.mem_cons.mp h6 with h9 | h9
            · simp only [Prod.mk.injEq] at h9
              exact absurd (h9.1 ▸ h5) ha
            · exact Or.inr ⟨h5, es, h9, h7⟩

theorem copyVertices_spec {D : Type} (g : GraphData D) :
    ∀ (L : List (Int × List Int)) (vt : List (Int × Vertex D)),
      (∀ p ∈ L, (find p.1 g.idToVertex).isSome = true) →
      ∃ vt', Graph.copyVertices g L vt = .ok vt' ∧ (IsMap vt → IsMap vt') ∧
        (SubTable vt g.idToVertex → SubTable vt' g.idToVertex) ∧
        ∀ v, (find v vt').isSome = true ↔ (find v vt).isSome = true ∨ ∃ p ∈ L, p.1 = v
  | [], vt, _ => ⟨vt, rfl, id, id, fun v => by simp⟩
  | (a, es) :: rest, vt, h => by
    have ha := h (a, es) (List.mem_cons_self _ _)
    cases hf : find a g.idToVertex with
    | none => rw [show find (a, es).1 g.idToVertex = find a g.idToVertex from rfl, hf] at ha
              cases ha
    | some w =>
      obtain ⟨vt', h0, h1, h2, h3⟩ := copyVertices_spec g rest (emplace a w vt)
        (fun p hp => h p (List.mem_cons_of_mem _ hp))
      refine ⟨vt', ?_, fun hm => h1 (isMap_emplace _ _ hm),
        fun hs => h2 (subTable_emplace hs hf), ?_⟩
      · rw [Graph.copyVertices]
        simp only [hf]
        exact h0
      · intro v
        rw [h3, isSome_find_emplace]
        constructor
        · rintro ((h4 | h4) | ⟨p, hp, hv⟩)
          · exact Or.inl h4
          · exact Or.inr ⟨(a, es), List.mem_cons_self _ _, h4.symm⟩
          · exact Or.inr ⟨p, List.mem_cons_of_mem _ hp, hv⟩
        · rintro (h4 | ⟨p, hp, hv⟩)
          · exact Or.inl (Or.inl h4)
          · rcases List.mem_cons.mp hp with h5 | h5
            · subst h5; exact Or.inl (Or.inr hv.symm)
            · exact Or.inr ⟨p, h5, hv⟩

theorem copyEdgeIds_spec {D : Type} (g : GraphData D) :
    ∀ (edges : List Int) (et : List (Int × Edge)),
      (∀ eid ∈ edges, (find eid g.idToEdge).isSome = true) →
      ∃ et', Graph.copyEdgeIds g edges et = .ok et' ∧ (IsMap et → IsMap et') ∧
        (SubTable et g.idToEdge → SubTable et' g.idToEdge) ∧
        ∀ k, (find k et').isSome = true ↔ (find k et).isSome = true ∨ k ∈ edges
  | [], et, _ => ⟨et, rfl, id, id, fun k => by simp⟩
  | x :: rest, et, h => by
    have hx := h x (List.mem_cons_self _ _)
    cases hf : find x g.idToEdge with
    | none => rw [hf] at hx; cases hx
    | some e =>
      obtain ⟨et', h0, h1, h2, h3⟩ := copyEdgeIds_spec g rest (emplace x e et)
        (fun eid he => h eid (List.mem_cons_of_mem _ he))
      refine ⟨et', ?_, fun hm => h1 (isMap_emplace _ _ hm),
        fun hs => h2 (subTable_emplace hs hf), ?_⟩
      · rw [Graph.copyEdgeIds]
        simp only [hf]
        exact h0
      · intro k
        rw [h3, isSome_find_emplace, List.mem_cons]
        tauto

theorem copyEdges_spec {D : Type} (g : GraphData D) :
    ∀ (L : List (Int × List Int)) (et : List (Int × Edge)),
      (∀ p ∈ L, ∀ eid ∈ p.2, (find eid g.idToEdge).isSome = true) →
      ∃ et', Graph.copyEdges g L et = .ok et' ∧ (IsMap et → IsMap et') ∧
        (SubTable et g.idToEdge → SubTable et' g.idToEdge) ∧
        ∀ k, (find k et').isSome = true ↔ (find k et).isSome = true ∨ ∃ p ∈ L, k ∈ p.2
  | [], et, _ => ⟨et, rfl, id, id, fun k => by simp⟩
  | (a, es) :: rest, et, h => by
    obtain ⟨et1, h0, h1, h2, h3⟩ := copyEdgeIds_spec g es et
      (fun eid he => h (a, es) (List.mem_cons_self _ _) eid he)
    obtain ⟨et2, k0, k1, k2, k3⟩ := copyEdges_spec g rest et1
      (fun p hp => h p (List.mem_cons_of_mem _ hp))
    refine ⟨et2, ?_, fun hm => k1 (h1 hm), fun hs => k2 (h2 hs), ?_⟩
    · rw [Graph.copyEdges]
      simp only [h0]
      exact k0
    · intro k
      rw [k3, h3]
      constructor
      · rintro ((h4 | h4) | ⟨p, hp, hk⟩)
        · exact Or.inl h4
        · exact Or.inr ⟨(a, es), List.mem_cons_self _ _, h4⟩
        · exact Or.inr ⟨p, List.mem_cons_of_mem _ hp, hk⟩
      · rintro (h4 | ⟨p, hp, hk⟩)
        · exact Or.inl (Or.inl h4)
        · rcases List.mem_cons.mp hp with h5 | h5
          · subst h5; exact Or.inl (Or.inr hk)
          · exact Or.inr ⟨p, h5, hk⟩

theorem find_eq_of_subTable {α : Type} {t T : List (Int × α)} (k : Int)
    (hs : SubTable t T) (hk : (find k t).isSome = true) : find k t = find k T := by
  cases hf : find k t with
  | none => rw [hf] at hk; cases hk
  | some x => exact (hs k x hf).symm

theorem lightSubgraphOfVertices_spec {D : Type} (g : GraphData D) (ids : List Int)
    (hmap : IsMap g.adjMap) (hcons : AdjConsistent g) :
    ∃ adj, Graph.lightSubgraphOfVertices g ids = .ok adj ∧ IsMap adj ∧
      (∀ v, (find v adj).isSome = true ↔ v ∈ ids ∧ (find v g.adjMap).isSome = true) ∧
      ∀ v eid, ListedIn adj v eid ↔
        v ∈ ids ∧ ∃ e, find eid g.idToEdge = some e ∧ e.src = v ∧ e.dst ∈ ids := by
  obtain ⟨adj, h0, h1, h2, h3⟩ := lightVerticesLoop_spec g ids g.adjMap []
    (fun p hp eid he => by
      obtain ⟨e, h4, _⟩ := (hcons p.1 eid).mp ⟨p.2, find_of_mem hmap hp, he⟩
      simp [h4])
  refine ⟨adj, h0, h1 isMap_nil, ?_, ?_⟩
  · intro v
    rw [h2]
    constructor
    · rintro (h4 | ⟨h4, es, h5⟩)
      · simp [find] at h4
      · exact ⟨h4, by simp [find_of_mem hmap h5]⟩
    · rintro ⟨h4, h5⟩
      cases hf : find v g.adjMap with
      | none => rw [hf] at h5; cases h5
      | some es => exact Or.inr ⟨h4, es, find_some_mem hf⟩
  · intro v eid
    rw [h3]
    constructor
    · rintro (⟨es, h4, _⟩ | ⟨h4, es, h5, h6, e, h7, h8⟩)
      · simp [find] at h4
      · obtain ⟨e', h9, h10⟩ := (hcons v eid).mp ⟨es, find_of_mem hmap h5, h6⟩
        rw [h7] at h9
        cases h9
        exact ⟨h4, e, h7, h10, h8⟩
    · rintro ⟨h4, e, h5, h6, h7⟩
      obtain ⟨es, h8, h9⟩ := (hcons v eid).mpr ⟨e, h5, h6⟩
      exact Or.inr ⟨h4, es, find_some_mem h8, h9, e, h5, h7⟩

/-- C15 fails as stated.  The graph that `subgraphOfEdges({3})` returns for the graph of
the test `Subgraph` stores the vertices 3 and 4 and the edge 3 -> 4, with an adjacency
entry for 3 only; its tables are consistent and its adjacency key is a stored vertex.
For the stored vertex ids 3 and 4, `subgraphOfVertices({3, 4})` returns a graph without
the vertex 4: neither its vertex table nor its adjacency index has the key 4. -/
theorem subgraphOfVertices_drops_vertex :
    Graph.subgraphOfEdges subgraphTestGraph [3] = .ok storedWithoutAdjacency ∧
    IsMap storedWithoutAdjacency.adjMap ∧ AdjConsistent storedWithoutAdjacency ∧
    (∀ p ∈ storedWithoutAdjacency.adjMap,
      (find p.1 storedWithoutAdjacency.idToVertex).isSome = true) ∧
    find 3 storedWithoutAdjacency.idToVertex = some ⟨3, 30⟩ ∧
    find 4 storedWithoutAdjacency.idToVertex = some ⟨4, 40⟩ ∧
    (∃ g', Graph.subgraphOfVertices storedWithoutAdjacency [3, 4] = .ok g' ∧
      find 4 g'.idToVertex = none ∧ find 4 g'.adjMap = none ∧
      g'.idToVertex.map Prod.fst = [3] ∧ Graph.numVertices g' = 1) :=
  ⟨rfl, by decide, adjConsistent_of_checks storedWithoutAdjacency (by decide) (by decide),
    by decide, rfl, rfl, _, rfl, rfl, rfl, rfl, rfl⟩

/-- C15, amended: in a directed graph whose adjacency index has distinct keys, is
consistent with the edge table and has only stored vertices as keys, for every list
`ids` of vertex ids that have an adjacency entry, `subgraphOfVertices(ids)` returns a
graph whose vertex table holds exactly the vertices whose id is in `ids`, each with its
original vertex, whose adjacency keys are exactly those ids, and whose edge table holds
exactly the original edges whose source and destination are both in `ids`, each
unchanged; the adjacency index lists exactly those edges, each under its source. -/
theorem subgraphOfVertices_induced {D : Type} (g : GraphData D) (ids : List Int)
    (hmap : IsMap g.adjMap) (hcons : AdjConsistent g)
    (hkeys : ∀ v, (find v g.adjMap).isSome = true → (find v g.idToVertex).isSome = true)
    (hids : ∀ v ∈ ids, (find v g.adjMap).isSome = true) :
    ∃ g', Graph.subgraphOfVertices g ids = .ok g' ∧
      (∀ v, find v g'.idToVertex = if v ∈ ids then find v g.idToVertex else none) ∧
      (∀ v ∈ ids, (find v g'.idToVertex).isSome = true) ∧
      (∀ v, (find v g'.adjMap).isSome = true ↔ v ∈ ids) ∧
      (∀ k, find k g'.idToEdge = (find k g.idToEdge).filter
        (fun e => decide (e.src ∈ ids) && decide (e.dst ∈ ids))) ∧
      (∀ v eid, Listed g' v eid ↔
        ∃ e, find eid g.idToEdge = some e ∧ e.src = v ∧ e.src ∈ ids ∧ e.dst ∈ ids) ∧
      IsMap g'.adjMap ∧ IsMap g'.idToVertex ∧ IsMap g'.idToEdge := by
  obtain ⟨adj, hadj, hm, hk, hl⟩ := lightSubgraphOfVertices_spec g ids hmap hcons
  have hkey : ∀ v, (find v adj).isSome = true ↔ v ∈ ids :=
    fun v => (hk v).trans ⟨fun h => h.1, fun h => ⟨h, hids v h⟩⟩
  have hpk : ∀ p ∈ adj, p.1 ∈ ids := by
    rintro ⟨v, es⟩ hp
    exact (hkey v).mp (by simp [find_of_mem hm hp])
  have hpl : ∀ p ∈ adj, ∀ eid ∈ p.2, p.1 ∈ ids ∧
      ∃ e, find eid g.idToEdge = some e ∧ e.src = p.1 ∧ e.dst ∈ ids := by
    rintro ⟨v, es⟩ hp eid he
    exact (hl v eid).mp ⟨es, find_of_mem hm hp, he⟩
  obtain ⟨vt, hvt, v1, v2, v3⟩ := copyVertices_spec g adj []
    (fun p hp => hkeys p.1 (hids p.1 (hpk p hp)))
  obtain ⟨et, het, e1, e2, e3⟩ := copyEdges_spec g adj []
    (fun p hp eid he => by obtain ⟨_, e, h1, _⟩ := hpl p hp eid he; simp [h1])
  have hsv := v2 (subTable_nil _)
  have hse := e2 (subTable_nil _)
  have hvin : ∀ v ∈ ids, (find v vt).isSome = true := by
    intro v hv
    cases hf : find v adj with
    | none => have := (hkey v).mpr hv; rw [hf] at this; cases this
    | some es => exact (v3 v).mpr (Or.inr ⟨(v, es), find_some_mem hf, rfl⟩)
  refine ⟨{ adjMap := adj, idToVertex := vt, idToEdge := et }, ?_, ?_, hvin, hkey, ?_, ?_,
    hm, v1 isMap_nil, e1 isMap_nil⟩
  · unfold Graph.subgraphOfVertices
    simp only [hadj, hvt, het]
  · intro v
    show find v vt = _
    by_cases hv : v ∈ ids
    · rw [if_pos hv]
      exact find_eq_of_subTable v hsv (hvin v hv)
    · rw [if_neg hv]
      cases hf : find v vt with
      | none => rfl
      | some x =>
        rcases (v3 v).mp (by simp [hf]) with h1 | ⟨p, hp, h2⟩
        · simp [find] at h1
        · exact absurd (h2 ▸ hpk p hp) hv
  · intro k
    show find k et = _
    cases hf : find k g.idToEdge with
    | none =>
      cases hf' : find k et with
      | none => rfl
      | some x => rw [hse k x hf'] at hf; cases hf
    | some e =>
      by_cases hin : e.src ∈ ids ∧ e.dst ∈ ids
      · obtain ⟨es, h1, h2⟩ := (hl e.src k).mpr ⟨hin.1, e, hf, rfl, hin.2⟩
        have := find_eq_of_subTable k hse
          ((e3 k).mpr (Or.inr ⟨(e.src, es), find_some_mem h1, h2⟩))
        rw [this, hf]
        simp [Option.filter, hin.1, hin.2]
      · have hnone : find k et = none := by
          cases hf' : find k et with
          | none => rfl
          | some x =>
            rcases (e3 k).mp (by simp [hf']) with h1 | ⟨p, hp, h2⟩
            · simp [find] at h1
            · obtain ⟨h3, e', h4, h5, h6⟩ := hpl p hp k h2
              rw [hf] at h4
              cases h4
              exact absurd ⟨h5 ▸ h3, h6⟩ hin
        rw [hnone]
        rcases not_and_or.mp hin with h | h
        · simp [Option.filter, h]
        · simp [Option.filter, h]
  · intro v eid
    show ListedIn adj v eid ↔ _
    rw [hl]
    constructor
    · rintro ⟨h1, e, h2, h3, h4⟩
      exact ⟨e, h2, h3, h3 ▸ h1, h4⟩
    · rintro ⟨e, h2, h3, h4, h5⟩
      exact ⟨h3 ▸ h4, e, h2, h3, h5⟩

/-- The test `Subgraph`: `subgraphOfVertices({1, 2, 3})` has three vertices, the two
edges 1 -> 2 and 2 -> 3, and the payloads 10, 20, 30. -/
theorem subgraphOfVertices_induced_witness :
    (∃ g', Graph.subgraphOfVertices subgraphTestGraph [1, 2, 3] = .ok g' ∧
      (∀ v, find v g'.idToVertex =
        if v ∈ [1, 2, 3] then find v subgraphTestGraph.idToVertex else none) ∧
      (∀ v ∈ [1, 2, 3], (find v g'.idToVertex).isSome = true) ∧
      (∀ v, (find v g'.adjMap).isSome = true ↔ v ∈ [1, 2, 3]) ∧
      (∀ k, find k g'.idToEdge = (find k subgraphTestGraph.idToEdge).filter
        (fun e => decide (e.src ∈ [1, 2, 3]) && decide (e.dst ∈ [1, 2, 3]))) ∧
      (∀ v eid, Listed g' v eid ↔
        ∃ e, find eid subgraphTestGraph.idToEdge = some e ∧ e.src = v ∧
          e.src ∈ [1, 2, 3] ∧ e.dst ∈ [1, 2, 3]) ∧
      IsMap g'.adjMap ∧ IsMap g'.idToVertex ∧ IsMap g'.idToEdge) ∧
    (Graph.subgraphOfVertices subgraphTestGraph [1, 2, 3]).map
      (fun g' => (Graph.numVertices g', Graph.numEdges g', Graph.getDataOfVertex g' 1,
        Graph.getDataOfVertex g' 2, Graph.getDataOfVertex g' 3,
        g'.idToEdge.map Prod.fst)) =
      .ok (3, 2, some 10, some 20, some 30, [1, 2]) :=
  ⟨subgraphOfVertices_induced subgraphTestGraph [1, 2, 3] (by decide)
    (adjConsistent_of_checks subgraphTestGraph (by decide) (by decide))
    (fun v hv => by
      cases hf : find v subgraphTestGraph.adjMap with
      | none => rw [hf] at hv; cases hv
      | some es =>
        have hmem := find_some_mem hf
        have hall : ∀ p ∈ subgraphTestGraph.adjMap,
            (find p.1 subgraphTestGraph.idToVertex).isSome = true := by decide
        exact hall (v, es) hmem)
    (by decide), rfl⟩

/-! ## The adjacency invariant of the directed graph -/

theorem nodup_setInsert (x : Int) {s : List Int} (h : s.Nodup) : (setInsert x s).Nodup := by
  unfold setInsert
  by_cases hx : x ∈ s
  · rw [if_pos hx]; exact h
  · rw [if_neg hx]
    rw [List.nodup_append]
    refine ⟨h, by simp, ?_⟩
    intro a ha hb
    simp at hb
    subst hb
    exact hx ha

theorem nodup_setErase (x : Int) {s : List Int} (h : s.Nodup) : (setErase x s).Nodup :=
  h.filter _

theorem nodupSets_touch (k : Int) {m : List (Int × List Int)} (h : NodupSets m) :
    NodupSets (touch k m) := by
  intro v es hes
  cases hf : find v m with
  | some x =>
    rw [find_touch_some _ hf] at hes
    cases hes
    exact h v _ hf
  | none =>
    rw [find_touch_none _ hf] at hes
    by_cases hk : k = v
    · rw [if_pos hk] at hes; cases hes; exact List.nodup_nil
    · rw [if_neg hk] at hes; cases hes

theorem nodup_getD {m : List (Int × List Int)} (h : NodupSets m) (k : Int) :
    ((find k m).getD []).Nodup := by
  cases hf : find k m with
  | none => exact List.nodup_nil
  | some es => exact h k es hf

theorem nodupSets_adjInsert (k x : Int) {m : List (Int × List Int)} (h : NodupSets m) :
    NodupSets (adjInsert k x m) := by
  intro v es hes
  rw [find_adjInsert] at hes
  by_cases hk : v = k
  · rw [if_pos hk] at hes
    cases hes
    exact nodup_setInsert x (nodup_getD h k)
  · rw [if_neg hk] at hes
    exact h v es hes

theorem nodupSets_adjErase (k x : Int) {m : List (Int × List Int)} (h : NodupSets m) :
    NodupSets (adjErase k x m) := by
  intro v es hes
  rw [find_adjErase] at hes
  by_cases hk : v = k
  · rw [if_pos hk] at hes
    cases hes
    exact nodup_setErase x (nodup_getD h k)
  · rw [if_neg hk] at hes
    exact h v es hes

theorem listedIn_adjErase (k x v eid : Int) (m : List (Int × List Int)) :
    ListedIn (adjErase k x m) v eid ↔ ListedIn m v eid ∧ ¬ (v = k ∧ eid = x) := by
  unfold ListedIn
  rw [find_adjErase]
  by_cases h : v = k
  · subst h
    rw [if_pos rfl]
    constructor
    · rintro ⟨es, hes, hmem⟩
      cases hes
      obtain ⟨h1, h2⟩ := mem_setErase.mp hmem
      cases hf : find v m with
      | none => rw [hf] at h1; simp at h1
      | some es' =>
        rw [hf] at h1
        exact ⟨⟨es', rfl, h1⟩, fun h3 => h2 h3.2⟩
    · rintro ⟨⟨es, hes, hmem⟩, h2⟩
      refine ⟨_, rfl, mem_setErase.mpr ⟨by rw [hes]; exact hmem, fun h3 => h2 ⟨rfl, h3⟩⟩⟩
  · rw [if_neg h]
    constructor
    · intro h1; exact ⟨h1, fun h2 => h h2.1⟩
    · intro h1; exact h1.1

theorem wellFormed_empty (D : Type) : Graph.WellFormed (GraphData.empty D) := by
  refine ⟨isMap_nil, fun v es h => by simp [GraphData.empty, find] at h, ?_⟩
  intro v eid
  constructor
  · rintro ⟨es, h, _⟩
    simp [GraphData.empty, find] at h
  · rintro ⟨e, h, _⟩
    simp [GraphData.empty, find] at h

theorem wellFormed_addVertex {D : Type} {g : GraphData D} (v : Vertex D)
    (h : Graph.WellFormed g) : Graph.WellFormed (Graph.addVertex g v) := by
  obtain ⟨h1, h2, h3⟩ := h
  refine ⟨isMap_touch _ h1, nodupSets_touch _ h2, ?_⟩
  intro w eid
  show ListedIn (touch v.id g.adjMap) w eid ↔ ∃ e, find eid g.idToEdge = some e ∧ e.src = w
  rw [listedIn_touch]
  exact h3 w eid

theorem wellFormed_addEdge {D : Type} {g : GraphData D} (e : Edge)
    (h : Graph.WellFormed g) (hfresh : find e.id g.idToEdge = none) :
    Graph.WellFormed (Graph.addEdge g e).2 := by
  obtain ⟨h1, h2, h3⟩ := h
  refine ⟨isMap_adjInsert _ _ h1, nodupSets_adjInsert _ _ h2, ?_⟩
  intro w eid
  show ListedIn (adjInsert e.src e.id g.adjMap) w eid ↔
    ∃ e', find eid (emplace e.id e g.idToEdge) = some e' ∧ e'.src = w
  rw [listedIn_adjInsert]
  by_cases hk : eid = e.id
  · subst hk
    rw [find_emplace_none _ _ hfresh, if_pos rfl]
    constructor
    · rintro (h4 | ⟨h4, _⟩)
      · obtain ⟨e', h5, _⟩ := (h3 w e.id).mp h4
        rw [hfresh] at h5
        cases h5
      · exact ⟨e, rfl, h4.symm⟩
    · rintro ⟨e', h4, h5⟩
      cases h4
      exact Or.inr ⟨h5.symm, rfl⟩
  · have hfind : find eid (emplace e.id e g.idToEdge) = find eid g.idToEdge := by
      cases hf : find eid g.idToEdge with
      | some x => exact find_emplace_some _ _ hf
      | none => rw [find_emplace_none _ _ hf, if_neg (fun h => hk h.symm)]
    rw [hfind]
    constructor
    · rintro (h4 | ⟨_, h4⟩)
      · exact (h3 w eid).mp h4
      · exact absurd h4 hk
    · intro h4
      exact Or.inl ((h3 w eid).mpr h4)

theorem wellFormed_delEdge {D : Type} {g : GraphData D} (id : Int)
    (h : Graph.WellFormed g) : Graph.WellFormed (Graph.delEdge g id).2 := by
  obtain ⟨h1, h2, h3⟩ := h
  cases hf : find id g.idToEdge with
  | none =>
    have : Graph.delEdge g id = (false, g) := by simp [Graph.delEdge, hf]
    rw [this]
    exact ⟨h1, h2, h3⟩
  | some e =>
    obtain ⟨es, hes, hmem⟩ := (h3 e.src id).mpr ⟨e, hf, rfl⟩
    have hkey : hasKey e.src g.adjMap = true := by simp [hasKey, hes]
    have : Graph.delEdge g id =
        (true, { g with adjMap := adjErase e.src id g.adjMap,
                        idToEdge := eraseKey id g.idToEdge }) := by
      simp [Graph.delEdge, hf, hkey]
    rw [this]
    refine ⟨isMap_adjErase _ _ h1, nodupSets_adjErase _ _ h2, ?_⟩
    intro w eid
    show ListedIn (adjErase e.src id g.adjMap) w eid ↔
      ∃ e', find eid (eraseKey id g.idToEdge) = some e' ∧ e'.src = w
    rw [listedIn_adjErase]
    by_cases hk : eid = id
    · subst hk
      rw [find_eraseKey_self]
      constructor
      · rintro ⟨h4, h5⟩
        obtain ⟨e', h6, h7⟩ := (h3 w eid).mp h4
        rw [hf] at h6
        cases h6
        exact absurd ⟨h7.symm, rfl⟩ h5
      · rintro ⟨e', h4, _⟩
        cases h4
    · rw [find_eraseKey_ne hk]
      constructor
      · rintro ⟨h4, _⟩
        exact (h3 w eid).mp h4
      · intro h4
        exact ⟨(h3 w eid).mpr h4, fun h5 => hk h5.2⟩

theorem isMap_map_val {α β : Type} (f : Int → α → β) {m : List (Int × α)} (hm : IsMap m) :
    IsMap (m.map (fun p => (p.1, f p.1 p.2))) := by
  unfold IsMap at *
  rw [List.map_map]
  exact hm

/-- The second loop of `delVertex` on a well-formed graph: it returns, and the adjacency
index and the edge table that it leaves are well formed again. -/
theorem scanAdj_wellFormed {D : Type} (g : GraphData D) (id : Int) (b : Bool)
    (h : Graph.WellFormed g) :
    ∃ adj table b', Graph.scanAdj id g.adjMap g.idToEdge b = .ok (adj, table, b') ∧
      Graph.WellFormed ({ adjMap := adj, idToVertex := g.idToVertex, idToEdge := table } :
        GraphData D) := by
  obtain ⟨h1, h2, h3⟩ := h
  have H : ∀ p ∈ g.adjMap, ∀ eid ∈ p.2,
      ∃ e, find eid g.idToEdge = some e ∧ e.src = p.1 ∧ find eid g.idToEdge = some e := by
    intro p hp eid he
    obtain ⟨e, h4, h5⟩ := (h3 p.1 eid).mp ⟨p.2, find_of_mem h1 hp, he⟩
    exact ⟨e, h4, h5, h4⟩
  obtain ⟨table', hrun, hfind⟩ := scanAdj_spec id g.idToEdge g.adjMap g.idToEdge b h1 H
  refine ⟨_, table', _, hrun, ?_, ?_, ?_⟩
  · exact isMap_map_val (fun _ es => es.filter (fun eid => !pointsTo g.idToEdge id eid)) h1
  · intro v es hes
    have hes' : find v (g.adjMap.map
        (fun p => (p.1, p.2.filter (fun eid => !pointsTo g.idToEdge id eid)))) = some es := hes
    rw [find_map_filter] at hes'
    cases hf : find v g.adjMap with
    | none => rw [hf] at hes'; cases hes'
    | some es0 =>
      rw [hf] at hes'
      cases hes'
      exact (h2 v es0 hf).filter _
  · intro v eid
    show (∃ es, find v (g.adjMap.map
        (fun p => (p.1, p.2.filter (fun eid => !pointsTo g.idToEdge id eid)))) = some es ∧
          eid ∈ es) ↔ ∃ e, find eid table' = some e ∧ e.src = v
    rw [find_map_filter, hfind eid]
    constructor
    · rintro ⟨es, hes, hmem⟩
      cases hf : find v g.adjMap with
      | none => rw [hf] at hes; cases hes
      | some es0 =>
        rw [hf] at hes
        cases hes
        obtain ⟨h4, h5⟩ := List.mem_filter.mp hmem
        obtain ⟨e, h6, h7⟩ := (h3 v eid).mp ⟨es0, hf, h4⟩
        refine ⟨e, ?_, h7⟩
        rw [if_neg, h6]
        rintro ⟨p, _, _, h8⟩
        rw [h8] at h5
        cases h5
    · rintro ⟨e, h4, h5⟩
      by_cases hc : ∃ p ∈ g.adjMap, eid ∈ p.2 ∧ pointsTo g.idToEdge id eid = true
      · rw [if_pos hc] at h4
        cases h4
      · rw [if_neg hc] at h4
        obtain ⟨es0, h6, h7⟩ := (h3 v eid).mpr ⟨e, h4, h5⟩
        refine ⟨_, by rw [h6]; rfl, List.mem_filter.mpr ⟨h7, ?_⟩⟩
        cases hp : pointsTo g.idToEdge id eid with
        | false => rfl
        | true => exact absurd ⟨(v, es0), find_some_mem h6, h7, hp⟩ hc

/-- The first step of `delVertex` on a well-formed graph whose adjacency index has the
key `id`: the graph without that entry, without the vertex and without the edges listed
in the entry is well formed. -/
theorem wellFormed_eraseEntry {D : Type} (g : GraphData D) (id : Int) (out : List Int)
    (h : Graph.WellFormed g) (hout : find id g.adjMap = some out) :
    Graph.WellFormed ({ adjMap := eraseKey id g.adjMap,
                        idToVertex := eraseKey id g.idToVertex,
                        idToEdge := Graph.eraseAll out g.idToEdge } : GraphData D) := by
  obtain ⟨h1, h2, h3⟩ := h
  refine ⟨isMap_eraseKey id h1, ?_, ?_⟩
  · intro v es hes
    have hes' : find v (eraseKey id g.adjMap) = some es := hes
    rw [find_eraseKey] at hes'
    by_cases hv : v = id
    · rw [if_pos hv] at hes'; cases hes'
    · rw [if_neg hv] at hes'; exact h2 v es hes'
  · intro v eid
    show (∃ es, find v (eraseKey id g.adjMap) = some es ∧ eid ∈ es) ↔
      ∃ e, find eid (Graph.eraseAll out g.idToEdge) = some e ∧ e.src = v
    rw [find_eraseKey, find_eraseAll]
    constructor
    · rintro ⟨es, hes, hmem⟩
      by_cases hv : v = id
      · rw [if_pos hv] at hes; cases hes
      · rw [if_neg hv] at hes
        obtain ⟨e, h4, h5⟩ := (h3 v eid).mp ⟨es, hes, hmem⟩
        refine ⟨e, ?_, h5⟩
        rw [if_neg, h4]
        intro h6
        obtain ⟨e', h7, h8⟩ := (h3 id eid).mp ⟨out, hout, h6⟩
        rw [h4] at h7
        cases h7
        exact hv (h5.symm.trans h8)
    · rintro ⟨e, h4, h5⟩
      by_cases hm : eid ∈ out
      · rw [if_pos hm] at h4; cases h4
      · rw [if_neg hm] at h4
        obtain ⟨es, h6, h7⟩ := (h3 v eid).mpr ⟨e, h4, h5⟩
        have hv : ¬ v = id := by
          intro hv
          rw [hv, hout] at h6
          cases h6
          exact hm h7
        exact ⟨es, by rw [if_neg hv]; exact h6, h7⟩

/-- On a well-formed graph `delVertex` returns for every id, and the graph that it
leaves is well formed. -/
theorem delVertex_wellFormed {D : Type} (g : GraphData D) (id : Int)
    (h : Graph.WellFormed g) :
    ∃ b g', Graph.delVertex g id = .ok (b, g') ∧ Graph.WellFormed g' := by
  cases hout : find id g.adjMap with
  | none =>
    obtain ⟨adj, table, b', hrun, hwf⟩ := scanAdj_wellFormed g id false h
    exact ⟨b', _, by simp only [Graph.delVertex, hout, hrun], hwf⟩
  | some out =>
    obtain ⟨adj, table, b', hrun, hwf⟩ := scanAdj_wellFormed _ id true
      (wellFormed_eraseEntry g id out h hout)
    exact ⟨b', _, by simp only [Graph.delVertex, hout, hrun], hwf⟩

theorem wellFormed_of_reachableFresh {D : Type} {g : GraphData D}
    (h : Graph.ReachableFresh g) : Graph.WellFormed g := by
  induction h with
  | empty => exact wellFormed_empty D
  | addVertex v _ ih => exact wellFormed_addVertex v ih
  | addEdge e _ hfresh ih => exact wellFormed_addEdge e ih hfresh
  | delEdge id _ ih => exact wellFormed_delEdge id ih
  | delVertex id b _ hrun ih =>
    obtain ⟨b', g'', hrun', hwf⟩ := delVertex_wellFormed _ id ih
    rw [hrun] at hrun'
    cases hrun'
    exact hwf

theorem isMap_eraseAll (ids : List Int) {m : List (Int × Edge)} (hm : IsMap m) :
    IsMap (Graph.eraseAll ids m) := by
  unfold Graph.eraseAll
  induction ids generalizing m with
  | nil => exact hm
  | cons a ids ih => exact ih (isMap_eraseKey a hm)

theorem scanAdj_isMap (id : Int) :
    ∀ (adj : List (Int × List Int)) (table : List (Int × Edge)) (b : Bool)
      (adj' : List (Int × List Int)) (table' : List (Int × Edge)) (b' : Bool),
      IsMap table → Graph.scanAdj id adj table b = .ok (adj', table', b') → IsMap table'
  | [], table, b, adj', table', b', hm, h => by
    simp only [Graph.scanAdj, Except.ok.injEq, Prod.mk.injEq] at h
    rw [← h.2.1]
    exact hm
  | (v, es) :: rest, table, b, adj', table', b', hm, h => by
    rw [Graph.scanAdj] at h
    cases hr : Graph.removeList id table es with
    | error f => rw [hr] at h; cases h
    | ok rm =>
      rw [hr] at h
      simp only at h
      cases hs : Graph.scanAdj id rest (Graph.eraseAll rm table) (b || !rm.isEmpty) with
      | error f => rw [hs] at h; cases h
      | ok r =>
        obtain ⟨a1, t1, b1⟩ := r
        rw [hs] at h
        simp only [Except.ok.injEq, Prod.mk.injEq] at h
        rw [← h.2.1]
        exact scanAdj_isMap id rest _ _ a1 t1 b1 (isMap_eraseAll rm hm) hs

theorem delVertex_isMap {D : Type} (g g' : GraphData D) (id : Int) (b : Bool)
    (hm : IsMap g.idToEdge) (h : Graph.delVertex g id = .ok (b, g')) : IsMap g'.idToEdge := by
  unfold Graph.delVertex at h
  cases hout : find id g.adjMap with
  | none =>
    rw [hout] at h
    simp only at h
    cases hs : Graph.scanAdj id g.adjMap g.idToEdge false with
    | error f => rw [hs] at h; cases h
    | ok r =>
      obtain ⟨a1, t1, b1⟩ := r
      rw [hs] at h
      simp only [Except.ok.injEq, Prod.mk.injEq] at h
      rw [← h.2]
      exact scanAdj_isMap id _ _ _ a1 t1 b1 hm hs
  | some out =>
    rw [hout] at h
    simp only at h
    cases hs : Graph.scanAdj id (eraseKey id g.adjMap) (Graph.eraseAll out g.idToEdge) true with
    | error f => rw [hs] at h; cases h
    | ok r =>
      obtain ⟨a1, t1, b1⟩ := r
      rw [hs] at h
      simp only [Except.ok.injEq, Prod.mk.injEq] at h
      rw [← h.2]
      exact scanAdj_isMap id _ _ _ a1 t1 b1 (isMap_eraseAll out hm) hs

theorem isMap_idToEdge_of_reachableFresh {D : Type} {g : GraphData D}
    (h : Graph.ReachableFresh g) : IsMap g.idToEdge := by
  induction h with
  | empty => exact isMap_nil
  | addVertex v _ ih => exact ih
  | addEdge e _ _ ih => exact isMap_emplace _ _ ih
  | @delEdge g0 id _ ih =>
    cases hf : find id g0.idToEdge with
    | none =>
      have : Graph.delEdge g0 id = (false, g0) := by simp [Graph.delEdge, hf]
      rw [this]; exact ih
    | some e =>
      have : (Graph.delEdge g0 id).2.idToEdge = eraseKey id g0.idToEdge := by
        simp [Graph.delEdge, hf]
      rw [this]
      exact isMap_eraseKey id ih
  | delVertex id b _ hrun ih => exact delVertex_isMap _ _ id b ih hrun

/-- C14: in every state of a directed `Graph` reached from the empty graph by
`addVertex`, `addEdge` with an edge id not yet in the edge table, `delEdge` and
`delVertex`, every edge id in an adjacency set is in the edge table with that vertex as
its source, and every edge of the edge table is listed in the adjacency set of its
source; so for every vertex id `v` with an adjacency entry `getEdgeIdsOfVertex(v)`
returns, without repetition, exactly the ids of the stored edges whose source is `v`,
which is the empty list, not an error, for a vertex added with no edges.  The keys of
both tables are distinct, and `delVertex` returns in every such state. -/
theorem reachable_adjacency_consistent {D : Type} (g : GraphData D)
    (h : Graph.ReachableFresh g) :
    (∀ v es eid, find v g.adjMap = some es → eid ∈ es →
      ∃ e, find eid g.idToEdge = some e ∧ e.src = v) ∧
    (∀ p ∈ g.adjMap, ∀ eid ∈ p.2, ∃ e, find eid g.idToEdge = some e ∧ e.src = p.1) ∧
    (∀ eid e, find eid g.idToEdge = some e →
      ∃ es, find e.src g.adjMap = some es ∧ eid ∈ es) ∧
    (∀ p ∈ g.idToEdge, ∃ es, find p.2.src g.adjMap = some es ∧ p.1 ∈ es) ∧
    (∀ v, (find v g.adjMap).isSome = true →
      ∃ es, Graph.getEdgeIdsOfVertex g v = some es ∧ es.Nodup ∧
        ∀ eid, eid ∈ es ↔ ∃ e, find eid g.idToEdge = some e ∧ e.src = v) ∧
    (∀ w : Vertex D, (∀ eid e, find eid g.idToEdge = some e → e.src ≠ w.id) →
      Graph.getEdgeIdsOfVertex (Graph.addVertex g w) w.id = some []) ∧
    IsMap g.adjMap ∧ IsMap g.idToEdge ∧
    (∀ id, ∃ b g', Graph.delVertex g id = .ok (b, g')) := by
  have hE := isMap_idToEdge_of_reachableFresh h
  obtain ⟨h1, h2, h3⟩ := wellFormed_of_reachableFresh h
  refine ⟨?_, ?_, ?_, ?_, ?_, ?_, h1, hE, ?_⟩
  · intro v es eid hes hmem
    exact (h3 v eid).mp ⟨es, hes, hmem⟩
  · intro p hp eid hmem
    exact (h3 p.1 eid).mp ⟨p.2, find_of_mem h1 hp, hmem⟩
  · intro eid e he
    exact (h3 e.src eid).mpr ⟨e, he, rfl⟩
  · intro p hp
    exact (h3 p.2.src p.1).mpr ⟨p.2, find_of_mem hE hp, rfl⟩
  · intro v hv
    cases hf : find v g.adjMap with
    | none => rw [hf] at hv; cases hv
    | some es =>
      refine ⟨es, hf, h2 v es hf, fun eid => ?_⟩
      constructor
      · intro hmem
        exact (h3 v eid).mp ⟨es, hf, hmem⟩
      · intro he
        obtain ⟨es', h4, h5⟩ := (h3 v eid).mpr he
        rw [hf] at h4
        cases h4
        exact h5
  · intro w hw
    show find w.id (touch w.id g.adjMap) = some []
    rw [find_touch_self]
    cases hf : find w.id g.adjMap with
    | none => rfl
    | some es =>
      cases es with
      | nil => rfl
      | cons a rest =>
        obtain ⟨e, h4, h5⟩ := (h3 w.id a).mp ⟨a :: rest, hf, List.mem_cons_self _ _⟩
        exact absurd h5 (hw a e h4)
  · intro id
    obtain ⟨b, g', hrun, _⟩ := delVertex_wellFormed g id ⟨h1, h2, h3⟩
    exact ⟨b, g', hrun⟩

/-- The test `GetEdgesOfVertex`: with the edges 1 -> 2 and 2 -> 3 the call
`getEdgeIdsOfVertex(2)` returns the single edge 2 -> 3. -/
theorem reachable_adjacency_consistent_witness :
    Graph.ReachableFresh edgesOfVertexGraph ∧
    ((∀ v es eid, find v edgesOfVertexGraph.adjMap = some es → eid ∈ es →
      ∃ e, find eid edgesOfVertexGraph.idToEdge = some e ∧ e.src = v) ∧
    (∀ p ∈ edgesOfVertexGraph.adjMap, ∀ eid ∈ p.2,
      ∃ e, find eid edgesOfVertexGraph.idToEdge = some e ∧ e.src = p.1) ∧
    (∀ eid e, find eid edgesOfVertexGraph.idToEdge = some e →
      ∃ es, find e.src edgesOfVertexGraph.adjMap = some es ∧ eid ∈ es) ∧
    (∀ p ∈ edgesOfVertexGraph.idToEdge,
      ∃ es, find p.2.src edgesOfVertexGraph.adjMap = some es ∧ p.1 ∈ es) ∧
    (∀ v, (find v edgesOfVertexGraph.adjMap).isSome = true →
      ∃ es, Graph.getEdgeIdsOfVertex edgesOfVertexGraph v = some es ∧ es.Nodup ∧
        ∀ eid, eid ∈ es ↔ ∃ e, find eid edgesOfVertexGraph.idToEdge = some e ∧ e.src = v) ∧
    (∀ w : Vertex Int,
      (∀ eid e, find eid edgesOfVertexGraph.idToEdge = some e → e.src ≠ w.id) →
      Graph.getEdgeIdsOfVertex (Graph.addVertex edgesOfVertexGraph w) w.id = some []) ∧
    IsMap edgesOfVertexGraph.adjMap ∧ IsMap edgesOfVertexGraph.idToEdge ∧
    (∀ id, ∃ b g', Graph.delVertex edgesOfVertexGraph id = .ok (b, g'))) ∧
    Graph.getEdgeIdsOfVertex edgesOfVertexGraph 2 = some [2] ∧
    find 2 edgesOfVertexGraph.idToEdge = some ⟨2, 2, 3, 1⟩ ∧
    Graph.getEdgeIdsOfVertex edgesOfVertexGraph 3 = some [] ∧
    Graph.getEdgeIdsOfVertex edgesOfVertexGraph 4 = none :=
  have hr : Graph.ReachableFresh edgesOfVertexGraph :=
    Graph.ReachableFresh.addEdge ⟨2, 2, 3, 1⟩
      (Graph.ReachableFresh.addEdge ⟨1, 1, 2, 1⟩
        (Graph.ReachableFresh.addVertex ⟨3, 30⟩
          (Graph.ReachableFresh.addVertex ⟨2, 20⟩
            (Graph.ReachableFresh.addVertex ⟨1, 10⟩ Graph.ReachableFresh.empty)))
        rfl)
      rfl
  ⟨hr, reachable_adjacency_consistent edgesOfVertexGraph hr, rfl, rfl, rfl, rfl⟩

/-! ## Paired ids, undirected removal and the exact edge subgraph -/

/-- C22: for every id in the range of `int` for which neither `id - 1` nor `id + 1`
overflows, `getPairedId(id)` is `id - 1` when `id` is even and `id + 1` when `id` is odd;
it is an involution without fixed points, `id` and `getPairedId(id)` have opposite
parity, and the results stay in the range of `int`.  The test of the code,
`id % 2 == 0` with the truncating remainder of C++, holds exactly when `id` is even. -/
theorem getPairedId_involution (id : Int) (hlo : -2147483648 < id) (hhi : id < 2147483647) :
    (id % 2 = 0 → getPairedId id = id - 1) ∧
    (id % 2 = 1 → getPairedId id = id + 1) ∧
    getPairedId (getPairedId id) = id ∧
    getPairedId id ≠ id ∧
    (getPairedId id % 2 = 0 ↔ id % 2 = 1) ∧
    (-2147483648 ≤ getPairedId id ∧ getPairedId id ≤ 2147483647) ∧
    (-2147483648 ≤ getPairedId (getPairedId id) ∧
      getPairedId (getPairedId id) ≤ 2147483647) ∧
    (Int.tmod id 2 = 0 ↔ id % 2 = 0) := by
  have hpar : id % 2 = 0 ∨ id % 2 = 1 := by omega
  have hinv : getPairedId (getPairedId id) = id := by
    unfold getPairedId
    rcases hpar with h | h
    · rw [if_pos h, if_neg (by omega : ¬ (id - 1) % 2 = 0)]; omega
    · rw [if_neg (by omega : ¬ id % 2 = 0), if_pos (by omega : (id + 1) % 2 = 0)]; omega
  refine ⟨?_, ?_, hinv, ?_, ?_, ?_, ?_, ?_⟩
  · intro h; unfold getPairedId; rw [if_pos h]
  · intro h; unfold getPairedId; rw [if_neg (by omega : ¬ id % 2 = 0)]
  · unfold getPairedId
    rcases hpar with h | h
    · rw [if_pos h]; omega
    · rw [if_neg (by omega : ¬ id % 2 = 0)]; omega
  · unfold getPairedId
    rcases hpar with h | h
    · rw [if_pos h]; omega
    · rw [if_neg (by omega : ¬ id % 2 = 0)]; omega
  · unfold getPairedId
    rcases hpar with h | h
    · rw [if_pos h]; omega
    · rw [if_neg (by omega : ¬ id % 2 = 0)]; omega
  · rw [hinv]; omega
  · rw [← Int.dvd_iff_emod_eq_zero]
    constructor
    · intro h; exact Int.dvd_of_tmod_eq_zero h
    · intro h; exact Int.tmod_eq_zero_of_dvd h

/-- The id 0 of the tests is paired with -1, and -1 with 0. -/
theorem getPairedId_involution_witness :
    (-2147483648 < (0 : Int) ∧ (0 : Int) < 2147483647) ∧
    (((0 : Int) % 2 = 0 → getPairedId 0 = 0 - 1) ∧
    ((0 : Int) % 2 = 1 → getPairedId 0 = 0 + 1) ∧
    getPairedId (getPairedId 0) = 0 ∧
    getPairedId 0 ≠ 0 ∧
    (getPairedId 0 % 2 = 0 ↔ (0 : Int) % 2 = 1) ∧
    (-2147483648 ≤ getPairedId 0 ∧ getPairedId 0 ≤ 2147483647) ∧
    (-2147483648 ≤ getPairedId (getPairedId 0) ∧
      getPairedId (getPairedId 0) ≤ 2147483647) ∧
    (Int.tmod 0 2 = 0 ↔ (0 : Int) % 2 = 0)) ∧
    getPairedId 0 = -1 ∧ getPairedId (-1) = 0 ∧ getPairedId 7 = 8 ∧ getPairedId 8 = 7 :=
  ⟨⟨by decide, by decide⟩, getPairedId_involution 0 (by decide) (by decide),
    by decide, by decide, by decide, by decide⟩

/-- C24, amended: in an undirected graph whose edge table holds the edge `id` and its mirror
`pairedId(id)`, with `id` listed in the adjacency set of its source and the mirror id
listed in the adjacency set of its source and in no other, `delEdge(id)` returns `true`;
afterwards `id` is neither in the edge table nor in the adjacency set of its source, the
mirror id is in no adjacency set, and the mirror edge is still in the edge table.  Every
other edge-table entry, every other listing and the vertex table are unchanged. -/
theorem undirected_delEdge_leaves_mirror {D : Type} (g : GraphData D) (id : Int)
    (e e2 : Edge) (h1 : find id g.idToEdge = some e)
    (h2 : find (getPairedId id) g.idToEdge = some e2)
    (h3 : Listed g e.src id)
    (h4 : ∀ v, Listed g v (getPairedId id) ↔ v = e2.src) :
    (UndirectedGraph.delEdge g id).1 = true ∧
    find id (UndirectedGraph.delEdge g id).2.idToEdge = none ∧
    (Listed g e.src id ∧ ¬ Listed (UndirectedGraph.delEdge g id).2 e.src id) ∧
    (Listed g e2.src (getPairedId id) ∧
      ∀ v, ¬ Listed (UndirectedGraph.delEdge g id).2 v (getPairedId id)) ∧
    find (getPairedId id) (UndirectedGraph.delEdge g id).2.idToEdge = some e2 ∧
    (∀ k, k ≠ id → find k (UndirectedGraph.delEdge g id).2.idToEdge = find k g.idToEdge) ∧
    (∀ v x, x ≠ id → x ≠ getPairedId id →
      (Listed (UndirectedGraph.delEdge g id).2 v x ↔ Listed g v x)) ∧
    (UndirectedGraph.delEdge g id).2.idToVertex = g.idToVertex := by
  have hne : getPairedId id ≠ id := getPairedId_ne id
  have h2' : find (getPairedId id) (eraseKey id g.idToEdge) = some e2 := by
    rw [find_eraseKey_ne hne]; exact h2
  have hrun : UndirectedGraph.delEdge g id =
      (true, { g with adjMap := adjErase e2.src (getPairedId id) (adjErase e.src id g.adjMap),
                      idToEdge := eraseKey id g.idToEdge }) := by
    simp only [UndirectedGraph.delEdge, h1, h2']
  have hl : ∀ v x, Listed (UndirectedGraph.delEdge g id).2 v x ↔
      (Listed g v x ∧ ¬ (v = e.src ∧ x = id)) ∧ ¬ (v = e2.src ∧ x = getPairedId id) := by
    intro v x
    rw [hrun]
    show ListedIn (adjErase e2.src (getPairedId id) (adjErase e.src id g.adjMap)) v x ↔ _
    rw [listedIn_adjErase, listedIn_adjErase]
    rfl
  refine ⟨by rw [hrun], ?_, ⟨h3, ?_⟩, ⟨(h4 e2.src).mpr rfl, ?_⟩, ?_, ?_, ?_, by rw [hrun]⟩
  · rw [hrun]; exact find_eraseKey_self id g.idToEdge
  · rw [hl]
    rintro ⟨⟨_, h5⟩, _⟩
    exact h5 ⟨rfl, rfl⟩
  · intro v
    rw [hl]
    rintro ⟨⟨h5, _⟩, h6⟩
    exact h6 ⟨(h4 v).mp h5, rfl⟩
  · rw [hrun]; exact h2'
  · intro k hk
    rw [hrun]
    exact find_eraseKey_ne hk g.idToEdge
  · intro v x hx1 hx2
    rw [hl]
    constructor
    · rintro ⟨⟨h5, _⟩, _⟩
      exact h5
    · intro h5
      exact ⟨⟨h5, fun h6 => hx1 h6.2⟩, fun h6 => hx2 h6.2⟩

/-- Three vertices and the undirected edge 1-2 stored under the ids 2 and 1:
`delEdge(2)` returns `true`, empties the adjacency sets of 1 and 2, and leaves the
mirror edge 1 (2 -> 1) as the only entry of the edge table. -/
theorem undirected_delEdge_leaves_mirror_witness :
    (find 2 oneEdgeOfThree.idToEdge = some ⟨2, 1, 2, 1⟩ ∧
      find (getPairedId 2) oneEdgeOfThree.idToEdge = some ⟨1, 2, 1, 1⟩) ∧
    ((UndirectedGraph.delEdge oneEdgeOfThree 2).1 = true ∧
    find 2 (UndirectedGraph.delEdge oneEdgeOfThree 2).2.idToEdge = none ∧
    (Listed oneEdgeOfThree 1 2 ∧ ¬ Listed (UndirectedGraph.delEdge oneEdgeOfThree 2).2 1 2) ∧
    (Listed oneEdgeOfThree 2 (getPairedId 2) ∧
      ∀ v, ¬ Listed (UndirectedGraph.delEdge oneEdgeOfThree 2).2 v (getPairedId 2)) ∧
    find (getPairedId 2) (UndirectedGraph.delEdge oneEdgeOfThree 2).2.idToEdge =
      some ⟨1, 2, 1, 1⟩ ∧
    (∀ k, k ≠ 2 → find k (UndirectedGraph.delEdge oneEdgeOfThree 2).2.idToEdge =
      find k oneEdgeOfThree.idToEdge) ∧
    (∀ v x, x ≠ 2 → x ≠ getPairedId 2 →
      (Listed (UndirectedGraph.delEdge oneEdgeOfThree 2).2 v x ↔ Listed oneEdgeOfThree v x)) ∧
    (UndirectedGraph.delEdge oneEdgeOfThree 2).2.idToVertex = oneEdgeOfThree.idToVertex) ∧
    (UndirectedGraph.delEdge oneEdgeOfThree 2).2.adjMap = [(1, []), (2, []), (3, [])] ∧
    (UndirectedGraph.delEdge oneEdgeOfThree 2).2.idToEdge = [(1, ⟨1, 2, 1, 1⟩)] :=
  ⟨⟨rfl, rfl⟩,
    undirected_delEdge_leaves_mirror oneEdgeOfThree 2 ⟨2, 1, 2, 1⟩ ⟨1, 2, 1, 1⟩ rfl rfl
      ⟨[2], rfl, by decide⟩
      (fun v => by
        show (∃ es, find v [(1, [2]), (2, [1]), (3, [])] = some es ∧ (1 : Int) ∈ es) ↔ v = 2
        constructor
        · rintro ⟨es, hes, hmem⟩
          have hp := find_some_mem hes
          simp only [List.mem_cons, Prod.mk.injEq, List.mem_singleton, List.not_mem_nil,
            or_false] at hp
          rcases hp with ⟨_, rfl⟩ | ⟨hv, _⟩ | ⟨_, rfl⟩
          · simp at hmem
          · exact hv
          · simp at hmem
        · rintro rfl
          exact ⟨[1], rfl, by decide⟩),
    rfl, rfl⟩

/-- C25: in a directed graph whose adjacency index has distinct keys and is consistent
with the edge table, and in which both endpoints of every stored edge are stored
vertices, for every list `ids` of edge ids `subgraphOfEdges(ids)` returns a graph whose
edge table consists of exactly the stored edges whose id is in `ids`, each unchanged, and
whose vertex table consists of exactly the sources and destinations of those edges, each
with its original vertex. -/
theorem subgraphOfEdges_exact {D : Type} (g : GraphData D) (ids : List Int)
    (hmap : IsMap g.adjMap) (hcons : AdjConsistent g)
    (hend : ∀ eid e, find eid g.idToEdge = some e →
      (find e.src g.idToVertex).isSome = true ∧ (find e.dst g.idToVertex).isSome = true) :
    ∃ g', Graph.subgraphOfEdges g ids = .ok g' ∧
      (∀ k, find k g'.idToEdge = if k ∈ ids then find k g.idToEdge else none) ∧
      (∀ v, (find v g'.idToVertex).isSome = true ↔
        ∃ eid ∈ ids, ∃ e, find eid g.idToEdge = some e ∧ (e.src = v ∨ e.dst = v)) ∧
      (∀ v x, find v g'.idToVertex = some x → find v g.idToVertex = some x) ∧
      IsMap g'.idToEdge ∧ IsMap g'.idToVertex := by
  have hstored : ∀ p ∈ g.adjMap, ∀ eid ∈ p.2, eid ∈ ids →
      (find eid g.idToEdge).isSome = true := by
    intro p hp eid he _
    obtain ⟨e, h1, _⟩ := (hcons p.1 eid).mp ⟨p.2, find_of_mem hmap hp, he⟩
    simp [h1]
  obtain ⟨adj, hadj, ha1, ha2, ha3⟩ := lightEdgesLoop_spec g ids g.adjMap [] hstored
  have hadjmap : IsMap adj := ha1 isMap_nil
  have hne : NoEmptyEntry adj := ha2 (fun v es h => by simp [find] at h)
  have hl : ∀ v eid, ListedIn adj v eid ↔
      eid ∈ ids ∧ ∃ e, find eid g.idToEdge = some e ∧ e.src = v := by
    intro v eid
    rw [ha3]
    constructor
    · rintro (⟨es, h4, _⟩ | ⟨_, h5, h6⟩)
      · simp [find] at h4
      · exact ⟨h5, h6⟩
    · rintro ⟨h5, e, he, hv⟩
      obtain ⟨es, hes, hmem⟩ := (hcons v eid).mpr ⟨e, he, hv⟩
      exact Or.inr ⟨⟨(v, es), find_some_mem hes, hmem⟩, h5, e, he, hv⟩
  have hentry : ∀ p ∈ adj, ∀ eid ∈ p.2, eid ∈ ids ∧
      ∃ e, find eid g.idToEdge = some e ∧ e.src = p.1 := by
    rintro ⟨v, es⟩ hp eid he
    exact (hl v eid).mp ⟨es, find_of_mem hadjmap hp, he⟩
  have hpre : ∀ p ∈ adj, (find p.1 g.idToVertex).isSome = true ∧
      ∀ eid ∈ p.2, ∃ ed, find eid g.idToEdge = some ed ∧
        (find ed.dst g.idToVertex).isSome = true := by
    rintro ⟨v, es⟩ hp
    constructor
    · have hes := hne v es (find_of_mem hadjmap hp)
      obtain ⟨eid, he⟩ := List.exists_mem_of_ne_nil es hes
      obtain ⟨_, e, h2, h3⟩ := hentry (v, es) hp eid he
      rw [← h3]
      exact (hend eid e h2).1
    · intro eid he
      obtain ⟨_, e, h2, _⟩ := hentry (v, es) hp eid he
      exact ⟨e, h2, (hend eid e h2).2⟩
  obtain ⟨vt, et, h0, h1, h2, h3, h4, h5, h6⟩ := copyEntries_spec g adj [] [] hpre
  have hsv := h3 (subTable_nil _)
  have hse := h4 (subTable_nil _)
  refine ⟨{ adjMap := adj, idToVertex := vt, idToEdge := et }, ?_, ?_, ?_, hsv,
    h2 isMap_nil, h1 isMap_nil⟩
  · unfold Graph.subgraphOfEdges Graph.lightSubgraphOfEdges
    simp only [hadj, h0]
  · intro k
    show find k et = _
    by_cases hk : k ∈ ids
    · rw [if_pos hk]
      cases hf : find k g.idToEdge with
      | none =>
        cases hf' : find k et with
        | none => rfl
        | some x => rw [hse k x hf'] at hf; cases hf
      | some e =>
        obtain ⟨es, hes, hmem⟩ := (hl e.src k).mpr ⟨hk, e, hf, rfl⟩
        rw [← hf]
        exact find_eq_of_subTable k hse
          ((h5 k).mpr (Or.inr ⟨(e.src, es), find_some_mem hes, hmem⟩))
    · rw [if_neg hk]
      cases hf : find k et with
      | none => rfl
      | some x =>
        rcases (h5 k).mp (by simp [hf]) with h7 | ⟨p, hp, h8⟩
        · simp [find] at h7
        · exact absurd (hentry p hp k h8).1 hk
  · intro v
    show (find v vt).isSome = true ↔ _
    rw [h6]
    constructor
    · rintro (h7 | ⟨p, hp, h8⟩ | ⟨p, hp, eid, he, ed, hed, hv⟩)
      · simp [find] at h7
      · have hes := hne p.1 p.2 (find_of_mem hadjmap hp)
        obtain ⟨eid, he⟩ := List.exists_mem_of_ne_nil p.2 hes
        obtain ⟨h9, e, h10, h11⟩ := hentry p hp eid he
        exact ⟨eid, h9, e, h10, Or.inl (h11.trans h8)⟩
      · exact ⟨eid, (hentry p hp eid he).1, ed, hed, Or.inr hv⟩
    · rintro ⟨eid, he, e, hfe, hv⟩
      obtain ⟨es, hes, hmem⟩ := (hl e.src eid).mpr ⟨he, e, hfe, rfl⟩
      have hp := find_some_mem hes
      rcases hv with hv | hv
      · exact Or.inr (Or.inl ⟨(e.src, es), hp, hv⟩)
      · exact Or.inr (Or.inr ⟨(e.src, es), hp, eid, hmem, e, hfe, hv⟩)

/-- The test `Subgraph`: for the edge ids 2, 3, 5 (2 -> 3, 3 -> 4, 1 -> 5) of the test
graph the result has 3 edges and the payloads 20, 30, 50 for the vertices 2, 3, 5; an id
that names no stored edge (9) adds nothing. -/
theorem subgraphOfEdges_exact_witness :
    (∃ g', Graph.subgraphOfEdges subgraphTestGraph [2, 3, 5, 9] = .ok g' ∧
      (∀ k, find k g'.idToEdge =
        if k ∈ [2, 3, 5, 9] then find k subgraphTestGraph.idToEdge else none) ∧
      (∀ v, (find v g'.idToVertex).isSome = true ↔
        ∃ eid ∈ [2, 3, 5, 9], ∃ e, find eid subgraphTestGraph.idToEdge = some e ∧
          (e.src = v ∨ e.dst = v)) ∧
      (∀ v x, find v g'.idToVertex = some x →
        find v subgraphTestGraph.idToVertex = some x) ∧
      IsMap g'.idToEdge ∧ IsMap g'.idToVertex) ∧
    (Graph.subgraphOfEdges subgraphTestGraph [2, 3, 5]).map
      (fun g' => (Graph.numEdges g', g'.idToEdge.map Prod.fst, g'.idToVertex.map Prod.fst,
        Graph.getDataOfVertex g' 2, Graph.getDataOfVertex g' 3,
        Graph.getDataOfVertex g' 5)) =
      .ok (3, [5, 2, 3], [1, 5, 2, 3, 4], some 20, some 30, some 50) ∧
    Graph.subgraphOfEdges subgraphTestGraph [2, 3, 5, 9] =
      Graph.subgraphOfEdges subgraphTestGraph [2, 3, 5] :=
  ⟨subgraphOfEdges_exact subgraphTestGraph [2, 3, 5, 9] (by decide)
    (adjConsistent_of_checks subgraphTestGraph (by decide) (by decide))
    (fun eid e he => by
      have hall : ∀ p ∈ subgraphTestGraph.idToEdge,
          (find p.2.src subgraphTestGraph.idToVertex).isSome = true ∧
          (find p.2.dst subgraphTestGraph.idToVertex).isSome = true := by decide
      exact hall (eid, e) (find_some_mem he)), rfl, rfl⟩

/-! ## The vertex count -/

theorem isSome_find_iff_mem {α : Type} (k : Int) (m : List (Int × α)) :
    (find k m).isSome = true ↔ k ∈ m.map Prod.fst := by
  rw [← not_iff_not, ← find_eq_none_iff]
  cases find k m <;> simp

theorem length_eq_of_same_keys {α β : Type} {m1 : List (Int × α)} {m2 : List (Int × β)}
    (h1 : IsMap m1) (h2 : IsMap m2)
    (h : ∀ v, (find v m1).isSome = true ↔ (find v m2).isSome = true) :
    m1.length = m2.length := by
  have hp : (m1.map Prod.fst).Perm (m2.map Prod.fst) :=
    (List.perm_ext_iff_of_nodup h1 h2).mpr (fun v => by
      rw [← isSome_find_iff_mem, ← isSome_find_iff_mem]; exact h v)
  simpa using hp.length_eq

theorem isSome_find_adjErase (k x v : Int) (m : List (Int × List Int)) :
    (find v (adjErase k x m)).isSome = true ↔ (find v m).isSome = true ∨ v = k := by
  rw [find_adjErase]
  by_cases h : v = k
  · simp [h]
  · simp [h]

theorem scanAdj_keys (id : Int) :
    ∀ (adj : List (Int × List Int)) (table : List (Int × Edge)) (b : Bool)
      (adj' : List (Int × List Int)) (table' : List (Int × Edge)) (b' : Bool),
      Graph.scanAdj id adj table b = .ok (adj', table', b') →
      adj'.map Prod.fst = adj.map Prod.fst
  | [], table, b, adj', table', b', h => by
    simp only [Graph.scanAdj, Except.ok.injEq, Prod.mk.injEq] at h
    rw [← h.1]
  | (v, es) :: rest, table, b, adj', table', b', h => by
    rw [Graph.scanAdj] at h
    cases hr : Graph.removeList id table es with
    | error f => rw [hr] at h; cases h
    | ok rm =>
      rw [hr] at h
      simp only at h
      cases hs : Graph.scanAdj id rest (Graph.eraseAll rm table) (b || !rm.isEmpty) with
      | error f => rw [hs] at h; cases h
      | ok r =>
        obtain ⟨a1, t1, b1⟩ := r
        rw [hs] at h
        simp only [Except.ok.injEq, Prod.mk.injEq] at h
        rw [← h.1, List.map_cons, List.map_cons,
          scanAdj_keys id rest _ _ a1 t1 b1 hs]

theorem keysAgree_empty (D : Type) : KeysAgree (GraphData.empty D) :=
  ⟨isMap_nil, isMap_nil, fun _ => Iff.rfl⟩

theorem keysAgree_addVertex {D : Type} {g : GraphData D} (v : Vertex D)
    (h : KeysAgree g) : KeysAgree (Graph.addVertex g v) := by
  obtain ⟨h1, h2, h3⟩ := h
  refine ⟨isMap_touch _ h1, isMap_emplace _ _ h2, fun w => ?_⟩
  show (find w (touch v.id g.adjMap)).isSome = true ↔
    (find w (emplace v.id v g.idToVertex)).isSome = true
  rw [isSome_find_touch, isSome_find_emplace, h3 w]

theorem keysAgree_addEdge {D : Type} {g : GraphData D} (e : Edge)
    (h : KeysAgree g) (hsrc : (find e.src g.idToVertex).isSome = true) :
    KeysAgree (Graph.addEdge g e).2 := by
  obtain ⟨h1, h2, h3⟩ := h
  refine ⟨isMap_adjInsert _ _ h1, h2, fun w => ?_⟩
  show (find w (adjInsert e.src e.id g.adjMap)).isSome = true ↔
    (find w g.idToVertex).isSome = true
  rw [isSome_find_adjInsert, h3 w]
  constructor
  · rintro (h4 | h4)
    · exact h4
    · rw [h4]; exact hsrc
  · intro h4; exact Or.inl h4

theorem keysAgree_delEdge {D : Type} {g : GraphData D} (id : Int)
    (h : KeysAgree g) : KeysAgree (Graph.delEdge g id).2 := by
  obtain ⟨h1, h2, h3⟩ := h
  cases hf : find id g.idToEdge with
  | none =>
    have : Graph.delEdge g id = (false, g) := by simp [Graph.delEdge, hf]
    rw [this]
    exact ⟨h1, h2, h3⟩
  | some e =>
    by_cases hkey : hasKey e.src g.adjMap = true
    · have : Graph.delEdge g id =
          (true, { g with adjMap := adjErase e.src id g.adjMap,
                          idToEdge := eraseKey id g.idToEdge }) := by
        simp [Graph.delEdge, hf, hkey]
      rw [this]
      refine ⟨isMap_adjErase _ _ h1, h2, fun w => ?_⟩
      show (find w (adjErase e.src id g.adjMap)).isSome = true ↔
        (find w g.idToVertex).isSome = true
      rw [isSome_find_adjErase, ← h3 w]
      constructor
      · rintro (h4 | h4)
        · exact h4
        · rw [h4]; exact hkey
      · intro h4; exact Or.inl h4
    · have : Graph.delEdge g id =
          (true, { g with adjMap := g.adjMap, idToEdge := eraseKey id g.idToEdge }) := by
        simp [Graph.delEdge, hf, hkey]
      rw [this]
      exact ⟨h1, h2, h3⟩

theorem keysAgree_delVertex {D : Type} {g g' : GraphData D} (id : Int) (b : Bool)
    (h : KeysAgree g) (hrun : Graph.delVertex g id = .ok (b, g')) : KeysAgree g' := by
  obtain ⟨h1, h2, h3⟩ := h
  unfold Graph.delVertex at hrun
  cases hout : find id g.adjMap with
  | none =>
    rw [hout] at hrun
    simp only at hrun
    cases hs : Graph.scanAdj id g.adjMap g.idToEdge false with
    | error f => rw [hs] at hrun; cases hrun
    | ok r =>
      obtain ⟨a1, t1, b1⟩ := r
      rw [hs] at hrun
      simp only [Except.ok.injEq, Prod.mk.injEq] at hrun
      rw [← hrun.2]
      have hk := scanAdj_keys id _ _ _ a1 t1 b1 hs
      refine ⟨by show IsMap a1; unfold IsMap; rw [hk]; exact h1, h2, fun w => ?_⟩
      show (find w a1).isSome = true ↔ (find w g.idToVertex).isSome = true
      rw [isSome_find_iff_mem, hk, ← isSome_find_iff_mem]
      exact h3 w
  | some out =>
    rw [hout] at hrun
    simp only at hrun
    cases hs : Graph.scanAdj id (eraseKey id g.adjMap) (Graph.eraseAll out g.idToEdge) true with
    | error f => rw [hs] at hrun; cases hrun
    | ok r =>
      obtain ⟨a1, t1, b1⟩ := r
      rw [hs] at hrun
      simp only [Except.ok.injEq, Prod.mk.injEq] at hrun
      rw [← hrun.2]
      have hk := scanAdj_keys id _ _ _ a1 t1 b1 hs
      refine ⟨by show IsMap a1; unfold IsMap; rw [hk]; exact isMap_eraseKey id h1,
        isMap_eraseKey id h2, fun w => ?_⟩
      show (find w a1).isSome = true ↔ (find w (eraseKey id g.idToVertex)).isSome = true
      rw [isSome_find_iff_mem, hk, ← isSome_find_iff_mem, find_eraseKey, find_eraseKey]
      by_cases hw : w = id
      · simp [hw]
      · simp only [if_neg hw]
        exact h3 w

theorem keysAgree_of_reachable {D : Type} {g : GraphData D}
    (h : Graph.ReachableStoredSource g) : KeysAgree g := by
  induction h with
  | empty => exact keysAgree_empty D
  | addVertex v _ ih => exact keysAgree_addVertex v ih
  | addEdge e _ hsrc ih => exact keysAgree_addEdge e ih hsrc
  | delEdge id _ ih => exact keysAgree_delEdge id ih
  | delVertex id b _ hrun ih => exact keysAgree_delVertex id b ih hrun

/-- C21 fails as stated: `addEdge(Edge(1, 1, 2))` on the empty graph, a state reached by
the mutators, creates the adjacency entry of vertex 1 without storing a vertex, so
`numVertices()` is 1 while `getAllVertices()` is empty. -/
theorem numVertices_counts_adjacency_keys :
    Graph.Reachable (Graph.addEdge (GraphData.empty Int) ⟨1, 1, 2, 1⟩).2 ∧
    Graph.numVertices (Graph.addEdge (GraphData.empty Int) ⟨1, 1, 2, 1⟩).2 = 1 ∧
    (Graph.getAllVertices (Graph.addEdge (GraphData.empty Int) ⟨1, 1, 2, 1⟩).2).length = 0 ∧
    (Graph.addEdge (GraphData.empty Int) ⟨1, 1, 2, 1⟩).2.adjMap = [(1, [1])] ∧
    (Graph.addEdge (GraphData.empty Int) ⟨1, 1, 2, 1⟩).2.idToVertex = [] :=
  ⟨Graph.Reachable.addEdge ⟨1, 1, 2, 1⟩ Graph.Reachable.empty, rfl, rfl, rfl, rfl⟩

/-- C21, amended: in every state of a directed `Graph` reached from the empty graph by
`addVertex`, `addEdge` with an edge whose source is a stored vertex, `delEdge` and
`delVertex`, `numVertices()` equals the number of vertices currently stored, the length
of `getAllVertices()`; the adjacency index and the vertex table have the same keys. -/
theorem numVertices_eq_stored {D : Type} (g : GraphData D)
    (h : Graph.ReachableStoredSource g) :
    Graph.numVertices g = (Graph.getAllVertices g).length ∧
    (∀ v, (find v g.adjMap).isSome = true ↔ (find v g.idToVertex).isSome = true) ∧
    IsMap g.adjMap ∧ IsMap g.idToVertex := by
  obtain ⟨h1, h2, h3⟩ := keysAgree_of_reachable h
  refine ⟨?_, h3, h1, h2⟩
  show g.adjMap.length = (g.idToVertex.map Prod.snd).length
  rw [List.length_map]
  exact length_eq_of_same_keys h1 h2 h3

/-- The tests `GetEdgesOfNonexistentVertex` and `AddAndRemoveVertex`: `numVertices()` is
0 for the empty graph, 2 after adding the vertices 1 and 2, 1 after `delVertex(1)`
(also after the failing `delVertex(3)`), and 0 after `delVertex(2)`. -/
theorem numVertices_eq_stored_witness :
    Graph.ReachableStoredSource oneVertexLeft ∧
    (Graph.numVertices oneVertexLeft = (Graph.getAllVertices oneVertexLeft).length ∧
    (∀ v, (find v oneVertexLeft.adjMap).isSome = true ↔
      (find v oneVertexLeft.idToVertex).isSome = true) ∧
    IsMap oneVertexLeft.adjMap ∧ IsMap oneVertexLeft.idToVertex) ∧
    Graph.numVertices (GraphData.empty Int) = 0 ∧
    Graph.numVertices twoVertices = 2 ∧
    Graph.delVertex twoVertices 1 = .ok (true, oneVertexLeft) ∧
    Graph.numVertices oneVertexLeft = 1 ∧
    Graph.delVertex oneVertexLeft 3 = .ok (false, oneVertexLeft) ∧
    Graph.delVertex oneVertexLeft 2 = .ok (true, GraphData.empty Int) ∧
    (Graph.getAllVertices oneVertexLeft).length = 1 :=
  have hr : Graph.ReachableStoredSource oneVertexLeft :=
    Graph.ReachableStoredSource.delVertex 1 true
      (Graph.ReachableStoredSource.addVertex ⟨2, 20⟩
        (Graph.ReachableStoredSource.addVertex ⟨1, 10⟩ Graph.ReachableStoredSource.empty))
      (rfl : Graph.delVertex twoVertices 1 = .ok (true, oneVertexLeft))
  ⟨hr, numVertices_eq_stored oneVertexLeft hr, rfl, rfl, rfl, rfl, rfl, rfl, rfl⟩

/-! ## Bipartiteness: the failure report -/

/-- C26 fails as stated.  For the directed graph with the vertices 1, 2 and the single
edge 2 -> 1 `isBipartite` reports "The graph is not bipartite" (the root 1 gets colour 0
first, then the root 2 gets colour 0 and sees its neighbour 1 coloured 0), although
colouring 1 and 2 differently is a proper 2-colouring.  The same happens for the
undirected edge 1-3 on the vertices 1, 2, stored with its mirror: the destination 3 is
not a stored vertex and is read as index 0, the index of vertex 1 itself. -/
theorem isBipartite_false_alarm :
    (isBipartite oneWayEdge = .ok (.error "The graph is not bipartite") ∧
      TwoColourable oneWayEdge ∧
      vertexIds oneWayEdge = [1, 2] ∧ arcList oneWayEdge = [(2, 1)]) ∧
    (isBipartite mirroredDangling = .ok (.error "The graph is not bipartite") ∧
      TwoColourable mirroredDangling ∧
      vertexIds mirroredDangling = [1, 2] ∧ arcList mirroredDangling = [(1, 3), (3, 1)]) := by
  refine ⟨⟨rfl, ⟨fun v => decide (v = 1), ?_⟩, rfl, rfl⟩,
    ⟨rfl, ⟨fun v => decide (v = 1), ?_⟩, rfl, rfl⟩⟩
  · intro u w h
    have hall : ∀ p ∈ arcList oneWayEdge, decide (p.1 = 1) ≠ decide (p.2 = 1) := by decide
    exact hall (u, w) (arc_mem_arcList oneWayEdge h)
  · intro u w h
    have hall : ∀ p ∈ arcList mirroredDangling, decide (p.1 = 1) ≠ decide (p.2 = 1) := by
      decide
    exact hall (u, w) (arc_mem_arcList mirroredDangling h)

/-- C26, amended: for a graph whose stored vertices have distinct ids and in which every
adjacency edge has its mirror and leads to a stored vertex, in every enumeration order,
if `isBipartite` reports an error then the error is "The graph is not bipartite" and
the graph is not bipartite: no 2-colouring gives every edge differently coloured
endpoints. -/
theorem isBipartite_failure_sound {D : Type} (g : GraphData D)
    (hids : (vertexIds g).Nodup)
    (hdst : ∀ u w, Arc g u w → w ∈ vertexIds g)
    (hmirror : ∀ u w, Arc g u w → Arc g w u)
    (msg : String) (h : algorithm.isBipartite g = .ok (.error msg)) :
    ¬ TwoColourable g ∧ msg = "The graph is not bipartite" := by
  unfold algorithm.isBipartite at h
  cases hr0 : algorithm.colorRoots g (Graph.getAllVertices g)
      (algorithm.buildIndex (Graph.getAllVertices g))
      (List.range (Graph.getAllVertices g).length) (fun _ => -1) with
  | error f => simp only [hr0] at h; cases h
  | ok r0 =>
    simp only [hr0] at h
    cases r0 with
    | some color => simp only [Except.ok.injEq] at h; cases h
    | none =>
      simp only [Except.ok.injEq, Except.error.injEq] at h
      obtain ⟨_, hB⟩ := colorRoots_spec g _ _ _ _ _ hr0 (fun i hi => absurd rfl hi)
      refine ⟨?_, h.symm⟩
      rintro ⟨χ, hχ⟩
      refine hB (fun i => χ (idAt (Graph.getAllVertices g) i)) ?_ ?_ rfl
      · intro i j hn
        obtain ⟨v, v', hv, hv', harc⟩ := arc_of_nbr g hids hdst hn
        simp only [idAt, hv, hv']
        exact hχ _ _ harc
      · intro i j hn
        obtain ⟨v, v', hv, hv', harc⟩ := arc_of_nbr g hids hdst hn
        exact nbr_of_arc g hids (hmirror _ _ harc) hv' rfl hv rfl

/-- The test `IsBipartite`: for the path 1-2-3-4-5 with the edge 1-3 added `isBipartite`
reports "The graph is not bipartite", and the graph has no proper 2-colouring (1, 2, 3
is a triangle). -/
theorem isBipartite_failure_sound_witness :
    algorithm.isBipartite pathWithChord = .ok (.error "The graph is not bipartite") ∧
    (¬ TwoColourable pathWithChord ∧
      "The graph is not bipartite" = "The graph is not bipartite") ∧
    arc pathWithChord 1 2 = true ∧ arc pathWithChord 2 3 = true ∧
    arc pathWithChord 3 1 = true :=
  ⟨rfl,
    isBipartite_failure_sound pathWithChord (by decide)
      (fun u w h => by
        have hall : ∀ p ∈ arcList pathWithChord, p.2 ∈ vertexIds pathWithChord := by decide
        exact hall (u, w) (arc_mem_arcList pathWithChord h))
      (fun u w h => by
        have hall : ∀ p ∈ arcList pathWithChord, arc pathWithChord p.2 p.1 = true := by
          decide
        exact hall (u, w) (arc_mem_arcList pathWithChord h))
      "The graph is not bipartite" rfl,
    by decide, by decide, by decide⟩

/-! ## Articulation points: the shape of the result -/

theorem sorted_insertSorted (x : Int) :
    ∀ l : List Int, l.Pairwise (· ≤ ·) → (insertSorted x l).Pairwise (· ≤ ·)
  | [], _ => by simp [insertSorted]
  | y :: ys, h => by
    obtain ⟨h1, h2⟩ := List.pairwise_cons.mp h
    by_cases hxy : x ≤ y
    · rw [insertSorted, if_pos hxy]
      refine List.Pairwise.cons ?_ h
      intro a ha
      rcases List.mem_cons.mp ha with rfl | ha
      · exact hxy
      · exact le_trans hxy (h1 a ha)
    · rw [insertSorted, if_neg hxy]
      refine List.Pairwise.cons ?_ (sorted_insertSorted x ys h2)
      intro a ha
      rcases (mem_insertSorted a x ys).mp ha with rfl | ha
      · omega
      · exact h1 a ha

theorem sorted_sortInts (l : List Int) : (sortInts l).Pairwise (· ≤ ·) := by
  unfold sortInts
  induction l with
  | nil => simp
  | cons a l ih => exact sorted_insertSorted a _ ih

theorem strict_unique : ∀ l : List Int, l.Pairwise (· ≤ ·) → (unique l).Pairwise (· < ·)
  | [], _ => by simp [unique]
  | [x], _ => by simp [unique]
  | x :: y :: rest, h => by
    obtain ⟨h1, h2⟩ := List.pairwise_cons.mp h
    have ih := strict_unique (y :: rest) h2
    by_cases hxy : x = y
    · rw [unique, if_pos hxy]
      exact ih
    · rw [unique, if_neg hxy]
      refine List.Pairwise.cons ?_ ih
      intro a ha
      have ha' := (mem_unique a (y :: rest)).mp ha
      have hxy' : x ≤ y := h1 y (List.mem_cons_self _ _)
      have hya : y ≤ a := by
        rcases List.mem_cons.mp ha' with rfl | ha'
        · exact le_refl _
        · exact (List.pairwise_cons.mp h2).1 a ha'
      omega

theorem pushCuts_light (vid : Int) (p c : Nat) (s : Tarjan) :
    (pushCuts vid p c s).vis = s.vis ∧
    ∀ i, i ∈ (pushCuts vid p c s).cuts → i ∈ s.cuts ∨ i = vid := by
  obtain ⟨_, _, _, _, h5, _, h7⟩ := pushCuts_spec vid p c s
  refine ⟨h5, fun i hi => ?_⟩
  rcases (h7 i).mp hi with h | h
  · exact Or.inl h
  · exact Or.inr h.1

/-- The edge loop of `dfscv` returns when the recursive calls do; it keeps visited
indices visited and pushes only the id `vid`. -/
theorem cutEdges_total {D : Type} (g : GraphData D) (vs : List (Vertex D))
    (idx : List (Int × Nat)) (ids : List Int) (fuel : Nat)
    (self : Nat → Tarjan → Except Fault Tarjan)
    (hself : ∀ (c : Nat) (s : Tarjan), 1 ≤ c → c ≤ vs.length → s.vis c = false →
      unvisitedT vs.length s < fuel → (∀ i ∈ s.cuts, i ∈ ids) →
      ∃ s', self c s = .ok s' ∧ (∀ x, s.vis x = true → s'.vis x = true) ∧
        s'.vis c = true ∧ ∀ i ∈ s'.cuts, i ∈ ids)
    (vid : Int) (hvid : vid ∈ ids) (p : Nat) :
    ∀ (es : List Int) (s : Tarjan),
      (∀ eid ∈ es, ∃ e, find eid g.idToEdge = some e ∧
        1 ≤ indexOf idx e.dst ∧ indexOf idx e.dst ≤ vs.length) →
      unvisitedT vs.length s < fuel → (∀ i ∈ s.cuts, i ∈ ids) →
      ∃ s', cutEdges g idx self vid p es s = .ok s' ∧
        (∀ x, s.vis x = true → s'.vis x = true) ∧ ∀ i ∈ s'.cuts, i ∈ ids := by
  intro es
  induction es with
  | nil =>
    intro s _ _ hc
    exact ⟨s, rfl, fun _ h => h, hc⟩
  | cons eid rest ih =>
    intro s hes hm hc
    obtain ⟨e, he, hr1, hr2⟩ := hes eid (List.mem_cons_self _ _)
    have hes' := fun x hx => hes x (List.mem_cons_of_mem _ hx)
    by_cases hvis : s.vis (indexOf idx e.dst) = false
    · obtain ⟨s2, hcall, hmono, _, hc2⟩ := hself (indexOf idx e.dst)
        { s with parent := upd s.parent (indexOf idx e.dst) p,
                 childrenNum := upd s.childrenNum p (s.childrenNum p + 1) }
        hr1 hr2 hvis hm hc
      obtain ⟨hpv, hpc⟩ := pushCuts_light vid p (indexOf idx e.dst)
        { s2 with low := upd s2.low p (min (s2.low p) (s2.low (indexOf idx e.dst))) }
      obtain ⟨s', hrun, hmono', hc'⟩ := ih
        (pushCuts vid p (indexOf idx e.dst)
          { s2 with low := upd s2.low p (min (s2.low p) (s2.low (indexOf idx e.dst))) })
        hes'
        (lt_of_le_of_lt (unvisitedT_mono (fun x hx => by rw [hpv]; exact hmono x hx)) hm)
        (fun i hi => by
          rcases hpc i hi with h | h
          · exact hc2 i h
          · rw [h]; exact hvid)
      refine ⟨s', ?_, fun x hx => hmono' x (by rw [hpv]; exact hmono x hx), hc'⟩
      rw [cutEdges]
      simp only [Graph.getEdge, he, hvis, if_true, hcall]
      exact hrun
    · by_cases hpar : ((indexOf idx e.dst : Nat) : Int) ≠ s.parent p
      · obtain ⟨s', hrun, hmono', hc'⟩ := ih
          { s with low := upd s.low p (min (s.low p) (s.d (indexOf idx e.dst))) } hes' hm hc
        refine ⟨s', ?_, hmono', hc'⟩
        rw [cutEdges]
        simp only [Graph.getEdge, he, hvis, if_false, if_pos hpar]
        exact hrun
      · obtain ⟨s', hrun, hmono', hc'⟩ := ih s hes' hm hc
        refine ⟨s', ?_, hmono', hc'⟩
        rw [cutEdges]
        simp only [Graph.getEdge, he, hvis, if_false, if_neg hpar]
        exact hrun

/-- A call of `dfscv` for an unvisited index in `1 .. n` returns within the fuel of the
model; it visits the index, keeps visited indices visited and pushes only ids of stored
vertices. -/
theorem dfscv_total {D : Type} (g : GraphData D) (vs : List (Vertex D))
    (idx : List (Int × Nat)) (hM : TModel g vs)
    (hR : ∀ (i : Nat) (v : Vertex D) (es : List Int) (eid : Int) (e : Edge),
      vs[i]? = some v → find v.id g.adjMap = some es → eid ∈ es →
      find eid g.idToEdge = some e → 1 ≤ indexOf idx e.dst ∧ indexOf idx e.dst ≤ vs.length) :
    ∀ (fuel : Nat) (c : Nat) (s : Tarjan), 1 ≤ c → c ≤ vs.length → s.vis c = false →
      unvisitedT vs.length s < fuel → (∀ i ∈ s.cuts, i ∈ vs.map (fun v => v.id)) →
      ∃ s', dfscv g vs idx fuel c s = .ok s' ∧ (∀ x, s.vis x = true → s'.vis x = true) ∧
        s'.vis c = true ∧ ∀ i ∈ s'.cuts, i ∈ vs.map (fun v => v.id) := by
  intro fuel
  induction fuel with
  | zero => intro _ _ _ _ _ h; omega
  | succ fuel ih =>
    intro c s hc1 hc2 hvis hm hcuts
    have hlt : c - 1 < vs.length := by omega
    have hv : vs[c - 1]? = some vs[c - 1] := List.getElem?_eq_getElem hlt
    obtain ⟨es, hes, hres⟩ := hM (c - 1) _ hv
    have hmono1 : ∀ x, s.vis x = true → upd s.vis c true x = true := by
      intro x hx
      by_cases hxc : x = c
      · rw [hxc, upd_same]
      · rw [upd_other _ _ hxc]; exact hx
    have hlt1 : unvisitedT vs.length
        ({ s with time := s.time + 1, d := upd s.d c (s.time + 1),
                  low := upd s.low c (s.time + 1), vis := upd s.vis c true } : Tarjan) <
        unvisitedT vs.length s :=
      @unvisitedT_lt vs.length s _ hmono1 c hc1 hc2 hvis (upd_same _ _ _)
    obtain ⟨s', hrun, hmono, hc'⟩ := cutEdges_total g vs idx (vs.map (fun v => v.id)) fuel
      (fun i s' => dfscv g vs idx fuel i s') ih (vs[c - 1]).id
      (List.mem_map.mpr ⟨_, List.getElem_mem hlt, rfl⟩) c es
      ({ s with time := s.time + 1, d := upd s.d c (s.time + 1),
                low := upd s.low c (s.time + 1), vis := upd s.vis c true } : Tarjan)
      (fun eid he => by
        obtain ⟨e, hfe⟩ := hres eid he
        exact ⟨e, hfe, hR (c - 1) _ es eid e hv hes he hfe⟩)
      (by omega) hcuts
    refine ⟨s', ?_, fun x hx => hmono x (hmono1 x hx), hmono c (upd_same _ _ _), hc'⟩
    have hc0 : ¬ c = 0 := by omega
    rw [dfscv]
    simp only [hc0, if_false, hv, Graph.getEdgeIdsOfVertex, hes]
    exact hrun

/-- The loop of `tarjan` over the roots returns and collects only ids of stored
vertices. -/
theorem cutRoots_total {D : Type} (g : GraphData D) (vs : List (Vertex D))
    (idx : List (Int × Nat)) (hM : TModel g vs)
    (hR : ∀ (i : Nat) (v : Vertex D) (es : List Int) (eid : Int) (e : Edge),
      vs[i]? = some v → find v.id g.adjMap = some es → eid ∈ es →
      find eid g.idToEdge = some e → 1 ≤ indexOf idx e.dst ∧ indexOf idx e.dst ≤ vs.length) :
    ∀ (roots : List Nat) (s : Tarjan), (∀ i ∈ roots, 1 ≤ i ∧ i ≤ vs.length) →
      (∀ i ∈ s.cuts, i ∈ vs.map (fun v => v.id)) →
      ∃ s', cutRoots g vs idx roots s = .ok s' ∧ ∀ i ∈ s'.cuts, i ∈ vs.map (fun v => v.id) := by
  intro roots
  induction roots with
  | nil =>
    intro s _ hc
    exact ⟨s, rfl, hc⟩
  | cons i rest ih =>
    intro s hr hc
    obtain ⟨h1, h2⟩ := hr i (List.mem_cons_self _ _)
    have hr' := fun x hx => hr x (List.mem_cons_of_mem _ hx)
    by_cases hi : s.vis i = false
    · obtain ⟨s1, hcall, _, _, hc1⟩ := dfscv_total g vs idx hM hR (vs.length + 1) i s h1 h2 hi
        (Nat.lt_succ_of_le (unvisitedT_le _ _)) hc
      obtain ⟨s', hrun, hc'⟩ := ih s1 hr' hc1
      refine ⟨s', ?_, hc'⟩
      rw [cutRoots]
      simp only [hi, if_true, hcall]
      exact hrun
    · obtain ⟨s', hrun, hc'⟩ := ih s hr' hc
      refine ⟨s', ?_, hc'⟩
      rw [cutRoots]
      simp only [hi, if_false]
      exact hrun

/-- C23: for every graph that `tarjan` accepts (the stored vertices have distinct ids and
an adjacency entry each, every listed edge id names a stored edge, and every edge
destination is a stored vertex; the edges need not be mirrored), in every enumeration
order, `tarjan` returns a list that is strictly increasing, hence sorted ascending
without duplicates, and every element of it is the id of a stored vertex. -/
theorem tarjan_sorted_stored {D : Type} (g : GraphData D)
    (hids : (vertexIds g).Nodup) (hstored : ListedStored g)
    (hadj : ∀ v ∈ vertexIds g, (find v g.adjMap).isSome = true)
    (hdst : ∀ u w, Arc g u w → w ∈ vertexIds g) :
    ∃ cuts, tarjan g = .ok cuts ∧ cuts.Pairwise (· < ·) ∧ cuts.Pairwise (· ≤ ·) ∧
      cuts.Nodup ∧ ∀ x ∈ cuts, x ∈ vertexIds g := by
  have hM := tmodel_of g hstored hadj
  have hR : ∀ (i : Nat) (v : Vertex D) (es : List Int) (eid : Int) (e : Edge),
      (Graph.getAllVertices g)[i]? = some v → find v.id g.adjMap = some es → eid ∈ es →
      find eid g.idToEdge = some e →
      1 ≤ indexOf (buildIndexFrom 1 0 (Graph.getAllVertices g) []) e.dst ∧
      indexOf (buildIndexFrom 1 0 (Graph.getAllVertices g) []) e.dst ≤
        (Graph.getAllVertices g).length := by
    intro i v es eid e _ hes he hfe
    have harc : Arc g v.id e.dst := (arc_iff g _ _).mpr ⟨es, hes, eid, he, e, hfe, rfl⟩
    obtain ⟨a, b, _⟩ := idx1_of_mem g hids (hdst _ _ harc)
    exact ⟨a, b⟩
  obtain ⟨s, hrun, hc⟩ := cutRoots_total g (Graph.getAllVertices g)
    (buildIndexFrom 1 0 (Graph.getAllVertices g) []) hM hR
    ((List.range (Graph.getAllVertices g).length).map (fun i => i + 1))
    { d := fun _ => -1, low := fun _ => 0, parent := fun _ => -1, childrenNum := fun _ => 0,
      vis := fun _ => false, time := 0, cuts := [] }
    (fun i hi => by
      obtain ⟨j, hj, rfl⟩ := List.mem_map.mp hi
      have := List.mem_range.mp hj
      omega)
    (fun i hi => by cases hi)
  have hstrict := strict_unique _ (sorted_sortInts s.cuts)
  refine ⟨unique (sortInts s.cuts), by simp only [tarjan, hrun], hstrict,
    hstrict.imp (fun h => le_of_lt h), hstrict.imp (fun h => ne_of_lt h), ?_⟩
  intro x hx
  exact hc x ((mem_sortInts x _).mp ((mem_unique x _).mp hx))

/-- The test `Tarjan`: the 7-vertex graph gives the strictly increasing list 2, 3, 5 of
stored vertex ids.  A directed graph is accepted too: for the edges 1 -> 2, 2 -> 3,
3 -> 4, 4 -> 5, 1 -> 5 the returned list is 2, 3, 4. -/
theorem tarjan_sorted_stored_witness :
    (∃ cuts, tarjan tarjanTestGraph = .ok cuts ∧ cuts.Pairwise (· < ·) ∧
      cuts.Pairwise (· ≤ ·) ∧ cuts.Nodup ∧ ∀ x ∈ cuts, x ∈ vertexIds tarjanTestGraph) ∧
    tarjan tarjanTestGraph = .ok [2, 3, 5] ∧
    vertexIds tarjanTestGraph = [1, 2, 3, 4, 5, 6, 7] ∧
    tarjan subgraphTestGraph = .ok [2, 3, 4] :=
  ⟨tarjan_sorted_stored tarjanTestGraph (by decide)
    (listedStored_of_all tarjanTestGraph (by decide)) (by decide)
    (fun u w h => by
      have hall : ∀ p ∈ arcList tarjanTestGraph, p.2 ∈ vertexIds tarjanTestGraph := by decide
      exact hall (u, w) (arc_mem_arcList tarjanTestGraph h)), rfl, rfl, rfl⟩

/-! ## Undirected removal with a colliding id -/

/-- C24 fails as stated.  In the undirected graph after `addEdge(Edge(2, 1, 2))` and
`addEdge(Edge(1, 3, 4))` the edge 2 (1 -> 2) and its mirror 1 (2 -> 1) are both in the
edge table, 2 is listed in the adjacency set of its source 1 and the mirror id 1 in the
adjacency set of its source 2; `delEdge(2)` returns `true`, and afterwards the mirror
id 1 is still listed in the adjacency set of vertex 3. -/
theorem undirected_delEdge_mirror_still_listed :
    collidingIds.adjMap = [(1, [2]), (2, [1]), (3, [1]), (4, [2])] ∧
    find 2 collidingIds.idToEdge = some ⟨2, 1, 2, 1⟩ ∧
    find (getPairedId 2) collidingIds.idToEdge = some ⟨1, 2, 1, 1⟩ ∧
    getPairedId 2 = 1 ∧
    Listed collidingIds 1 2 ∧
    Listed collidingIds 2 (getPairedId 2) ∧
    (UndirectedGraph.delEdge collidingIds 2).1 = true ∧
    (UndirectedGraph.delEdge collidingIds 2).2.adjMap =
      [(1, []), (2, []), (3, [1]), (4, [2])] ∧
    (UndirectedGraph.delEdge collidingIds 2).2.idToEdge = [(1, ⟨1, 2, 1, 1⟩)] ∧
    Listed (UndirectedGraph.delEdge collidingIds 2).2 3 (getPairedId 2) ∧
    ¬ (∀ v, ¬ Listed (UndirectedGraph.delEdge collidingIds 2).2 v (getPairedId 2)) :=
  ⟨rfl, rfl, rfl, by decide, ⟨[2], rfl, by decide⟩, ⟨[1], rfl, by decide⟩, rfl, rfl, rfl,
    ⟨[1], rfl, by decide⟩, fun h => h 3 ⟨[1], rfl, by decide⟩⟩

end GraphLib
